import Mathlib

/-!
# The ed-style diff core of `src/common/diff.c`

A shallow embedding of `smartlist_longest_common_subsequence`,
`smartlist_longest_common_subsequence_impl`, `diff_add_next_command`, `make_diff` and
`apply_patch`, working on line sequences (`List String`); splitting a text into lines and
joining lines are left to the caller, as in the specification.

* C `int`s are unbounded `Int`s (the lengths involved are far below `2^31`).
* A C array is a `List` read and written at signed indices.  An access outside an
  allocation is a fault (undefined behaviour in C): the embedded function returns `none`.
* Loops are recursive functions.  A loop whose trip count is known on entry recurses on
  that count; the others carry a bound on their number of passes that is large enough
  for the loop to end by its own test.
* The fingerprint `siphash24g` is a parameter `hash : String → Nat`.
* The libc functions used (`printf` with `%d`, `atoi`, `strchr`, `strcmp`) are written
  out on the characters of a string.

The definitions come first: the engine, the script builder, the patch applier, then the
edit commands and the predicates the theorems are stated with, among them the edit paths
of the search, and a copy of the engine whose accesses to the scratch vectors are
checked.  The theorems follow, the claims of the specification last.
-/

namespace Diff

/-! ## C arrays -/

/-- Read of a C array at a signed index; a read outside the allocation is a fault. -/
def arr_get {α : Type} (a : List α) (i : Int) : Option α :=
  if i < 0 then none else a[i.toNat]?

/-- Write to a C array at a signed index; a write outside the allocation is a fault. -/
def arr_set {α : Type} (a : List α) (i : Int) (val : α) : Option (List α) :=
  if i < 0 ∨ (a.length : Int) ≤ i then none else some (a.set i.toNat val)

/-! ## The longest-common-subsequence engine -/

/-- The values that stay fixed during one call of
`smartlist_longest_common_subsequence_impl`: the two fingerprint tables, the four range
bounds, and `max` after it has been capped by `too_expensive` (diff.c lines 157-164). -/
structure Frame where
  f_hash : List Nat
  s_hash : List Nat
  first_start : Int
  first_end : Int
  second_start : Int
  second_end : Int
  max : Int

/-- Line 157: `delta_start = first_start - second_start`. -/
def Frame.delta_start (c : Frame) : Int := c.first_start - c.second_start

/-- Line 158: `delta_end = first_end - second_end`. -/
def Frame.delta_end (c : Frame) : Int := c.first_end - c.second_end

/-- Line 159: `delta = delta_end - delta_start`. -/
def Frame.delta (c : Frame) : Int := c.delta_end - c.delta_start

/-- Line 163: `center_forward = max - delta_start`. -/
def Frame.center_forward (c : Frame) : Int := c.max - c.delta_start

/-- Line 164: `center_reverse = max - delta_end`. -/
def Frame.center_reverse (c : Frame) : Int := c.max - c.delta_end

/-- The mutable locals of the search: the two scratch vectors, the snake start `(x, y)`,
the snake end `(u, v)` and the flag `found_middle_snake`. -/
structure Search where
  forward_v : List Int
  reverse_v : List Int
  x : Int
  y : Int
  u : Int
  v : Int
  found_middle_snake : Bool

/-- Lines 186-189: `while (u < first_end && v < second_end && f_hash[u] == s_hash[v])`
advancing `u` and `v`.  The table reads happen only after both bound tests passed. -/
def forward_snake (c : Frame) : Nat → Int → Int → Option (Int × Int)
  | 0, _, _ => none
  | fuel + 1, u, v =>
    if u < c.first_end ∧ v < c.second_end then do
      let a ← arr_get c.f_hash u
      let b ← arr_get c.s_hash v
      if a = b then forward_snake c fuel (u + 1) (v + 1) else pure (u, v)
    else pure (u, v)

/-- Lines 211-215: `while (x > first_start && y > second_start &&
f_hash[x-1] == s_hash[y-1])` moving `x` and `y` back. -/
def reverse_snake (c : Frame) : Nat → Int → Int → Option (Int × Int)
  | 0, _, _ => none
  | fuel + 1, x, y =>
    if x > c.first_start ∧ y > c.second_start then do
      let a ← arr_get c.f_hash (x - 1)
      let b ← arr_get c.s_hash (y - 1)
      if a = b then reverse_snake c fuel (x - 1) (y - 1) else pure (x, y)
    else pure (x, y)

/-- Lines 176-196: the body of the forward loop for one diagonal.  The flag is set when
the overlap test of lines 192-194 holds and left as it is otherwise. -/
def forward_body (c : Frame) (diff_size diagonal : Int) (s : Search) : Option Search := do
  let x ←
    if diagonal = c.delta_start - diff_size then
      arr_get s.forward_v (c.center_forward + diagonal + 1)
    else if diagonal ≠ c.delta_start + diff_size then do
      let below ← arr_get s.forward_v (c.center_forward + diagonal - 1)
      let above ← arr_get s.forward_v (c.center_forward + diagonal + 1)
      if below < above then pure above else pure (below + 1)
    else do
      let below ← arr_get s.forward_v (c.center_forward + diagonal - 1)
      pure (below + 1)
  let y := x - diagonal
  let (u, v) ← forward_snake c ((c.first_end - x).toNat + 1) x y
  let forward_v ← arr_set s.forward_v (c.center_forward + diagonal) u
  let overlap ←
    if c.delta % 2 ≠ 0 ∧ diagonal ≥ c.delta_end - (diff_size - 1)
        ∧ diagonal ≤ c.delta_end + (diff_size - 1) then do
      let f ← arr_get forward_v (diagonal + c.center_forward)
      let r ← arr_get s.reverse_v (diagonal + c.center_reverse)
      pure (decide (f ≥ r))
    else pure false
  pure { s with forward_v := forward_v, x := x, y := y, u := u, v := v,
                found_middle_snake := overlap || s.found_middle_snake }

/-- Lines 201-222: the body of the reverse loop for one diagonal.  The flag is set when
the overlap test of lines 218-220 holds and left as it is otherwise. -/
def reverse_body (c : Frame) (diff_size diagonal : Int) (s : Search) : Option Search := do
  let u ←
    if diagonal = c.delta_end - diff_size then do
      let above ← arr_get s.reverse_v (c.center_reverse + diagonal + 1)
      pure (above - 1)
    else if diagonal ≠ c.delta_end + diff_size then do
      let below ← arr_get s.reverse_v (c.center_reverse + diagonal - 1)
      let above ← arr_get s.reverse_v (c.center_reverse + diagonal + 1)
      if below ≥ above then pure (above - 1) else pure below
    else
      arr_get s.reverse_v (c.center_reverse + diagonal - 1)
  let v := u - diagonal
  let (x, y) ← reverse_snake c ((u - c.first_start).toNat + 1) u v
  let reverse_v ← arr_set s.reverse_v (c.center_reverse + diagonal) x
  let overlap ←
    if c.delta % 2 = 0 ∧ diagonal ≥ c.delta_start - diff_size
        ∧ diagonal ≤ c.delta_start + diff_size then do
      let f ← arr_get s.forward_v (diagonal + c.center_forward)
      let r ← arr_get reverse_v (diagonal + c.center_reverse)
      pure (decide (f ≥ r))
    else pure false
  pure { s with reverse_v := reverse_v, x := x, y := y, u := u, v := v,
                found_middle_snake := overlap || s.found_middle_snake }

/-- Lines 173-197: the forward loop over the diagonals of one `diff_size`, which stops
at the upper diagonal or as soon as the flag is set. -/
def forward_loop (c : Frame) (diff_size : Int) : Nat → Int → Search → Option Search
  | 0, _, _ => none
  | fuel + 1, diagonal, s =>
    if diagonal ≤ c.delta_start + diff_size ∧ s.found_middle_snake = false then do
      let s ← forward_body c diff_size diagonal s
      forward_loop c diff_size fuel (diagonal + 2) s
    else pure s

/-- Lines 198-223: the reverse loop over the diagonals of one `diff_size`. -/
def reverse_loop (c : Frame) (diff_size : Int) : Nat → Int → Search → Option Search
  | 0, _, _ => none
  | fuel + 1, diagonal, s =>
    if diagonal ≤ c.delta_end + diff_size ∧ s.found_middle_snake = false then do
      let s ← reverse_body c diff_size diagonal s
      reverse_loop c diff_size fuel (diagonal + 2) s
    else pure s

/-- Lines 172-224: the loop over `diff_size`; it returns the value `diff_size` has when
the loop is left (one more than the last round run) together with the locals. -/
def search_loop (c : Frame) : Nat → Int → Search → Option (Int × Search)
  | 0, _, _ => none
  | fuel + 1, diff_size, s =>
    if diff_size ≤ c.max ∧ s.found_middle_snake = false then do
      let s ← forward_loop c diff_size (diff_size.toNat + 2) (c.delta_start - diff_size) s
      let s ← reverse_loop c diff_size (diff_size.toNat + 2) (c.delta_end - diff_size) s
      search_loop c fuel (diff_size + 1) s
    else pure (diff_size, s)

/-- Lines 230-238: the forward best point, the reached point with the largest `x + y`
(only a strictly larger sum replaces the current best). -/
def forward_best (c : Frame) (forward_v : List Int) (diff_size : Int) :
    Nat → Int → Int × Int → Option (Int × Int)
  | 0, _, _ => none
  | fuel + 1, diagonal, (f_best_x, f_best_y) =>
    if diagonal ≤ c.delta_start + diff_size then do
      let x ← arr_get forward_v (c.center_forward + diagonal)
      let y := x - diagonal
      if x + y > f_best_x + f_best_y then
        forward_best c forward_v diff_size fuel (diagonal + 2) (x, y)
      else
        forward_best c forward_v diff_size fuel (diagonal + 2) (f_best_x, f_best_y)
    else pure (f_best_x, f_best_y)

/-- Lines 242-250: the reverse best point, the reached point with the smallest `x + y`. -/
def reverse_best (c : Frame) (reverse_v : List Int) (diff_size : Int) :
    Nat → Int → Int × Int → Option (Int × Int)
  | 0, _, _ => none
  | fuel + 1, diagonal, (r_best_x, r_best_y) =>
    if diagonal ≤ c.delta_end + diff_size then do
      let x ← arr_get reverse_v (c.center_reverse + diagonal)
      let y := x - diagonal
      if x + y < r_best_x + r_best_y then
        reverse_best c reverse_v diff_size fuel (diagonal + 2) (x, y)
      else
        reverse_best c reverse_v diff_size fuel (diagonal + 2) (r_best_x, r_best_y)
    else pure (r_best_x, r_best_y)

/-- Lines 227-264: the split point used when the budget ran out without a middle snake.
The forward point wins only when its displacement is strictly larger. -/
def fallback_split (c : Frame) (s : Search) (diff_size : Int) : Option (Int × Int) := do
  let (f_best_x, f_best_y) ←
    forward_best c s.forward_v diff_size (diff_size.toNat + 2) (c.delta_start - diff_size) (0, 0)
  let (r_best_x, r_best_y) ←
    reverse_best c s.reverse_v diff_size (diff_size.toNat + 2) (c.delta_end - diff_size)
      (c.first_end, c.second_end)
  if (f_best_x - c.first_start) + (f_best_y - c.second_start) >
      (c.first_end - r_best_x) + (c.second_end - r_best_y) then
    pure (f_best_x, f_best_y)
  else
    pure (r_best_x, r_best_y)

/-- What the search of one call hands to the recursion: the scratch vectors as it left
them, the final `diff_size`, the parity test `delta % 2 == 0`, and the snake. -/
structure Split where
  forward_v : List Int
  reverse_v : List Int
  diff_size : Int
  delta_even : Bool
  x : Int
  y : Int
  u : Int
  v : Int

/-- Lines 157-264 of `smartlist_longest_common_subsequence_impl`, for ranges that passed
the emptiness test of line 154: seed the two vectors, run the search, and take the
fallback point when no middle snake was found. -/
def find_split (f_hash s_hash : List Nat) (too_expensive : Int)
    (first_start first_end second_start second_end : Int)
    (forward_v reverse_v : List Int) : Option Split := do
  let max0 := (first_end - first_start + second_end - second_start) / 2 + 1
  let max := if max0 > too_expensive then too_expensive else max0
  let c : Frame :=
    { f_hash := f_hash, s_hash := s_hash, first_start := first_start, first_end := first_end,
      second_start := second_start, second_end := second_end, max := max }
  let forward_v ← arr_set forward_v (max + 1) first_start
  let reverse_v ← arr_set reverse_v (max + 1) (first_end + 1)
  let s0 : Search :=
    { forward_v := forward_v, reverse_v := reverse_v, x := 0, y := 0, u := 0, v := 0,
      found_middle_snake := false }
  let (diff_size, s) ← search_loop c (max.toNat + 2) 0 s0
  let diff_size := diff_size - 1
  if s.found_middle_snake then
    pure { forward_v := s.forward_v, reverse_v := s.reverse_v, diff_size := diff_size,
           delta_even := decide (c.delta % 2 = 0), x := s.x, y := s.y, u := s.u, v := s.v }
  else do
    let (x, y) ← fallback_split c s diff_size
    pure { forward_v := s.forward_v, reverse_v := s.reverse_v, diff_size := diff_size,
           delta_even := decide (c.delta % 2 = 0), x := x, y := y, u := x, v := y }

/-- The copy loops `for (i = start; i < stop; i++) smartlist_add(result,
smartlist_get(src, i))` of lines 273, 282 and 286, with the trip count as recursion
argument. -/
def add_range (src : List String) : Nat → Int → List String → Option (List String)
  | 0, _, result => some result
  | n + 1, i, result => do
    let line ← arr_get src i
    add_range src n (i + 1) (result ++ [line])

/-- The recursive procedure `smartlist_longest_common_subsequence_impl` (lines 147-290).
It threads the two scratch vectors and the result list; the first argument bounds the
recursion depth. -/
def smartlist_longest_common_subsequence_impl (first second : List String)
    (f_hash s_hash : List Nat) (too_expensive : Int) :
    Nat → Int → Int → Int → Int → List Int → List Int → List String →
      Option (List Int × List Int × List String)
  | 0, _, _, _, _, _, _, _ => none
  | depth + 1, first_start, first_end, second_start, second_end, forward_v, reverse_v,
      result =>
    if first_end - first_start ≤ 0 ∨ second_end - second_start ≤ 0 then
      some (forward_v, reverse_v, result)
    else do
      let sp ← find_split f_hash s_hash too_expensive first_start first_end second_start
        second_end forward_v reverse_v
      if sp.diff_size > 1 ∨ (sp.delta_even = true ∧ sp.diff_size = 1) then do
        let (forward_v, reverse_v, result) ←
          smartlist_longest_common_subsequence_impl first second f_hash s_hash too_expensive
            depth first_start sp.x second_start sp.y sp.forward_v sp.reverse_v result
        let result ← add_range first (sp.u - sp.x).toNat sp.x result
        smartlist_longest_common_subsequence_impl first second f_hash s_hash too_expensive
          depth sp.u first_end sp.v second_end forward_v reverse_v result
      else if first_end - first_start < second_end - second_start then do
        let result ← add_range first (first_end - first_start).toNat first_start result
        pure (sp.forward_v, sp.reverse_v, result)
      else do
        let result ← add_range second (second_end - second_start).toNat second_start result
        pure (sp.forward_v, sp.reverse_v, result)

/-- Lines 124-127: `for (; total_length != 0; total_length >>= 2) too_expensive <<= 1`. -/
def too_expensive_loop : Nat → Int → Int → Int
  | 0, _, too_expensive => too_expensive
  | fuel + 1, total_length, too_expensive =>
    if total_length ≠ 0 then too_expensive_loop fuel (total_length / 4) (too_expensive * 2)
    else too_expensive

/-- Lines 124-129: the cost budget for a combined length. -/
def too_expensive_of (total_length : Nat) : Int :=
  let too_expensive := too_expensive_loop (total_length + 1) total_length 1
  if too_expensive < 256 then 256 else too_expensive

/-- The entry point `smartlist_longest_common_subsequence` (lines 106-143).  The
fingerprint function `siphash24g` is the parameter `hash`. -/
def smartlist_longest_common_subsequence (hash : String → Nat) (first second : List String) :
    Option (List String) := do
  let max := (first.length + second.length) / 2 + 1
  let forward_v : List Int := List.replicate (max * 2) 0
  let reverse_v : List Int := List.replicate (max * 2) 0
  let f_hash := first.map hash
  let s_hash := second.map hash
  let too_expensive := too_expensive_of (first.length + second.length)
  let (_, _, result) ←
    smartlist_longest_common_subsequence_impl first second f_hash s_hash too_expensive
      (first.length + second.length + 1) 0 first.length 0 second.length forward_v reverse_v []
  pure result

/-! ## Formatting and parsing the command headers -/

/-- The decimal digit for a value below ten. -/
def digit_char : Nat → Char
  | 0 => '0' | 1 => '1' | 2 => '2' | 3 => '3' | 4 => '4'
  | 5 => '5' | 6 => '6' | 7 => '7' | 8 => '8' | _ => '9'

/-- The value of a decimal digit, `none` for any other character. -/
def digit_val (c : Char) : Option Nat :=
  if c = '0' then some 0 else if c = '1' then some 1 else if c = '2' then some 2
  else if c = '3' then some 3 else if c = '4' then some 4 else if c = '5' then some 5
  else if c = '6' then some 6 else if c = '7' then some 7 else if c = '8' then some 8
  else if c = '9' then some 9 else none

/-- The decimal digits of a number, least significant first. -/
def decimal_rev : Nat → Nat → List Char
  | 0, _ => []
  | fuel + 1, n =>
    digit_char (n % 10) :: (if n / 10 = 0 then [] else decimal_rev fuel (n / 10))

/-- The characters `%d` prints for a non-negative value. -/
def print_nat (n : Nat) : List Char := (decimal_rev (n + 1) n).reverse

/-- The conversion `%d` of `smartlist_add_asprintf`: decimal digits, with a leading `-`
for a negative value. -/
def print_d : Int → String
  | Int.ofNat n => String.mk (print_nat n)
  | Int.negSucc n => String.mk ('-' :: print_nat (n + 1))

/-- The white space `atoi` skips (`isspace` in the C locale): the blank and the control
characters 9 to 13. -/
def is_space (c : Char) : Bool :=
  c.toNat = 32 || (9 ≤ c.toNat && c.toNat ≤ 13)

/-- The digit loop of `atoi`: accumulate while the next character is a digit. -/
def atoi_digits : List Char → Nat → Nat
  | [], acc => acc
  | c :: cs, acc =>
    match digit_val c with
    | some d => atoi_digits cs (acc * 10 + d)
    | none => acc

/-- The libc function `atoi` on the characters of a string: skip white space, take an
optional sign, read the leading digits; what follows them is ignored. -/
def atoi (str : List Char) : Int :=
  match str.dropWhile is_space with
  | '-' :: cs => - (atoi_digits cs 0 : Int)
  | '+' :: cs => (atoi_digits cs 0 : Int)
  | cs => (atoi_digits cs 0 : Int)

/-- The expression `strchr(str, ',') + 1`: the text after the first comma, `none` when
there is no comma. -/
def after_comma : List Char → Option (List Char)
  | [] => none
  | c :: cs => if c = ',' then some cs else after_comma cs

/-! ## The script builder -/

/-- The function `diff_add_next_command` (lines 66-99): append to `diff_sl` the command that removes
lines `remove_start..remove_end` and inserts `new_sl[insert_start..insert_end]`. -/
def diff_add_next_command (diff_sl : List String) (remove_start remove_end : Int)
    (new_sl : List String) (insert_start insert_end : Int) : Option (List String) :=
  if insert_start ≤ insert_end then do
    let diff_sl :=
      if remove_start < remove_end then
        diff_sl ++ [print_d (remove_start + 1) ++ "," ++ print_d (remove_end + 1) ++ "c"]
      else if remove_start = remove_end then
        diff_sl ++ [print_d (remove_start + 1) ++ "c"]
      else
        diff_sl ++ [print_d (remove_end + 1) ++ "a"]
    let diff_sl ← add_range new_sl (insert_end - insert_start + 1).toNat insert_start diff_sl
    pure (diff_sl ++ ["."])
  else if remove_start < remove_end then
    pure (diff_sl ++ [print_d (remove_start + 1) ++ "," ++ print_d (remove_end + 1) ++ "d"])
  else if remove_start = remove_end then
    pure (diff_sl ++ [print_d (remove_start + 1) ++ "d"])
  else
    pure diff_sl

/-- The scans of lines 31-35: `while (strcmp(smartlist_get(sl, start), cs)) start--;`. -/
def scan_back (sl : List String) (cs : String) : Nat → Int → Option Int
  | 0, _ => none
  | fuel + 1, start => do
    let line ← arr_get sl start
    if line ≠ cs then scan_back sl cs fuel (start - 1) else pure start

/-- The locals of `make_diff` at the head of the loop over the common subsequence.  At
that point `remove_start = remove_end` and `insert_start = insert_end`, so only the two
end cursors are kept. -/
structure Walk where
  diff_sl : List String
  remove_end : Int
  insert_end : Int

/-- Lines 30-43: the loop of `make_diff` over the reversed common subsequence. -/
def make_diff_loop (old_sl new_sl : List String) : List String → Walk → Option Walk
  | [], w => some w
  | cs :: rest, w => do
    let remove_start ← scan_back old_sl cs (w.remove_end.toNat + 2) w.remove_end
    let insert_start ← scan_back new_sl cs (w.insert_end.toNat + 2) w.insert_end
    let remove_start := remove_start + 1
    let insert_start := insert_start + 1
    let diff_sl ← diff_add_next_command w.diff_sl remove_start w.remove_end new_sl
      insert_start w.insert_end
    make_diff_loop old_sl new_sl rest
      { diff_sl := diff_sl, remove_end := remove_start - 2, insert_end := insert_start - 2 }

/-- Lines 24-46 of `make_diff`: the script lines built from the two line sequences and a
common subsequence of them. -/
def make_diff_with (old_sl new_sl common_subsequence : List String) :
    Option (List String) := do
  let w ← make_diff_loop old_sl new_sl common_subsequence.reverse
    { diff_sl := [], remove_end := (old_sl.length : Int) - 1,
      insert_end := (new_sl.length : Int) - 1 }
  diff_add_next_command w.diff_sl 0 w.remove_end new_sl 0 w.insert_end

/-- The function `make_diff` (lines 9-59) on line sequences: the lines of the script,
before they are joined. -/
def make_diff (hash : String → Nat) (old_sl new_sl : List String) : Option (List String) := do
  let common_subsequence ← smartlist_longest_common_subsequence hash old_sl new_sl
  make_diff_with old_sl new_sl common_subsequence

/-- Line 48: `smartlist_join_strings(diff_sl, "\n", 0, NULL)`, the lines joined by a
newline without a final one. -/
def smartlist_join_strings (diff_sl : List String) : String := String.intercalate "\n" diff_sl

/-! ## The patch applier -/

/-- Modelled from the spec: `smartlist_del_keeporder` (container.c is not among the
sources) removes the element at `idx` and keeps the order of the others; an index
outside the list is a fault. -/
def smartlist_del_keeporder (sl : List String) (idx : Int) : Option (List String) :=
  if idx < 0 ∨ (sl.length : Int) ≤ idx then none else some (sl.eraseIdx idx.toNat)

/-- Modelled from the spec: `smartlist_insert` (container.c is not among the sources)
puts `val` at position `idx` and moves the later elements up; `idx` may equal the
length, any other index outside the list is a fault. -/
def smartlist_insert (sl : List String) (idx : Int) (val : String) : Option (List String) :=
  if idx < 0 ∨ (sl.length : Int) < idx then none
  else some (sl.take idx.toNat ++ val :: sl.drop idx.toNat)

/-- Lines 320-322: `for (; end > start-1; end--) smartlist_del_keeporder(base_sl,
start-1);`, with the trip count as recursion argument. -/
def delete_lines (start : Int) : Nat → List String → Option (List String)
  | 0, base_sl => some base_sl
  | n + 1, base_sl => do
    let base_sl ← smartlist_del_keeporder base_sl (start - 1)
    delete_lines start n base_sl

/-- Lines 328-333: read script lines from `idx` on and insert them at `start`, `start+1`,
... until the line `.`; returns the base and the index of that `.` line. -/
def insert_block (diff_sl : List String) : Nat → List String → Int → Nat →
    Option (List String × Nat)
  | 0, _, _, _ => none
  | fuel + 1, base_sl, start, idx => do
    let str ← diff_sl[idx]?
    if str ≠ "." then do
      let base_sl ← smartlist_insert base_sl start str
      insert_block diff_sl fuel base_sl (start + 1) (idx + 1)
    else pure (base_sl, idx)

/-- Lines 312-316: `end` is the number after the comma when the header has one, else it
is `start`. -/
def header_end (str : List Char) (start : Int) : Int :=
  match after_comma str with
  | some rest => atoi rest
  | none => start

/-- Lines 308-335: the loop of `apply_patch` over the script lines, from index `idx`. -/
def apply_commands (diff_sl : List String) : Nat → List String → Nat → Option (List String)
  | 0, _, _ => none
  | fuel + 1, base_sl, idx =>
    if idx < diff_sl.length then do
      let str ← diff_sl[idx]?
      let start := atoi str.data
      let stop := header_end str.data start
      let command ← str.data.getLast?
      let base_sl ←
        if command = 'c' ∨ command = 'd' then
          delete_lines start (stop - (start - 1)).toNat base_sl
        else pure base_sl
      let start := if command = 'c' then start - 1 else start
      if command = 'c' ∨ command = 'a' then do
        let (base_sl, idx) ← insert_block diff_sl (diff_sl.length + 1) base_sl start (idx + 1)
        apply_commands diff_sl fuel base_sl (idx + 1)
      else
        apply_commands diff_sl fuel base_sl (idx + 1)
    else pure base_sl

/-- The function `apply_patch` (lines 295-345) on line sequences: the base lines after the
script has been replayed. -/
def apply_patch (base_sl diff_sl : List String) : Option (List String) :=
  apply_commands diff_sl (diff_sl.length + 1) base_sl 0

/-! ## Edit commands, and the commands behind a script -/

/-- The five header shapes of the script grammar, with the block of an `a` or `c`
command: `Na`, `Nc`, `N,Mc`, `Nd`, `N,Md`. -/
inductive Command where
  | append (after : Int) (block : List String)
  | change1 (line : Int) (block : List String)
  | change (start stop : Int) (block : List String)
  | delete1 (line : Int)
  | delete (start stop : Int)
  deriving DecidableEq

/-- The number `N` that starts the header. -/
def Command.start : Command → Int
  | .append n _ => n
  | .change1 n _ => n
  | .change n _ _ => n
  | .delete1 n => n
  | .delete n _ => n

/-- The last addressed line: `M` of `N,M`, else `N`. -/
def Command.stop : Command → Int
  | .append n _ => n
  | .change1 n _ => n
  | .change _ m _ => m
  | .delete1 n => n
  | .delete _ m => m

/-- The lines a command inserts (none for a deletion). -/
def Command.block : Command → List String
  | .append _ b => b
  | .change1 _ b => b
  | .change _ _ b => b
  | .delete1 _ => []
  | .delete _ _ => []

/-- The header line, written as `diff_add_next_command` writes it. -/
def Command.header : Command → String
  | .append n _ => print_d n ++ "a"
  | .change1 n _ => print_d n ++ "c"
  | .change n m _ => print_d n ++ "," ++ print_d m ++ "c"
  | .delete1 n => print_d n ++ "d"
  | .delete n m => print_d n ++ "," ++ print_d m ++ "d"

/-- The script lines of one command: the header, and for `a` and `c` the block closed by
the line `.`. -/
def Command.lines : Command → List String
  | .append n b => (Command.append n b).header :: (b ++ ["."])
  | .change1 n b => (Command.change1 n b).header :: (b ++ ["."])
  | .change n m b => (Command.change n m b).header :: (b ++ ["."])
  | .delete1 n => [(Command.delete1 n).header]
  | .delete n m => [(Command.delete n m).header]

/-- The script lines of a command list. -/
def render : List Command → List String
  | [] => []
  | c :: rest => c.lines ++ render rest

/-- The number of base lines in front of the place a command touches: `N` for `Na`,
`N - 1` for the others. -/
def Command.lo : Command → Nat
  | .append n _ => n.toNat
  | .change1 n _ => (n - 1).toNat
  | .change n _ _ => (n - 1).toNat
  | .delete1 n => (n - 1).toNat
  | .delete n _ => (n - 1).toNat

/-- The number of base lines up to the end of the place a command touches. -/
def Command.hi (c : Command) : Nat := c.stop.toNat

/-- A command obeys the grammar: line numbers from 1 (from 0 for `Na`), `N <= M` in a
range, and no block line is the terminator `.`. -/
def Command.wf : Command → Prop
  | .append n b => 0 ≤ n ∧ "." ∉ b
  | .change1 n b => 1 ≤ n ∧ "." ∉ b
  | .change n m b => 1 ≤ n ∧ n ≤ m ∧ "." ∉ b
  | .delete1 n => 1 ≤ n
  | .delete n m => 1 ≤ n ∧ n ≤ m

/-- What one command does to a line sequence: the lines in front stay, the block takes
the place of the addressed lines, the lines behind stay. -/
def Command.effect (c : Command) (base : List String) : List String :=
  base.take c.lo ++ c.block ++ base.drop c.hi

/-- The command letter, the last character of the header. -/
def Command.letter : Command → Char
  | .append _ _ => 'a'
  | .change1 _ _ => 'c'
  | .change _ _ _ => 'c'
  | .delete1 _ => 'd'
  | .delete _ _ => 'd'

/-- The commands applied one after the other, each to the result of the one before. -/
def effects (cmds : List Command) (base : List String) : List String :=
  cmds.foldl (fun b c => c.effect b) base

/-- A command list can be replayed on a base of which the first `bound` lines are still
untouched: every command is well formed, the first one ends within `bound`, and each
later one ends in front of the place the one before it touched. -/
def Applicable : List Command → Nat → Prop
  | [], _ => True
  | c :: rest, bound => c.wf ∧ c.hi ≤ bound ∧ Applicable rest c.lo

/-- The replacement of all addressed ranges in one pass over the untouched base, for
commands listed from the top of the file down (ascending): copy the base lines from `pos`
up to the next command, put its block, and go on behind the lines it addresses. -/
def replace_ranges (base : List String) : List Command → Nat → List String
  | [], pos => base.drop pos
  | c :: rest, pos => (base.drop pos).take (c.lo - pos) ++ c.block ++ replace_ranges base rest c.hi

/-- Every addressed range of a script (commands listed in descending order, as in a
script) replaced at once, all line numbers referring to the original base. -/
def simultaneous (base : List String) (cmds : List Command) : List String :=
  replace_ranges base cmds.reverse 0

/-- The ordering a script must have: each command lies entirely above every later one,
that is, a later command ends at or in front of the place the earlier one touches. For an
earlier `Na` that place is behind line `N`, so a later command may address lines up to
`N`; for an earlier `N,Mc`, `Nc`, `N,Md` or `Nd` a later command ends below line `N`. -/
def Descending (cmds : List Command) : Prop :=
  cmds.Pairwise (fun c later => later.hi ≤ c.lo)

/-- The command one call of `diff_add_next_command` writes (`none` when it writes
nothing), read off the same tests as the code. -/
def next_command (remove_start remove_end : Int) (new_sl : List String)
    (insert_start insert_end : Int) : Option (Option Command) :=
  if insert_start ≤ insert_end then do
    let block ← add_range new_sl (insert_end - insert_start + 1).toNat insert_start []
    if remove_start < remove_end then
      pure (some (Command.change (remove_start + 1) (remove_end + 1) block))
    else if remove_start = remove_end then
      pure (some (Command.change1 (remove_start + 1) block))
    else
      pure (some (Command.append (remove_end + 1) block))
  else if remove_start < remove_end then
    pure (some (Command.delete (remove_start + 1) (remove_end + 1)))
  else if remove_start = remove_end then
    pure (some (Command.delete1 (remove_start + 1)))
  else
    pure none

/-- The commands of the loop of `make_diff` from one state of the cursors on, the final
command for the start of the file included. -/
def make_diff_commands_loop (old_sl new_sl : List String) :
    List String → Int → Int → Option (List Command)
  | [], remove_end, insert_end => do
    let last ← next_command 0 remove_end new_sl 0 insert_end
    pure last.toList
  | cs :: rest, remove_end, insert_end => do
    let remove_start ← scan_back old_sl cs (remove_end.toNat + 2) remove_end
    let insert_start ← scan_back new_sl cs (insert_end.toNat + 2) insert_end
    let command ← next_command (remove_start + 1) remove_end new_sl (insert_start + 1) insert_end
    let later ← make_diff_commands_loop old_sl new_sl rest (remove_start + 1 - 2)
      (insert_start + 1 - 2)
    pure (command.toList ++ later)

/-- The commands `make_diff` writes for a common subsequence, in the order written. -/
def make_diff_commands (old_sl new_sl common_subsequence : List String) :
    Option (List Command) :=
  make_diff_commands_loop old_sl new_sl common_subsequence.reverse
    ((old_sl.length : Int) - 1) ((new_sl.length : Int) - 1)

/-- The frame of the top call when both sequences have the fingerprints `H`. -/
def same_frame (H : List Nat) (m : Nat) : Frame :=
  { f_hash := H, s_hash := H, first_start := 0, first_end := H.length, second_start := 0,
    second_end := H.length, max := m }

/-- The frame of the top call for `first = a :: b :: ... :: b` (`n` copies of `b`) and
`second = [a]`, with fingerprints `ha` and `hb`, when the budget caps `max` to `m`. -/
def skew_frame (ha hb : Nat) (n m : Nat) : Frame :=
  { f_hash := ha :: List.replicate n hb, s_hash := [ha], first_start := 0,
    first_end := (n : Int) + 1, second_start := 0, second_end := 1, max := m }

/-- The entries of `forward_v` written in round `D`: diagonal `-D + 2j` holds `1 + j`. -/
def FwdRow (m D : Nat) (vec : List Int) : Prop :=
  ∀ j, j ≤ D → vec[m - D + 2 * j]? = some ((1 : Int) + j)

/-- The entries of `reverse_v` written in round `D`: diagonal `n - D + 2j` holds
`n + 1 - D + j`. -/
def RevRow (n m D : Nat) (vec : List Int) : Prop :=
  ∀ j, j ≤ D → vec[m - D + 2 * j]? = some ((n : Int) + 1 - D + j)

/-- The frame of the first recursive call on the skew input: `first[0..1)` against
`second[0..m+1)`, a range that reaches `m` entries past the end of the one-line
`second`. -/
def overrun_frame (ha hb : Nat) (n m : Nat) : Frame :=
  { f_hash := ha :: List.replicate n hb, s_hash := [ha], first_start := 0, first_end := 1,
    second_start := 0, second_end := (m : Int) + 1, max := ((m + 2) / 2 + 1 : Nat) }

/-! ## Fingerprints with the same pattern of equal lines -/

/-- Two pairs of fingerprint tables tell the same positions apart: the tables have the
same sizes, and a position of the first table and a position of the second carry equal
fingerprints in one pair exactly when they do in the other. -/
def SamePattern (f_hash s_hash f_hash2 s_hash2 : List Nat) : Prop :=
  f_hash.length = f_hash2.length ∧ s_hash.length = s_hash2.length ∧
    ∀ (i j : Nat) (a b a2 b2 : Nat), f_hash[i]? = some a → s_hash[j]? = some b →
      f_hash2[i]? = some a2 → s_hash2[j]? = some b2 → (a = b ↔ a2 = b2)

/-- The frame of a call with the fingerprint tables replaced. -/
def Frame.with_hashes (c : Frame) (f_hash s_hash : List Nat) : Frame :=
  { c with f_hash := f_hash, s_hash := s_hash }

/-! ## The reference texts of the tests -/

/-- The old text of the test `test_diff_make_diff` (`DIFF_OLD` in test_diff.c), split
into its 14 lines. -/
def DIFF_OLD : List String :=
  ["some stuff that stays the same", "some stuff that stays the same",
   "a line that is removed", "some stuff that stays the same", "a block", "that is",
   "removed", "some stuff that stays the same", "some stuff that stays the same", "a block",
   "that is", "overwitten", "some stuff that stays the same", "a line that is overwitten"]

/-- The new text of the test (`DIFF_NEW`), split into its 14 lines. -/
def DIFF_NEW : List String :=
  ["new thing at start", "some stuff that stays the same", "some stuff that stays the same",
   "some stuff that stays the same", "some stuff that stays the same", "a block that", "is",
   "inserted", "some stuff that stays the same", "aaaaaa", "bbbbbb",
   "some stuff that stays the same", "cccccc", "dddddd"]

/-- The expected script of the test (`DIFF_PATCH`), split into its 18 lines. -/
def DIFF_PATCH : List String :=
  ["14c", "cccccc", "dddddd", ".", "10,12c", "aaaaaa", "bbbbbb", ".", "8a", "a block that",
   "is", "inserted", ".", "5,7d", "3d", "0a", "new thing at start", "."]

/-- A fingerprint without collisions on the lines of the test: the position of the line
in `DIFF_OLD ++ DIFF_NEW`. -/
def line_number (s : String) : Nat := (DIFF_OLD ++ DIFF_NEW).indexOf s

/-! ## The script lines read by the patch applier -/

/-- The indices at which the block loop of `apply_patch` (lines 327-333) calls
`smartlist_get(diff_sl, idx)`, in order, up to the terminator or to the first fault. -/
def insert_block_reads (diff_sl : List String) : Nat → List String → Int → Nat → List Nat
  | 0, _, _, _ => []
  | fuel + 1, base_sl, start, idx =>
    idx ::
      (match diff_sl[idx]? with
        | none => []
        | some str =>
          if str ≠ "." then
            match smartlist_insert base_sl start str with
            | none => []
            | some base_sl => insert_block_reads diff_sl fuel base_sl (start + 1) (idx + 1)
          else [])

/-- The indices at which the loop of `apply_patch` (lines 308-335) calls
`smartlist_get(diff_sl, idx)`, in order, up to the end of the run or to the first
fault: the header reads of line 309 and the block reads of lines 328 and 332. -/
def apply_commands_reads (diff_sl : List String) : Nat → List String → Nat → List Nat
  | 0, _, _ => []
  | fuel + 1, base_sl, idx =>
    if idx < diff_sl.length then
      idx ::
        (match diff_sl[idx]? with
          | none => []
          | some str =>
            let start := atoi str.data
            let stop := header_end str.data start
            match str.data.getLast? with
            | none => []
            | some command =>
              match (if command = 'c' ∨ command = 'd' then
                  delete_lines start (stop - (start - 1)).toNat base_sl
                else some base_sl) with
              | none => []
              | some base_sl =>
                let start := if command = 'c' then start - 1 else start
                if command = 'c' ∨ command = 'a' then
                  insert_block_reads diff_sl (diff_sl.length + 1) base_sl start (idx + 1) ++
                    (match insert_block diff_sl (diff_sl.length + 1) base_sl start (idx + 1) with
                      | none => []
                      | some (base_sl, idx) => apply_commands_reads diff_sl fuel base_sl (idx + 1))
                else apply_commands_reads diff_sl fuel base_sl (idx + 1))
    else []

/-- The script indices read by a run of `apply_patch`. -/
def apply_patch_reads (base_sl diff_sl : List String) : List Nat :=
  apply_commands_reads diff_sl (diff_sl.length + 1) base_sl 0

/-! ## A tie in the fallback -/

/-- The search can take a diagonal step from `(x, y)`: both positions lie inside the
ranges of the call and the two lines have equal fingerprints. -/
def Frame.same_line (c : Frame) (x y : Int) : Prop :=
  c.first_start ≤ x ∧ x < c.first_end ∧ c.second_start ≤ y ∧ y < c.second_end ∧
    arr_get c.f_hash x = arr_get c.s_hash y

/-- The ranges of the call are not empty and lie inside the fingerprint tables. -/
def Frame.in_table (c : Frame) : Prop :=
  0 ≤ c.first_start ∧ c.first_start < c.first_end ∧ c.first_end ≤ (c.f_hash.length : Int) ∧
    0 ≤ c.second_start ∧ c.second_start < c.second_end ∧
    c.second_end ≤ (c.s_hash.length : Int)

/-- Paths of the forward search: `Fwd c d x y` says that `(x, y)` is reached from
`(first_start, second_start)` with `d` horizontal or vertical steps (edits) and any
number of diagonal steps over equal lines.  Edits may leave the grid, as the points of
`forward_v` do. -/
inductive Fwd (c : Frame) : Nat → Int → Int → Prop
  | start : Fwd c 0 c.first_start c.second_start
  | diag {d : Nat} {x y : Int} : Fwd c d x y → c.same_line x y → Fwd c d (x + 1) (y + 1)
  | right {d : Nat} {x y : Int} : Fwd c d x y → Fwd c (d + 1) (x + 1) y
  | down {d : Nat} {x y : Int} : Fwd c d x y → Fwd c (d + 1) x (y + 1)

/-- Paths of the reverse search: `Rev c d x y` says that `(first_end, second_end)` is
reached from `(x, y)` with `d` edits and any number of diagonal steps over equal
lines. -/
inductive Rev (c : Frame) : Nat → Int → Int → Prop
  | stop : Rev c 0 c.first_end c.second_end
  | diag {d : Nat} {x y : Int} : Rev c d x y → c.same_line (x - 1) (y - 1) →
      Rev c d (x - 1) (y - 1)
  | left {d : Nat} {x y : Int} : Rev c d x y → Rev c (d + 1) (x - 1) y
  | up {d : Nat} {x y : Int} : Rev c d x y → Rev c (d + 1) x (y - 1)

/-- The value `forward_v` holds for diagonal `k` after round `D`: the end of the furthest
reaching path with `D` edits on that diagonal. -/
def FwdVal (c : Frame) (D : Nat) (k x : Int) : Prop :=
  Fwd c D x (x - k) ∧ ¬ c.same_line x (x - k) ∧ ∀ x', Fwd c D x' (x' - k) → x' ≤ x

/-- The value `reverse_v` holds for diagonal `k` after round `D`: the start of the
furthest reaching reverse path with `D` edits on that diagonal. -/
def RevVal (c : Frame) (D : Nat) (k x : Int) : Prop :=
  Rev c D x (x - k) ∧ ¬ c.same_line (x - 1) (x - k - 1) ∧ ∀ x', Rev c D x' (x' - k) → x ≤ x'

/-! ## The steps of one pass of a loop body -/

/-- The value the forward pass starts from on one diagonal (lines 176-182). -/
def ForwardStart (c : Frame) (diff_size diagonal : Int) (forward_v : List Int) (x0 : Int) :
    Prop :=
  (diagonal = c.delta_start - diff_size
      ∧ arr_get forward_v (c.center_forward + diagonal + 1) = some x0)
    ∨ (diagonal ≠ c.delta_start - diff_size ∧ diagonal ≠ c.delta_start + diff_size
      ∧ ∃ below above, arr_get forward_v (c.center_forward + diagonal - 1) = some below
        ∧ arr_get forward_v (c.center_forward + diagonal + 1) = some above
        ∧ x0 = if below < above then above else below + 1)
    ∨ (diagonal ≠ c.delta_start - diff_size ∧ diagonal = c.delta_start + diff_size
      ∧ ∃ below, arr_get forward_v (c.center_forward + diagonal - 1) = some below
        ∧ x0 = below + 1)

/-- The outcome of the overlap test of the forward pass (lines 192-194). -/
def ForwardOverlap (c : Frame) (diff_size diagonal : Int) (forward_v reverse_v : List Int)
    (overlap : Bool) : Prop :=
  ((c.delta % 2 ≠ 0 ∧ diagonal ≥ c.delta_end - (diff_size - 1)
        ∧ diagonal ≤ c.delta_end + (diff_size - 1))
      ∧ ∃ f r, arr_get forward_v (diagonal + c.center_forward) = some f
        ∧ arr_get reverse_v (diagonal + c.center_reverse) = some r
        ∧ overlap = decide (f ≥ r))
    ∨ (¬ (c.delta % 2 ≠ 0 ∧ diagonal ≥ c.delta_end - (diff_size - 1)
        ∧ diagonal ≤ c.delta_end + (diff_size - 1)) ∧ overlap = false)

/-- The value the reverse pass starts from on one diagonal (lines 201-207). -/
def ReverseStart (c : Frame) (diff_size diagonal : Int) (reverse_v : List Int) (u0 : Int) :
    Prop :=
  (diagonal = c.delta_end - diff_size
      ∧ ∃ above, arr_get reverse_v (c.center_reverse + diagonal + 1) = some above
        ∧ u0 = above - 1)
    ∨ (diagonal ≠ c.delta_end - diff_size ∧ diagonal ≠ c.delta_end + diff_size
      ∧ ∃ below above, arr_get reverse_v (c.center_reverse + diagonal - 1) = some below
        ∧ arr_get reverse_v (c.center_reverse + diagonal + 1) = some above
        ∧ u0 = if below ≥ above then above - 1 else below)
    ∨ (diagonal ≠ c.delta_end - diff_size ∧ diagonal = c.delta_end + diff_size
      ∧ arr_get reverse_v (c.center_reverse + diagonal - 1) = some u0)

/-- The outcome of the overlap test of the reverse pass (lines 218-220). -/
def ReverseOverlap (c : Frame) (diff_size diagonal : Int) (forward_v reverse_v : List Int)
    (overlap : Bool) : Prop :=
  ((c.delta % 2 = 0 ∧ diagonal ≥ c.delta_start - diff_size
        ∧ diagonal ≤ c.delta_start + diff_size)
      ∧ ∃ f r, arr_get forward_v (diagonal + c.center_forward) = some f
        ∧ arr_get reverse_v (diagonal + c.center_reverse) = some r
        ∧ overlap = decide (f ≥ r))
    ∨ (¬ (c.delta % 2 = 0 ∧ diagonal ≥ c.delta_start - diff_size
        ∧ diagonal ≤ c.delta_start + diff_size) ∧ overlap = false)

/-! ## The invariants of the search -/

/-- After round `D` the vector `forward_v` holds, for each of the `D + 1` diagonals of the
round, the furthest reaching value.  `M` is `max` and index `M` is the diagonal
`delta_start`. -/
def FwdFront (c : Frame) (M D : Nat) (vec : List Int) : Prop :=
  ∀ t, t ≤ D → ∃ a, vec[M - D + 2 * t]? = some a
    ∧ FwdVal c D (c.delta_start - (D : Int) + 2 * (t : Int)) a

/-- After round `D` the vector `reverse_v` holds the furthest reaching values of the
reverse search; index `M` is the diagonal `delta_end`. -/
def RevFront (c : Frame) (M D : Nat) (vec : List Int) : Prop :=
  ∀ t, t ≤ D → ∃ a, vec[M - D + 2 * t]? = some a
    ∧ RevVal c D (c.delta_end - (D : Int) + 2 * (t : Int)) a

/-- A forward path with `a` edits and a reverse path with `b` edits meet on diagonal
`k`. -/
def Meet (c : Frame) (a b : Nat) (k : Int) : Prop :=
  ∃ x, Fwd c a x (x - k) ∧ Rev c b x (x - k)

/-- A middle snake found by the forward pass of round `D + 1`: the locals `x, y, u, v`
hold the last snake of a furthest reaching forward path, which has reached the value the
reverse search left on the same diagonal in round `D`. -/
def FoundForward (c : Frame) (D : Nat) (s : Search) : Prop :=
  ∃ k r, s.y = s.x - k ∧ s.v = s.u - k ∧ Fwd c (D + 1) s.x s.y ∧ s.x ≤ s.u
    ∧ (∀ z, s.x ≤ z → z < s.u → c.same_line z (z - k))
    ∧ FwdVal c (D + 1) k s.u ∧ RevVal c D k r ∧ r ≤ s.u

/-- A middle snake found by the reverse pass of round `D`. -/
def FoundReverse (c : Frame) (D : Nat) (s : Search) : Prop :=
  ∃ k f, s.y = s.x - k ∧ s.v = s.u - k ∧ Rev c D s.u s.v ∧ s.x ≤ s.u
    ∧ (∀ z, s.x ≤ z → z < s.u → c.same_line z (z - k))
    ∧ RevVal c D k s.x ∧ FwdVal c D k f ∧ s.x ≤ f

/-- The first `j` diagonals of round `D` hold their furthest reaching values. -/
def FwdPart (c : Frame) (M D j : Nat) (vec : List Int) : Prop :=
  ∀ t, t < j → ∃ a, vec[M - D + 2 * t]? = some a
    ∧ FwdVal c D (c.delta_start - (D : Int) + 2 * (t : Int)) a

/-- The first `j` diagonals of round `D` of the reverse search hold their values. -/
def RevPart (c : Frame) (M D j : Nat) (vec : List Int) : Prop :=
  ∀ t, t < j → ∃ a, vec[M - D + 2 * t]? = some a
    ∧ RevVal c D (c.delta_end - (D : Int) + 2 * (t : Int)) a

/-- No path from the start of the ranges to their end has as few edits as the rounds
`0..D` of the search cover: more than `2 D - 1` for an odd `delta`, more than `2 D` for an
even one. -/
def NoShort (c : Frame) (D : Nat) : Prop :=
  ∀ d, Fwd c d c.first_end c.second_end → 2 * (D : Int) < (d : Int) + c.delta % 2

/-- The state of the search after round `D` when no middle snake has been found. -/
def RoundInv (c : Frame) (M D Lf Lr : Nat) (s : Search) : Prop :=
  s.found_middle_snake = false ∧ s.forward_v.length = Lf ∧ s.reverse_v.length = Lr
    ∧ FwdFront c M D s.forward_v ∧ RevFront c M D s.reverse_v ∧ NoShort c D

/-- How the loop over `diff_size` ends: with a middle snake found in some round `D`
(by the forward pass when `delta` is odd, by the reverse pass when it is even), or with
the budget exhausted after round `M`. -/
def SearchEnd (c : Frame) (M : Nat) (diff_size : Int) (s : Search) : Prop :=
  (s.found_middle_snake = true ∧ ∃ D : Nat, D ≤ M ∧ diff_size = (D : Int) + 1
      ∧ ((c.delta % 2 ≠ 0 ∧ ∃ E, D = E + 1 ∧ FoundForward c E s ∧ NoShort c E)
        ∨ (c.delta % 2 = 0 ∧ FoundReverse c D s ∧ (D = 0 ∨ ∃ E, D = E + 1 ∧ NoShort c E))))
    ∨ (s.found_middle_snake = false ∧ diff_size = (M : Int) + 1 ∧ FwdFront c M M s.forward_v
      ∧ RevFront c M M s.reverse_v ∧ NoShort c M)

/-! ## The split handed to the recursion -/

/-- The middle snake of a call: it starts at `(x, y)`, reached from the start of the
ranges with `a` edits, runs over equal lines to `(u, v)`, from where the end of the
ranges is reached with `b` edits, and no path from the start to the end has fewer than
`a + b` edits. -/
def SnakeOK (c : Frame) (a b : Nat) (x y u v : Int) : Prop :=
  Fwd c a x y ∧ Rev c b u v ∧ u - v = x - y ∧ x ≤ u
    ∧ (∀ z, x ≤ z → z < u → c.same_line z (z - (x - y)))
    ∧ ∀ d, Fwd c d c.first_end c.second_end → a + b ≤ d

/-- The frame `find_split` works with: the ranges of the call and `max` capped by the
budget (lines 157-162). -/
def call_frame (f_hash s_hash : List Nat) (too_expensive : Int)
    (first_start first_end second_start second_end : Int) : Frame :=
  { f_hash := f_hash, s_hash := s_hash, first_start := first_start, first_end := first_end,
    second_start := second_start, second_end := second_end,
    max := if (first_end - first_start + second_end - second_start) / 2 + 1 > too_expensive
      then too_expensive else (first_end - first_start + second_end - second_start) / 2 + 1 }

/-- What `find_split` hands to the recursion: either a middle snake found in round
`diff_size`, or, when the budget was smaller than the natural bound and ran out, a
fallback point strictly between the start and the end of the ranges. -/
def SplitOK (c : Frame) (sp : Split) : Prop :=
  sp.delta_even = decide (c.delta % 2 = 0)
    ∧ ((∃ a b : Nat, SnakeOK c a b sp.x sp.y sp.u sp.v ∧ sp.diff_size = (a : Int)
        ∧ ((c.delta % 2 ≠ 0 ∧ a = b + 1) ∨ (c.delta % 2 = 0 ∧ a = b)))
      ∨ (sp.diff_size = c.max
        ∧ c.max < (c.first_end - c.first_start + c.second_end - c.second_start) / 2 + 1
        ∧ sp.u = sp.x ∧ sp.v = sp.y
        ∧ c.first_start + c.second_start < sp.x + sp.y
        ∧ sp.x + sp.y < c.first_end + c.second_end))

/-- The value of `max` in a call (lines 160-162). -/
def call_max (too_expensive first_start first_end second_start second_end : Int) : Int :=
  if (first_end - first_start + second_end - second_start) / 2 + 1 > too_expensive
  then too_expensive else (first_end - first_start + second_end - second_start) / 2 + 1

/-- The locals with which the search of a call starts. -/
def start_search (forward_v reverse_v : List Int) : Search :=
  { forward_v := forward_v, reverse_v := reverse_v, x := 0, y := 0, u := 0, v := 0,
    found_middle_snake := false }

/-! ## Longer scratch vectors -/

/-- The locals of a search whose scratch vectors are longer by `pf` and `pr`. -/
def Search.pad (s : Search) (pf pr : List Int) : Search :=
  { s with forward_v := s.forward_v ++ pf, reverse_v := s.reverse_v ++ pr }

/-- The split of a call whose scratch vectors are longer by `pf` and `pr`. -/
def Split.pad (sp : Split) (pf pr : List Int) : Split :=
  { sp with forward_v := sp.forward_v ++ pf, reverse_v := sp.reverse_v ++ pr }

/-! ## Ranges of lines -/

/-- The lines `a .. b - 1` of a sequence: the range of lines a call works on. -/
def slice {α : Type} (l : List α) (a b : Int) : List α :=
  (l.drop a.toNat).take (b - a).toNat

/-! ## The engine with checked accesses to the scratch vectors -/

/-- The ways a run of the engine can go wrong.  `table`: a read outside a fingerprint
table or outside one of the two sequences; `bounds`: an access to a scratch vector outside
its allocation; `stale`: a read of a scratch vector cell that the current call has not
written before; `fuel`: a loop bound of the model was reached. -/
inductive Fault where
  | table
  | bounds
  | stale
  | fuel
deriving DecidableEq

/-- A read of a fingerprint table that reports a read outside the table. -/
def read_table (tab : List Nat) (i : Int) : Except Fault Nat :=
  match arr_get tab i with
  | some a => .ok a
  | none => .error .table

/-- A read of a scratch vector that reports an index outside the allocation and a read
of a cell the current call has not written (`written` marks the cells it has). -/
def read_vec (vec : List Int) (written : List Bool) (i : Int) : Except Fault Int :=
  match arr_get vec i with
  | none => .error .bounds
  | some a => if arr_get written i = some true then .ok a else .error .stale

/-- A write to a scratch vector that reports an index outside the allocation and marks
the cell as written. -/
def write_vec (vec : List Int) (written : List Bool) (i : Int) (val : Int) :
    Except Fault (List Int × List Bool) :=
  match arr_set vec i val with
  | none => .error .bounds
  | some vec' => .ok (vec', written.set i.toNat true)

/-- The locals of the search together with the marks of the cells of `forward_v` and
`reverse_v` that the current call has written. -/
structure Checked where
  search : Search
  forward_w : List Bool
  reverse_w : List Bool

/-- Lines 186-189 with checked table reads. -/
def forward_snake_checked (c : Frame) : Nat → Int → Int → Except Fault (Int × Int)
  | 0, _, _ => .error .fuel
  | fuel + 1, u, v =>
    if u < c.first_end ∧ v < c.second_end then do
      let a ← read_table c.f_hash u
      let b ← read_table c.s_hash v
      if a = b then forward_snake_checked c fuel (u + 1) (v + 1) else pure (u, v)
    else pure (u, v)

/-- Lines 211-215 with checked table reads. -/
def reverse_snake_checked (c : Frame) : Nat → Int → Int → Except Fault (Int × Int)
  | 0, _, _ => .error .fuel
  | fuel + 1, x, y =>
    if x > c.first_start ∧ y > c.second_start then do
      let a ← read_table c.f_hash (x - 1)
      let b ← read_table c.s_hash (y - 1)
      if a = b then reverse_snake_checked c fuel (x - 1) (y - 1) else pure (x, y)
    else pure (x, y)

/-- Lines 176-196 with checked accesses to the scratch vectors. -/
def forward_body_checked (c : Frame) (diff_size diagonal : Int) (t : Checked) :
    Except Fault Checked := do
  let x ←
    if diagonal = c.delta_start - diff_size then
      read_vec t.search.forward_v t.forward_w (c.center_forward + diagonal + 1)
    else if diagonal ≠ c.delta_start + diff_size then do
      let below ← read_vec t.search.forward_v t.forward_w (c.center_forward + diagonal - 1)
      let above ← read_vec t.search.forward_v t.forward_w (c.center_forward + diagonal + 1)
      if below < above then pure above else pure (below + 1)
    else do
      let below ← read_vec t.search.forward_v t.forward_w (c.center_forward + diagonal - 1)
      pure (below + 1)
  let y := x - diagonal
  let (u, v) ← forward_snake_checked c ((c.first_end - x).toNat + 1) x y
  let (forward_v, forward_w) ←
    write_vec t.search.forward_v t.forward_w (c.center_forward + diagonal) u
  let overlap ←
    if c.delta % 2 ≠ 0 ∧ diagonal ≥ c.delta_end - (diff_size - 1)
        ∧ diagonal ≤ c.delta_end + (diff_size - 1) then do
      let f ← read_vec forward_v forward_w (diagonal + c.center_forward)
      let r ← read_vec t.search.reverse_v t.reverse_w (diagonal + c.center_reverse)
      pure (decide (f ≥ r))
    else pure false
  let search : Search :=
    { t.search with forward_v := forward_v, x := x, y := y, u := u, v := v,
                    found_middle_snake := overlap || t.search.found_middle_snake }
  pure { search := search, forward_w := forward_w, reverse_w := t.reverse_w }

/-- Lines 201-222 with checked accesses to the scratch vectors. -/
def reverse_body_checked (c : Frame) (diff_size diagonal : Int) (t : Checked) :
    Except Fault Checked := do
  let u ←
    if diagonal = c.delta_end - diff_size then do
      let above ← read_vec t.search.reverse_v t.reverse_w (c.center_reverse + diagonal + 1)
      pure (above - 1)
    else if diagonal ≠ c.delta_end + diff_size then do
      let below ← read_vec t.search.reverse_v t.reverse_w (c.center_reverse + diagonal - 1)
      let above ← read_vec t.search.reverse_v t.reverse_w (c.center_reverse + diagonal + 1)
      if below ≥ above then pure (above - 1) else pure below
    else
      read_vec t.search.reverse_v t.reverse_w (c.center_reverse + diagonal - 1)
  let v := u - diagonal
  let (x, y) ← reverse_snake_checked c ((u - c.first_start).toNat + 1) u v
  let (reverse_v, reverse_w) ←
    write_vec t.search.reverse_v t.reverse_w (c.center_reverse + diagonal) x
  let overlap ←
    if c.delta % 2 = 0 ∧ diagonal ≥ c.delta_start - diff_size
        ∧ diagonal ≤ c.delta_start + diff_size then do
      let f ← read_vec t.search.forward_v t.forward_w (diagonal + c.center_forward)
      let r ← read_vec reverse_v reverse_w (diagonal + c.center_reverse)
      pure (decide (f ≥ r))
    else pure false
  let search : Search :=
    { t.search with reverse_v := reverse_v, x := x, y := y, u := u, v := v,
                    found_middle_snake := overlap || t.search.found_middle_snake }
  pure { search := search, forward_w := t.forward_w, reverse_w := reverse_w }

/-- Lines 173-197 with checked accesses. -/
def forward_loop_checked (c : Frame) (diff_size : Int) :
    Nat → Int → Checked → Except Fault Checked
  | 0, _, _ => .error .fuel
  | fuel + 1, diagonal, t =>
    if diagonal ≤ c.delta_start + diff_size ∧ t.search.found_middle_snake = false then do
      let t ← forward_body_checked c diff_size diagonal t
      forward_loop_checked c diff_size fuel (diagonal + 2) t
    else pure t

/-- Lines 198-223 with checked accesses. -/
def reverse_loop_checked (c : Frame) (diff_size : Int) :
    Nat → Int → Checked → Except Fault Checked
  | 0, _, _ => .error .fuel
  | fuel + 1, diagonal, t =>
    if diagonal ≤ c.delta_end + diff_size ∧ t.search.found_middle_snake = false then do
      let t ← reverse_body_checked c diff_size diagonal t
      reverse_loop_checked c diff_size fuel (diagonal + 2) t
    else pure t

/-- Lines 172-224 with checked accesses. -/
def search_loop_checked (c : Frame) : Nat → Int → Checked → Except Fault (Int × Checked)
  | 0, _, _ => .error .fuel
  | fuel + 1, diff_size, t =>
    if diff_size ≤ c.max ∧ t.search.found_middle_snake = false then do
      let t ← forward_loop_checked c diff_size (diff_size.toNat + 2)
        (c.delta_start - diff_size) t
      let t ← reverse_loop_checked c diff_size (diff_size.toNat + 2)
        (c.delta_end - diff_size) t
      search_loop_checked c fuel (diff_size + 1) t
    else pure (diff_size, t)

/-- Lines 230-238 with checked reads of `forward_v`. -/
def forward_best_checked (c : Frame) (forward_v : List Int) (forward_w : List Bool)
    (diff_size : Int) : Nat → Int → Int × Int → Except Fault (Int × Int)
  | 0, _, _ => .error .fuel
  | fuel + 1, diagonal, (f_best_x, f_best_y) =>
    if diagonal ≤ c.delta_start + diff_size then do
      let x ← read_vec forward_v forward_w (c.center_forward + diagonal)
      let y := x - diagonal
      if x + y > f_best_x + f_best_y then
        forward_best_checked c forward_v forward_w diff_size fuel (diagonal + 2) (x, y)
      else
        forward_best_checked c forward_v forward_w diff_size fuel (diagonal + 2)
          (f_best_x, f_best_y)
    else pure (f_best_x, f_best_y)

/-- Lines 242-250 with checked reads of `reverse_v`. -/
def reverse_best_checked (c : Frame) (reverse_v : List Int) (reverse_w : List Bool)
    (diff_size : Int) : Nat → Int → Int × Int → Except Fault (Int × Int)
  | 0, _, _ => .error .fuel
  | fuel + 1, diagonal, (r_best_x, r_best_y) =>
    if diagonal ≤ c.delta_end + diff_size then do
      let x ← read_vec reverse_v reverse_w (c.center_reverse + diagonal)
      let y := x - diagonal
      if x + y < r_best_x + r_best_y then
        reverse_best_checked c reverse_v reverse_w diff_size fuel (diagonal + 2) (x, y)
      else
        reverse_best_checked c reverse_v reverse_w diff_size fuel (diagonal + 2)
          (r_best_x, r_best_y)
    else pure (r_best_x, r_best_y)

/-- Lines 227-264 with checked reads. -/
def fallback_split_checked (c : Frame) (t : Checked) (diff_size : Int) :
    Except Fault (Int × Int) := do
  let (f_best_x, f_best_y) ←
    forward_best_checked c t.search.forward_v t.forward_w diff_size (diff_size.toNat + 2)
      (c.delta_start - diff_size) (0, 0)
  let (r_best_x, r_best_y) ←
    reverse_best_checked c t.search.reverse_v t.reverse_w diff_size (diff_size.toNat + 2)
      (c.delta_end - diff_size) (c.first_end, c.second_end)
  if (f_best_x - c.first_start) + (f_best_y - c.second_start) >
      (c.first_end - r_best_x) + (c.second_end - r_best_y) then
    pure (f_best_x, f_best_y)
  else
    pure (r_best_x, r_best_y)

/-- Lines 157-264 with checked accesses.  When the call starts, none of the cells of the
two scratch vectors counts as written. -/
def find_split_checked (f_hash s_hash : List Nat) (too_expensive : Int)
    (first_start first_end second_start second_end : Int)
    (forward_v reverse_v : List Int) : Except Fault Split := do
  let max0 := (first_end - first_start + second_end - second_start) / 2 + 1
  let max := if max0 > too_expensive then too_expensive else max0
  let c : Frame :=
    { f_hash := f_hash, s_hash := s_hash, first_start := first_start, first_end := first_end,
      second_start := second_start, second_end := second_end, max := max }
  let (forward_v, forward_w) ←
    write_vec forward_v (List.replicate forward_v.length false) (max + 1) first_start
  let (reverse_v, reverse_w) ←
    write_vec reverse_v (List.replicate reverse_v.length false) (max + 1) (first_end + 1)
  let t0 : Checked :=
    { search := { forward_v := forward_v, reverse_v := reverse_v, x := 0, y := 0, u := 0,
                  v := 0, found_middle_snake := false },
      forward_w := forward_w, reverse_w := reverse_w }
  let (diff_size, t) ← search_loop_checked c (max.toNat + 2) 0 t0
  let diff_size := diff_size - 1
  if t.search.found_middle_snake then
    pure { forward_v := t.search.forward_v, reverse_v := t.search.reverse_v,
           diff_size := diff_size, delta_even := decide (c.delta % 2 = 0),
           x := t.search.x, y := t.search.y, u := t.search.u, v := t.search.v }
  else do
    let (x, y) ← fallback_split_checked c t diff_size
    pure { forward_v := t.search.forward_v, reverse_v := t.search.reverse_v,
           diff_size := diff_size, delta_even := decide (c.delta % 2 = 0),
           x := x, y := y, u := x, v := y }

/-- The copy loops of lines 273, 282 and 286, reporting a read outside the source. -/
def add_range_checked (src : List String) (n : Nat) (i : Int) (result : List String) :
    Except Fault (List String) :=
  match add_range src n i result with
  | some r => .ok r
  | none => .error .table

/-- The recursive procedure (lines 147-290) with checked accesses. -/
def smartlist_longest_common_subsequence_impl_checked (first second : List String)
    (f_hash s_hash : List Nat) (too_expensive : Int) :
    Nat → Int → Int → Int → Int → List Int → List Int → List String →
      Except Fault (List Int × List Int × List String)
  | 0, _, _, _, _, _, _, _ => .error .fuel
  | depth + 1, first_start, first_end, second_start, second_end, forward_v, reverse_v,
      result =>
    if first_end - first_start ≤ 0 ∨ second_end - second_start ≤ 0 then
      .ok (forward_v, reverse_v, result)
    else do
      let sp ← find_split_checked f_hash s_hash too_expensive first_start first_end
        second_start second_end forward_v reverse_v
      if sp.diff_size > 1 ∨ (sp.delta_even = true ∧ sp.diff_size = 1) then do
        let (forward_v, reverse_v, result) ←
          smartlist_longest_common_subsequence_impl_checked first second f_hash s_hash
            too_expensive depth first_start sp.x second_start sp.y sp.forward_v sp.reverse_v
            result
        let result ← add_range_checked first (sp.u - sp.x).toNat sp.x result
        smartlist_longest_common_subsequence_impl_checked first second f_hash s_hash
          too_expensive depth sp.u first_end sp.v second_end forward_v reverse_v result
      else if first_end - first_start < second_end - second_start then do
        let result ← add_range_checked first (first_end - first_start).toNat first_start
          result
        pure (sp.forward_v, sp.reverse_v, result)
      else do
        let result ← add_range_checked second (second_end - second_start).toNat second_start
          result
        pure (sp.forward_v, sp.reverse_v, result)

/-- The entry point (lines 106-143) with checked accesses: the scratch vectors have the
`2 * ((len(first) + len(second)) / 2 + 1)` cells allocated in lines 108-110. -/
def smartlist_longest_common_subsequence_checked (hash : String → Nat)
    (first second : List String) : Except Fault (List String) := do
  let max := (first.length + second.length) / 2 + 1
  let forward_v : List Int := List.replicate (max * 2) 0
  let reverse_v : List Int := List.replicate (max * 2) 0
  let f_hash := first.map hash
  let s_hash := second.map hash
  let too_expensive := too_expensive_of (first.length + second.length)
  let (_, _, result) ←
    smartlist_longest_common_subsequence_impl_checked first second f_hash s_hash
      too_expensive (first.length + second.length + 1) 0 first.length 0 second.length
      forward_v reverse_v []
  pure result

/-! ## Cells written by the current call -/

/-- The current call has written cell `i` of a scratch vector. -/
def Written (w : List Bool) (i : Int) : Prop := arr_get w i = some true

/-- The cells of `forward_v` that the forward pass reads on one diagonal before it
writes (lines 176-182) have been written. -/
def ForwardStartWritten (c : Frame) (diff_size diagonal : Int) (w : List Bool) : Prop :=
  (diagonal = c.delta_start - diff_size → Written w (c.center_forward + diagonal + 1))
    ∧ (diagonal ≠ c.delta_start - diff_size → Written w (c.center_forward + diagonal - 1))
    ∧ (diagonal ≠ c.delta_start - diff_size → diagonal ≠ c.delta_start + diff_size →
      Written w (c.center_forward + diagonal + 1))

/-- The cells of `reverse_v` that the reverse pass reads on one diagonal before it
writes (lines 201-207) have been written. -/
def ReverseStartWritten (c : Frame) (diff_size diagonal : Int) (w : List Bool) : Prop :=
  (diagonal = c.delta_end - diff_size → Written w (c.center_reverse + diagonal + 1))
    ∧ (diagonal ≠ c.delta_end - diff_size → Written w (c.center_reverse + diagonal - 1))
    ∧ (diagonal ≠ c.delta_end - diff_size → diagonal ≠ c.delta_end + diff_size →
      Written w (c.center_reverse + diagonal + 1))

/-- The cells a pass reads in round `D` have been written: the seed cell in round 0, the
cells written in round `D - 1` otherwise. -/
def RoundWritten (M D : Int) (w : List Bool) : Prop :=
  ∀ t : Int, 0 ≤ t → (t ≤ D - 1 ∨ (t = 0 ∧ D = 0)) → Written w (M - D + 1 + 2 * t)

/-! ## Agreement of the checked and the unchecked engine -/

/-- The checked run and the unchecked run end the same way: both with the same result,
which satisfies `P`, or the checked run at a read outside a table and the unchecked run
without a result. -/
def Agree {α : Type} (P : α → Prop) (x : Except Fault α) (y : Option α) : Prop :=
  (∃ r, x = .ok r ∧ y = some r ∧ P r) ∨ (x = .error .table ∧ y = none)

/-! ## The lines read by the backward scans of `make_diff` -/

/-- The indices that one scan of lines 31-35 passes to `smartlist_get`, in the order of
the reads: the cursor `start` and each value it is decremented to, as long as the line
read differs from `cs`.  A read outside the sequence ends the list (it is a fault). -/
def scan_back_reads (sl : List String) (cs : String) : Nat → Int → List Int
  | 0, _ => []
  | fuel + 1, start =>
    start :: match arr_get sl start with
      | some line => if line ≠ cs then scan_back_reads sl cs fuel (start - 1) else []
      | none => []

/-- The indices that the scans of the loop of `make_diff` (lines 30-43) read, from one
state of the cursors on: those read in `old_sl` and those read in `new_sl`.  A scan that
faults ends both lists. -/
def make_diff_reads (old_sl new_sl : List String) :
    List String → Int → Int → List Int × List Int
  | [], _, _ => ([], [])
  | cs :: rest, remove_end, insert_end =>
    match scan_back old_sl cs (remove_end.toNat + 2) remove_end with
    | none => (scan_back_reads old_sl cs (remove_end.toNat + 2) remove_end, [])
    | some remove_start =>
      match scan_back new_sl cs (insert_end.toNat + 2) insert_end with
      | none =>
        (scan_back_reads old_sl cs (remove_end.toNat + 2) remove_end,
          scan_back_reads new_sl cs (insert_end.toNat + 2) insert_end)
      | some insert_start =>
        let later := make_diff_reads old_sl new_sl rest (remove_start + 1 - 2)
          (insert_start + 1 - 2)
        (scan_back_reads old_sl cs (remove_end.toNat + 2) remove_end ++ later.1,
          scan_back_reads new_sl cs (insert_end.toNat + 2) insert_end ++ later.2)

/-! ## Commands that address existing lines -/

/-- The lines `new_sl[q .. q + n - 1]`, a non-empty run of consecutive lines that lies
inside `new_sl`. -/
def IsBlockOf (new_sl block : List String) : Prop :=
  ∃ q n : Nat, 1 ≤ n ∧ q + n ≤ new_sl.length ∧ block = (new_sl.drop q).take n

/-- A command addresses existing lines of a base of `len` lines and inserts lines of
`new_sl`: `N,Mc` and `N,Md` have `1 <= N < M <= len`, `Nc` and `Nd` have `1 <= N <= len`,
`Na` has `0 <= N <= len`, and the block of an `a` or `c` command is a run of consecutive
lines of `new_sl`. -/
def Command.in_bounds (len : Nat) (new_sl : List String) : Command → Prop
  | .append n b => 0 ≤ n ∧ n ≤ (len : Int) ∧ IsBlockOf new_sl b
  | .change1 n b => 1 ≤ n ∧ n ≤ (len : Int) ∧ IsBlockOf new_sl b
  | .change n m b => 1 ≤ n ∧ n < m ∧ m ≤ (len : Int) ∧ IsBlockOf new_sl b
  | .delete1 n => 1 ≤ n ∧ n ≤ (len : Int)
  | .delete n m => 1 ≤ n ∧ n < m ∧ m ≤ (len : Int)

/-! ## Facts about C arrays -/

theorem arr_get_of_nat {α : Type} (a : List α) (i : Nat) : arr_get a (i : Int) = a[i]? := by
  have h0 : ¬ ((i : Int) < 0) := by omega
  simp [arr_get, h0]

theorem arr_set_of_nat {α : Type} (a : List α) (i : Nat) (val : α) (h : i < a.length) :
    arr_set a (i : Int) val = some (a.set i val) := by
  simp [arr_set, h]

/-! ## Facts about headers -/

theorem digit_val_digit_char (d : Nat) (h : d < 10) : digit_val (digit_char d) = some d := by
  interval_cases d <;> rfl

theorem digit_char_ne_comma (d : Nat) : digit_char d ≠ ',' := by
  unfold digit_char
  split <;> decide

theorem digit_char_not_space (d : Nat) : is_space (digit_char d) = false := by
  unfold digit_char
  split <;> rfl

/-- Every character of the reversed decimal expansion is a digit. -/
theorem decimal_rev_digits (fuel n : Nat) :
    ∀ c ∈ decimal_rev fuel n, ∃ d, d < 10 ∧ c = digit_char d := by
  induction fuel generalizing n with
  | zero => simp [decimal_rev]
  | succ fuel ih =>
    intro c hc
    simp only [decimal_rev, List.mem_cons] at hc
    rcases hc with hc | hc
    · exact ⟨n % 10, Nat.mod_lt _ (by norm_num), hc⟩
    · split at hc
      · simp at hc
      · exact ih _ c hc

theorem print_nat_digits (n : Nat) : ∀ c ∈ print_nat n, ∃ d, d < 10 ∧ c = digit_char d := by
  intro c hc
  exact decimal_rev_digits (n + 1) n c (by simpa [print_nat] using hc)

theorem print_nat_ne_nil (n : Nat) : print_nat n ≠ [] := by
  simp [print_nat, decimal_rev]

/-- Reading back the digits just printed gives the number, whatever follows them. -/
theorem atoi_digits_decimal (fuel : Nat) :
    ∀ (n : Nat), n < fuel → ∀ rest : List Char,
      atoi_digits ((decimal_rev fuel n).reverse ++ rest) 0 = atoi_digits rest n := by
  induction fuel with
  | zero => intro n h; omega
  | succ fuel ih =>
    intro n hn rest
    have hd : digit_val (digit_char (n % 10)) = some (n % 10) :=
      digit_val_digit_char _ (Nat.mod_lt _ (by norm_num))
    by_cases h0 : n / 10 = 0
    · have hlt : n % 10 = n := by omega
      rw [hlt] at hd
      simp [decimal_rev, h0, atoi_digits, hd, hlt]
    · have hlt : n / 10 < fuel := by omega
      have hsum : n / 10 * 10 + n % 10 = n := by omega
      simp only [decimal_rev, h0, if_false, List.reverse_cons, List.append_assoc,
        List.singleton_append]
      rw [ih (n / 10) hlt]
      simp [atoi_digits, hd, hsum]

theorem atoi_digits_print_nat (n : Nat) (rest : List Char) :
    atoi_digits (print_nat n ++ rest) 0 = atoi_digits rest n :=
  atoi_digits_decimal (n + 1) n (by omega) rest

theorem atoi_digits_nil (n : Nat) : atoi_digits [] n = n := rfl

theorem atoi_digits_stop (c : Char) (rest : List Char) (n : Nat) (h : digit_val c = none) :
    atoi_digits (c :: rest) n = n := by
  simp [atoi_digits, h]

/-- The value `atoi` reads off a printed non-negative number followed by anything. -/
theorem atoi_print_nat (n : Nat) (rest : List Char) :
    atoi (print_nat n ++ rest) = (atoi_digits rest n : Int) := by
  obtain ⟨c, tl, hctl⟩ := List.exists_cons_of_ne_nil (print_nat_ne_nil n)
  obtain ⟨d, hd, hc⟩ := print_nat_digits n c (by simp [hctl])
  have key := atoi_digits_print_nat n rest
  rw [hctl] at key ⊢
  subst hc
  have hsp : is_space (digit_char d) = false := digit_char_not_space d
  unfold atoi
  simp only [List.cons_append, List.dropWhile_cons, hsp]
  simp only [List.cons_append] at key
  interval_cases d <;> simp_all [digit_char]

theorem after_comma_digits (ds rest : List Char) (h : ∀ c ∈ ds, c ≠ ',') :
    after_comma (ds ++ rest) = after_comma rest := by
  induction ds with
  | nil => rfl
  | cons c ds ih =>
    have hc : c ≠ ',' := h c (by simp)
    simp only [List.cons_append, after_comma, hc, if_false]
    exact ih (fun c hc => h c (by simp [hc]))

theorem after_comma_print_nat (n : Nat) (rest : List Char) :
    after_comma (print_nat n ++ rest) = after_comma rest := by
  apply after_comma_digits
  intro c hc
  obtain ⟨d, _, rfl⟩ := print_nat_digits n c hc
  exact digit_char_ne_comma d

theorem print_d_of_nat (n : Nat) : print_d (n : Int) = String.mk (print_nat n) := rfl

theorem atoi_header_single (n : Nat) (ch : Char) (h : digit_val ch = none) :
    atoi (print_nat n ++ [ch]) = (n : Int) := by
  rw [atoi_print_nat, atoi_digits_stop _ _ _ h]

theorem atoi_header_range (n : Nat) (rest : List Char) :
    atoi (print_nat n ++ ',' :: rest) = (n : Int) := by
  rw [atoi_print_nat, atoi_digits_stop _ _ _ (by rfl)]

theorem after_comma_header_single (n : Nat) (ch : Char) (h : ch ≠ ',') :
    after_comma (print_nat n ++ [ch]) = none := by
  rw [after_comma_print_nat]
  simp [after_comma, h]

theorem after_comma_header_range (n : Nat) (rest : List Char) :
    after_comma (print_nat n ++ ',' :: rest) = some rest := by
  rw [after_comma_print_nat]
  simp [after_comma]

/-! ## Edit commands -/

theorem Command.lo_le_hi (c : Command) (h : c.wf) : c.lo ≤ c.hi := by
  cases c <;> simp only [Command.wf] at h <;> simp only [Command.lo, Command.hi, Command.stop]
    <;> omega

theorem Command.lines_length_pos (c : Command) : 0 < c.lines.length := by
  cases c <;> simp [Command.lines]

/-! ## Facts about the patch applier -/

theorem getElem?_length_append {α : Type} (pre : List α) (x : α) (rest : List α) :
    (pre ++ x :: rest)[pre.length]? = some x := by
  induction pre with
  | nil => simp
  | cons a pre ih => simpa using ih

theorem eraseIdx_take_drop (base : List String) (i n : Nat) (h : i + (n + 1) ≤ base.length) :
    (base.eraseIdx i).take i ++ (base.eraseIdx i).drop (i + n)
      = base.take i ++ base.drop (i + (n + 1)) := by
  have htl : (List.take i base).length = i := by
    rw [List.length_take]; omega
  rw [List.eraseIdx_eq_take_drop_succ]
  rw [List.take_append_of_le_length (by omega), List.take_take, Nat.min_self]
  rw [List.drop_append_eq_append_drop, htl]
  rw [List.drop_eq_nil_of_le (by omega), List.nil_append, List.drop_drop]
  congr 2
  omega

theorem delete_lines_spec (start : Int) (h1 : 1 ≤ start) :
    ∀ (n : Nat) (base : List String), (start - 1).toNat + n ≤ base.length →
      delete_lines start n base
        = some (base.take (start - 1).toNat ++ base.drop ((start - 1).toNat + n)) := by
  intro n
  induction n with
  | zero => intro base _; simp [delete_lines]
  | succ n ih =>
    intro base hb
    have hidx : ¬ (start - 1 < 0 ∨ (base.length : Int) ≤ start - 1) := by omega
    simp only [delete_lines, smartlist_del_keeporder, hidx, if_false, Option.bind_eq_bind,
      Option.some_bind]
    have hlt : (start - 1).toNat < base.length := by omega
    have hlen : (base.eraseIdx (start - 1).toNat).length = base.length - 1 := by
      rw [List.length_eraseIdx, if_pos hlt]
    rw [ih _ (by rw [hlen]; omega)]
    congr 1
    exact eraseIdx_take_drop base _ n hb

theorem insert_block_spec (diff_sl : List String) :
    ∀ (block pre : List String) (post P S : List String) (fuel : Nat),
      diff_sl = pre ++ block ++ "." :: post → "." ∉ block → block.length < fuel →
      insert_block diff_sl fuel (P ++ S) (P.length : Int) pre.length
        = some (P ++ block ++ S, pre.length + block.length) := by
  intro block
  induction block with
  | nil =>
    intro pre post P S fuel hd _ hf
    obtain ⟨fuel, rfl⟩ : ∃ k, fuel = k + 1 := ⟨fuel - 1, by simp at hf; omega⟩
    have hget : diff_sl[pre.length]? = some "." := by
      rw [hd, List.append_nil]; exact getElem?_length_append _ _ _
    simp [insert_block, hget]
  | cons b block ih =>
    intro pre post P S fuel hd hdot hf
    obtain ⟨fuel, rfl⟩ : ∃ k, fuel = k + 1 := ⟨fuel - 1, by simp at hf; omega⟩
    have hb : b ≠ "." := fun h => hdot (by simp [h])
    have hget : diff_sl[pre.length]? = some b := by
      rw [hd, List.append_assoc, List.cons_append]; exact getElem?_length_append _ _ _
    have hins : smartlist_insert (P ++ S) (P.length : Int) b = some ((P ++ [b]) ++ S) := by
      have h0 : ¬ ((P.length : Int) < 0 ∨ ((P ++ S).length : Int) < (P.length : Int)) := by
        simp
      simp [smartlist_insert, h0]
    simp only [insert_block, hget, Option.bind_eq_bind, Option.some_bind, ne_eq, hb,
      not_false_eq_true, if_true, hins]
    have := ih (pre ++ [b]) post (P ++ [b]) S fuel (by simp [hd])
      (fun h => hdot (by simp [h])) (by simp only [List.length_cons] at hf; omega)
    simp only [List.length_append, List.length_singleton, Nat.cast_add, Nat.cast_one] at this
    rw [this]
    simp
    omega

theorem getLast?_cons_concat {α : Type} (x : α) (l : List α) (a : α) :
    (x :: (l ++ [a])).getLast? = some a := by
  rw [← List.cons_append, List.getLast?_concat]

/-- What `apply_patch` reads off the header of a well-formed command: `start`, `end` and
the command letter. -/
theorem header_parse (c : Command) (h : c.wf) :
    atoi c.header.data = c.start
    ∧ header_end c.header.data (atoi c.header.data) = c.stop
    ∧ c.header.data.getLast? = some c.letter := by
  cases c with
  | append n b =>
    obtain ⟨k, rfl⟩ := Int.eq_ofNat_of_zero_le h.1
    have hd : (Command.append (k : Int) b).header.data = print_nat k ++ ['a'] := by
      simp [Command.header, print_d_of_nat]
    rw [header_end, hd, atoi_header_single k 'a' (by rfl), after_comma_header_single k 'a' (by decide)]
    simp [Command.start, Command.stop, Command.letter]
  | change1 n b =>
    obtain ⟨k, rfl⟩ := Int.eq_ofNat_of_zero_le (le_trans (by norm_num) h.1)
    have hd : (Command.change1 (k : Int) b).header.data = print_nat k ++ ['c'] := by
      simp [Command.header, print_d_of_nat]
    rw [header_end, hd, atoi_header_single k 'c' (by rfl), after_comma_header_single k 'c' (by decide)]
    simp [Command.start, Command.stop, Command.letter]
  | change n m b =>
    obtain ⟨k, rfl⟩ := Int.eq_ofNat_of_zero_le (le_trans (by norm_num) h.1)
    obtain ⟨j, rfl⟩ := Int.eq_ofNat_of_zero_le (le_trans (le_trans (by norm_num) h.1) h.2.1)
    have hd : (Command.change (k : Int) (j : Int) b).header.data
        = print_nat k ++ ',' :: (print_nat j ++ ['c']) := by
      simp [Command.header, print_d_of_nat]
    rw [header_end, hd, atoi_header_range, after_comma_header_range]
    simp only [atoi_header_single j 'c' (by rfl)]
    simp [Command.start, Command.stop, Command.letter, getLast?_cons_concat]
  | delete1 n =>
    obtain ⟨k, rfl⟩ := Int.eq_ofNat_of_zero_le (le_trans (by norm_num) h)
    have hd : (Command.delete1 (k : Int)).header.data = print_nat k ++ ['d'] := by
      simp [Command.header, print_d_of_nat]
    rw [header_end, hd, atoi_header_single k 'd' (by rfl), after_comma_header_single k 'd' (by decide)]
    simp [Command.start, Command.stop, Command.letter]
  | delete n m =>
    obtain ⟨k, rfl⟩ := Int.eq_ofNat_of_zero_le (le_trans (by norm_num) h.1)
    obtain ⟨j, rfl⟩ := Int.eq_ofNat_of_zero_le (le_trans (le_trans (by norm_num) h.1) h.2)
    have hd : (Command.delete (k : Int) (j : Int)).header.data
        = print_nat k ++ ',' :: (print_nat j ++ ['d']) := by
      simp [Command.header, print_d_of_nat]
    rw [header_end, hd, atoi_header_range, after_comma_header_range]
    simp only [atoi_header_single j 'd' (by rfl)]
    simp [Command.start, Command.stop, Command.letter, getLast?_cons_concat]

theorem Command.lines_eq (c : Command) : ∃ tail, c.lines = c.header :: tail := by
  cases c <;> exact ⟨_, rfl⟩

theorem take_append_drop_le (base : List String) (lo : Nat) (h : lo ≤ base.length) :
    (base.take lo).length = lo := by
  rw [List.length_take]; omega

theorem insert_after_header (D pre post : List String) (hdr : String) (b : List String)
    (hD : D = pre ++ (hdr :: (b ++ ["."])) ++ post) (hdot : "." ∉ b)
    (base : List String) (lo : Nat) (hlo : lo ≤ base.length) (start : Int)
    (hs : start = (lo : Int)) :
    insert_block D (D.length + 1) base start (pre.length + 1)
      = some (base.take lo ++ b ++ base.drop lo, pre.length + 1 + b.length) := by
  have key := insert_block_spec D b (pre ++ [hdr]) post (base.take lo) (base.drop lo)
    (D.length + 1) (by simp [hD]) hdot (by simp [hD]; omega)
  rw [take_append_drop_le base lo hlo, List.take_append_drop] at key
  simp only [List.length_append, List.length_singleton] at key
  rw [hs]
  exact key

theorem take_drop_splice (base b : List String) (lo hi : Nat) (h1 : lo ≤ hi)
    (h2 : hi ≤ base.length) :
    (base.take lo ++ base.drop hi).take lo ++ b ++ (base.take lo ++ base.drop hi).drop lo
      = base.take lo ++ b ++ base.drop hi := by
  have hl : (base.take lo).length = lo := take_append_drop_le base lo (by omega)
  rw [List.take_append_of_le_length (by omega), List.take_take, Nat.min_self,
    List.drop_append_of_le_length (by omega), List.drop_eq_nil_of_le (by omega),
    List.nil_append]

theorem delete_range (base : List String) (start stop : Int) (h1 : 1 ≤ start)
    (h2 : start ≤ stop) (hb : stop.toNat ≤ base.length) :
    delete_lines start (stop - (start - 1)).toNat base
      = some (base.take (start - 1).toNat ++ base.drop stop.toNat) := by
  have hk : (start - 1).toNat + (stop - (start - 1)).toNat = stop.toNat := by omega
  rw [delete_lines_spec start h1 _ base (by omega), hk]

theorem change_range (D pre post : List String) (hdr : String) (b : List String)
    (hD : D = pre ++ (hdr :: (b ++ ["."])) ++ post) (hdot : "." ∉ b)
    (base : List String) (start stop : Int) (h1 : 1 ≤ start) (h2 : start ≤ stop)
    (hb : stop.toNat ≤ base.length) :
    ((delete_lines start (stop - (start - 1)).toNat base).bind fun a =>
        insert_block D (D.length + 1) a (start - 1) (pre.length + 1))
      = some (base.take (start - 1).toNat ++ b ++ base.drop stop.toNat,
          pre.length + 1 + b.length) := by
  rw [delete_range base start stop h1 h2 hb, Option.some_bind]
  have hlo : (start - 1).toNat ≤ stop.toNat := by omega
  have hb2 : (start - 1).toNat
      ≤ (base.take (start - 1).toNat ++ base.drop stop.toNat).length := by
    rw [List.length_append, take_append_drop_le base _ (by omega)]; omega
  rw [insert_after_header D pre post hdr b hD hdot _ (start - 1).toNat hb2 (start - 1)
    (by omega), take_drop_splice base b _ _ hlo hb]

/-- One pass of the loop of `apply_patch` over a well-formed command that is in bounds:
the base becomes `effect` of it and the index moves behind the command's lines. -/
theorem apply_commands_step (c : Command) (hwf : c.wf) (pre post base : List String)
    (hb : c.hi ≤ base.length) (fuel : Nat) :
    apply_commands (pre ++ c.lines ++ post) (fuel + 1) base pre.length
      = apply_commands (pre ++ c.lines ++ post) fuel (c.effect base)
          (pre.length + c.lines.length) := by
  obtain ⟨hstart, hstop, hletter⟩ := header_parse c hwf
  rw [hstart] at hstop
  obtain ⟨tail, htail⟩ := c.lines_eq
  have hget : (pre ++ c.lines ++ post)[pre.length]? = some c.header := by
    rw [htail, List.append_assoc, List.cons_append]; exact getElem?_length_append _ _ _
  have hidx : pre.length < (pre ++ c.lines ++ post).length := by
    have := c.lines_length_pos
    simp only [List.length_append]; omega
  generalize hD : pre ++ c.lines ++ post = D at hget hidx ⊢
  replace hD := hD.symm
  rw [apply_commands]
  simp only [hidx, if_true, hget, Option.bind_eq_bind, Option.some_bind, hstart, hstop, hletter]
  clear hstart hstop hletter hget hidx htail
  cases c with
  | append n b =>
    obtain ⟨h0, hdot⟩ := hwf
    simp only [Command.hi, Command.stop] at hb
    have key := insert_after_header D pre post _ b hD hdot base n.toNat hb n (by omega)
    have hlen : (Command.append n b).lines.length = b.length + 1 + 1 := by
      simp [Command.lines]
    simp only [Command.letter, Command.start, Char.reduceEq, or_false, false_or, if_false,
      if_true, key, Option.pure_def, Option.some_bind, hlen, Command.effect, Command.lo,
      Command.hi, Command.stop, Command.block]
    congr 1
    omega
  | change1 n b =>
    obtain ⟨h1, hdot⟩ := hwf
    simp only [Command.hi, Command.stop] at hb
    have key := change_range D pre post _ b hD hdot base n n h1 (le_refl _) hb
    have hlen : (Command.change1 n b).lines.length = b.length + 1 + 1 := by
      simp [Command.lines]
    simp only [Command.letter, Command.start, Command.stop, Char.reduceEq, or_false, false_or,
      true_or, or_true, if_false, if_true, hlen, Command.effect, Command.lo,
      Command.hi, Command.stop, Command.block]
    rw [← Option.bind_assoc, key, Option.some_bind]
    congr 1
    omega
  | change n m b =>
    obtain ⟨h1, h2, hdot⟩ := hwf
    simp only [Command.hi, Command.stop] at hb
    have key := change_range D pre post _ b hD hdot base n m h1 h2 hb
    have hlen : (Command.change n m b).lines.length = b.length + 1 + 1 := by
      simp [Command.lines]
    simp only [Command.letter, Command.start, Command.stop, Char.reduceEq, or_false, false_or,
      true_or, or_true, if_false, if_true, hlen, Command.effect, Command.lo,
      Command.hi, Command.stop, Command.block]
    rw [← Option.bind_assoc, key, Option.some_bind]
    congr 1
    omega
  | delete1 n =>
    simp only [Command.hi, Command.stop, Command.wf] at hb hwf
    have key := delete_range base n n hwf (le_refl _) hb
    simp only [Command.letter, Command.start, Command.stop, Char.reduceEq, or_false, false_or,
      true_or, or_true, if_false, if_true, key, Option.some_bind, Command.effect, Command.lo,
      Command.hi, Command.stop, Command.block, Command.lines, List.length_singleton,
      List.append_nil]
  | delete n m =>
    simp only [Command.hi, Command.stop, Command.wf] at hb hwf
    have key := delete_range base n m hwf.1 hwf.2 hb
    simp only [Command.letter, Command.start, Command.stop, Char.reduceEq, or_false, false_or,
      true_or, or_true, if_false, if_true, key, Option.some_bind, Command.effect, Command.lo,
      Command.hi, Command.stop, Command.block, Command.lines, List.length_singleton,
      List.append_nil]

theorem Applicable.mono : ∀ (cmds : List Command) (a b : Nat), a ≤ b →
    Applicable cmds a → Applicable cmds b := by
  intro cmds a b hab h
  cases cmds with
  | nil => trivial
  | cons c rest => exact ⟨h.1, le_trans h.2.1 hab, h.2.2⟩

theorem Command.effect_length (c : Command) (base : List String) (h : c.lo ≤ base.length) :
    c.lo ≤ (c.effect base).length := by
  simp only [Command.effect, List.length_append, List.length_take]
  omega

theorem render_length (cmds : List Command) : cmds.length ≤ (render cmds).length := by
  induction cmds with
  | nil => simp [render]
  | cons c rest ih =>
    have := c.lines_length_pos
    simp only [render, List.length_append, List.length_cons]
    omega

/-- The loop of `apply_patch` run over the lines of a replayable command list does what
the commands say, one after the other. -/
theorem apply_commands_render : ∀ (cmds : List Command) (pre base : List String) (fuel : Nat),
    Applicable cmds base.length → cmds.length < fuel →
      apply_commands (pre ++ render cmds) fuel base pre.length = some (effects cmds base) := by
  intro cmds
  induction cmds with
  | nil =>
    intro pre base fuel _ hf
    obtain ⟨fuel, rfl⟩ : ∃ k, fuel = k + 1 := ⟨fuel - 1, by simp at hf; omega⟩
    simp [render, apply_commands, effects]
  | cons c rest ih =>
    intro pre base fuel happ hf
    obtain ⟨fuel, rfl⟩ : ∃ k, fuel = k + 1 := ⟨fuel - 1, by simp at hf; omega⟩
    obtain ⟨hwf, hhi, hrest⟩ := happ
    have hlo := c.lo_le_hi hwf
    have hstep := apply_commands_step c hwf pre (render rest) base hhi fuel
    simp only [render, ← List.append_assoc]
    rw [hstep]
    have := ih (pre ++ c.lines) (c.effect base) fuel
      (Applicable.mono rest _ _ (c.effect_length base (by omega)) hrest)
      (by simp only [List.length_cons] at hf; omega)
    rw [List.length_append] at this
    rw [this]
    rfl

/-- The result of `apply_patch` on the lines of a replayable command list. -/
theorem apply_patch_render (cmds : List Command) (base : List String)
    (h : Applicable cmds base.length) :
    apply_patch base (render cmds) = some (effects cmds base) := by
  have := apply_commands_render cmds [] base ((render cmds).length + 1) h
    (by have := render_length cmds; omega)
  simpa [apply_patch] using this

/-! ## Replacing all addressed ranges at once -/

theorem Applicable.bounds : ∀ (cmds : List Command) (bound : Nat), Applicable cmds bound →
    ∀ c ∈ cmds, c.lo ≤ c.hi ∧ c.hi ≤ bound := by
  intro cmds
  induction cmds with
  | nil => intro _ _ c hc; simp at hc
  | cons a rest ih =>
    intro bound h c hc
    obtain ⟨hwf, hhi, hrest⟩ := h
    have hlo := a.lo_le_hi hwf
    rcases List.mem_cons.mp hc with rfl | hc
    · exact ⟨hlo, hhi⟩
    · have := ih a.lo hrest c hc
      exact ⟨this.1, by omega⟩

theorem Applicable.of_descending : ∀ (cmds : List Command) (bound : Nat),
    (∀ c ∈ cmds, c.wf ∧ c.hi ≤ bound) → Descending cmds → Applicable cmds bound := by
  intro cmds
  induction cmds with
  | nil => intro _ _ _; trivial
  | cons a rest ih =>
    intro bound hall hdesc
    obtain ⟨hhead, htail⟩ := List.pairwise_cons.mp hdesc
    refine ⟨(hall a (by simp)).1, (hall a (by simp)).2, ih a.lo ?_ htail⟩
    intro c hc
    exact ⟨(hall c (by simp [hc])).1, hhead c hc⟩

theorem replace_ranges_concat (X : List String) (c : Command) :
    ∀ (cmds : List Command) (pos : Nat), (∀ a ∈ cmds, a.lo ≤ c.lo) →
      replace_ranges X (cmds ++ [c]) pos
        = replace_ranges (X.take c.lo) cmds pos ++ c.block ++ X.drop c.hi := by
  intro cmds
  induction cmds with
  | nil =>
    intro pos _
    simp [replace_ranges, List.drop_take]
  | cons a rest ih =>
    intro pos h
    have ha : a.lo ≤ c.lo := h a (by simp)
    rw [List.cons_append]
    simp only [replace_ranges]
    rw [ih a.hi (fun b hb => h b (by simp [hb]))]
    rw [List.drop_take, List.take_take, Nat.min_eq_left (by omega)]
    simp only [List.append_assoc]

/-- Replaying a replayable command list gives the same lines as replacing all its ranges
at once; lines behind the untouched part `X` are carried along. -/
theorem effects_eq_replace_ranges : ∀ (cmds : List Command) (X Z : List String),
    Applicable cmds X.length →
      effects cmds (X ++ Z) = replace_ranges X cmds.reverse 0 ++ Z := by
  intro cmds
  induction cmds with
  | nil => intro X Z _; simp [effects, replace_ranges]
  | cons c rest ih =>
    intro X Z h
    obtain ⟨hwf, hhi, hrest⟩ := h
    have hlo := c.lo_le_hi hwf
    have hl : (X.take c.lo).length = c.lo := take_append_drop_le X c.lo (by omega)
    have hstep : c.effect (X ++ Z) = X.take c.lo ++ (c.block ++ X.drop c.hi ++ Z) := by
      simp only [Command.effect]
      rw [List.take_append_of_le_length (by omega), List.drop_append_of_le_length hhi]
      simp only [List.append_assoc]
    have hbound := Applicable.bounds rest c.lo hrest
    simp only [effects, List.foldl_cons] at ih ⊢
    rw [hstep, ih (X.take c.lo) _ (by rw [hl]; exact hrest), List.reverse_cons,
      replace_ranges_concat X c rest.reverse 0
        (fun a ha => by have := hbound a (List.mem_reverse.mp ha); omega)]
    simp only [List.append_assoc]

/-! ## The commands behind the script of `make_diff` -/

theorem add_range_acc (src : List String) : ∀ (n : Nat) (i : Int) (acc : List String),
    add_range src n i acc = (add_range src n i []).map (fun block => acc ++ block) := by
  intro n
  induction n with
  | zero => intro i acc; simp [add_range]
  | succ n ih =>
    intro i acc
    simp only [add_range, Option.bind_eq_bind]
    cases h : arr_get src i with
    | none => simp
    | some line =>
      simp only [Option.some_bind, List.nil_append]
      rw [ih (i + 1) (acc ++ [line]), ih (i + 1) [line]]
      cases add_range src n (i + 1) [] <;> simp

theorem add_range_slice (src : List String) : ∀ (n q : Nat), q + n ≤ src.length →
    add_range src n (q : Int) [] = some ((src.drop q).take n) := by
  intro n
  induction n with
  | zero => intro q _; simp [add_range]
  | succ n ih =>
    intro q h
    have hq : q < src.length := by omega
    have hnext : ((q : Int) + 1) = ((q + 1 : Nat) : Int) := by push_cast; rfl
    simp only [add_range, arr_get_of_nat, List.getElem?_eq_getElem hq, Option.bind_eq_bind,
      Option.some_bind, List.nil_append]
    rw [add_range_acc, hnext, ih (q + 1) (by omega)]
    simp only [Option.map_some']
    rw [List.drop_eq_getElem_cons hq, List.take_succ_cons]
    rfl

/-- The lines `diff_add_next_command` appends are the lines of the command read off by
`next_command`. -/
theorem diff_add_next_command_eq (diff_sl : List String) (remove_start remove_end : Int)
    (new_sl : List String) (insert_start insert_end : Int) :
    diff_add_next_command diff_sl remove_start remove_end new_sl insert_start insert_end
      = (next_command remove_start remove_end new_sl insert_start insert_end).map
          (fun command => diff_sl ++ render command.toList) := by
  unfold diff_add_next_command next_command
  by_cases hins : insert_start ≤ insert_end
  · simp only [hins, if_true, Option.bind_eq_bind, Option.pure_def]
    by_cases h1 : remove_start < remove_end
    · simp only [h1, if_true]
      rw [add_range_acc]
      cases add_range new_sl (insert_end - insert_start + 1).toNat insert_start []
        <;> simp [render, Command.lines, Command.header]
    · by_cases h2 : remove_start = remove_end
      · simp only [h1, h2, if_true, if_false]
        rw [add_range_acc]
        cases add_range new_sl (insert_end - insert_start + 1).toNat insert_start []
          <;> simp [render, Command.lines, Command.header]
      · simp only [h1, h2, if_false]
        rw [add_range_acc]
        cases add_range new_sl (insert_end - insert_start + 1).toNat insert_start []
          <;> simp [render, Command.lines, Command.header]
  · simp only [hins, if_false, Option.pure_def]
    by_cases h1 : remove_start < remove_end
    · simp [h1, render, Command.lines, Command.header]
    · by_cases h2 : remove_start = remove_end
      · simp [h2, render, Command.lines, Command.header]
      · simp [h1, h2, render]

theorem render_append (a b : List Command) : render (a ++ b) = render a ++ render b := by
  induction a with
  | nil => rfl
  | cons c a ih => simp [render, ih]

/-- The script of `make_diff` is the rendering of the commands of
`make_diff_commands_loop`, behind what was written before. -/
theorem make_diff_loop_eq (old_sl new_sl : List String) :
    ∀ (cs : List String) (w : Walk),
      ((make_diff_loop old_sl new_sl cs w).bind fun w =>
          diff_add_next_command w.diff_sl 0 w.remove_end new_sl 0 w.insert_end)
        = (make_diff_commands_loop old_sl new_sl cs w.remove_end w.insert_end).map
            (fun cmds => w.diff_sl ++ render cmds) := by
  intro cs
  induction cs with
  | nil =>
    intro w
    simp only [make_diff_loop, Option.some_bind, make_diff_commands_loop,
      diff_add_next_command_eq, Option.bind_eq_bind, Option.pure_def]
    cases next_command 0 w.remove_end new_sl 0 w.insert_end <;> simp
  | cons c rest ih =>
    intro w
    simp only [make_diff_loop, make_diff_commands_loop, Option.bind_eq_bind, Option.pure_def]
    rcases hrs : scan_back old_sl c (w.remove_end.toNat + 2) w.remove_end with _ | rs
    · simp
    rcases his : scan_back new_sl c (w.insert_end.toNat + 2) w.insert_end with _ | is
    · simp
    simp only [Option.some_bind, diff_add_next_command_eq (w.diff_sl)]
    rcases hcmd : next_command (rs + 1) w.remove_end new_sl (is + 1) w.insert_end with _ | command
    · simp
    simp only [Option.some_bind, Option.map_some']
    rw [ih]
    cases make_diff_commands_loop old_sl new_sl rest (rs + 1 - 2) (is + 1 - 2)
      <;> simp [render_append]

theorem make_diff_with_eq (old_sl new_sl common_subsequence : List String) :
    make_diff_with old_sl new_sl common_subsequence
      = (make_diff_commands old_sl new_sl common_subsequence).map render := by
  have := make_diff_loop_eq old_sl new_sl common_subsequence.reverse
    { diff_sl := [], remove_end := (old_sl.length : Int) - 1,
      insert_end := (new_sl.length : Int) - 1 }
  simpa [make_diff_with, make_diff_commands] using this

/-! ## Facts about the backward scans -/

/-- A scan that comes back found its line at an index between 0 and where it began. -/
theorem scan_back_bounds (sl : List String) (cs : String) : ∀ (fuel : Nat) (start p : Int),
    scan_back sl cs fuel start = some p → 0 ≤ p ∧ p ≤ start ∧ arr_get sl p = some cs := by
  intro fuel
  induction fuel with
  | zero => intro start p h; simp [scan_back] at h
  | succ fuel ih =>
    intro start p h
    simp only [scan_back, Option.bind_eq_bind] at h
    rcases hline : arr_get sl start with _ | line
    · simp [hline] at h
    · simp only [hline, Option.some_bind] at h
      by_cases hne : line = cs
      · simp only [hne, ne_eq, not_true_eq_false, if_false, Option.pure_def,
          Option.some.injEq] at h
        subst h
        have h0 : ¬ start < 0 := by
          intro hneg
          simp [arr_get, hneg] at hline
        exact ⟨by omega, le_refl _, by rw [hline, hne]⟩
      · simp only [ne_eq, hne, not_false_eq_true, if_true] at h
        have := ih (start - 1) p h
        exact ⟨this.1, by omega, this.2.2⟩

/-- A scan that begins on the lines `B` behind the last occurrence of its line stops on
that occurrence. -/
theorem scan_back_find (cs : String) (A : List String) :
    ∀ (B R : List String) (fuel : Nat), cs ∉ B → B.length < fuel →
      scan_back (A ++ cs :: B ++ R) cs fuel ((A.length + B.length : Nat) : Int)
        = some (A.length : Int) := by
  intro B
  induction B using List.reverseRecOn with
  | nil =>
    intro R fuel _ hf
    obtain ⟨fuel, rfl⟩ : ∃ k, fuel = k + 1 := ⟨fuel - 1, by simp at hf; omega⟩
    have hget : (A ++ cs :: [] ++ R)[A.length]? = some cs := by
      rw [List.append_assoc, List.cons_append]; exact getElem?_length_append _ _ _
    have hidx : ((A.length + ([] : List String).length : Nat) : Int) = (A.length : Int) := by
      simp
    rw [hidx]
    simp only [scan_back, arr_get_of_nat, hget, Option.bind_eq_bind, Option.some_bind, ne_eq,
      not_true_eq_false, if_false, Option.pure_def]
  | append_singleton B b ih =>
    intro R fuel hmem hf
    obtain ⟨fuel, rfl⟩ : ∃ k, fuel = k + 1 := ⟨fuel - 1, by omega⟩
    have hb : b ≠ cs := fun h => hmem (by simp [h])
    have hsl : A ++ cs :: (B ++ [b]) ++ R = (A ++ cs :: B) ++ b :: R := by simp
    have hlen : A.length + (B ++ [b]).length = (A ++ cs :: B).length := by
      simp
    have hget : (A ++ cs :: (B ++ [b]) ++ R)[A.length + (B ++ [b]).length]? = some b := by
      rw [hsl, hlen]; exact getElem?_length_append _ _ _
    have hprev : (((A.length + (B ++ [b]).length : Nat) : Int) - 1)
        = ((A.length + B.length : Nat) : Int) := by
      simp only [List.length_append, List.length_singleton]
      omega
    simp only [scan_back, arr_get_of_nat, hget, Option.bind_eq_bind, Option.some_bind, ne_eq,
      hb, not_false_eq_true, if_true, hprev]
    have := ih (b :: R) fuel (fun h => hmem (by simp [h]))
      (by simp only [List.length_append, List.length_singleton] at hf; omega)
    rw [hsl]
    simpa using this

theorem exists_last_occurrence (cs : String) (L : List String) (h : cs ∈ L) :
    ∃ A B, L = A ++ cs :: B ∧ cs ∉ B := by
  obtain ⟨as, bs, hL, hnot⟩ := List.eq_append_cons_of_mem (List.mem_reverse.mpr h)
  refine ⟨bs.reverse, as.reverse, ?_, by simpa using hnot⟩
  have := congrArg List.reverse hL
  simpa using this

theorem sublist_behind (cs : String) (P A : List String) :
    ∀ B : List String, cs ∉ B → (cs :: P).Sublist (B ++ cs :: A) → P.Sublist A := by
  intro B
  induction B with
  | nil =>
    intro _ h
    exact List.Sublist.of_cons_cons h
  | cons b B ih =>
    intro hmem h
    have hb : cs ≠ b := fun hb => hmem (by simp [hb])
    rw [List.cons_append] at h
    cases h with
    | cons _ h => exact ih (fun hm => hmem (by simp [hm])) h
    | cons₂ _ h => exact absurd rfl hb

/-- When a subsequence ends with `cs`, what is in front of that `cs` is a subsequence of
what is in front of the last occurrence of `cs`. -/
theorem sublist_before_last (cs : String) (P A B : List String) (hB : cs ∉ B)
    (h : (P ++ [cs]).Sublist (A ++ cs :: B)) : P.Sublist A := by
  have hr := h.reverse
  simp only [List.reverse_append, List.reverse_cons, List.reverse_nil, List.nil_append,
    List.singleton_append, List.append_assoc] at hr
  have := sublist_behind cs P.reverse A.reverse B.reverse (by simpa using hB) hr
  simpa using this.reverse

/-! ## Facts about the script builder -/

/-- What `next_command` gives for a gap: remove the old lines `lo .. hi-1` (0-based) and
insert the new lines `q .. i-1`. -/
theorem next_command_spec (new_sl : List String) (hdot : "." ∉ new_sl) (lo hi q i : Nat)
    (hlh : lo ≤ hi) (hqi : q ≤ i) (hi' : i ≤ new_sl.length) :
    ∃ oc, next_command (lo : Int) ((hi : Int) - 1) new_sl (q : Int) ((i : Int) - 1) = some oc
      ∧ (∀ c, oc = some c →
          c.wf ∧ c.lo = lo ∧ c.hi = hi ∧ c.block = (new_sl.take i).drop q)
      ∧ (oc = none → lo = hi ∧ q = i) := by
  unfold next_command
  by_cases hins : (q : Int) ≤ (i : Int) - 1
  · have hn : ((i : Int) - 1 - (q : Int) + 1).toNat = i - q := by omega
    have hblock : add_range new_sl (i - q) (q : Int) [] = some ((new_sl.take i).drop q) := by
      rw [add_range_slice new_sl (i - q) q (by omega), List.drop_take]
    have hnodot : "." ∉ (new_sl.take i).drop q := fun h =>
      hdot (List.mem_of_mem_take (List.mem_of_mem_drop h))
    simp only [hins, if_true, hn, hblock, Option.bind_eq_bind, Option.some_bind, Option.pure_def]
    by_cases h1 : (lo : Int) < (hi : Int) - 1
    · rw [if_pos h1]
      refine ⟨_, rfl, ?_, by simp⟩
      intro c hc
      simp only [Option.some.injEq] at hc
      subst hc
      refine ⟨⟨by omega, by omega, hnodot⟩, ?_, ?_, rfl⟩
      · simp only [Command.lo]; omega
      · simp only [Command.hi, Command.stop]; omega
    · by_cases h2 : (lo : Int) = (hi : Int) - 1
      · rw [if_neg h1, if_pos h2]
        refine ⟨_, rfl, ?_, by simp⟩
        intro c hc
        simp only [Option.some.injEq] at hc
        subst hc
        refine ⟨⟨by omega, hnodot⟩, ?_, ?_, rfl⟩
        · simp only [Command.lo]; omega
        · simp only [Command.hi, Command.stop]; omega
      · rw [if_neg h1, if_neg h2]
        refine ⟨_, rfl, ?_, by simp⟩
        intro c hc
        simp only [Option.some.injEq] at hc
        subst hc
        refine ⟨⟨by omega, hnodot⟩, ?_, ?_, rfl⟩
        · simp only [Command.lo]; omega
        · simp only [Command.hi, Command.stop]; omega
  · have hq : q = i := by omega
    have hempty : (new_sl.take i).drop q = [] := by
      rw [hq]; exact List.drop_eq_nil_of_le (by rw [List.length_take]; omega)
    simp only [hins, if_false, Option.pure_def]
    by_cases h1 : (lo : Int) < (hi : Int) - 1
    · rw [if_pos h1]
      refine ⟨_, rfl, ?_, by simp⟩
      intro c hc
      simp only [Option.some.injEq] at hc
      subst hc
      refine ⟨⟨by omega, by omega⟩, ?_, ?_, by rw [hempty]; rfl⟩
      · simp only [Command.lo]; omega
      · simp only [Command.hi, Command.stop]; omega
    · by_cases h2 : (lo : Int) = (hi : Int) - 1
      · rw [if_neg h1, if_pos h2]
        refine ⟨_, rfl, ?_, by simp⟩
        intro c hc
        simp only [Option.some.injEq] at hc
        subst hc
        refine ⟨by simp only [Command.wf]; omega, ?_, ?_, by rw [hempty]; rfl⟩
        · simp only [Command.lo]; omega
        · simp only [Command.hi, Command.stop]; omega
      · rw [if_neg h1, if_neg h2]
        refine ⟨none, rfl, by simp, ?_⟩
        intro _
        exact ⟨by omega, hq⟩

/-- The command of a gap, replayed on a base that still has its first `hi` lines. -/
theorem effects_of_gap (oc : Option Command) (lo hi : Nat) (block base : List String)
    (hsome : ∀ c, oc = some c → c.wf ∧ c.lo = lo ∧ c.hi = hi ∧ c.block = block)
    (hnone : oc = none → lo = hi ∧ block = []) :
    effects oc.toList base = base.take lo ++ block ++ base.drop hi := by
  cases oc with
  | none =>
    obtain ⟨h1, h2⟩ := hnone rfl
    simp [effects, h1, h2]
  | some c =>
    obtain ⟨_, h1, h2, h3⟩ := hsome c rfl
    simp [effects, Command.effect, h1, h2, h3]

theorem applicable_of_gap (oc : Option Command) (lo hi : Nat) (block : List String)
    (later : List Command) (bound : Nat) (hbound : bound ≤ lo) (hlh : lo ≤ hi)
    (hsome : ∀ c, oc = some c → c.wf ∧ c.lo = lo ∧ c.hi = hi ∧ c.block = block)
    (hlater : Applicable later bound) :
    Applicable (oc.toList ++ later) hi := by
  cases oc with
  | none => exact Applicable.mono later _ _ (by omega) hlater
  | some c =>
    obtain ⟨hwf, h1, h2, _⟩ := hsome c rfl
    exact ⟨hwf, by omega, Applicable.mono later _ _ (by omega) hlater⟩

theorem effects_append (a b : List Command) (base : List String) :
    effects (a ++ b) base = effects b (effects a base) := by
  simp [effects, List.foldl_append]

theorem drop_take_append (l Z : List String) (r : Nat) (h : r ≤ l.length) :
    (l.take r ++ Z).drop r = Z := by
  have hlen : (l.take r).length = r := take_append_drop_le l r h
  have h2 : List.drop r (l.take r) = [] := List.drop_eq_nil_of_le (by omega)
  rw [List.drop_append_of_le_length (by omega), h2, List.nil_append]

/-- The walk of `make_diff` from a state in which `r` old lines and `i` new lines are
still in front of the cursors, for a (reversed) list `cs` that is a common subsequence of
those lines: it completes, its commands can be replayed, and replaying them turns the
first `r` old lines into the first `i` new lines. -/
theorem make_diff_commands_loop_spec (old_sl new_sl : List String) (hdot : "." ∉ new_sl) :
    ∀ (cs : List String) (r i : Nat), r ≤ old_sl.length → i ≤ new_sl.length →
      cs.reverse.Sublist (old_sl.take r) → cs.reverse.Sublist (new_sl.take i) →
      ∃ cmds, make_diff_commands_loop old_sl new_sl cs ((r : Int) - 1) ((i : Int) - 1)
          = some cmds
        ∧ Applicable cmds r
        ∧ ∀ Z, effects cmds (old_sl.take r ++ Z) = new_sl.take i ++ Z := by
  intro cs
  induction cs with
  | nil =>
    intro r i hr hi _ _
    obtain ⟨oc, hoc, hsome, hnone⟩ := next_command_spec new_sl hdot 0 r 0 i (Nat.zero_le _)
      (Nat.zero_le _) hi
    simp only [Nat.cast_zero] at hoc
    refine ⟨oc.toList, by simp [make_diff_commands_loop, hoc], ?_, ?_⟩
    · have := applicable_of_gap oc 0 r _ [] 0 (le_refl _) (Nat.zero_le _) hsome trivial
      simpa using this
    · intro Z
      have hlen : (old_sl.take r).length = r := take_append_drop_le old_sl r hr
      rw [effects_of_gap oc 0 r ((new_sl.take i).drop 0) _ hsome (fun h => by
        obtain ⟨h1, h2⟩ := hnone h
        subst h1 h2
        simp)]
      have hdrop : (old_sl.take r ++ Z).drop r = Z := by
        exact drop_take_append old_sl Z r hr
      rw [hdrop]
      simp
  | cons c rest ih =>
    intro r i hr hi hold hnew
    rw [List.reverse_cons] at hold hnew
    have hlenr : (old_sl.take r).length = r := take_append_drop_le old_sl r hr
    have hleni : (new_sl.take i).length = i := take_append_drop_le new_sl i hi
    obtain ⟨A, B, hAB, hB⟩ := exists_last_occurrence c (old_sl.take r)
      (hold.subset (by simp))
    obtain ⟨A', B', hAB', hB'⟩ := exists_last_occurrence c (new_sl.take i)
      (hnew.subset (by simp))
    have hr' : r = A.length + 1 + B.length := by
      rw [← hlenr, hAB]; simp; omega
    have hi'' : i = A'.length + 1 + B'.length := by
      rw [← hleni, hAB']; simp; omega
    -- the two scans stop on the last occurrences
    have hold_eq : old_sl = A ++ c :: B ++ old_sl.drop r := by
      rw [← hAB, List.take_append_drop]
    have hnew_eq : new_sl = A' ++ c :: B' ++ new_sl.drop i := by
      rw [← hAB', List.take_append_drop]
    have hscan_old : scan_back old_sl c (((r : Int) - 1).toNat + 2) ((r : Int) - 1)
        = some (A.length : Int) := by
      have := scan_back_find c A B (old_sl.drop r) (((r : Int) - 1).toNat + 2) hB (by omega)
      rw [← hold_eq] at this
      rw [← this]
      congr 1
      omega
    have hscan_new : scan_back new_sl c (((i : Int) - 1).toNat + 2) ((i : Int) - 1)
        = some (A'.length : Int) := by
      have := scan_back_find c A' B' (new_sl.drop i) (((i : Int) - 1).toNat + 2) hB' (by omega)
      rw [← hnew_eq] at this
      rw [← this]
      congr 1
      omega
    -- the command of this gap
    obtain ⟨oc, hoc, hsome, hnone⟩ := next_command_spec new_sl hdot (A.length + 1) r
      (A'.length + 1) i (by omega) (by omega) hi
    -- the rest of the walk
    have htakeA : old_sl.take A.length = A := by
      have := congrArg (List.take A.length) hAB
      rw [List.take_take, Nat.min_eq_left (by omega)] at this
      rw [this]; simp
    have htakeA' : new_sl.take A'.length = A' := by
      have := congrArg (List.take A'.length) hAB'
      rw [List.take_take, Nat.min_eq_left (by omega)] at this
      rw [this]; simp
    obtain ⟨later, hlater, happ, heff⟩ := ih A.length A'.length (by omega) (by omega)
      (by rw [htakeA]; exact sublist_before_last c _ A B hB (hAB ▸ hold))
      (by rw [htakeA']; exact sublist_before_last c _ A' B' hB' (hAB' ▸ hnew))
    have hcast1 : ((A.length : Int) + 1) = ((A.length + 1 : Nat) : Int) := by push_cast; rfl
    have hcast2 : ((A'.length : Int) + 1) = ((A'.length + 1 : Nat) : Int) := by push_cast; rfl
    have hback1 : ((A.length : Int) + 1 - 2) = (A.length : Int) - 1 := by omega
    have hback2 : ((A'.length : Int) + 1 - 2) = (A'.length : Int) - 1 := by omega
    refine ⟨oc.toList ++ later, ?_, ?_, ?_⟩
    · simp only [make_diff_commands_loop, hscan_old, hscan_new, Option.bind_eq_bind,
        Option.some_bind, hback1, hback2, hlater, Option.pure_def]
      rw [hcast1, hcast2, hoc]
      rfl
    · exact applicable_of_gap oc (A.length + 1) r _ later A.length (by omega) (by omega)
        hsome happ
    · intro Z
      have hblock : (new_sl.take i).drop (A'.length + 1) = B' := by
        rw [hAB']
        have : A' ++ c :: B' = (A' ++ [c]) ++ B' := by simp
        rw [this, List.drop_append_of_le_length (by simp), List.drop_eq_nil_of_le (by simp)]
        simp
      rw [effects_append, effects_of_gap oc (A.length + 1) r B' _
        (fun c hc => by rw [← hblock]; exact hsome c hc)
        (fun h => by
          obtain ⟨h1, h2⟩ := hnone h
          rw [← hblock, h2]
          exact ⟨h1, List.drop_eq_nil_of_le (by omega)⟩)]
      have htake : (old_sl.take r ++ Z).take (A.length + 1) = A ++ [c] := by
        rw [hAB]
        have : A ++ c :: B ++ Z = (A ++ [c]) ++ (B ++ Z) := by simp
        rw [this, List.take_append_of_le_length (by simp), List.take_of_length_le (by simp)]
      have hdrop : (old_sl.take r ++ Z).drop r = Z := by
        exact drop_take_append old_sl Z r hr
      rw [htake, hdrop]
      have := heff ([c] ++ B' ++ Z)
      rw [htakeA, htakeA'] at this
      simp only [List.append_assoc] at this ⊢
      rw [this, hAB']
      simp

/-! ## The engine on identical sequences -/

theorem forward_snake_same (H : List Nat) (m : Nat) : ∀ (n k : Nat), k + n = H.length →
    forward_snake (same_frame H m) (n + 1) (k : Int) (k : Int)
      = some ((H.length : Int), (H.length : Int)) := by
  intro n
  induction n with
  | zero =>
    intro k hk
    have : ¬ ((k : Int) < (H.length : Int)) := by omega
    simp [forward_snake, same_frame, this, ← hk]
  | succ n ih =>
    intro k hk
    have hlt : (k : Int) < (H.length : Int) := by omega
    have hk' : k < H.length := by omega
    have hnext : ((k : Int) + 1) = ((k + 1 : Nat) : Int) := by push_cast; rfl
    rw [forward_snake]
    simp only [same_frame, hlt, and_self, if_true, arr_get_of_nat,
      List.getElem?_eq_getElem hk', Option.bind_eq_bind, Option.some_bind, hnext]
    exact ih (k + 1) (by omega)

theorem reverse_snake_same (H : List Nat) (m : Nat) : ∀ (k : Nat), k ≤ H.length →
    reverse_snake (same_frame H m) (k + 1) (k : Int) (k : Int) = some (0, 0) := by
  intro k
  induction k with
  | zero =>
    intro _
    simp [reverse_snake, same_frame]
  | succ k ih =>
    intro hk
    have hgt : ((k + 1 : Nat) : Int) > 0 := by omega
    have hk' : k < H.length := by omega
    have hprev : (((k + 1 : Nat) : Int) - 1) = (k : Int) := by omega
    rw [reverse_snake]
    simp only [same_frame, hgt, and_self, if_true, hprev, arr_get_of_nat,
      List.getElem?_eq_getElem hk', Option.bind_eq_bind, Option.some_bind]
    exact ih (by omega)

theorem forward_body_same (H : List Nat) (m : Nat) (s : Search)
    (hnot : s.found_middle_snake = false)
    (hlen : m + 1 < s.forward_v.length) (hseed : s.forward_v[m + 1]? = some 0) :
    forward_body (same_frame H m) 0 0 s
      = some { s with forward_v := s.forward_v.set m (H.length : Int), x := 0, y := 0,
                      u := H.length, v := H.length, found_middle_snake := false } := by
  have hds : (same_frame H m).delta_start = 0 := by simp [Frame.delta_start, same_frame]
  have hde : (same_frame H m).delta_end = 0 := by simp [Frame.delta_end, same_frame]
  have hdelta : (same_frame H m).delta = 0 := by simp [Frame.delta, hds, hde]
  have hcf : (same_frame H m).center_forward = (m : Int) := by
    simp [Frame.center_forward, Frame.delta_start, same_frame]
  have hfe : (same_frame H m).first_end = (H.length : Int) := rfl
  have hidx : ((m : Int) + 0 + 1) = ((m + 1 : Nat) : Int) := by push_cast; ring
  have hsnake := forward_snake_same H m H.length 0 (by omega)
  have hfuel : ((H.length : Int)).toNat + 1 = H.length + 1 := by omega
  unfold forward_body
  simp only [hds, hde, hdelta, hcf, hfe, sub_zero, if_true, hidx, arr_get_of_nat, hseed,
    Option.bind_eq_bind, Option.some_bind, hfuel]
  simp only [Nat.cast_zero] at hsnake
  rw [hsnake]
  simp only [Option.some_bind, add_zero]
  rw [arr_set_of_nat _ _ _ (by omega)]
  simp [hnot]

theorem reverse_body_same (H : List Nat) (m : Nat) (s : Search)
    (hlen : m + 1 < s.reverse_v.length) (hseed : s.reverse_v[m + 1]? = some ((H.length : Int) + 1))
    (hfwd : s.forward_v[m]? = some (H.length : Int)) :
    reverse_body (same_frame H m) 0 0 s
      = some { s with reverse_v := s.reverse_v.set m 0, x := 0, y := 0,
                      u := H.length, v := H.length, found_middle_snake := true } := by
  have hds : (same_frame H m).delta_start = 0 := by simp [Frame.delta_start, same_frame]
  have hde : (same_frame H m).delta_end = 0 := by simp [Frame.delta_end, same_frame]
  have hdelta : (same_frame H m).delta = 0 := by simp [Frame.delta, hds, hde]
  have hcf : (same_frame H m).center_forward = (m : Int) := by
    simp [Frame.center_forward, Frame.delta_start, same_frame]
  have hcr : (same_frame H m).center_reverse = (m : Int) := by
    simp [Frame.center_reverse, Frame.delta_end, same_frame]
  have hfs : (same_frame H m).first_start = 0 := rfl
  have hidx : ((m : Int) + 0 + 1) = ((m + 1 : Nat) : Int) := by push_cast; ring
  have hsnake := reverse_snake_same H m H.length (le_refl _)
  have hfuel : ((H.length : Int)).toNat + 1 = H.length + 1 := by omega
  have hu : ((H.length : Int) + 1 - 1) = (H.length : Int) := by omega
  unfold reverse_body
  simp only [hds, hde, hdelta, hcf, hcr, hfs, sub_zero, if_true, hidx, arr_get_of_nat, hseed,
    Option.bind_eq_bind, Option.some_bind, hfuel, Option.pure_def, hu]
  rw [hsnake]
  simp only [Option.some_bind, add_zero, zero_add]
  rw [arr_set_of_nat _ _ _ (by omega)]
  simp [arr_get_of_nat, hfwd, List.getElem?_set_self (show m < s.reverse_v.length by omega)]

/-- On identical sequences the search stops in round 0 with the snake over everything. -/
theorem search_loop_same (H : List Nat) (m : Nat) (s : Search) (fuel : Nat)
    (hm : 1 ≤ m) (hnot : s.found_middle_snake = false)
    (hflen : m + 1 < s.forward_v.length) (hfseed : s.forward_v[m + 1]? = some 0)
    (hrlen : m + 1 < s.reverse_v.length)
    (hrseed : s.reverse_v[m + 1]? = some ((H.length : Int) + 1)) :
    search_loop (same_frame H m) (fuel + 2) 0 s
      = some (1, { forward_v := s.forward_v.set m (H.length : Int),
                   reverse_v := s.reverse_v.set m 0, x := 0, y := 0,
                   u := H.length, v := H.length, found_middle_snake := true }) := by
  have hds : (same_frame H m).delta_start = 0 := by simp [Frame.delta_start, same_frame]
  have hde : (same_frame H m).delta_end = 0 := by simp [Frame.delta_end, same_frame]
  have hmax : (same_frame H m).max = (m : Int) := rfl
  have hm0 : (0 : Int) ≤ (m : Int) := by omega
  have hfb := forward_body_same H m s hnot hflen hfseed
  have hrb := reverse_body_same H m
    { s with forward_v := s.forward_v.set m (H.length : Int), x := 0, y := 0,
             u := H.length, v := H.length, found_middle_snake := false }
    hrlen hrseed (by simp [List.getElem?_set_self (show m < s.forward_v.length by omega)])
  have hfl : forward_loop (same_frame H m) 0 2 0 s
      = some { s with forward_v := s.forward_v.set m (H.length : Int), x := 0, y := 0,
                      u := H.length, v := H.length, found_middle_snake := false } := by
    simp [forward_loop, hds, hnot, hfb]
  have hrl : reverse_loop (same_frame H m) 0 2 0
        { s with forward_v := s.forward_v.set m (H.length : Int), x := 0, y := 0,
                 u := H.length, v := H.length, found_middle_snake := false }
      = some { forward_v := s.forward_v.set m (H.length : Int),
               reverse_v := s.reverse_v.set m 0, x := 0, y := 0,
               u := H.length, v := H.length, found_middle_snake := true } := by
    simp [reverse_loop, hde, hrb]
  rw [search_loop]
  simp only [hmax, hm0, hnot, and_self, if_true, hds, hde, sub_zero, Int.toNat_zero, zero_add,
    hfl, Option.bind_eq_bind, Option.some_bind, hrl]
  simp [search_loop]

theorem too_expensive_of_ge (total_length : Nat) : 256 ≤ too_expensive_of total_length := by
  unfold too_expensive_of
  simp only
  split <;> omega

theorem find_split_same (H : List Nat) (T : Int) (hT : 1 ≤ T) (fv rv : List Int)
    (hN : 1 ≤ H.length) (hfv : H.length + 2 < fv.length) (hrv : H.length + 2 < rv.length) :
    ∃ fv' rv', find_split H H T 0 H.length 0 H.length fv rv
      = some { forward_v := fv', reverse_v := rv', diff_size := 0, delta_even := true,
               x := 0, y := 0, u := H.length, v := H.length } := by
  have hmax0 : ((H.length : Int) - 0 + (H.length : Int) - 0) / 2 + 1 = (H.length : Int) + 1 := by
    omega
  obtain ⟨m, hm, hm1, hm2⟩ : ∃ m : Nat,
      (if (H.length : Int) + 1 > T then T else (H.length : Int) + 1) = (m : Int)
        ∧ 1 ≤ m ∧ m ≤ H.length + 1 := by
    by_cases h : (H.length : Int) + 1 > T
    · exact ⟨T.toNat, by rw [if_pos h]; omega, by omega, by omega⟩
    · exact ⟨H.length + 1, by rw [if_neg h]; push_cast; rfl, by omega, by omega⟩
  have hidx : ((m : Int) + 1) = ((m + 1 : Nat) : Int) := by push_cast; rfl
  have hframe : Frame.mk H H 0 (H.length : Int) 0 (H.length : Int) (m : Int)
      = same_frame H m := rfl
  have hsearch := search_loop_same H m
    { forward_v := fv.set (m + 1) 0, reverse_v := rv.set (m + 1) ((H.length : Int) + 1),
      x := 0, y := 0, u := 0, v := 0, found_middle_snake := false } m hm1 rfl
    (by simp only [List.length_set]; omega)
    (by simp [List.getElem?_set_self (show m + 1 < fv.length by omega)])
    (by simp only [List.length_set]; omega)
    (by simp [List.getElem?_set_self (show m + 1 < rv.length by omega)])
  have hdelta : (same_frame H m).delta % 2 = 0 := by
    simp [Frame.delta, Frame.delta_start, Frame.delta_end, same_frame]
  refine ⟨(fv.set (m + 1) 0).set m (H.length : Int),
    (rv.set (m + 1) ((H.length : Int) + 1)).set m 0, ?_⟩
  unfold find_split
  simp only [hmax0, hm, hidx, arr_set_of_nat fv (m + 1) 0 (by omega),
    arr_set_of_nat rv (m + 1) _ (show m + 1 < rv.length by omega), Option.bind_eq_bind,
    Option.some_bind, hframe, Int.toNat_ofNat, hsearch, if_true, Option.pure_def, hdelta,
    decide_True, sub_self]

/-- On identical ranges covering both sequences the recursive procedure appends the
second sequence. -/
theorem impl_same (first second : List String) (H : List Nat) (T : Int) (hT : 1 ≤ T)
    (depth : Nat) (fv rv : List Int) (result : List String)
    (hlen : second.length = H.length)
    (hfv : H.length + 2 < fv.length ∨ H.length = 0)
    (hrv : H.length + 2 < rv.length ∨ H.length = 0) :
    ∃ fv' rv', smartlist_longest_common_subsequence_impl first second H H T (depth + 1)
        0 H.length 0 H.length fv rv result = some (fv', rv', result ++ second) := by
  by_cases hN : H.length = 0
  · have : second = [] := List.length_eq_zero.mp (by omega)
    refine ⟨fv, rv, ?_⟩
    simp [smartlist_longest_common_subsequence_impl, hN, this]
  · obtain ⟨fv', rv', hsplit⟩ := find_split_same H T hT fv rv (by omega) (by omega) (by omega)
    have hcond : ¬ ((H.length : Int) - 0 ≤ 0 ∨ (H.length : Int) - 0 ≤ 0) := by omega
    have hcopy : add_range second H.length 0 result = some (result ++ second) := by
      have := add_range_slice second H.length 0 (by omega)
      rw [add_range_acc]
      simp only [Nat.cast_zero] at this
      rw [this, ← hlen]
      simp
    refine ⟨fv', rv', ?_⟩
    rw [smartlist_longest_common_subsequence_impl]
    simp only [hcond, if_false, hsplit, Option.bind_eq_bind, Option.some_bind]
    simp [hcopy]

theorem lcs_same (hash : String → Nat) (x : List String) :
    smartlist_longest_common_subsequence hash x x = some x := by
  have hT := too_expensive_of_ge (x.length + x.length)
  obtain ⟨fv', rv', himpl⟩ := impl_same x x (x.map hash)
    (too_expensive_of (x.length + x.length)) (by omega) (x.length + x.length)
    (List.replicate (((x.length + x.length) / 2 + 1) * 2) 0)
    (List.replicate (((x.length + x.length) / 2 + 1) * 2) 0) [] (by simp)
    (by simp only [List.length_map, List.length_replicate]; omega)
    (by simp only [List.length_map, List.length_replicate]; omega)
  simp only [List.length_map] at himpl
  simp [smartlist_longest_common_subsequence, himpl]

/-! ## The order of the commands `make_diff` writes -/

/-- The header number of the command of one call: `remove_start + 1` when something is
removed, `remove_end + 1` for an append. -/
theorem next_command_start (remove_start remove_end : Int) (new_sl : List String)
    (insert_start insert_end : Int) (c : Command)
    (h : next_command remove_start remove_end new_sl insert_start insert_end = some (some c)) :
    (c.start = remove_start + 1 ∧ remove_start ≤ remove_end)
      ∨ (c.start = remove_end + 1 ∧ remove_end < remove_start) := by
  unfold next_command at h
  by_cases hins : insert_start ≤ insert_end
  · simp only [hins, if_true, Option.bind_eq_bind, Option.pure_def] at h
    rcases hb : add_range new_sl (insert_end - insert_start + 1).toNat insert_start []
      with _ | block
    · simp [hb] at h
    · simp only [hb, Option.some_bind] at h
      by_cases h1 : remove_start < remove_end
      · rw [if_pos h1] at h
        simp only [Option.some.injEq] at h
        subst h
        exact Or.inl ⟨rfl, by omega⟩
      · by_cases h2 : remove_start = remove_end
        · rw [if_neg h1, if_pos h2] at h
          simp only [Option.some.injEq] at h
          subst h
          exact Or.inl ⟨rfl, by omega⟩
        · rw [if_neg h1, if_neg h2] at h
          simp only [Option.some.injEq] at h
          subst h
          exact Or.inr ⟨rfl, by omega⟩
  · simp only [hins, if_false, Option.pure_def] at h
    by_cases h1 : remove_start < remove_end
    · rw [if_pos h1] at h
      simp only [Option.some.injEq] at h
      subst h
      exact Or.inl ⟨rfl, by omega⟩
    · by_cases h2 : remove_start = remove_end
      · rw [if_neg h1, if_pos h2] at h
        simp only [Option.some.injEq] at h
        subst h
        exact Or.inl ⟨rfl, by omega⟩
      · rw [if_neg h1, if_neg h2] at h
        simp at h

/-- Whatever list the loop of `make_diff` is run on, if it completes, the header numbers
of its commands strictly descend and none exceeds `remove_end + 1`. -/
theorem make_diff_commands_loop_descending (old_sl new_sl : List String) :
    ∀ (cs : List String) (remove_end insert_end : Int) (cmds : List Command),
      make_diff_commands_loop old_sl new_sl cs remove_end insert_end = some cmds →
      cmds.Pairwise (fun c later => later.start < c.start)
        ∧ ∀ c ∈ cmds, c.start ≤ remove_end + 1 := by
  intro cs
  induction cs with
  | nil =>
    intro remove_end insert_end cmds h
    simp only [make_diff_commands_loop, Option.bind_eq_bind, Option.pure_def] at h
    rcases hl : next_command 0 remove_end new_sl 0 insert_end with _ | last
    · simp [hl] at h
    · simp only [hl, Option.some_bind, Option.some.injEq] at h
      subst h
      cases last with
      | none => simp
      | some c =>
        refine ⟨by simp, ?_⟩
        intro c' hc'
        simp only [Option.toList_some, List.mem_singleton] at hc'
        subst hc'
        rcases next_command_start _ _ _ _ _ _ hl with ⟨h1, h2⟩ | ⟨h1, _⟩ <;> omega
  | cons c rest ih =>
    intro remove_end insert_end cmds h
    simp only [make_diff_commands_loop, Option.bind_eq_bind, Option.pure_def] at h
    rcases hrs : scan_back old_sl c (remove_end.toNat + 2) remove_end with _ | rs
    · simp [hrs] at h
    rcases his : scan_back new_sl c (insert_end.toNat + 2) insert_end with _ | is
    · simp [hrs, his] at h
    rcases hcmd : next_command (rs + 1) remove_end new_sl (is + 1) insert_end with _ | command
    · simp [hrs, his, hcmd] at h
    rcases hlater : make_diff_commands_loop old_sl new_sl rest (rs + 1 - 2) (is + 1 - 2)
      with _ | later
    · simp [hrs, his, hcmd, hlater] at h
    simp only [hrs, his, hcmd, hlater, Option.some_bind, Option.some.injEq] at h
    subst h
    obtain ⟨hpair, hbound⟩ := ih _ _ _ hlater
    obtain ⟨_, hle, _⟩ := scan_back_bounds _ _ _ _ _ hrs
    cases command with
    | none =>
      refine ⟨by simpa using hpair, ?_⟩
      intro c' hc'
      have := hbound c' (by simpa using hc')
      omega
    | some cmd =>
      have hstart : rs + 1 ≤ cmd.start ∧ cmd.start ≤ remove_end + 1 := by
        rcases next_command_start _ _ _ _ _ _ hcmd with ⟨h1, h2⟩ | ⟨h1, h2⟩ <;> omega
      refine ⟨?_, ?_⟩
      · simp only [Option.toList_some, List.singleton_append, List.pairwise_cons]
        refine ⟨?_, hpair⟩
        intro c' hc'
        have := hbound c' hc'
        omega
      · intro c' hc'
        simp only [Option.toList_some, List.singleton_append, List.mem_cons] at hc'
        rcases hc' with rfl | hc'
        · exact hstart.2
        · have := hbound c' hc'
          omega

/-! ## The script for identical sequences -/

theorem make_diff_commands_loop_same (x : List String) : ∀ (r : Nat), r ≤ x.length →
    make_diff_commands_loop x x (x.take r).reverse ((r : Int) - 1) ((r : Int) - 1)
      = some [] := by
  intro r
  induction r with
  | zero =>
    intro _
    simp [make_diff_commands_loop, next_command]
  | succ r ih =>
    intro hr
    have hlt : r < x.length := by omega
    have htake : (x.take (r + 1)).reverse = x[r] :: (x.take r).reverse := by
      rw [List.take_succ, List.getElem?_eq_getElem hlt]
      simp
    have hcur : (((r + 1 : Nat) : Int) - 1) = (r : Int) := by omega
    have hscan : ∀ fuel, scan_back x x[r] (fuel + 1) (r : Int) = some (r : Int) := by
      intro fuel
      simp [scan_back, arr_get_of_nat, List.getElem?_eq_getElem hlt]
    have hnone : next_command ((r : Int) + 1) (r : Int) x ((r : Int) + 1) (r : Int)
        = some none := by
      have h1 : ¬ ((r : Int) + 1 ≤ (r : Int)) := by omega
      have h2 : ¬ ((r : Int) + 1 < (r : Int)) := by omega
      have h3 : ¬ ((r : Int) + 1 = (r : Int)) := by omega
      simp [next_command, h1, h2, h3]
    have hback : ((r : Int) + 1 - 2) = (r : Int) - 1 := by omega
    rw [htake, hcur]
    simp only [make_diff_commands_loop, hscan, Option.bind_eq_bind, Option.some_bind, hnone,
      hback, ih (by omega), Option.pure_def, Option.toList_none, List.append_nil]

theorem make_diff_with_same (x : List String) : make_diff_with x x x = some [] := by
  have := make_diff_commands_loop_same x x.length (le_refl _)
  rw [List.take_length] at this
  rw [make_diff_with_eq, make_diff_commands, this]
  rfl

/-! ## The engine on one line against a long sequence that starts with it -/

theorem skew_frame_delta_start (ha hb n m : Nat) : (skew_frame ha hb n m).delta_start = 0 := by
  simp [Frame.delta_start, skew_frame]

theorem skew_frame_delta_end (ha hb n m : Nat) :
    (skew_frame ha hb n m).delta_end = (n : Int) := by
  simp [Frame.delta_end, skew_frame]

theorem skew_frame_delta (ha hb n m : Nat) : (skew_frame ha hb n m).delta = (n : Int) := by
  simp [Frame.delta, skew_frame_delta_start, skew_frame_delta_end]

theorem skew_frame_center_forward (ha hb n m : Nat) :
    (skew_frame ha hb n m).center_forward = (m : Int) := by
  simp [Frame.center_forward, Frame.delta_start, skew_frame]

theorem skew_frame_center_reverse (ha hb n m : Nat) :
    (skew_frame ha hb n m).center_reverse = (m : Int) - (n : Int) := by
  simp [Frame.center_reverse, Frame.delta_end, skew_frame]

/-- A forward snake that starts at or below row 1 of the one-line `second` does not move and
reads no fingerprint. -/
theorem skew_forward_snake_idle (ha hb n m : Nat) (fuel : Nat) (x y : Int) (hy : 1 ≤ y) :
    forward_snake (skew_frame ha hb n m) (fuel + 1) x y = some (x, y) := by
  have : ¬ (x < (n : Int) + 1 ∧ y < 1) := by omega
  simp [forward_snake, skew_frame, this]

/-- A reverse snake that starts at or above row 0 does not move and reads no
fingerprint. -/
theorem skew_reverse_snake_idle (ha hb n m : Nat) (fuel : Nat) (x y : Int) (hy : y ≤ 0) :
    reverse_snake (skew_frame ha hb n m) (fuel + 1) x y = some (x, y) := by
  have : ¬ (x > 0 ∧ y > 0) := by omega
  simp [reverse_snake, skew_frame, this]

/-- A reverse snake that starts in row 1 on a `b` line compares `b` with `a` and does not
move. -/
theorem skew_reverse_snake_stay (ha hb n m : Nat) (hab : ha ≠ hb) (fuel : Nat) (x : Nat)
    (hx1 : 2 ≤ x) (hx2 : x ≤ n + 1) :
    reverse_snake (skew_frame ha hb n m) (fuel + 1) (x : Int) 1 = some ((x : Int), 1) := by
  have hc : ((x : Int) > 0 ∧ (1 : Int) > 0) := by omega
  have hidx : ((x : Int) - 1) = ((x - 1 : Nat) : Int) := by omega
  have hget : (ha :: List.replicate n hb)[x - 1]? = some hb := by
    obtain ⟨k, hk⟩ : ∃ k, x - 1 = k + 1 := ⟨x - 2, by omega⟩
    rw [hk, List.getElem?_cons_succ, List.getElem?_replicate]
    simp; omega
  have hne : ¬ hb = ha := fun h => hab h.symm
  rw [reverse_snake]
  have hs : arr_get [ha] 0 = some ha := arr_get_of_nat [ha] 0
  simp [skew_frame, hc, hidx, arr_get_of_nat, hget, hne, hs]

/-- One pass of the forward loop in a round `D >= 1` of the skew search: nothing matches,
so diagonal `-D + 2j` gets `x = 1 + j`, and no overlap test is due. -/
theorem skew_forward_body (ha hb n m D j : Nat) (s : Search) (diagonal : Int)
    (hdiag : diagonal = -(D : Int) + 2 * (j : Int)) (hnot : s.found_middle_snake = false)
    (hD1 : 1 ≤ D) (hDm : D ≤ m) (hmn : 2 * m < n) (hj : j ≤ D)
    (hlen : 2 * m + 1 < s.forward_v.length) (hprev : FwdRow m (D - 1) s.forward_v) :
    forward_body (skew_frame ha hb n m) (D : Int) diagonal s
      = some { s with forward_v := s.forward_v.set (m - D + 2 * j) ((1 : Int) + j),
                      x := (1 : Int) + j, y := (D : Int) + 1 - j,
                      u := (1 : Int) + j, v := (D : Int) + 1 - j,
                      found_middle_snake := false } := by
  subst hdiag
  have hidx : (m : Int) + (-(D : Int) + 2 * (j : Int)) = ((m - D + 2 * j : Nat) : Int) := by
    omega
  have hup : (m : Int) + (-(D : Int) + 2 * (j : Int)) + 1
      = ((m - (D - 1) + 2 * j : Nat) : Int) := by omega
  have hcheck : ¬ ((n : Int) % 2 ≠ 0 ∧ -(D : Int) + 2 * (j : Int) ≥ (n : Int) - ((D : Int) - 1)
      ∧ -(D : Int) + 2 * (j : Int) ≤ (n : Int) + ((D : Int) - 1)) := by omega
  have hx : forward_snake (skew_frame ha hb n m)
      (((skew_frame ha hb n m).first_end - ((1 : Int) + j)).toNat + 1) ((1 : Int) + j)
      ((D : Int) + 1 - j)
      = some ((1 : Int) + j, (D : Int) + 1 - j) :=
    skew_forward_snake_idle ha hb n m _ _ _ (by omega)
  have hset : arr_set s.forward_v ((m - D + 2 * j : Nat) : Int) ((1 : Int) + j)
      = some (s.forward_v.set (m - D + 2 * j) ((1 : Int) + j)) :=
    arr_set_of_nat _ _ _ (by omega)
  have hy : (1 : Int) + (j : Int) - (-(D : Int) + 2 * (j : Int)) = (D : Int) + 1 - (j : Int) := by
    omega
  unfold forward_body
  simp only [skew_frame_delta_start, skew_frame_delta_end, skew_frame_delta,
    skew_frame_center_forward, Option.bind_eq_bind, Option.pure_def]
  by_cases hj0 : j = 0
  · have h := hprev 0 (Nat.zero_le _)
    have hc1 : -(D : Int) + 2 * (j : Int) = 0 - (D : Int) := by omega
    have hj' : m - (D - 1) + 2 * j = m - (D - 1) + 2 * 0 := by omega
    rw [if_pos hc1, hup, arr_get_of_nat, hj', h]
    have h0 : ((1 : Int) + ((0 : Nat) : Int)) = (1 : Int) + (j : Int) := by omega
    rw [h0]
    simp only [Option.some_bind, hx, hidx, hset, hcheck, if_false, hy, hnot, Bool.false_or]
  · have hdown : (m : Int) + (-(D : Int) + 2 * (j : Int)) - 1
        = ((m - (D - 1) + 2 * (j - 1) : Nat) : Int) := by omega
    have hbelow := hprev (j - 1) (by omega)
    have hc1 : ¬ (-(D : Int) + 2 * (j : Int) = 0 - (D : Int)) := by omega
    rw [if_neg hc1, hdown, arr_get_of_nat, hbelow]
    by_cases hjD : j = D
    · have hc2 : ¬ (-(D : Int) + 2 * (j : Int) ≠ 0 + (D : Int)) := by omega
      have hb3 : ((1 : Int) + ((j - 1 : Nat) : Int)) + 1 = (1 : Int) + (j : Int) := by omega
      rw [if_neg hc2]
      simp only [Option.some_bind, hb3, hx, hidx, hset, hcheck, if_false, hy, hnot, Bool.false_or]
    · have hc2 : -(D : Int) + 2 * (j : Int) ≠ 0 + (D : Int) := by omega
      have habove := hprev j (by omega)
      have hlt : ((1 : Int) + ((j - 1 : Nat) : Int)) < (1 : Int) + (j : Int) := by omega
      rw [if_pos hc2, hup, arr_get_of_nat, habove]
      simp only [Option.some_bind, hlt, if_true, hx, hidx, hset, hcheck, if_false, hy, hnot, Bool.false_or]

/-- The forward loop of a round `D >= 1` of the skew search, from its `j`-th diagonal on:
it writes the whole row of round `D` and sets no flag. -/
theorem skew_forward_loop (ha hb n m D : Nat) (hD1 : 1 ≤ D) (hDm : D ≤ m) (hmn : 2 * m < n) :
    ∀ (rem j : Nat) (s : Search) (diagonal : Int), j + rem = D + 1 →
      diagonal = -(D : Int) + 2 * (j : Int) →
      s.found_middle_snake = false → 2 * m + 1 < s.forward_v.length →
      FwdRow m (D - 1) s.forward_v →
      (∀ i, i < j → s.forward_v[m - D + 2 * i]? = some ((1 : Int) + i)) →
      ∃ s', forward_loop (skew_frame ha hb n m) (D : Int) (rem + 1) diagonal s = some s'
        ∧ s'.found_middle_snake = false ∧ s'.reverse_v = s.reverse_v
        ∧ s'.forward_v.length = s.forward_v.length ∧ FwdRow m D s'.forward_v := by
  intro rem
  induction rem with
  | zero =>
    intro j s diagonal hj hdiag hnot _ _ hnew
    have hc : ¬ (diagonal ≤ 0 + (D : Int) ∧ s.found_middle_snake = false) := by omega
    refine ⟨s, ?_, hnot, rfl, rfl, fun i hi => hnew i (by omega)⟩
    simp only [forward_loop, skew_frame_delta_start, hc, if_false, Option.pure_def]
  | succ rem ih =>
    intro j s diagonal hj hdiag hnot hlen hprev hnew
    have hc : diagonal ≤ 0 + (D : Int) ∧ s.found_middle_snake = false := ⟨by omega, hnot⟩
    have hbody := skew_forward_body ha hb n m D j s diagonal hdiag hnot hD1 hDm hmn (by omega) hlen
      hprev
    obtain ⟨s', hs', h1, h2, h3, h4⟩ := ih (j + 1)
      { s with forward_v := s.forward_v.set (m - D + 2 * j) ((1 : Int) + j),
               x := (1 : Int) + j, y := (D : Int) + 1 - j,
               u := (1 : Int) + j, v := (D : Int) + 1 - j,
               found_middle_snake := false }
      (diagonal + 2) (by omega) (by push_cast; omega) rfl
      (by simp only [List.length_set]; exact hlen)
      (by
        intro i hi
        have hne : m - D + 2 * j ≠ m - (D - 1) + 2 * i := by omega
        simp only [List.getElem?_set_ne hne]
        exact hprev i hi)
      (by
        intro i hi
        by_cases hij : i = j
        · subst hij
          simp only [List.getElem?_set_self (show m - D + 2 * i < s.forward_v.length by omega)]
        · have hne : m - D + 2 * j ≠ m - D + 2 * i := by omega
          simp only [List.getElem?_set_ne hne]
          exact hnew i (by omega))
    refine ⟨s', ?_, h1, h2, ?_, h4⟩
    · rw [forward_loop]
      simp only [skew_frame_delta_start, hc, and_self, if_true, hbody, Option.bind_eq_bind,
        Option.some_bind]
      exact hs'
    · rw [h3]
      simp only [List.length_set]

/-- One pass of the reverse loop in a round `D >= 1` of the skew search: nothing matches,
so diagonal `n - D + 2j` gets `x = n + 1 - D + j`, and no overlap test is due. -/
theorem skew_reverse_body (ha hb n m D j : Nat) (hab : ha ≠ hb) (s : Search) (diagonal : Int)
    (hdiag : diagonal = (n : Int) - (D : Int) + 2 * (j : Int))
    (hnot : s.found_middle_snake = false) (hD1 : 1 ≤ D) (hDm : D ≤ m) (hmn : 2 * m < n) (hj : j ≤ D)
    (hlen : 2 * m + 1 < s.reverse_v.length) (hprev : RevRow n m (D - 1) s.reverse_v) :
    reverse_body (skew_frame ha hb n m) (D : Int) diagonal s
      = some { s with reverse_v := s.reverse_v.set (m - D + 2 * j) ((n : Int) + 1 - D + j),
                      x := (n : Int) + 1 - D + j, y := (1 : Int) - j,
                      u := (n : Int) + 1 - D + j, v := (1 : Int) - j,
                      found_middle_snake := false } := by
  subst hdiag
  have hidx : (m : Int) - (n : Int) + ((n : Int) - (D : Int) + 2 * (j : Int))
      = ((m - D + 2 * j : Nat) : Int) := by omega
  have hup : (m : Int) - (n : Int) + ((n : Int) - (D : Int) + 2 * (j : Int)) + 1
      = ((m - (D - 1) + 2 * j : Nat) : Int) := by omega
  have hcheck : ¬ ((n : Int) % 2 = 0 ∧ (n : Int) - (D : Int) + 2 * (j : Int) ≥ 0 - (D : Int)
      ∧ (n : Int) - (D : Int) + 2 * (j : Int) ≤ 0 + (D : Int)) := by omega
  have hv : (n : Int) + 1 - (D : Int) + (j : Int) - ((n : Int) - (D : Int) + 2 * (j : Int))
      = (1 : Int) - (j : Int) := by omega
  have hx : reverse_snake (skew_frame ha hb n m)
      (((n : Int) + 1 - (D : Int) + (j : Int) - (skew_frame ha hb n m).first_start).toNat + 1)
      ((n : Int) + 1 - (D : Int) + (j : Int)) ((1 : Int) - (j : Int))
      = some ((n : Int) + 1 - (D : Int) + (j : Int), (1 : Int) - (j : Int)) := by
    by_cases hj0 : j = 0
    · subst hj0
      have h1 : (n : Int) + 1 - (D : Int) + ((0 : Nat) : Int) = ((n + 1 - D : Nat) : Int) := by
        omega
      have h2 : (1 : Int) - ((0 : Nat) : Int) = 1 := by omega
      rw [h1, h2]
      exact skew_reverse_snake_stay ha hb n m hab _ _ (by omega) (by omega)
    · exact skew_reverse_snake_idle ha hb n m _ _ _ (by omega)
  have hset : arr_set s.reverse_v ((m - D + 2 * j : Nat) : Int) ((n : Int) + 1 - D + j)
      = some (s.reverse_v.set (m - D + 2 * j) ((n : Int) + 1 - D + j)) :=
    arr_set_of_nat _ _ _ (by omega)
  unfold reverse_body
  simp only [skew_frame_delta_start, skew_frame_delta_end, skew_frame_delta,
    skew_frame_center_reverse, Option.bind_eq_bind, Option.pure_def]
  by_cases hj0 : j = 0
  · have h := hprev 0 (Nat.zero_le _)
    have hc1 : (n : Int) - (D : Int) + 2 * (j : Int) = (n : Int) - (D : Int) := by omega
    have hj' : m - (D - 1) + 2 * j = m - (D - 1) + 2 * 0 := by omega
    have hu : (n : Int) + 1 - (((D - 1 : Nat) : Int)) + (((0 : Nat)) : Int) - 1
        = (n : Int) + 1 - (D : Int) + (j : Int) := by omega
    rw [if_pos hc1, hup, arr_get_of_nat, hj', h]
    simp only [Option.some_bind, hu, hv, hx, hidx, hset, hcheck, if_false, hnot, Bool.false_or]
  · have hdown : (m : Int) - (n : Int) + ((n : Int) - (D : Int) + 2 * (j : Int)) - 1
        = ((m - (D - 1) + 2 * (j - 1) : Nat) : Int) := by omega
    have hbelow := hprev (j - 1) (by omega)
    have hc1 : ¬ ((n : Int) - (D : Int) + 2 * (j : Int) = (n : Int) - (D : Int)) := by omega
    have hu : (n : Int) + 1 - (((D - 1 : Nat) : Int)) + (((j - 1 : Nat)) : Int)
        = (n : Int) + 1 - (D : Int) + (j : Int) := by omega
    rw [if_neg hc1, hdown, arr_get_of_nat, hbelow, hu]
    by_cases hjD : j = D
    · have hc2 : ¬ ((n : Int) - (D : Int) + 2 * (j : Int) ≠ (n : Int) + (D : Int)) := by omega
      rw [if_neg hc2]
      simp only [Option.some_bind, hv, hx, hidx, hset, hcheck, if_false, hnot, Bool.false_or]
    · have hc2 : (n : Int) - (D : Int) + 2 * (j : Int) ≠ (n : Int) + (D : Int) := by omega
      have habove := hprev j (by omega)
      have hge : ¬ ((n : Int) + 1 - (D : Int) + (j : Int)
          ≥ (n : Int) + 1 - (((D - 1 : Nat) : Int)) + (j : Int)) := by omega
      rw [if_pos hc2, hup, arr_get_of_nat, habove]
      simp only [Option.some_bind, hge, if_false, hv, hx, hidx, hset, hcheck, hnot, Bool.false_or]

/-- The reverse loop of a round `D >= 1` of the skew search, from its `j`-th diagonal on:
it writes the whole row of round `D` and sets no flag. -/
theorem skew_reverse_loop (ha hb n m D : Nat) (hab : ha ≠ hb) (hD1 : 1 ≤ D) (hDm : D ≤ m)
    (hmn : 2 * m < n) :
    ∀ (rem j : Nat) (s : Search) (diagonal : Int), j + rem = D + 1 →
      diagonal = (n : Int) - (D : Int) + 2 * (j : Int) →
      s.found_middle_snake = false → 2 * m + 1 < s.reverse_v.length →
      RevRow n m (D - 1) s.reverse_v →
      (∀ i, i < j → s.reverse_v[m - D + 2 * i]? = some ((n : Int) + 1 - D + i)) →
      ∃ s', reverse_loop (skew_frame ha hb n m) (D : Int) (rem + 1) diagonal s = some s'
        ∧ s'.found_middle_snake = false ∧ s'.forward_v = s.forward_v
        ∧ s'.reverse_v.length = s.reverse_v.length ∧ RevRow n m D s'.reverse_v := by
  intro rem
  induction rem with
  | zero =>
    intro j s diagonal hj hdiag hnot _ _ hnew
    have hc : ¬ (diagonal ≤ (n : Int) + (D : Int) ∧ s.found_middle_snake = false) := by omega
    refine ⟨s, ?_, hnot, rfl, rfl, fun i hi => hnew i (by omega)⟩
    simp only [reverse_loop, skew_frame_delta_end, hc, if_false, Option.pure_def]
  | succ rem ih =>
    intro j s diagonal hj hdiag hnot hlen hprev hnew
    have hc : diagonal ≤ (n : Int) + (D : Int) ∧ s.found_middle_snake = false :=
      ⟨by omega, hnot⟩
    have hbody := skew_reverse_body ha hb n m D j hab s diagonal hdiag hnot hD1 hDm hmn
      (by omega)
      hlen hprev
    obtain ⟨s', hs', h1, h2, h3, h4⟩ := ih (j + 1)
      { s with reverse_v := s.reverse_v.set (m - D + 2 * j) ((n : Int) + 1 - D + j),
               x := (n : Int) + 1 - D + j, y := (1 : Int) - j,
               u := (n : Int) + 1 - D + j, v := (1 : Int) - j,
               found_middle_snake := false }
      (diagonal + 2) (by omega) (by push_cast; omega) rfl
      (by simp only [List.length_set]; exact hlen)
      (by
        intro i hi
        have hne : m - D + 2 * j ≠ m - (D - 1) + 2 * i := by omega
        simp only [List.getElem?_set_ne hne]
        exact hprev i hi)
      (by
        intro i hi
        by_cases hij : i = j
        · subst hij
          simp only [List.getElem?_set_self (show m - D + 2 * i < s.reverse_v.length by omega)]
        · have hne : m - D + 2 * j ≠ m - D + 2 * i := by omega
          simp only [List.getElem?_set_ne hne]
          exact hnew i (by omega))
    refine ⟨s', ?_, h1, h2, ?_, h4⟩
    · rw [reverse_loop]
      simp only [skew_frame_delta_end, hc, and_self, if_true, hbody, Option.bind_eq_bind,
        Option.some_bind]
      exact hs'
    · rw [h3]
      simp only [List.length_set]

/-- The rounds `D, D+1, ..., m` of the skew search: every round writes its two rows, no
middle snake is found, and the loop is left with `diff_size = m + 1`. -/
theorem skew_search_rounds (ha hb n m : Nat) (hab : ha ≠ hb) (hmn : 2 * m < n) :
    ∀ (rem D : Nat) (s : Search), D + rem = m + 1 → 1 ≤ D →
      s.found_middle_snake = false →
      2 * m + 1 < s.forward_v.length → 2 * m + 1 < s.reverse_v.length →
      FwdRow m (D - 1) s.forward_v → RevRow n m (D - 1) s.reverse_v →
      ∃ s', search_loop (skew_frame ha hb n m) (rem + 1) (D : Int) s = some ((m : Int) + 1, s')
        ∧ s'.found_middle_snake = false
        ∧ FwdRow m m s'.forward_v ∧ RevRow n m m s'.reverse_v
        ∧ s'.forward_v.length = s.forward_v.length
        ∧ s'.reverse_v.length = s.reverse_v.length := by
  intro rem
  induction rem with
  | zero =>
    intro D s hD _ hnot _ _ hf hr
    have hDm : D = m + 1 := by omega
    subst hDm
    have hc : ¬ (((m + 1 : Nat) : Int) ≤ (m : Int) ∧ s.found_middle_snake = false) := by omega
    refine ⟨s, ?_, hnot, hf, hr, rfl, rfl⟩
    have hmax : (skew_frame ha hb n m).max = (m : Int) := rfl
    simp only [search_loop, hmax, hc, if_false, Option.pure_def]
    congr 2
  | succ rem ih =>
    intro D s hD hD1 hnot hfl hrl hf hr
    have hDm : D ≤ m := by omega
    have hmax : (skew_frame ha hb n m).max = (m : Int) := rfl
    have hc : (D : Int) ≤ (m : Int) ∧ s.found_middle_snake = false := ⟨by omega, hnot⟩
    have hfuel : (D : Int).toNat + 2 = (D + 1) + 1 := by omega
    obtain ⟨s1, hs1, h11, h12, h13, h14⟩ := skew_forward_loop ha hb n m D hD1 hDm hmn (D + 1) 0
      s (0 - (D : Int)) (by omega) (by omega) hnot hfl hf (fun i hi => absurd hi (by omega))
    obtain ⟨s2, hs2, h21, h22, h23, h24⟩ := skew_reverse_loop ha hb n m D hab hD1 hDm hmn
      (D + 1) 0 s1 ((n : Int) - (D : Int)) (by omega) (by omega) h11 (by rw [h12]; exact hrl)
      (by rw [h12]; exact hr) (fun i hi => absurd hi (by omega))
    obtain ⟨s', hs', h1, h2, h3, h4, h5⟩ := ih (D + 1) s2 (by omega) (by omega) h21
      (by rw [h22, h13]; exact hfl) (by rw [h23, h12]; exact hrl)
      (by rw [h22]; simpa using h14) (by simpa using h24)
    refine ⟨s', ?_, h1, h2, h3, by rw [h4, h22, h13], by rw [h5, h23, h12]⟩
    rw [search_loop]
    simp only [hmax, hc, and_self, if_true, skew_frame_delta_start, skew_frame_delta_end, hfuel,
      hs1, Option.bind_eq_bind, Option.some_bind, hs2]
    have hnext : (D : Int) + 1 = ((D + 1 : Nat) : Int) := by push_cast; rfl
    rw [hnext]
    exact hs'

/-- Round 0 of the skew search: the forward pass takes the one match, the reverse pass
finds none, and no overlap test is due. -/
theorem skew_round_zero (ha hb n m : Nat) (hab : ha ≠ hb) (hm : 1 ≤ m) (hmn : 2 * m < n)
    (s : Search) (hnot : s.found_middle_snake = false)
    (hfl : 2 * m + 1 < s.forward_v.length) (hrl : 2 * m + 1 < s.reverse_v.length)
    (hfseed : s.forward_v[m + 1]? = some 0)
    (hrseed : s.reverse_v[m + 1]? = some ((n : Int) + 1 + 1)) :
    ∃ s2, (forward_loop (skew_frame ha hb n m) 0 2 0 s).bind
          (reverse_loop (skew_frame ha hb n m) 0 2 (n : Int)) = some s2
      ∧ s2.found_middle_snake = false
      ∧ s2.forward_v = s.forward_v.set m 1
      ∧ s2.reverse_v = s.reverse_v.set m ((n : Int) + 1) := by
  have hup : (m : Int) + 1 = ((m + 1 : Nat) : Int) := by push_cast; rfl
  have hsn1 : forward_snake (skew_frame ha hb n m) 1 1 1 = some (1, 1) :=
    skew_forward_snake_idle ha hb n m 0 1 1 (le_refl _)
  have hsnake : forward_snake (skew_frame ha hb n m)
      (((skew_frame ha hb n m).first_end - 0).toNat + 1) 0 0 = some (1, 1) := by
    have hfuel : ((skew_frame ha hb n m).first_end - 0).toNat + 1 = (n + 1) + 1 := by
      simp only [skew_frame]; omega
    have hc : (0 : Int) < (n : Int) + 1 ∧ (0 : Int) < 1 := by omega
    have hg1 : arr_get (ha :: List.replicate n hb) 0 = some ha := by simp [arr_get]
    have hg2 : arr_get [ha] 0 = some ha := by simp [arr_get]
    rw [hfuel, forward_snake]
    simp only [skew_frame, hc, and_self, if_true, hg1, hg2, Option.bind_eq_bind,
      Option.some_bind, zero_add]
    obtain ⟨k, hk⟩ : ∃ k, n = k + 1 := ⟨n - 1, by omega⟩
    subst hk
    exact skew_forward_snake_idle ha hb (k + 1) m k 1 1 (le_refl _)
  have hfcheck : ¬ ((n : Int) % 2 ≠ 0 ∧ (0 : Int) ≥ (n : Int) - (0 - 1)
      ∧ (0 : Int) ≤ (n : Int) + (0 - 1)) := by omega
  have hfbody : forward_body (skew_frame ha hb n m) 0 0 s
      = some { s with forward_v := s.forward_v.set m 1, x := 0, y := 0, u := 1, v := 1,
                      found_middle_snake := false } := by
    unfold forward_body
    simp only [skew_frame_delta_start, skew_frame_delta_end, skew_frame_delta,
      skew_frame_center_forward, Option.bind_eq_bind, Option.pure_def, sub_self, if_true,
      add_zero, hup, arr_get_of_nat, hfseed, Option.some_bind, hsnake, hfcheck, if_false,
      arr_set_of_nat s.forward_v m 1 (by omega), hnot, Bool.false_or]
  have hfloop : forward_loop (skew_frame ha hb n m) 0 2 0 s
      = some { s with forward_v := s.forward_v.set m 1, x := 0, y := 0, u := 1, v := 1,
                      found_middle_snake := false } := by
    simp [forward_loop, skew_frame_delta_start, hnot, hfbody]
  have hrup : (m : Int) - (n : Int) + (n : Int) + 1 = ((m + 1 : Nat) : Int) := by omega
  have hridx : (m : Int) - (n : Int) + (n : Int) = ((m : Nat) : Int) := by omega
  have hu : (n : Int) + 1 + 1 - 1 = ((n + 1 : Nat) : Int) := by omega
  have hv : ((n + 1 : Nat) : Int) - (n : Int) = 1 := by omega
  have hrsnake : reverse_snake (skew_frame ha hb n m)
      ((((n + 1 : Nat) : Int) - (skew_frame ha hb n m).first_start).toNat + 1)
      ((n + 1 : Nat) : Int) 1 = some (((n + 1 : Nat) : Int), 1) :=
    skew_reverse_snake_stay ha hb n m hab _ _ (by omega) (by omega)
  have hrcheck : ¬ ((n : Int) % 2 = 0 ∧ (n : Int) ≥ 0 ∧ (n : Int) ≤ 0 + 0) := by omega
  have hrbody : reverse_body (skew_frame ha hb n m) 0 (n : Int)
        { s with forward_v := s.forward_v.set m 1, x := 0, y := 0, u := 1, v := 1,
                 found_middle_snake := false }
      = some { forward_v := s.forward_v.set m 1,
               reverse_v := s.reverse_v.set m ((n + 1 : Nat) : Int),
               x := ((n + 1 : Nat) : Int), y := 1, u := ((n + 1 : Nat) : Int), v := 1,
               found_middle_snake := false } := by
    unfold reverse_body
    simp only [skew_frame_delta_start, skew_frame_delta_end, skew_frame_delta,
      skew_frame_center_reverse, Option.bind_eq_bind, Option.pure_def, sub_zero, if_true, hrup,
      hup, arr_get_of_nat, hrseed, Option.some_bind, hu, hv, hrsnake, hridx, hrcheck, if_false,
      arr_set_of_nat s.reverse_v m _ (show m < s.reverse_v.length by omega), Bool.false_or]
  refine ⟨{ forward_v := s.forward_v.set m 1,
            reverse_v := s.reverse_v.set m ((n + 1 : Nat) : Int),
            x := ((n + 1 : Nat) : Int), y := 1, u := ((n + 1 : Nat) : Int), v := 1,
            found_middle_snake := false }, ?_, rfl, rfl, ?_⟩
  · rw [hfloop, Option.some_bind]
    have hc : ¬ ((n : Int) + 2 ≤ (n : Int) + 0) := by omega
    simp [reverse_loop, skew_frame_delta_end, hrbody, hc]
  · simp

/-- The forward best point after the last round of the skew search: every reached point
has the same `x + y`, so the first one, on the lowest diagonal, is kept. It is
`(1, m + 1)`, far below the single row of `second`. -/
theorem skew_forward_best (ha hb n m : Nat) (fv : List Int) (hrow : FwdRow m m fv) :
    ∀ (rem j : Nat) (best : Int × Int) (diagonal : Int), j + rem = m + 1 →
      diagonal = -(m : Int) + 2 * (j : Int) →
      (j = 0 → best = (0, 0)) → (1 ≤ j → best = (1, (m : Int) + 1)) →
      forward_best (skew_frame ha hb n m) fv (m : Int) (rem + 1) diagonal best
        = some (1, (m : Int) + 1) := by
  intro rem
  induction rem with
  | zero =>
    intro j best diagonal hj hdiag _ h1
    have hc : ¬ (diagonal ≤ 0 + (m : Int)) := by omega
    obtain ⟨bx, bY⟩ := best
    simp only [forward_best, skew_frame_delta_start, hc, if_false, Option.pure_def]
    rw [h1 (by omega)]
  | succ rem ih =>
    intro j best diagonal hj hdiag h0 h1
    have hc : diagonal ≤ 0 + (m : Int) := by omega
    have hidx : (m : Int) + diagonal = ((m - m + 2 * j : Nat) : Int) := by omega
    have hval := hrow j (by omega)
    obtain ⟨bx, bY⟩ := best
    rw [forward_best]
    simp only [skew_frame_delta_start, skew_frame_center_forward, hc, if_true, hidx,
      arr_get_of_nat, hval, Option.bind_eq_bind, Option.some_bind]
    by_cases hj0 : j = 0
    · have hb := h0 hj0
      simp only [Prod.mk.injEq] at hb
      obtain ⟨rfl, rfl⟩ := hb
      have hgt : (1 : Int) + (j : Int) + ((1 : Int) + (j : Int) - diagonal) > 0 + 0 := by omega
      rw [if_pos hgt]
      exact ih (j + 1) _ (diagonal + 2) (by omega) (by push_cast; omega) (by omega)
        (fun _ => by
          congr 1
          · omega
          · omega)
    · have hb := h1 (by omega)
      simp only [Prod.mk.injEq] at hb
      obtain ⟨rfl, rfl⟩ := hb
      have hgt : ¬ ((1 : Int) + (j : Int) + ((1 : Int) + (j : Int) - diagonal)
          > 1 + ((m : Int) + 1)) := by omega
      rw [if_neg hgt]
      exact ih (j + 1) _ (diagonal + 2) (by omega) (by push_cast; omega) (by omega)
        (fun _ => rfl)

/-- The reverse best point after the last round of the skew search: `(n + 1 - m, 1)`. -/
theorem skew_reverse_best (ha hb n m : Nat) (hm : 1 ≤ m) (rv : List Int)
    (hrow : RevRow n m m rv) :
    ∀ (rem j : Nat) (best : Int × Int) (diagonal : Int), j + rem = m + 1 →
      diagonal = (n : Int) - (m : Int) + 2 * (j : Int) →
      (j = 0 → best = ((n : Int) + 1, 1)) → (1 ≤ j → best = ((n : Int) + 1 - (m : Int), 1)) →
      reverse_best (skew_frame ha hb n m) rv (m : Int) (rem + 1) diagonal best
        = some ((n : Int) + 1 - (m : Int), 1) := by
  intro rem
  induction rem with
  | zero =>
    intro j best diagonal hj hdiag _ h1
    have hc : ¬ (diagonal ≤ (n : Int) + (m : Int)) := by omega
    obtain ⟨bx, bY⟩ := best
    simp only [reverse_best, skew_frame_delta_end, hc, if_false, Option.pure_def]
    rw [h1 (by omega)]
  | succ rem ih =>
    intro j best diagonal hj hdiag h0 h1
    have hc : diagonal ≤ (n : Int) + (m : Int) := by omega
    have hidx : (m : Int) - (n : Int) + diagonal = ((m - m + 2 * j : Nat) : Int) := by omega
    have hval := hrow j (by omega)
    obtain ⟨bx, bY⟩ := best
    rw [reverse_best]
    simp only [skew_frame_delta_end, skew_frame_center_reverse, hc, if_true, hidx,
      arr_get_of_nat, hval, Option.bind_eq_bind, Option.some_bind]
    by_cases hj0 : j = 0
    · have hb := h0 hj0
      simp only [Prod.mk.injEq] at hb
      obtain ⟨rfl, rfl⟩ := hb
      have hlt : (n : Int) + 1 - (m : Int) + (j : Int)
          + ((n : Int) + 1 - (m : Int) + (j : Int) - diagonal) < (n : Int) + 1 + 1 := by omega
      rw [if_pos hlt]
      exact ih (j + 1) _ (diagonal + 2) (by omega) (by push_cast; omega) (by omega)
        (fun _ => by
          congr 1
          · omega
          · omega)
    · have hb := h1 (by omega)
      simp only [Prod.mk.injEq] at hb
      obtain ⟨rfl, rfl⟩ := hb
      have hlt : ¬ ((n : Int) + 1 - (m : Int) + (j : Int)
          + ((n : Int) + 1 - (m : Int) + (j : Int) - diagonal)
          < (n : Int) + 1 - (m : Int) + 1) := by omega
      rw [if_neg hlt]
      exact ih (j + 1) _ (diagonal + 2) (by omega) (by push_cast; omega) (by omega)
        (fun _ => rfl)

/-- The fallback of the skew search takes the forward best point `(1, m + 1)`: its
displacement `m + 2` exceeds the displacement `m` of the reverse best point. -/
theorem skew_fallback_split (ha hb n m : Nat) (hm : 1 ≤ m) (s : Search)
    (hf : FwdRow m m s.forward_v) (hr : RevRow n m m s.reverse_v) :
    fallback_split (skew_frame ha hb n m) s (m : Int) = some (1, (m : Int) + 1) := by
  have hfuel : (m : Int).toNat + 2 = (m + 1) + 1 := by omega
  have h1 := skew_forward_best ha hb n m s.forward_v hf (m + 1) 0 (0, 0) (0 - (m : Int))
    (by omega) (by omega) (fun _ => rfl) (fun h => absurd h (by omega))
  have h2 := skew_reverse_best ha hb n m hm s.reverse_v hr (m + 1) 0 ((n : Int) + 1, 1)
    ((n : Int) - (m : Int)) (by omega) (by omega) (fun _ => rfl) (fun h => absurd h (by omega))
  have hfe : (skew_frame ha hb n m).first_end = (n : Int) + 1 := rfl
  have hse : (skew_frame ha hb n m).second_end = 1 := rfl
  have hfs : (skew_frame ha hb n m).first_start = 0 := rfl
  have hss : (skew_frame ha hb n m).second_start = 0 := rfl
  have hcmp : (1 : Int) - 0 + ((m : Int) + 1 - 0)
      > (n : Int) + 1 - ((n : Int) + 1 - (m : Int)) + (1 - 1) := by omega
  unfold fallback_split
  simp only [hfuel, skew_frame_delta_start, skew_frame_delta_end, h1, hfe, hse, hfs, hss, h2,
    Option.bind_eq_bind, Option.some_bind, hcmp, if_true, Option.pure_def]

/-- The search of the top call on the skew input: the budget `m` runs out and the split
point is `(1, m + 1)`, although `second` ends at index 1. -/
theorem skew_find_split (ha hb n m : Nat) (hab : ha ≠ hb) (hm : 1 ≤ m) (hmn : 2 * m < n)
    (fv rv : List Int) (hfl : 2 * m + 1 < fv.length) (hrl : 2 * m + 1 < rv.length) :
    ∃ fv' rv', fv'.length = fv.length ∧ rv'.length = rv.length
      ∧ find_split (ha :: List.replicate n hb) [ha] (m : Int) 0 ((n : Int) + 1) 0 1 fv rv
        = some { forward_v := fv', reverse_v := rv', diff_size := m,
                 delta_even := decide ((skew_frame ha hb n m).delta % 2 = 0),
                 x := 1, y := (m : Int) + 1, u := 1, v := (m : Int) + 1 } := by
  have hmax : (if ((n : Int) + 1 - 0 + 1 - 0) / 2 + 1 > (m : Int) then (m : Int)
      else ((n : Int) + 1 - 0 + 1 - 0) / 2 + 1) = (m : Int) := by
    rw [if_pos (by omega)]
  have hframe : Frame.mk (ha :: List.replicate n hb) [ha] 0 ((n : Int) + 1) 0 1 (m : Int)
      = skew_frame ha hb n m := rfl
  have hidx : (m : Int) + 1 = ((m + 1 : Nat) : Int) := by push_cast; rfl
  obtain ⟨s2, hs2, h21, h22, h23⟩ := skew_round_zero ha hb n m hab hm hmn
    { forward_v := fv.set (m + 1) 0, reverse_v := rv.set (m + 1) ((n : Int) + 1 + 1),
      x := 0, y := 0, u := 0, v := 0, found_middle_snake := false } rfl
    (by simp only [List.length_set]; exact hfl) (by simp only [List.length_set]; exact hrl)
    (by simp only [List.getElem?_set_self (show m + 1 < fv.length by omega)])
    (by simp only [List.getElem?_set_self (show m + 1 < rv.length by omega)])
  simp only at h22 h23
  obtain ⟨s', hs', h1, h2, h3, h4, h5⟩ := skew_search_rounds ha hb n m hab hmn m 1 s2 (by omega)
    (le_refl _) h21 (by rw [h22]; simp only [List.length_set]; exact hfl)
    (by rw [h23]; simp only [List.length_set]; exact hrl)
    (by
      intro j hj
      have hj0 : j = 0 := by omega
      subst hj0
      rw [h22]
      simp [List.getElem?_set_self (show m < (fv.set (m + 1) 0).length by
        simp only [List.length_set]; omega)])
    (by
      intro j hj
      have hj0 : j = 0 := by omega
      subst hj0
      rw [h23]
      simp [List.getElem?_set_self (show m < (rv.set (m + 1) ((n : Int) + 1 + 1)).length by
        simp only [List.length_set]; omega)])
  have hsearch : search_loop (skew_frame ha hb n m) (m + 2) 0
      { forward_v := fv.set (m + 1) 0, reverse_v := rv.set (m + 1) ((n : Int) + 1 + 1),
        x := 0, y := 0, u := 0, v := 0, found_middle_snake := false }
      = some ((m : Int) + 1, s') := by
    have hmax' : (skew_frame ha hb n m).max = (m : Int) := rfl
    have hc : (0 : Int) ≤ (m : Int) := by omega
    rw [search_loop]
    simp only [hmax', hc, and_self, if_true, skew_frame_delta_start, skew_frame_delta_end,
      sub_zero, Int.toNat_zero, zero_add, Option.bind_eq_bind]
    rw [← Option.bind_assoc, hs2, Option.some_bind]
    exact hs'
  have hfb := skew_fallback_split ha hb n m hm s' h2 h3
  have hlens : s'.forward_v.length = fv.length ∧ s'.reverse_v.length = rv.length := by
    rw [h4, h5, h22, h23]
    simp only [List.length_set, and_self]
  have hd : ((m + 1 : Nat) : Int) - 1 = (m : Int) := by omega
  rw [hidx] at hfb
  refine ⟨s'.forward_v, s'.reverse_v, hlens.1, hlens.2, ?_⟩
  unfold find_split
  simp only [hmax, hidx, arr_set_of_nat fv (m + 1) 0 (by omega),
    arr_set_of_nat rv (m + 1) _ (show m + 1 < rv.length by omega), Option.bind_eq_bind,
    Option.some_bind, hframe, Int.toNat_ofNat, hsearch, h1, Bool.false_eq_true, if_false,
    hd, hfb, Option.pure_def]

/-- The reverse pass of round 0 of the first recursive call reads `s_hash[m]`, outside the
one-entry table. -/
theorem overrun_reverse_body (ha hb n m : Nat) (hm : 1 ≤ m) (s : Search)
    (hseed : s.reverse_v[(m + 2) / 2 + 1 + 1]? = some 2) :
    reverse_body (overrun_frame ha hb n m) 0 (-(m : Int)) s = none := by
  have hde : (overrun_frame ha hb n m).delta_end = -(m : Int) := by
    simp [Frame.delta_end, overrun_frame]
  have hcr : (overrun_frame ha hb n m).center_reverse
      = (((m + 2) / 2 + 1 : Nat) : Int) + (m : Int) := by
    simp only [Frame.center_reverse, Frame.delta_end, overrun_frame]
    omega
  have hidx : (((m + 2) / 2 + 1 : Nat) : Int) + (m : Int) + -(m : Int) + 1
      = (((m + 2) / 2 + 1 + 1 : Nat) : Int) := by omega
  have hfs : (overrun_frame ha hb n m).first_start = 0 := rfl
  have hsnake : reverse_snake (overrun_frame ha hb n m) (((2 : Int) - 1).toNat + 1)
      (2 - 1) (2 - 1 - -(m : Int)) = none := by
    have hfuel : ((2 : Int) - 1).toNat + 1 = 1 + 1 := by omega
    have hc : ((2 : Int) - 1 > 0 ∧ (2 : Int) - 1 - -(m : Int) > 0) := by omega
    have hg1 : arr_get (ha :: List.replicate n hb) ((2 : Int) - 1 - 1) = some ha := by
      simp [arr_get]
    have hi2 : (2 : Int) - 1 - -(m : Int) - 1 = ((m : Nat) : Int) := by omega
    have hg2 : arr_get [ha] ((m : Nat) : Int) = none := by
      rw [arr_get_of_nat]
      exact List.getElem?_eq_none (by simp; omega)
    rw [hfuel, reverse_snake]
    simp only [overrun_frame, hc, and_self, if_true, hg1, hi2, hg2, Option.bind_eq_bind,
      Option.some_bind, Option.none_bind]
  unfold reverse_body
  simp only [hde, hcr, hfs, sub_zero, if_true, hidx, arr_get_of_nat, hseed,
    Option.bind_eq_bind, Option.some_bind, Option.pure_def, hsnake, Option.none_bind]

/-- The forward pass of round 0 of the first recursive call: it takes the one match and
leaves `reverse_v` alone. -/
theorem overrun_forward_loop (ha hb n m : Nat) (s : Search)
    (hnot : s.found_middle_snake = false)
    (hlen : (m + 2) / 2 + 1 + 1 < s.forward_v.length)
    (hseed : s.forward_v[(m + 2) / 2 + 1 + 1]? = some 0) :
    ∃ s1, forward_loop (overrun_frame ha hb n m) 0 2 0 s = some s1
      ∧ s1.found_middle_snake = false ∧ s1.reverse_v = s.reverse_v := by
  have hds : (overrun_frame ha hb n m).delta_start = 0 := by
    simp [Frame.delta_start, overrun_frame]
  have hde : (overrun_frame ha hb n m).delta_end = -(m : Int) := by
    simp [Frame.delta_end, overrun_frame]
  have hdelta : (overrun_frame ha hb n m).delta = -(m : Int) := by
    simp [Frame.delta, hds, hde]
  have hcf : (overrun_frame ha hb n m).center_forward = (((m + 2) / 2 + 1 : Nat) : Int) := by
    simp [Frame.center_forward, Frame.delta_start, overrun_frame]
  have hup : (((m + 2) / 2 + 1 : Nat) : Int) + 1 = (((m + 2) / 2 + 1 + 1 : Nat) : Int) := by
    push_cast; rfl
  have hsnake : forward_snake (overrun_frame ha hb n m)
      (((overrun_frame ha hb n m).first_end - 0).toNat + 1) 0 0 = some (1, 1) := by
    have hfuel : ((overrun_frame ha hb n m).first_end - 0).toNat + 1 = 1 + 1 := by
      simp only [overrun_frame]; omega
    have hc : (0 : Int) < 1 ∧ (0 : Int) < (m : Int) + 1 := by omega
    have hc1 : ¬ ((1 : Int) < 1 ∧ (1 : Int) < (m : Int) + 1) := by omega
    have hg1 : arr_get (ha :: List.replicate n hb) 0 = some ha := by simp [arr_get]
    have hg2 : arr_get [ha] 0 = some ha := by simp [arr_get]
    rw [hfuel, forward_snake]
    simp only [overrun_frame, hc, and_self, if_true, hg1, hg2, Option.bind_eq_bind,
      Option.some_bind, forward_snake, hc1, if_false, Option.pure_def, zero_add]
  have hcheck : ¬ (-(m : Int) % 2 ≠ 0 ∧ (0 : Int) ≥ -(m : Int) - (0 - 1)
      ∧ (0 : Int) ≤ -(m : Int) + (0 - 1)) := by omega
  have hbody : forward_body (overrun_frame ha hb n m) 0 0 s
      = some { s with forward_v := s.forward_v.set ((m + 2) / 2 + 1) 1, x := 0, y := 0,
                      u := 1, v := 1, found_middle_snake := false } := by
    unfold forward_body
    simp only [hds, hde, hdelta, hcf, Option.bind_eq_bind, Option.pure_def, sub_self, if_true,
      add_zero, hup, arr_get_of_nat, hseed, Option.some_bind, hsnake, hcheck, if_false,
      arr_set_of_nat s.forward_v ((m + 2) / 2 + 1) 1 (by omega), hnot, Bool.false_or]
  refine ⟨{ s with forward_v := s.forward_v.set ((m + 2) / 2 + 1) 1, x := 0, y := 0,
                   u := 1, v := 1, found_middle_snake := false }, ?_, rfl, rfl⟩
  simp [forward_loop, hds, hnot, hbody]

/-- The search of the first recursive call on the skew input faults. -/
theorem overrun_find_split (ha hb n m : Nat) (hm : 4 ≤ m) (fv rv : List Int)
    (hfl : m + 1 < fv.length) (hrl : m + 1 < rv.length) :
    find_split (ha :: List.replicate n hb) [ha] (m : Int) 0 1 0 ((m : Int) + 1) fv rv
      = none := by
  have hmax : (if ((1 : Int) - 0 + ((m : Int) + 1) - 0) / 2 + 1 > (m : Int) then (m : Int)
      else ((1 : Int) - 0 + ((m : Int) + 1) - 0) / 2 + 1) = (((m + 2) / 2 + 1 : Nat) : Int) := by
    rw [if_neg (by omega)]
    omega
  have hframe : Frame.mk (ha :: List.replicate n hb) [ha] 0 1 0 ((m : Int) + 1)
      (((m + 2) / 2 + 1 : Nat) : Int) = overrun_frame ha hb n m := rfl
  have hidx : (((m + 2) / 2 + 1 : Nat) : Int) + 1 = (((m + 2) / 2 + 1 + 1 : Nat) : Int) := by
    push_cast; rfl
  have hp : (m + 2) / 2 + 1 + 1 ≤ m + 1 := by omega
  obtain ⟨s1, hs1, h11, h12⟩ := overrun_forward_loop ha hb n m
    { forward_v := fv.set ((m + 2) / 2 + 1 + 1) 0,
      reverse_v := rv.set ((m + 2) / 2 + 1 + 1) ((1 : Int) + 1),
      x := 0, y := 0, u := 0, v := 0, found_middle_snake := false } rfl
    (by simp only [List.length_set]; omega)
    (by simp only [List.getElem?_set_self (show (m + 2) / 2 + 1 + 1 < fv.length by omega)])
  have hrb := overrun_reverse_body ha hb n m (by omega) s1
    (by
      rw [h12]
      show (rv.set ((m + 2) / 2 + 1 + 1) ((1 : Int) + 1))[(m + 2) / 2 + 1 + 1]? = some 2
      rw [List.getElem?_set_self (show (m + 2) / 2 + 1 + 1 < rv.length by omega)]
      rfl)
  have hrl' : reverse_loop (overrun_frame ha hb n m) 0 2 (-(m : Int)) s1 = none := by
    have hde : (overrun_frame ha hb n m).delta_end = -(m : Int) := by
      simp [Frame.delta_end, overrun_frame]
    simp [reverse_loop, hde, h11, hrb]
  have hsearch : search_loop (overrun_frame ha hb n m) ((m + 2) / 2 + 1 + 2) 0
      { forward_v := fv.set ((m + 2) / 2 + 1 + 1) 0,
        reverse_v := rv.set ((m + 2) / 2 + 1 + 1) ((1 : Int) + 1),
        x := 0, y := 0, u := 0, v := 0, found_middle_snake := false } = none := by
    have hmax' : (overrun_frame ha hb n m).max = (((m + 2) / 2 + 1 : Nat) : Int) := rfl
    have hds : (overrun_frame ha hb n m).delta_start = 0 := by
      simp [Frame.delta_start, overrun_frame]
    have hde : (overrun_frame ha hb n m).delta_end = -(m : Int) := by
      simp [Frame.delta_end, overrun_frame]
    have hc : (0 : Int) ≤ (((m + 2) / 2 + 1 : Nat) : Int) := by omega
    rw [search_loop]
    simp only [hmax', hc, and_self, if_true, hds, hde, sub_zero, Int.toNat_zero, zero_add,
      Option.bind_eq_bind, hs1, Option.some_bind, hrl', Option.none_bind]
  unfold find_split
  simp only [hmax, hidx, arr_set_of_nat fv _ 0 (show (m + 2) / 2 + 1 + 1 < fv.length by omega),
    arr_set_of_nat rv _ _ (show (m + 2) / 2 + 1 + 1 < rv.length by omega), Option.bind_eq_bind,
    Option.some_bind, hframe, Int.toNat_ofNat, hsearch, Option.none_bind]

/-- On the skew input the recursive procedure faults: the fallback hands the first
recursive call a range of `second` that ends at `m + 1`, and that call reads the
fingerprint table of `second` at index `m`. -/
theorem skew_impl_none (first second : List String) (ha hb n m : Nat) (hab : ha ≠ hb)
    (hm : 4 ≤ m) (hmn : 2 * m < n) (depth : Nat) (fv rv : List Int) (result : List String)
    (hfl : 2 * m + 1 < fv.length) (hrl : 2 * m + 1 < rv.length) :
    smartlist_longest_common_subsequence_impl first second (ha :: List.replicate n hb) [ha]
      (m : Int) (depth + 2) 0 ((n : Int) + 1) 0 1 fv rv result = none := by
  obtain ⟨fv', rv', hl1, hl2, hsplit⟩ := skew_find_split ha hb n m hab (by omega) hmn fv rv hfl
    hrl
  have hover := overrun_find_split ha hb n m hm fv' rv' (by omega) (by omega)
  have hc0 : ¬ ((n : Int) + 1 - 0 ≤ 0 ∨ (1 : Int) - 0 ≤ 0) := by omega
  have hc1 : ((m : Int) > 1 ∨
      (decide ((skew_frame ha hb n m).delta % 2 = 0) = true ∧ (m : Int) = 1)) :=
    Or.inl (by omega)
  have hc2 : ¬ ((1 : Int) - 0 ≤ 0 ∨ (m : Int) + 1 - 0 ≤ 0) := by omega
  have hinner : smartlist_longest_common_subsequence_impl first second
      (ha :: List.replicate n hb) [ha] (m : Int) (depth + 1) 0 1 0 ((m : Int) + 1) fv' rv'
      result = none := by
    rw [smartlist_longest_common_subsequence_impl]
    simp only [hc2, if_false, hover, Option.bind_eq_bind, Option.none_bind]
  rw [smartlist_longest_common_subsequence_impl]
  simp only [hc0, if_false, hsplit, Option.bind_eq_bind, Option.some_bind, hc1, if_true,
    hinner, Option.none_bind]

/-- For a first sequence `a, b, ..., b` with `n` lines `b` and the second sequence `[a]`,
when the budget `m` is less than half of `n`, the engine faults instead of returning a
list. -/
theorem skew_lcs_none (hash : String → Nat) (a b : String) (hab : hash a ≠ hash b)
    (n m : Nat) (hT : too_expensive_of (n + 2) = (m : Int)) (hm : 4 ≤ m) (hmn : 2 * m < n) :
    smartlist_longest_common_subsequence hash (a :: List.replicate n b) [a] = none := by
  have hlen : (a :: List.replicate n b).length = n + 1 := by simp
  have hfe : ((n + 1 : Nat) : Int) = (n : Int) + 1 := by push_cast; rfl
  have hT' : too_expensive_of (n + 1 + 1) = (m : Int) := hT
  have himpl : smartlist_longest_common_subsequence_impl (a :: List.replicate n b) [a]
      (hash a :: List.replicate n (hash b)) [hash a] (m : Int) (n + 1 + 1 + 1) 0
      ((n : Int) + 1) 0 1 (List.replicate (((n + 1 + 1) / 2 + 1) * 2) 0)
      (List.replicate (((n + 1 + 1) / 2 + 1) * 2) 0) [] = none :=
    skew_impl_none (a :: List.replicate n b) [a] (hash a) (hash b) n m hab hm hmn
      (n + 1) _ _ [] (by simp only [List.length_replicate]; omega)
      (by simp only [List.length_replicate]; omega)
  unfold smartlist_longest_common_subsequence
  simp only [hlen, hT', hfe, List.map_cons, List.map_replicate, List.map_nil,
    List.length_singleton, Nat.cast_one, himpl, Option.bind_eq_bind, Option.none_bind]

/-! ## The engine depends on the fingerprints through equality only -/

theorem arr_get_none_iff {α : Type} (a : List α) (i : Int) :
    arr_get a i = none ↔ (i < 0 ∨ (a.length : Int) ≤ i) := by
  unfold arr_get
  by_cases h : i < 0
  · simp [h]
  · simp only [h, if_false, false_or, List.getElem?_eq_none_iff]
    omega

theorem arr_get_same_length {α : Type} (a b : List α) (h : a.length = b.length) (i : Int) :
    (arr_get a i).isSome = (arr_get b i).isSome := by
  cases ha : arr_get a i with
  | none =>
    have := (arr_get_none_iff a i).mp ha
    rw [h] at this
    rw [(arr_get_none_iff b i).mpr this]
  | some x =>
    cases hb : arr_get b i with
    | none =>
      have := (arr_get_none_iff b i).mp hb
      rw [← h] at this
      rw [(arr_get_none_iff a i).mpr this] at ha
      cases ha
    | some y => rfl

theorem arr_get_eq_some {α : Type} (a : List α) (i : Int) (x : α) (h : arr_get a i = some x) :
    a[i.toNat]? = some x := by
  unfold arr_get at h
  by_cases h0 : i < 0
  · simp [h0] at h
  · simpa [h0] using h

theorem forward_snake_pattern (c : Frame) (f2 s2 : List Nat)
    (h : SamePattern c.f_hash c.s_hash f2 s2) : ∀ (fuel : Nat) (u v : Int),
    forward_snake (c.with_hashes f2 s2) fuel u v = forward_snake c fuel u v := by
  intro fuel
  induction fuel with
  | zero => intro u v; rfl
  | succ fuel ih =>
    intro u v
    unfold forward_snake
    have hfe : (c.with_hashes f2 s2).first_end = c.first_end := rfl
    have hse : (c.with_hashes f2 s2).second_end = c.second_end := rfl
    have hf : (c.with_hashes f2 s2).f_hash = f2 := rfl
    have hs : (c.with_hashes f2 s2).s_hash = s2 := rfl
    rw [hfe, hse, hf, hs]
    by_cases hb : u < c.first_end ∧ v < c.second_end
    · rw [if_pos hb, if_pos hb]
      have h1 := arr_get_same_length c.f_hash f2 h.1 u
      have h2 := arr_get_same_length c.s_hash s2 h.2.1 v
      cases ha : arr_get c.f_hash u with
      | none =>
        rw [ha] at h1
        cases ha2 : arr_get f2 u with
        | none => rfl
        | some a2 => rw [ha2] at h1; cases h1
      | some a =>
        rw [ha] at h1
        cases ha2 : arr_get f2 u with
        | none => rw [ha2] at h1; cases h1
        | some a2 =>
          cases hb1 : arr_get c.s_hash v with
          | none =>
            rw [hb1] at h2
            cases hb2 : arr_get s2 v with
            | none => rfl
            | some b2 => rw [hb2] at h2; cases h2
          | some b =>
            rw [hb1] at h2
            cases hb2 : arr_get s2 v with
            | none => rw [hb2] at h2; cases h2
            | some b2 =>
              have hiff := h.2.2 u.toNat v.toNat a b a2 b2 (arr_get_eq_some _ _ _ ha)
                (arr_get_eq_some _ _ _ hb1) (arr_get_eq_some _ _ _ ha2)
                (arr_get_eq_some _ _ _ hb2)
              simp only [Option.bind_eq_bind, Option.some_bind, Option.pure_def]
              by_cases hab : a = b
              · rw [if_pos hab, if_pos (hiff.mp hab)]
                exact ih (u + 1) (v + 1)
              · rw [if_neg hab, if_neg (fun h2 => hab (hiff.mpr h2))]
    · rw [if_neg hb, if_neg hb]

theorem reverse_snake_pattern (c : Frame) (f2 s2 : List Nat)
    (h : SamePattern c.f_hash c.s_hash f2 s2) : ∀ (fuel : Nat) (x y : Int),
    reverse_snake (c.with_hashes f2 s2) fuel x y = reverse_snake c fuel x y := by
  intro fuel
  induction fuel with
  | zero => intro x y; rfl
  | succ fuel ih =>
    intro x y
    unfold reverse_snake
    have hfe : (c.with_hashes f2 s2).first_start = c.first_start := rfl
    have hse : (c.with_hashes f2 s2).second_start = c.second_start := rfl
    have hf : (c.with_hashes f2 s2).f_hash = f2 := rfl
    have hs : (c.with_hashes f2 s2).s_hash = s2 := rfl
    rw [hfe, hse, hf, hs]
    by_cases hb : x > c.first_start ∧ y > c.second_start
    · rw [if_pos hb, if_pos hb]
      have h1 := arr_get_same_length c.f_hash f2 h.1 (x - 1)
      have h2 := arr_get_same_length c.s_hash s2 h.2.1 (y - 1)
      cases ha : arr_get c.f_hash (x - 1) with
      | none =>
        rw [ha] at h1
        cases ha2 : arr_get f2 (x - 1) with
        | none => rfl
        | some a2 => rw [ha2] at h1; cases h1
      | some a =>
        rw [ha] at h1
        cases ha2 : arr_get f2 (x - 1) with
        | none => rw [ha2] at h1; cases h1
        | some a2 =>
          cases hb1 : arr_get c.s_hash (y - 1) with
          | none =>
            rw [hb1] at h2
            cases hb2 : arr_get s2 (y - 1) with
            | none => rfl
            | some b2 => rw [hb2] at h2; cases h2
          | some b =>
            rw [hb1] at h2
            cases hb2 : arr_get s2 (y - 1) with
            | none => rw [hb2] at h2; cases h2
            | some b2 =>
              have hiff := h.2.2 (x - 1).toNat (y - 1).toNat a b a2 b2
                (arr_get_eq_some _ _ _ ha) (arr_get_eq_some _ _ _ hb1)
                (arr_get_eq_some _ _ _ ha2) (arr_get_eq_some _ _ _ hb2)
              simp only [Option.bind_eq_bind, Option.some_bind, Option.pure_def]
              by_cases hab : a = b
              · rw [if_pos hab, if_pos (hiff.mp hab)]
                exact ih (x - 1) (y - 1)
              · rw [if_neg hab, if_neg (fun h2 => hab (hiff.mpr h2))]
    · rw [if_neg hb, if_neg hb]

theorem forward_body_pattern (c : Frame) (f2 s2 : List Nat)
    (h : SamePattern c.f_hash c.s_hash f2 s2) (diff_size diagonal : Int) (s : Search) :
    forward_body (c.with_hashes f2 s2) diff_size diagonal s
      = forward_body c diff_size diagonal s := by
  unfold forward_body
  simp only [forward_snake_pattern c f2 s2 h]
  rfl

theorem reverse_body_pattern (c : Frame) (f2 s2 : List Nat)
    (h : SamePattern c.f_hash c.s_hash f2 s2) (diff_size diagonal : Int) (s : Search) :
    reverse_body (c.with_hashes f2 s2) diff_size diagonal s
      = reverse_body c diff_size diagonal s := by
  unfold reverse_body
  simp only [reverse_snake_pattern c f2 s2 h]
  rfl

theorem forward_loop_pattern (c : Frame) (f2 s2 : List Nat)
    (h : SamePattern c.f_hash c.s_hash f2 s2) (diff_size : Int) :
    ∀ (fuel : Nat) (diagonal : Int) (s : Search),
    forward_loop (c.with_hashes f2 s2) diff_size fuel diagonal s
      = forward_loop c diff_size fuel diagonal s := by
  intro fuel
  induction fuel with
  | zero => intro _ _; rfl
  | succ fuel ih =>
    intro diagonal s
    unfold forward_loop
    simp only [forward_body_pattern c f2 s2 h, ih]
    rfl

theorem reverse_loop_pattern (c : Frame) (f2 s2 : List Nat)
    (h : SamePattern c.f_hash c.s_hash f2 s2) (diff_size : Int) :
    ∀ (fuel : Nat) (diagonal : Int) (s : Search),
    reverse_loop (c.with_hashes f2 s2) diff_size fuel diagonal s
      = reverse_loop c diff_size fuel diagonal s := by
  intro fuel
  induction fuel with
  | zero => intro _ _; rfl
  | succ fuel ih =>
    intro diagonal s
    unfold reverse_loop
    simp only [reverse_body_pattern c f2 s2 h, ih]
    rfl

theorem search_loop_pattern (c : Frame) (f2 s2 : List Nat)
    (h : SamePattern c.f_hash c.s_hash f2 s2) :
    ∀ (fuel : Nat) (diff_size : Int) (s : Search),
    search_loop (c.with_hashes f2 s2) fuel diff_size s = search_loop c fuel diff_size s := by
  intro fuel
  induction fuel with
  | zero => intro _ _; rfl
  | succ fuel ih =>
    intro diff_size s
    unfold search_loop
    simp only [forward_loop_pattern c f2 s2 h, reverse_loop_pattern c f2 s2 h, ih]
    rfl

theorem forward_best_pattern (c : Frame) (f2 s2 : List Nat) (forward_v : List Int)
    (diff_size : Int) : ∀ (fuel : Nat) (diagonal : Int) (best : Int × Int),
    forward_best (c.with_hashes f2 s2) forward_v diff_size fuel diagonal best
      = forward_best c forward_v diff_size fuel diagonal best := by
  intro fuel
  induction fuel with
  | zero => intro _ _; rfl
  | succ fuel ih =>
    intro diagonal best
    obtain ⟨bx, by1⟩ := best
    unfold forward_best
    simp only [ih]
    rfl

theorem reverse_best_pattern (c : Frame) (f2 s2 : List Nat) (reverse_v : List Int)
    (diff_size : Int) : ∀ (fuel : Nat) (diagonal : Int) (best : Int × Int),
    reverse_best (c.with_hashes f2 s2) reverse_v diff_size fuel diagonal best
      = reverse_best c reverse_v diff_size fuel diagonal best := by
  intro fuel
  induction fuel with
  | zero => intro _ _; rfl
  | succ fuel ih =>
    intro diagonal best
    obtain ⟨bx, by1⟩ := best
    unfold reverse_best
    simp only [ih]
    rfl

theorem fallback_split_pattern (c : Frame) (f2 s2 : List Nat) (s : Search) (diff_size : Int) :
    fallback_split (c.with_hashes f2 s2) s diff_size = fallback_split c s diff_size := by
  unfold fallback_split
  simp only [forward_best_pattern, reverse_best_pattern]
  rfl

theorem find_split_pattern (f_hash s_hash f2 s2 : List Nat)
    (h : SamePattern f_hash s_hash f2 s2) (too_expensive : Int)
    (first_start first_end second_start second_end : Int) (forward_v reverse_v : List Int) :
    find_split f2 s2 too_expensive first_start first_end second_start second_end
        forward_v reverse_v
      = find_split f_hash s_hash too_expensive first_start first_end second_start second_end
        forward_v reverse_v := by
  unfold find_split
  simp only []
  have hs := search_loop_pattern
    (Frame.mk f_hash s_hash first_start first_end second_start second_end
      (if (first_end - first_start + second_end - second_start) / 2 + 1 > too_expensive
        then too_expensive
        else (first_end - first_start + second_end - second_start) / 2 + 1)) f2 s2 h
  have hf := fallback_split_pattern
    (Frame.mk f_hash s_hash first_start first_end second_start second_end
      (if (first_end - first_start + second_end - second_start) / 2 + 1 > too_expensive
        then too_expensive
        else (first_end - first_start + second_end - second_start) / 2 + 1)) f2 s2
  simp only [Frame.with_hashes] at hs hf
  simp only [hs, hf]
  rfl

theorem impl_pattern (first second : List String) (f_hash s_hash f2 s2 : List Nat)
    (h : SamePattern f_hash s_hash f2 s2) (too_expensive : Int) :
    ∀ (depth : Nat) (first_start first_end second_start second_end : Int)
      (forward_v reverse_v : List Int) (result : List String),
    smartlist_longest_common_subsequence_impl first second f2 s2 too_expensive depth
        first_start first_end second_start second_end forward_v reverse_v result
      = smartlist_longest_common_subsequence_impl first second f_hash s_hash too_expensive
          depth first_start first_end second_start second_end forward_v reverse_v result := by
  intro depth
  induction depth with
  | zero => intros; rfl
  | succ depth ih =>
    intros
    unfold smartlist_longest_common_subsequence_impl
    simp only [find_split_pattern f_hash s_hash f2 s2 h, ih]

/-- The engine looks at the lines only through the comparisons of their fingerprints: two
fingerprint functions that agree on which line of `first` equals which line of `second`
give the same run. -/
theorem lcs_pattern (hash hash2 : String → Nat) (first second : List String)
    (h : ∀ a ∈ first, ∀ b ∈ second, (hash a = hash b ↔ hash2 a = hash2 b)) :
    smartlist_longest_common_subsequence hash2 first second
      = smartlist_longest_common_subsequence hash first second := by
  have hp : SamePattern (first.map hash) (second.map hash) (first.map hash2)
      (second.map hash2) := by
    refine ⟨by simp, by simp, ?_⟩
    intro i j a b a2 b2 h1 h2 h3 h4
    simp only [List.getElem?_map, Option.map_eq_some'] at h1 h2 h3 h4
    obtain ⟨p, hp, rfl⟩ := h1
    obtain ⟨q, hq, rfl⟩ := h2
    obtain ⟨p2, hp2, rfl⟩ := h3
    obtain ⟨q2, hq2, rfl⟩ := h4
    rw [hp] at hp2
    rw [hq] at hq2
    cases hp2
    cases hq2
    exact h p (List.mem_iff_getElem?.mpr ⟨i, hp⟩) q (List.mem_iff_getElem?.mpr ⟨j, hq⟩)
  unfold smartlist_longest_common_subsequence
  simp only [impl_pattern first second _ _ _ _ hp]

/-! ## The script for the reference texts -/

set_option maxRecDepth 100000 in
theorem make_diff_line_number : make_diff line_number DIFF_OLD DIFF_NEW = some DIFF_PATCH := by
  decide

theorem line_number_inj : ∀ a ∈ DIFF_OLD, ∀ b ∈ DIFF_NEW,
    line_number a = line_number b → a = b := by
  intro a ha b hb h
  exact (List.indexOf_inj (List.mem_append_left _ ha) (List.mem_append_right _ hb)).mp h

/-! ## The fallback point of the skew input -/

/-- The search of the top call on the skew input ends with the budget exhausted and no
middle snake, and the fallback then picks `(1, m + 1)`. -/
theorem skew_search_loop (ha hb n m : Nat) (hab : ha ≠ hb) (hm : 1 ≤ m) (hmn : 2 * m < n)
    (fv rv : List Int) (hfl : 2 * m + 1 < fv.length) (hrl : 2 * m + 1 < rv.length) :
    ∃ s, search_loop (skew_frame ha hb n m) (m + 2) 0
          { forward_v := fv.set (m + 1) 0, reverse_v := rv.set (m + 1) ((n : Int) + 1 + 1),
            x := 0, y := 0, u := 0, v := 0, found_middle_snake := false }
          = some ((m : Int) + 1, s)
      ∧ s.found_middle_snake = false
      ∧ fallback_split (skew_frame ha hb n m) s (m : Int) = some (1, (m : Int) + 1) := by
  obtain ⟨s2, hs2, h21, h22, h23⟩ := skew_round_zero ha hb n m hab hm hmn
    { forward_v := fv.set (m + 1) 0, reverse_v := rv.set (m + 1) ((n : Int) + 1 + 1),
      x := 0, y := 0, u := 0, v := 0, found_middle_snake := false } rfl
    (by simp only [List.length_set]; exact hfl) (by simp only [List.length_set]; exact hrl)
    (by simp only [List.getElem?_set_self (show m + 1 < fv.length by omega)])
    (by simp only [List.getElem?_set_self (show m + 1 < rv.length by omega)])
  simp only at h22 h23
  obtain ⟨s', hs', h1, h2, h3, _, _⟩ := skew_search_rounds ha hb n m hab hmn m 1 s2 (by omega)
    (le_refl _) h21 (by rw [h22]; simp only [List.length_set]; exact hfl)
    (by rw [h23]; simp only [List.length_set]; exact hrl)
    (by
      intro j hj
      have hj0 : j = 0 := by omega
      subst hj0
      rw [h22]
      simp [List.getElem?_set_self (show m < (fv.set (m + 1) 0).length by
        simp only [List.length_set]; omega)])
    (by
      intro j hj
      have hj0 : j = 0 := by omega
      subst hj0
      rw [h23]
      simp [List.getElem?_set_self (show m < (rv.set (m + 1) ((n : Int) + 1 + 1)).length by
        simp only [List.length_set]; omega)])
  refine ⟨s', ?_, h1, skew_fallback_split ha hb n m hm s' h2 h3⟩
  have hmax' : (skew_frame ha hb n m).max = (m : Int) := rfl
  have hc : (0 : Int) ≤ (m : Int) := by omega
  rw [search_loop]
  simp only [hmax', hc, and_self, if_true, skew_frame_delta_start, skew_frame_delta_end,
    sub_zero, Int.toNat_zero, zero_add, Option.bind_eq_bind]
  rw [← Option.bind_assoc, hs2, Option.some_bind]
  exact hs'

/-! ## The cost budget -/

/-- The loop of lines 126-127 doubles `too_expensive` once for every base-4 digit of
`total_length`. -/
theorem too_expensive_loop_digits : ∀ (fuel total_length : Nat) (too_expensive : Int),
    (Nat.digits 4 total_length).length ≤ fuel →
    too_expensive_loop fuel (total_length : Int) too_expensive
      = too_expensive * 2 ^ (Nat.digits 4 total_length).length := by
  intro fuel
  induction fuel with
  | zero =>
    intro t e h
    have h0 : (Nat.digits 4 t).length = 0 := by omega
    simp [too_expensive_loop, h0]
  | succ fuel ih =>
    intro t e h
    unfold too_expensive_loop
    by_cases ht : t = 0
    · subst ht
      simp
    · have hne : (t : Int) ≠ 0 := by exact_mod_cast ht
      have hdiv : (t : Int) / 4 = ((t / 4 : Nat) : Int) := by push_cast; rfl
      have hd : Nat.digits 4 t = (t % 4) :: Nat.digits 4 (t / 4) :=
        Nat.digits_def' (by decide) (Nat.pos_of_ne_zero ht)
      rw [if_pos hne, hdiv, ih (t / 4) (e * 2) (by rw [hd] at h; simpa using h), hd]
      simp only [List.length_cons, pow_succ]
      ring

theorem digits_length_le (t : Nat) : (Nat.digits 4 t).length ≤ t + 1 := by
  by_cases ht : t = 0
  · subst ht
    simp
  · rw [Nat.digits_len 4 t (by decide) ht]
    have := Nat.log_le_self 4 t
    omega

/-- The budget is `max(256, 2^k)` for `k` the number of base-4 digits of the combined
length. -/
theorem too_expensive_of_eq (t : Nat) :
    too_expensive_of t = max 256 (2 ^ (Nat.digits 4 t).length) := by
  unfold too_expensive_of
  simp only [too_expensive_loop_digits (t + 1) t 1 (digits_length_le t), one_mul]
  by_cases h : (2 : Int) ^ (Nat.digits 4 t).length < 256
  · rw [if_pos h, max_eq_left (le_of_lt h)]
  · rw [if_neg h, max_eq_right (not_lt.mp h)]

/-! ## Facts about edit paths -/

theorem Fwd.cast {c : Frame} {d d' : Nat} {x y x' y' : Int} (h : Fwd c d x y) (hd : d = d')
    (hx : x = x') (hy : y = y') : Fwd c d' x' y' := by
  subst hd hx hy
  exact h

theorem Rev.rev_cast {c : Frame} {d d' : Nat} {x y x' y' : Int} (h : Rev c d x y) (hd : d = d')
    (hx : x = x') (hy : y = y') : Rev c d' x' y' := by
  subst hd hx hy
  exact h

theorem Fwd.fwd_bounds {c : Frame} {d : Nat} {x y : Int} (h : Fwd c d x y) :
    c.first_start ≤ x ∧ c.second_start ≤ y
      ∧ (d : Int) ≤ (x - c.first_start) + (y - c.second_start)
      ∧ ((x - c.first_start) + (y - c.second_start) - d) % 2 = 0
      ∧ (x - y) - c.delta_start ≤ d ∧ c.delta_start - (x - y) ≤ d := by
  unfold Frame.delta_start
  induction h with
  | start => simp
  | diag _ _ ih => omega
  | right _ ih => push_cast; omega
  | down _ ih => push_cast; omega

theorem Rev.rev_bounds {c : Frame} {d : Nat} {x y : Int} (h : Rev c d x y) :
    x ≤ c.first_end ∧ y ≤ c.second_end
      ∧ (d : Int) ≤ (c.first_end - x) + (c.second_end - y)
      ∧ ((c.first_end - x) + (c.second_end - y) - d) % 2 = 0
      ∧ (x - y) - c.delta_end ≤ d ∧ c.delta_end - (x - y) ≤ d := by
  unfold Frame.delta_end
  induction h with
  | stop => simp
  | diag _ _ ih => omega
  | left _ ih => push_cast; omega
  | up _ ih => push_cast; omega

/-- Diagonal steps over equal lines extend a forward path. -/
theorem Fwd.slide {c : Frame} {d : Nat} {x y : Int} (h : Fwd c d x y) :
    ∀ (t : Nat), (∀ z, x ≤ z → z < x + t → c.same_line z (z - (x - y))) →
      Fwd c d (x + t) (y + t) := by
  intro t
  induction t with
  | zero => intro _; exact h.cast rfl (by simp) (by simp)
  | succ t ih =>
    intro hm
    have h1 := ih (fun z hz1 hz2 => hm z hz1 (by push_cast; omega))
    have h2 := hm (x + t) (by omega) (by push_cast; omega)
    exact (h1.diag (by rw [show y + (t : Int) = x + t - (x - y) by omega]; exact h2)).cast rfl
      (by push_cast; omega) (by push_cast; omega)

theorem Rev.rev_slide {c : Frame} {d : Nat} {x y : Int} (h : Rev c d x y) :
    ∀ (t : Nat), (∀ z, x - t ≤ z → z < x → c.same_line z (z - (x - y))) →
      Rev c d (x - t) (y - t) := by
  intro t
  induction t with
  | zero => intro _; exact h.rev_cast rfl (by simp) (by simp)
  | succ t ih =>
    intro hm
    have h1 := ih (fun z hz1 hz2 => hm z (by push_cast; omega) hz2)
    have h2 := hm (x - t - 1) (by push_cast; omega) (by omega)
    exact (h1.diag (by rw [show y - (t : Int) - 1 = x - t - 1 - (x - y) by omega]; exact h2)).rev_cast
      rfl (by push_cast; omega) (by push_cast; omega)

theorem Fwd.rights {c : Frame} {d : Nat} {x y : Int} (h : Fwd c d x y) :
    ∀ (t : Nat), Fwd c (d + t) (x + t) y := by
  intro t
  induction t with
  | zero => exact h.cast rfl (by simp) rfl
  | succ t ih => exact ih.right.cast (by omega) (by push_cast; omega) rfl

theorem Fwd.downs {c : Frame} {d : Nat} {x y : Int} (h : Fwd c d x y) :
    ∀ (t : Nat), Fwd c (d + t) x (y + t) := by
  intro t
  induction t with
  | zero => exact h.cast rfl rfl (by simp)
  | succ t ih => exact ih.down.cast (by omega) rfl (by push_cast; omega)

theorem Rev.lefts {c : Frame} {d : Nat} {x y : Int} (h : Rev c d x y) :
    ∀ (t : Nat), Rev c (d + t) (x - t) y := by
  intro t
  induction t with
  | zero => exact h.rev_cast rfl (by simp) rfl
  | succ t ih => exact ih.left.rev_cast (by omega) (by push_cast; omega) rfl

theorem Rev.ups {c : Frame} {d : Nat} {x y : Int} (h : Rev c d x y) :
    ∀ (t : Nat), Rev c (d + t) x (y - t) := by
  intro t
  induction t with
  | zero => exact h.rev_cast rfl rfl (by simp)
  | succ t ih => exact ih.up.rev_cast (by omega) rfl (by push_cast; omega)

/-- A forward path and a reverse path that meet make a path from the start of the ranges
to their end. -/
theorem Fwd.join {c : Frame} {b : Nat} {x y : Int} (hr : Rev c b x y) :
    ∀ (a : Nat), Fwd c a x y → Fwd c (a + b) c.first_end c.second_end := by
  induction hr with
  | stop => intro a hf; exact hf
  | diag _ hm ih =>
    intro a hf
    exact ih a ((hf.diag hm).cast rfl (by omega) (by omega))
  | left _ ih =>
    intro a hf
    exact (ih (a + 1) (hf.right.cast rfl (by omega) rfl)).cast (by omega) rfl rfl
  | up _ ih =>
    intro a hf
    exact (ih (a + 1) (hf.down.cast rfl rfl (by omega))).cast (by omega) rfl rfl

/-- A path from the start to the end can be cut after any number of its edits. -/
theorem Fwd.split {c : Frame} {d : Nat} {x y : Int} (h : Fwd c d x y) :
    ∀ (b : Nat), Rev c b x y → ∀ a, a ≤ d →
      ∃ x' y', Fwd c a x' y' ∧ Rev c (d - a + b) x' y' := by
  induction h with
  | start =>
    intro b hr a ha
    have : a = 0 := by omega
    subst this
    exact ⟨_, _, Fwd.start, hr.rev_cast (by omega) rfl rfl⟩
  | diag _ hm ih =>
    intro b hr a ha
    exact ih b ((hr.diag (by simpa using hm)).rev_cast rfl (by omega) (by omega)) a ha
  | @right d x y h ih =>
    intro b hr a ha
    by_cases hlast : a = d + 1
    · subst hlast
      exact ⟨_, _, h.right, hr.rev_cast (by omega) rfl rfl⟩
    · obtain ⟨x', y', h1, h2⟩ := ih (b + 1) (hr.left.rev_cast rfl (by omega) rfl) a (by omega)
      exact ⟨x', y', h1, h2.rev_cast (by omega) rfl rfl⟩
  | @down d x y h ih =>
    intro b hr a ha
    by_cases hlast : a = d + 1
    · subst hlast
      exact ⟨_, _, h.down, hr.rev_cast (by omega) rfl rfl⟩
    · obtain ⟨x', y', h1, h2⟩ := ih (b + 1) (hr.up.rev_cast rfl rfl (by omega)) a (by omega)
      exact ⟨x', y', h1, h2.rev_cast (by omega) rfl rfl⟩

/-- The last snake of a forward path: the path ends with diagonal steps from `x0`, which
is the start of the ranges or comes right after an edit. -/
theorem Fwd.last_snake {c : Frame} {d : Nat} {x y : Int} (h : Fwd c d x y) :
    ∃ x0, x0 ≤ x ∧ (∀ z, x0 ≤ z → z < x → c.same_line z (z - (x - y)))
      ∧ ((d = 0 ∧ x0 = c.first_start ∧ x - y = c.delta_start)
        ∨ ∃ d', d = d' + 1 ∧
            (Fwd c d' (x0 - 1) (x0 - (x - y)) ∨ Fwd c d' x0 (x0 - (x - y) - 1))) := by
  induction h with
  | start => exact ⟨c.first_start, le_refl _, fun z h1 h2 => absurd h2 (by omega),
      Or.inl ⟨rfl, rfl, rfl⟩⟩
  | @diag d x y h hm ih =>
    obtain ⟨x0, h1, h2, h3⟩ := ih
    have hk : x + 1 - (y + 1) = x - y := by omega
    refine ⟨x0, by omega, ?_, ?_⟩
    · intro z hz1 hz2
      rw [hk]
      by_cases hz : z < x
      · exact h2 z hz1 hz
      · have : z = x := by omega
        subst this
        simpa using hm
    · rw [hk]
      exact h3
  | @right d x y h ih =>
    exact ⟨x + 1, le_refl _, fun z h1 h2 => absurd h2 (by omega),
      Or.inr ⟨d, rfl, Or.inl (h.cast rfl (by omega) (by omega))⟩⟩
  | @down d x y h ih =>
    exact ⟨x, le_refl _, fun z h1 h2 => absurd h2 (by omega),
      Or.inr ⟨d, rfl, Or.inr (h.cast rfl rfl (by omega))⟩⟩

/-- The first snake of a reverse path. -/
theorem Rev.first_snake {c : Frame} {d : Nat} {x y : Int} (h : Rev c d x y) :
    ∃ x0, x ≤ x0 ∧ (∀ z, x ≤ z → z < x0 → c.same_line z (z - (x - y)))
      ∧ ((d = 0 ∧ x0 = c.first_end ∧ x - y = c.delta_end)
        ∨ ∃ d', d = d' + 1 ∧
            (Rev c d' (x0 + 1) (x0 - (x - y)) ∨ Rev c d' x0 (x0 - (x - y) + 1))) := by
  induction h with
  | stop => exact ⟨c.first_end, le_refl _, fun z h1 h2 => absurd h2 (by omega),
      Or.inl ⟨rfl, rfl, rfl⟩⟩
  | @diag d x y h hm ih =>
    obtain ⟨x0, h1, h2, h3⟩ := ih
    have hk : x - 1 - (y - 1) = x - y := by omega
    refine ⟨x0, by omega, ?_, ?_⟩
    · intro z hz1 hz2
      rw [hk]
      by_cases hz : x ≤ z
      · exact h2 z hz hz2
      · have : z = x - 1 := by omega
        subst this
        rw [show x - 1 - (x - y) = y - 1 by omega]
        exact hm
    · rw [hk]
      exact h3
  | @left d x y h ih =>
    exact ⟨x - 1, le_refl _, fun z h1 h2 => absurd h2 (by omega),
      Or.inr ⟨d, rfl, Or.inl (h.rev_cast rfl (by omega) (by omega))⟩⟩
  | @up d x y h ih =>
    exact ⟨x, le_refl _, fun z h1 h2 => absurd h2 (by omega),
      Or.inr ⟨d, rfl, Or.inr (h.rev_cast rfl rfl (by omega))⟩⟩

/-- A forward path that has left the grid to the right made its last step into that
column by an edit, which can be dropped. -/
theorem Fwd.pull_left {c : Frame} {d : Nat} {x y : Int} (h : Fwd c d x y)
    (hv : c.first_start ≤ c.first_end) (hx : c.first_end < x) :
    ∃ d', d = d' + 1 ∧ Fwd c d' (x - 1) y := by
  induction h with
  | start => omega
  | diag _ hm _ => exact absurd hm.2.1 (by omega)
  | @right d x y h _ => exact ⟨d, rfl, h.cast rfl (by omega) rfl⟩
  | @down d x y h ih =>
    obtain ⟨d', hd, h'⟩ := ih hx
    exact ⟨d' + 1, by omega, h'.down⟩

theorem Fwd.pull_up {c : Frame} {d : Nat} {x y : Int} (h : Fwd c d x y)
    (hv : c.second_start ≤ c.second_end) (hy : c.second_end < y) :
    ∃ d', d = d' + 1 ∧ Fwd c d' x (y - 1) := by
  induction h with
  | start => omega
  | diag _ hm _ => exact absurd hm.2.2.2.1 (by omega)
  | @right d x y h ih =>
    obtain ⟨d', hd, h'⟩ := ih hy
    exact ⟨d' + 1, by omega, h'.right⟩
  | @down d x y h _ => exact ⟨d, rfl, h.cast rfl rfl (by omega)⟩

theorem Rev.pull_right {c : Frame} {d : Nat} {x y : Int} (h : Rev c d x y)
    (hv : c.first_start ≤ c.first_end) (hx : x < c.first_start) :
    ∃ d', d = d' + 1 ∧ Rev c d' (x + 1) y := by
  induction h with
  | stop => omega
  | diag _ hm _ => exact absurd hm.1 (by omega)
  | @left d x y h _ => exact ⟨d, rfl, h.rev_cast rfl (by omega) rfl⟩
  | @up d x y h ih =>
    obtain ⟨d', hd, h'⟩ := ih hx
    exact ⟨d' + 1, by omega, h'.up⟩

theorem Rev.pull_down {c : Frame} {d : Nat} {x y : Int} (h : Rev c d x y)
    (hv : c.second_start ≤ c.second_end) (hy : y < c.second_start) :
    ∃ d', d = d' + 1 ∧ Rev c d' x (y + 1) := by
  induction h with
  | stop => omega
  | diag _ hm _ => exact absurd hm.2.2.1 (by omega)
  | @left d x y h ih =>
    obtain ⟨d', hd, h'⟩ := ih hy
    exact ⟨d' + 1, by omega, h'.left⟩
  | @up d x y h _ => exact ⟨d, rfl, h.rev_cast rfl rfl (by omega)⟩

theorem Fwd.pull_left_many {c : Frame} (hv : c.first_start ≤ c.first_end) :
    ∀ (t d : Nat) (x y : Int), Fwd c d x y → c.first_end + t ≤ x →
      ∃ d', d = d' + t ∧ Fwd c d' (x - t) y := by
  intro t
  induction t with
  | zero => intro d x y h _; exact ⟨d, rfl, h.cast rfl (by simp) rfl⟩
  | succ t ih =>
    intro d x y h hx
    obtain ⟨d1, hd1, h1⟩ := h.pull_left hv (by push_cast at hx; omega)
    obtain ⟨d2, hd2, h2⟩ := ih d1 (x - 1) y h1 (by push_cast at hx; omega)
    exact ⟨d2, by omega, h2.cast rfl (by push_cast; omega) rfl⟩

theorem Fwd.pull_up_many {c : Frame} (hv : c.second_start ≤ c.second_end) :
    ∀ (t d : Nat) (x y : Int), Fwd c d x y → c.second_end + t ≤ y →
      ∃ d', d = d' + t ∧ Fwd c d' x (y - t) := by
  intro t
  induction t with
  | zero => intro d x y h _; exact ⟨d, rfl, h.cast rfl rfl (by simp)⟩
  | succ t ih =>
    intro d x y h hy
    obtain ⟨d1, hd1, h1⟩ := h.pull_up hv (by push_cast at hy; omega)
    obtain ⟨d2, hd2, h2⟩ := ih d1 x (y - 1) h1 (by push_cast at hy; omega)
    exact ⟨d2, by omega, h2.cast rfl rfl (by push_cast; omega)⟩

theorem Rev.pull_right_many {c : Frame} (hv : c.first_start ≤ c.first_end) :
    ∀ (t d : Nat) (x y : Int), Rev c d x y → x + t ≤ c.first_start →
      ∃ d', d = d' + t ∧ Rev c d' (x + t) y := by
  intro t
  induction t with
  | zero => intro d x y h _; exact ⟨d, rfl, h.rev_cast rfl (by simp) rfl⟩
  | succ t ih =>
    intro d x y h hx
    obtain ⟨d1, hd1, h1⟩ := h.pull_right hv (by push_cast at hx; omega)
    obtain ⟨d2, hd2, h2⟩ := ih d1 (x + 1) y h1 (by push_cast at hx; omega)
    exact ⟨d2, by omega, h2.rev_cast rfl (by push_cast; omega) rfl⟩

theorem Rev.pull_down_many {c : Frame} (hv : c.second_start ≤ c.second_end) :
    ∀ (t d : Nat) (x y : Int), Rev c d x y → y + t ≤ c.second_start →
      ∃ d', d = d' + t ∧ Rev c d' x (y + t) := by
  intro t
  induction t with
  | zero => intro d x y h _; exact ⟨d, rfl, h.rev_cast rfl rfl (by simp)⟩
  | succ t ih =>
    intro d x y h hy
    obtain ⟨d1, hd1, h1⟩ := h.pull_down hv (by push_cast at hy; omega)
    obtain ⟨d2, hd2, h2⟩ := ih d1 x (y + 1) h1 (by push_cast at hy; omega)
    exact ⟨d2, by omega, h2.rev_cast rfl rfl (by push_cast; omega)⟩

/-- A forward path that has reached the anti-diagonal of the end of the ranges gives a
path to the end with no more edits. -/
theorem Fwd.reach_end {c : Frame} {d : Nat} {x y : Int} (h : Fwd c d x y)
    (hv1 : c.first_start ≤ c.first_end) (hv2 : c.second_start ≤ c.second_end)
    (hsum : c.first_end + c.second_end ≤ x + y) :
    ∃ d' : Nat, (d' : Int) + (x + y - c.first_end - c.second_end) = d
      ∧ Fwd c d' c.first_end c.second_end := by
  by_cases hx : c.first_end ≤ x
  · obtain ⟨d1, hd1, h1⟩ := Fwd.pull_left_many hv1 (x - c.first_end).toNat d x y h (by omega)
    have hx' : x - ((x - c.first_end).toNat : Int) = c.first_end := by omega
    rw [hx'] at h1
    by_cases hy : c.second_end ≤ y
    · obtain ⟨d2, hd2, h2⟩ := Fwd.pull_up_many hv2 (y - c.second_end).toNat d1 _ y h1 (by omega)
      exact ⟨d2, by omega, h2.cast rfl rfl (by omega)⟩
    · exact ⟨d1 + (c.second_end - y).toNat, by push_cast; omega,
        (h1.downs (c.second_end - y).toNat).cast rfl rfl (by omega)⟩
  · have hy : c.second_end ≤ y := by omega
    obtain ⟨d1, hd1, h1⟩ := Fwd.pull_up_many hv2 (y - c.second_end).toNat d x y h (by omega)
    have hy' : y - ((y - c.second_end).toNat : Int) = c.second_end := by omega
    rw [hy'] at h1
    exact ⟨d1 + (c.first_end - x).toNat, by push_cast; omega,
      (h1.rights (c.first_end - x).toNat).cast rfl (by omega) rfl⟩

/-- A reverse path that has reached the anti-diagonal of the start of the ranges gives a
path from the start with no more edits. -/
theorem Rev.reach_start {c : Frame} {d : Nat} {x y : Int} (h : Rev c d x y)
    (hv1 : c.first_start ≤ c.first_end) (hv2 : c.second_start ≤ c.second_end)
    (hsum : x + y ≤ c.first_start + c.second_start) :
    ∃ d' : Nat, (d' : Int) + (c.first_start + c.second_start - x - y) = d
      ∧ Rev c d' c.first_start c.second_start := by
  by_cases hx : x ≤ c.first_start
  · obtain ⟨d1, hd1, h1⟩ := Rev.pull_right_many hv1 (c.first_start - x).toNat d x y h (by omega)
    have hx' : x + ((c.first_start - x).toNat : Int) = c.first_start := by omega
    rw [hx'] at h1
    by_cases hy : y ≤ c.second_start
    · obtain ⟨d2, hd2, h2⟩ := Rev.pull_down_many hv2 (c.second_start - y).toNat d1 _ y h1
        (by omega)
      exact ⟨d2, by omega, h2.rev_cast rfl rfl (by omega)⟩
    · exact ⟨d1 + (y - c.second_start).toNat, by push_cast; omega,
        (h1.ups (y - c.second_start).toNat).rev_cast rfl rfl (by omega)⟩
  · have hy : y ≤ c.second_start := by omega
    obtain ⟨d1, hd1, h1⟩ := Rev.pull_down_many hv2 (c.second_start - y).toNat d x y h (by omega)
    have hy' : y + ((c.second_start - y).toNat : Int) = c.second_start := by omega
    rw [hy'] at h1
    exact ⟨d1 + (x - c.first_start).toNat, by push_cast; omega,
      (h1.lefts (x - c.first_start).toNat).rev_cast rfl (by omega) rfl⟩

/-- A reverse path from the start of the ranges is a forward path to their end. -/
theorem Rev.full {c : Frame} {d : Nat} (h : Rev c d c.first_start c.second_start) :
    Fwd c d c.first_end c.second_end :=
  (Fwd.join h 0 Fwd.start).cast (by omega) rfl rfl

/-! ## One pass of a loop body, from its steps -/

theorem forward_body_eq (c : Frame) (diff_size diagonal : Int) (s : Search) (x0 u v : Int)
    (forward_v : List Int) (overlap : Bool)
    (h1 : ForwardStart c diff_size diagonal s.forward_v x0)
    (h2 : forward_snake c ((c.first_end - x0).toNat + 1) x0 (x0 - diagonal) = some (u, v))
    (h3 : arr_set s.forward_v (c.center_forward + diagonal) u = some forward_v)
    (h4 : ForwardOverlap c diff_size diagonal forward_v s.reverse_v overlap) :
    forward_body c diff_size diagonal s
      = some { s with forward_v := forward_v, x := x0, y := x0 - diagonal, u := u, v := v,
                      found_middle_snake := overlap || s.found_middle_snake } := by
  unfold forward_body
  rcases h4 with ⟨hc, f, r, hf, hr, ho⟩ | ⟨hc, ho⟩
  · rcases h1 with ⟨hk, ha⟩ | ⟨hk1, hk2, below, above, hb, ha, hx⟩ | ⟨hk1, hk2, below, hb, hx⟩
    · simp only [if_pos hk, ha, Option.bind_eq_bind, Option.some_bind, h2, h3, if_pos hc, hf,
        hr, Option.pure_def, ho]
    · by_cases hlt : below < above
      · rw [if_pos hlt] at hx
        subst hx
        simp only [if_neg hk1, if_pos hk2, hb, ha, Option.bind_eq_bind, Option.some_bind, h2, h3,
          if_pos hc, hf, hr, Option.pure_def, ho, if_pos hlt]
      · rw [if_neg hlt] at hx
        subst hx
        simp only [if_neg hk1, if_pos hk2, hb, ha, Option.bind_eq_bind, Option.some_bind, h2, h3,
          if_pos hc, hf, hr, Option.pure_def, ho, if_neg hlt]
    · subst hx
      simp only [if_neg hk1, if_neg (not_not.mpr hk2), hb, Option.bind_eq_bind,
        Option.some_bind, h2, h3, if_pos hc, hf, hr, Option.pure_def, ho]
  · subst ho
    rcases h1 with ⟨hk, ha⟩ | ⟨hk1, hk2, below, above, hb, ha, hx⟩ | ⟨hk1, hk2, below, hb, hx⟩
    · simp only [if_pos hk, ha, Option.bind_eq_bind, Option.some_bind, h2, h3, if_neg hc,
        Option.pure_def]
    · by_cases hlt : below < above
      · rw [if_pos hlt] at hx
        subst hx
        simp only [if_neg hk1, if_pos hk2, hb, ha, Option.bind_eq_bind, Option.some_bind, h2, h3,
          if_neg hc, Option.pure_def, if_pos hlt]
      · rw [if_neg hlt] at hx
        subst hx
        simp only [if_neg hk1, if_pos hk2, hb, ha, Option.bind_eq_bind, Option.some_bind, h2, h3,
          if_neg hc, Option.pure_def, if_neg hlt]
    · subst hx
      simp only [if_neg hk1, if_neg (not_not.mpr hk2), hb, Option.bind_eq_bind,
        Option.some_bind, h2, h3, if_neg hc, Option.pure_def]

theorem reverse_body_eq (c : Frame) (diff_size diagonal : Int) (s : Search) (u0 x y : Int)
    (reverse_v : List Int) (overlap : Bool)
    (h1 : ReverseStart c diff_size diagonal s.reverse_v u0)
    (h2 : reverse_snake c ((u0 - c.first_start).toNat + 1) u0 (u0 - diagonal) = some (x, y))
    (h3 : arr_set s.reverse_v (c.center_reverse + diagonal) x = some reverse_v)
    (h4 : ReverseOverlap c diff_size diagonal s.forward_v reverse_v overlap) :
    reverse_body c diff_size diagonal s
      = some { s with reverse_v := reverse_v, x := x, y := y, u := u0, v := u0 - diagonal,
                      found_middle_snake := overlap || s.found_middle_snake } := by
  unfold reverse_body
  rcases h4 with ⟨hc, f, r, hf, hr, ho⟩ | ⟨hc, ho⟩
  · rcases h1 with ⟨hk, above, ha, hx⟩ | ⟨hk1, hk2, below, above, hb, ha, hx⟩ | ⟨hk1, hk2, hb⟩
    · subst hx
      simp only [if_pos hk, ha, Option.bind_eq_bind, Option.some_bind, h2, h3, if_pos hc, hf,
        hr, Option.pure_def, ho]
    · by_cases hlt : below ≥ above
      · rw [if_pos hlt] at hx
        subst hx
        simp only [if_neg hk1, if_pos hk2, hb, ha, Option.bind_eq_bind, Option.some_bind, h2, h3,
          if_pos hc, hf, hr, Option.pure_def, ho, if_pos hlt]
      · rw [if_neg hlt] at hx
        subst hx
        simp only [if_neg hk1, if_pos hk2, hb, ha, Option.bind_eq_bind, Option.some_bind, h2, h3,
          if_pos hc, hf, hr, Option.pure_def, ho, if_neg hlt]
    · simp only [if_neg hk1, if_neg (not_not.mpr hk2), hb, Option.bind_eq_bind,
        Option.some_bind, h2, h3, if_pos hc, hf, hr, Option.pure_def, ho]
  · subst ho
    rcases h1 with ⟨hk, above, ha, hx⟩ | ⟨hk1, hk2, below, above, hb, ha, hx⟩ | ⟨hk1, hk2, hb⟩
    · subst hx
      simp only [if_pos hk, ha, Option.bind_eq_bind, Option.some_bind, h2, h3, if_neg hc,
        Option.pure_def]
    · by_cases hlt : below ≥ above
      · rw [if_pos hlt] at hx
        subst hx
        simp only [if_neg hk1, if_pos hk2, hb, ha, Option.bind_eq_bind, Option.some_bind, h2, h3,
          if_neg hc, Option.pure_def, if_pos hlt]
      · rw [if_neg hlt] at hx
        subst hx
        simp only [if_neg hk1, if_pos hk2, hb, ha, Option.bind_eq_bind, Option.some_bind, h2, h3,
          if_neg hc, Option.pure_def, if_neg hlt]
    · simp only [if_neg hk1, if_neg (not_not.mpr hk2), hb, Option.bind_eq_bind,
        Option.some_bind, h2, h3, if_neg hc, Option.pure_def]

theorem arr_get_in_table {α : Type} (l : List α) (i : Int) (h0 : 0 ≤ i)
    (h1 : i < (l.length : Int)) : ∃ a, arr_get l i = some a := by
  unfold arr_get
  rw [if_neg (by omega)]
  cases h : l[i.toNat]? with
  | none =>
    have := List.getElem?_eq_none_iff.mp h
    omega
  | some a => exact ⟨a, rfl⟩

/-- The forward snake loop ends at the first position of its diagonal that is not a pair
of equal lines. -/
theorem forward_snake_spec (c : Frame) (hc : c.in_table) : ∀ (fuel : Nat) (u v : Int),
    c.first_start ≤ u → c.second_start ≤ v → (c.first_end - u).toNat < fuel →
    ∃ u' v', forward_snake c fuel u v = some (u', v') ∧ u' - v' = u - v ∧ u ≤ u'
      ∧ (∀ z, u ≤ z → z < u' → c.same_line z (z - (u - v)))
      ∧ ¬ c.same_line u' v' := by
  intro fuel
  induction fuel with
  | zero => intro u v _ _ h; omega
  | succ fuel ih =>
    intro u v hu hv hfuel
    unfold forward_snake
    by_cases hg : u < c.first_end ∧ v < c.second_end
    · obtain ⟨a, ha⟩ := arr_get_in_table c.f_hash u (by have := hc.1; omega)
        (by have := hc.2.2.1; omega)
      obtain ⟨b, hb⟩ := arr_get_in_table c.s_hash v (by have := hc.2.2.2.1; omega)
        (by have := hc.2.2.2.2.2; omega)
      rw [if_pos hg]
      simp only [ha, hb, Option.bind_eq_bind, Option.some_bind]
      by_cases hab : a = b
      · rw [if_pos hab]
        obtain ⟨u', v', h1, h2, h3, h4, h5⟩ := ih (u + 1) (v + 1) (by omega) (by omega)
          (by omega)
        refine ⟨u', v', h1, by omega, by omega, ?_, h5⟩
        intro z hz1 hz2
        by_cases hz : z = u
        · subst hz
          rw [show z - (z - v) = v by omega]
          exact ⟨hu, hg.1, hv, hg.2, by rw [ha, hb, hab]⟩
        · have := h4 z (by omega) hz2
          rw [show z - (u + 1 - (v + 1)) = z - (u - v) by omega] at this
          exact this
      · rw [if_neg hab]
        refine ⟨u, v, rfl, rfl, le_refl _, fun z h1 h2 => absurd h2 (by omega), ?_⟩
        intro hs
        have := hs.2.2.2.2
        rw [ha, hb] at this
        exact hab (Option.some.inj this)
    · rw [if_neg hg]
      refine ⟨u, v, rfl, rfl, le_refl _, fun z h1 h2 => absurd h2 (by omega), ?_⟩
      intro hs
      exact hg ⟨hs.2.1, hs.2.2.2.1⟩

/-- The reverse snake loop ends at the first position of its diagonal whose predecessor
is not a pair of equal lines. -/
theorem reverse_snake_spec (c : Frame) (hc : c.in_table) : ∀ (fuel : Nat) (x y : Int),
    x ≤ c.first_end → y ≤ c.second_end → (x - c.first_start).toNat < fuel →
    ∃ x' y', reverse_snake c fuel x y = some (x', y') ∧ x' - y' = x - y ∧ x' ≤ x
      ∧ (∀ z, x' ≤ z → z < x → c.same_line z (z - (x - y)))
      ∧ ¬ c.same_line (x' - 1) (y' - 1) := by
  intro fuel
  induction fuel with
  | zero => intro x y _ _ h; omega
  | succ fuel ih =>
    intro x y hx hy hfuel
    unfold reverse_snake
    by_cases hg : x > c.first_start ∧ y > c.second_start
    · obtain ⟨a, ha⟩ := arr_get_in_table c.f_hash (x - 1) (by have := hc.1; omega)
        (by have := hc.2.2.1; omega)
      obtain ⟨b, hb⟩ := arr_get_in_table c.s_hash (y - 1) (by have := hc.2.2.2.1; omega)
        (by have := hc.2.2.2.2.2; omega)
      rw [if_pos hg]
      simp only [ha, hb, Option.bind_eq_bind, Option.some_bind]
      by_cases hab : a = b
      · rw [if_pos hab]
        obtain ⟨x', y', h1, h2, h3, h4, h5⟩ := ih (x - 1) (y - 1) (by omega) (by omega)
          (by omega)
        refine ⟨x', y', h1, by omega, by omega, ?_, h5⟩
        intro z hz1 hz2
        by_cases hz : z = x - 1
        · subst hz
          rw [show x - 1 - (x - y) = y - 1 by omega]
          exact ⟨by omega, by omega, by omega, by omega, by rw [ha, hb, hab]⟩
        · have := h4 z hz1 (by omega)
          rw [show z - (x - 1 - (y - 1)) = z - (x - y) by omega] at this
          exact this
      · rw [if_neg hab]
        refine ⟨x, y, rfl, rfl, le_refl _, fun z h1 h2 => absurd h2 (by omega), ?_⟩
        intro hs
        have := hs.2.2.2.2
        rw [ha, hb] at this
        exact hab (Option.some.inj this)
    · rw [if_neg hg]
      refine ⟨x, y, rfl, rfl, le_refl _, fun z h1 h2 => absurd h2 (by omega), ?_⟩
      intro hs
      exact hg ⟨by have := hs.1; omega, by have := hs.2.2.1; omega⟩

/-- A value that is reachable, snake-maximal and past every snake start of its diagonal
is the furthest reaching one. -/
theorem FwdVal.of_start {c : Frame} {D : Nat} {k x0 u : Int} (hs : Fwd c D x0 (x0 - k))
    (hpre : ∀ x1, Fwd c D x1 (x1 - k) →
      ∃ z0, z0 ≤ x0 ∧ ∀ z, z0 ≤ z → z < x1 → c.same_line z (z - k))
    (hu : x0 ≤ u) (hm : ∀ z, x0 ≤ z → z < u → c.same_line z (z - k))
    (hn : ¬ c.same_line u (u - k)) : FwdVal c D k u := by
  refine ⟨?_, hn, ?_⟩
  · have := hs.slide (u - x0).toNat (fun z h1 h2 => by
      rw [show z - (x0 - (x0 - k)) = z - k by omega]
      exact hm z h1 (by omega))
    exact this.cast rfl (by omega) (by omega)
  · intro x1 h1
    obtain ⟨z0, hz0, hz⟩ := hpre x1 h1
    by_contra hlt
    exact hn (hz u (by omega) (by omega))

theorem RevVal.rev_of_start {c : Frame} {D : Nat} {k u0 x : Int} (hs : Rev c D u0 (u0 - k))
    (hpre : ∀ x1, Rev c D x1 (x1 - k) →
      ∃ z0, u0 ≤ z0 ∧ ∀ z, x1 ≤ z → z < z0 → c.same_line z (z - k))
    (hu : x ≤ u0) (hm : ∀ z, x ≤ z → z < u0 → c.same_line z (z - k))
    (hn : ¬ c.same_line (x - 1) (x - k - 1)) : RevVal c D k x := by
  refine ⟨?_, hn, ?_⟩
  · have := hs.rev_slide (u0 - x).toNat (fun z h1 h2 => by
      rw [show z - (u0 - (u0 - k)) = z - k by omega]
      exact hm z (by omega) h2)
    exact this.rev_cast rfl (by omega) (by omega)
  · intro x1 h1
    obtain ⟨z0, hz0, hz⟩ := hpre x1 h1
    by_contra hlt
    have := hz (x - 1) (by omega) (by omega)
    rw [show x - 1 - k = x - k - 1 by omega] at this
    exact hn this

/-- Every path with `D + 1` edits on diagonal `k` enters its last snake at or before the
start the forward pass computes from the values of round `D`. -/
theorem Fwd.pre_step {c : Frame} {D : Nat} {k x0 : Int}
    (ha : ∀ x1, Fwd c D x1 (x1 - (k + 1)) → x1 ≤ x0)
    (hb : ∀ x1, Fwd c D x1 (x1 - (k - 1)) → x1 + 1 ≤ x0) :
    ∀ x1, Fwd c (D + 1) x1 (x1 - k) →
      ∃ z0, z0 ≤ x0 ∧ ∀ z, z0 ≤ z → z < x1 → c.same_line z (z - k) := by
  intro x1 h1
  obtain ⟨z0, h2, h3, h4⟩ := h1.last_snake
  rw [show x1 - (x1 - k) = k by omega] at h3 h4
  refine ⟨z0, ?_, h3⟩
  rcases h4 with ⟨h, _⟩ | ⟨d', hd, h | h⟩
  · omega
  · have hd' : d' = D := by omega
    subst hd'
    have := hb (z0 - 1) (h.cast rfl rfl (by omega))
    omega
  · have hd' : d' = D := by omega
    subst hd'
    exact ha z0 (h.cast rfl rfl (by omega))

theorem Rev.rev_pre_step {c : Frame} {D : Nat} {k u0 : Int}
    (ha : ∀ x1, Rev c D x1 (x1 - (k + 1)) → u0 ≤ x1 - 1)
    (hb : ∀ x1, Rev c D x1 (x1 - (k - 1)) → u0 ≤ x1) :
    ∀ x1, Rev c (D + 1) x1 (x1 - k) →
      ∃ z0, u0 ≤ z0 ∧ ∀ z, x1 ≤ z → z < z0 → c.same_line z (z - k) := by
  intro x1 h1
  obtain ⟨z0, h2, h3, h4⟩ := h1.first_snake
  rw [show x1 - (x1 - k) = k by omega] at h3 h4
  refine ⟨z0, ?_, h3⟩
  rcases h4 with ⟨h, _⟩ | ⟨d', hd, h | h⟩
  · omega
  · have hd' : d' = D := by omega
    subst hd'
    have := ha (z0 + 1) (h.rev_cast rfl rfl (by omega))
    omega
  · have hd' : d' = D := by omega
    subst hd'
    exact hb z0 (h.rev_cast rfl rfl (by omega))

theorem Fwd.pre_zero {c : Frame} :
    ∀ x1, Fwd c 0 x1 (x1 - c.delta_start) →
      ∃ z0, z0 ≤ c.first_start ∧ ∀ z, z0 ≤ z → z < x1 → c.same_line z (z - c.delta_start) := by
  intro x1 h1
  obtain ⟨z0, h2, h3, h4⟩ := h1.last_snake
  rw [show x1 - (x1 - c.delta_start) = c.delta_start by omega] at h3
  refine ⟨z0, ?_, h3⟩
  rcases h4 with ⟨_, h, _⟩ | ⟨d', hd, _⟩
  · omega
  · omega

theorem Rev.rev_pre_zero {c : Frame} :
    ∀ x1, Rev c 0 x1 (x1 - c.delta_end) →
      ∃ z0, c.first_end ≤ z0 ∧ ∀ z, x1 ≤ z → z < z0 → c.same_line z (z - c.delta_end) := by
  intro x1 h1
  obtain ⟨z0, h2, h3, h4⟩ := h1.first_snake
  rw [show x1 - (x1 - c.delta_end) = c.delta_end by omega] at h3
  refine ⟨z0, ?_, h3⟩
  rcases h4 with ⟨_, h, _⟩ | ⟨d', hd, _⟩
  · omega
  · omega

theorem FwdVal.unique {c : Frame} {D : Nat} {k a b : Int} (ha : FwdVal c D k a)
    (hb : FwdVal c D k b) : a = b :=
  le_antisymm (hb.2.2 a ha.1) (ha.2.2 b hb.1)

theorem RevVal.rev_unique {c : Frame} {D : Nat} {k a b : Int} (ha : RevVal c D k a)
    (hb : RevVal c D k b) : a = b :=
  le_antisymm (ha.2.2 b hb.1) (hb.2.2 a ha.1)

/-! ## A pass of a loop body keeps the furthest reaching paths -/

theorem arr_get_at {α : Type} (vec : List α) (i : Int) (n : Nat) (h : i = (n : Int)) :
    arr_get vec i = vec[n]? := by
  subst h
  exact arr_get_of_nat vec n

theorem arr_set_at {α : Type} (vec : List α) (i : Int) (n : Nat) (val : α) (h : i = (n : Int))
    (hlt : n < vec.length) : arr_set vec i val = some (vec.set n val) := by
  subst h
  exact arr_set_of_nat vec n val hlt

/-- One pass of the body of the forward loop, given the start value of its diagonal. -/
theorem forward_body_core (c : Frame) (hc : c.in_table) (D : Nat) (k : Int) (idx : Nat)
    (hidx : c.center_forward + k = (idx : Int)) (s : Search)
    (hlen : idx < s.forward_v.length) (x0 : Int)
    (hst : ForwardStart c (D : Int) k s.forward_v x0) (hs : Fwd c D x0 (x0 - k))
    (hpre : ∀ x1, Fwd c D x1 (x1 - k) →
      ∃ z0, z0 ≤ x0 ∧ ∀ z, z0 ≤ z → z < x1 → c.same_line z (z - k))
    (hrev : c.delta % 2 ≠ 0 → c.delta_end - ((D : Int) - 1) ≤ k →
      k ≤ c.delta_end + ((D : Int) - 1) →
      ∃ E r, D = E + 1 ∧ arr_get s.reverse_v (k + c.center_reverse) = some r
        ∧ RevVal c E k r) :
    ∃ u ov, forward_body c (D : Int) k s
        = some { s with forward_v := s.forward_v.set idx u, x := x0, y := x0 - k, u := u,
                        v := u - k, found_middle_snake := ov || s.found_middle_snake }
      ∧ FwdVal c D k u ∧ x0 ≤ u ∧ (∀ z, x0 ≤ z → z < u → c.same_line z (z - k))
      ∧ (ov = true → c.delta % 2 ≠ 0 ∧ ∃ E r, D = E + 1 ∧ RevVal c E k r ∧ r ≤ u)
      ∧ (ov = false → c.delta % 2 ≠ 0 → ∀ E, D = E + 1 → ¬ Meet c D E k) := by
  have hb := hs.fwd_bounds
  obtain ⟨u, v, hsn, hd, hle, hm, hn⟩ := forward_snake_spec c hc ((c.first_end - x0).toNat + 1)
    x0 (x0 - k) hb.1 hb.2.1 (by omega)
  have hv : v = u - k := by omega
  subst hv
  rw [show x0 - (x0 - k) = k by omega] at hm
  have hval : FwdVal c D k u := FwdVal.of_start hs hpre hle hm hn
  have hset := arr_set_at s.forward_v (c.center_forward + k) idx u hidx hlen
  by_cases hcond : c.delta % 2 ≠ 0 ∧ k ≥ c.delta_end - ((D : Int) - 1)
      ∧ k ≤ c.delta_end + ((D : Int) - 1)
  · obtain ⟨E, r, hE, hr, hrv⟩ := hrev hcond.1 hcond.2.1 hcond.2.2
    have hf : arr_get (s.forward_v.set idx u) (k + c.center_forward) = some u := by
      rw [arr_get_at _ _ idx (by omega), List.getElem?_set_self hlen]
    refine ⟨u, decide (u ≥ r), ?_, hval, hle, hm, ?_, ?_⟩
    · exact forward_body_eq c D k s x0 u (u - k) _ _ hst hsn hset
        (Or.inl ⟨hcond, u, r, hf, hr, rfl⟩)
    · intro ho
      exact ⟨hcond.1, E, r, hE, hrv, by simpa using ho⟩
    · intro ho _ E' hE' hmeet
      obtain ⟨x, hx1, hx2⟩ := hmeet
      have hEE : E' = E := by omega
      subst hEE
      have h1 := hval.2.2 x hx1
      have h2 := hrv.2.2 x hx2
      have : r ≤ u := by omega
      simp [this] at ho
  · refine ⟨u, false, ?_, hval, hle, hm, fun h => absurd h (by simp), ?_⟩
    · exact forward_body_eq c D k s x0 u (u - k) _ _ hst hsn hset (Or.inr ⟨hcond, rfl⟩)
    · intro _ hodd E hE hmeet
      obtain ⟨x, hx1, hx2⟩ := hmeet
      have hb2 := hx2.rev_bounds
      apply hcond
      refine ⟨hodd, ?_, ?_⟩ <;> omega

/-- One pass of the body of the reverse loop, given the start value of its diagonal. -/
theorem reverse_body_core (c : Frame) (hc : c.in_table) (D : Nat) (k : Int) (idx : Nat)
    (hidx : c.center_reverse + k = (idx : Int)) (s : Search)
    (hlen : idx < s.reverse_v.length) (u0 : Int)
    (hst : ReverseStart c (D : Int) k s.reverse_v u0) (hs : Rev c D u0 (u0 - k))
    (hpre : ∀ x1, Rev c D x1 (x1 - k) →
      ∃ z0, u0 ≤ z0 ∧ ∀ z, x1 ≤ z → z < z0 → c.same_line z (z - k))
    (hfwd : c.delta % 2 = 0 → c.delta_start - (D : Int) ≤ k → k ≤ c.delta_start + (D : Int) →
      ∃ f, arr_get s.forward_v (k + c.center_forward) = some f ∧ FwdVal c D k f) :
    ∃ x ov, reverse_body c (D : Int) k s
        = some { s with reverse_v := s.reverse_v.set idx x, x := x, y := x - k, u := u0,
                        v := u0 - k, found_middle_snake := ov || s.found_middle_snake }
      ∧ RevVal c D k x ∧ x ≤ u0 ∧ (∀ z, x ≤ z → z < u0 → c.same_line z (z - k))
      ∧ (ov = true → c.delta % 2 = 0 ∧ ∃ f, FwdVal c D k f ∧ x ≤ f)
      ∧ (ov = false → c.delta % 2 = 0 → ¬ Meet c D D k) := by
  have hb := hs.rev_bounds
  obtain ⟨x, y, hsn, hd, hle, hm, hn⟩ := reverse_snake_spec c hc ((u0 - c.first_start).toNat + 1)
    u0 (u0 - k) hb.1 hb.2.1 (by omega)
  have hy : y = x - k := by omega
  subst hy
  rw [show u0 - (u0 - k) = k by omega] at hm
  rw [show x - k - 1 = x - k - 1 by rfl] at hn
  have hval : RevVal c D k x := RevVal.rev_of_start hs hpre hle hm hn
  have hset := arr_set_at s.reverse_v (c.center_reverse + k) idx x hidx hlen
  by_cases hcond : c.delta % 2 = 0 ∧ k ≥ c.delta_start - (D : Int)
      ∧ k ≤ c.delta_start + (D : Int)
  · obtain ⟨f, hf, hfv⟩ := hfwd hcond.1 hcond.2.1 hcond.2.2
    have hr : arr_get (s.reverse_v.set idx x) (k + c.center_reverse) = some x := by
      rw [arr_get_at _ _ idx (by omega), List.getElem?_set_self hlen]
    refine ⟨x, decide (f ≥ x), ?_, hval, hle, hm, ?_, ?_⟩
    · exact reverse_body_eq c D k s u0 x (x - k) _ _ hst hsn hset
        (Or.inl ⟨hcond, f, x, hf, hr, rfl⟩)
    · intro ho
      exact ⟨hcond.1, f, hfv, by simpa using ho⟩
    · intro ho _ hmeet
      obtain ⟨z, hz1, hz2⟩ := hmeet
      have h1 := hfv.2.2 z hz1
      have h2 := hval.2.2 z hz2
      have : x ≤ f := by omega
      simp [this] at ho
  · refine ⟨x, false, ?_, hval, hle, hm, fun h => absurd h (by simp), ?_⟩
    · exact reverse_body_eq c D k s u0 x (x - k) _ _ hst hsn hset (Or.inr ⟨hcond, rfl⟩)
    · intro _ heven hmeet
      obtain ⟨z, hz1, hz2⟩ := hmeet
      have hb1 := hz1.fwd_bounds
      apply hcond
      refine ⟨heven, ?_, ?_⟩ <;> omega

theorem forward_start_round (c : Frame) (M D j : Nat) (hM : c.max = (M : Int))
    (hD : D + 1 ≤ M) (hj : j ≤ D + 1) (vec : List Int) (hrow : FwdFront c M D vec) (k : Int)
    (hk : k = c.delta_start - ((D : Int) + 1) + 2 * (j : Int)) :
    ∃ x0, ForwardStart c ((D + 1 : Nat) : Int) k vec x0 ∧ Fwd c (D + 1) x0 (x0 - k)
      ∧ ∀ x1, Fwd c (D + 1) x1 (x1 - k) →
          ∃ z0, z0 ≤ x0 ∧ ∀ z, z0 ≤ z → z < x1 → c.same_line z (z - k) := by
  have hcf : c.center_forward = (M : Int) - c.delta_start := by
    unfold Frame.center_forward
    rw [hM]
  by_cases hj0 : j = 0
  · subst hj0
    obtain ⟨a, ha, hva⟩ := hrow 0 (by omega)
    rw [show c.delta_start - (D : Int) + 2 * ((0 : Nat) : Int) = k + 1 by push_cast; omega] at hva
    refine ⟨a, Or.inl ⟨by push_cast; omega, ?_⟩, ?_, ?_⟩
    · rw [arr_get_at vec _ (M - D + 2 * 0) (by omega)]
      exact ha
    · exact hva.1.down.cast rfl rfl (by omega)
    · apply Fwd.pre_step
      · exact hva.2.2
      · intro x1 h1
        have := h1.fwd_bounds
        omega
  · by_cases hjD : j = D + 1
    · subst hjD
      obtain ⟨b, hb, hvb⟩ := hrow D (by omega)
      rw [show c.delta_start - (D : Int) + 2 * (D : Int) = k - 1 by push_cast at hk; omega] at hvb
      refine ⟨b + 1, Or.inr (Or.inr ⟨by push_cast; omega, by push_cast at hk ⊢; omega, b, ?_,
        rfl⟩), ?_, ?_⟩
      · rw [arr_get_at vec _ (M - D + 2 * D) (by push_cast at hk; omega)]
        exact hb
      · exact hvb.1.right.cast rfl rfl (by omega)
      · apply Fwd.pre_step
        · intro x1 h1
          have := h1.fwd_bounds
          push_cast at hk
          omega
        · intro x1 h1
          have := hvb.2.2 x1 h1
          omega
    · obtain ⟨b, hb, hvb⟩ := hrow (j - 1) (by omega)
      obtain ⟨a, ha, hva⟩ := hrow j (by omega)
      rw [show c.delta_start - (D : Int) + 2 * ((j - 1 : Nat) : Int) = k - 1 by omega] at hvb
      rw [show c.delta_start - (D : Int) + 2 * (j : Int) = k + 1 by omega] at hva
      refine ⟨if b < a then a else b + 1, Or.inr (Or.inl ⟨by push_cast; omega,
        by push_cast; omega, b, a, ?_, ?_, rfl⟩), ?_, ?_⟩
      · rw [arr_get_at vec _ (M - D + 2 * (j - 1)) (by omega)]
        exact hb
      · rw [arr_get_at vec _ (M - D + 2 * j) (by omega)]
        exact ha
      · by_cases hlt : b < a
        · rw [if_pos hlt]
          exact hva.1.down.cast rfl rfl (by omega)
        · rw [if_neg hlt]
          exact hvb.1.right.cast rfl rfl (by omega)
      · apply Fwd.pre_step
        · intro x1 h1
          have := hva.2.2 x1 h1
          split <;> omega
        · intro x1 h1
          have := hvb.2.2 x1 h1
          split <;> omega

theorem reverse_start_round (c : Frame) (M D j : Nat) (hM : c.max = (M : Int))
    (hD : D + 1 ≤ M) (hj : j ≤ D + 1) (vec : List Int) (hrow : RevFront c M D vec) (k : Int)
    (hk : k = c.delta_end - ((D : Int) + 1) + 2 * (j : Int)) :
    ∃ u0, ReverseStart c ((D + 1 : Nat) : Int) k vec u0 ∧ Rev c (D + 1) u0 (u0 - k)
      ∧ ∀ x1, Rev c (D + 1) x1 (x1 - k) →
          ∃ z0, u0 ≤ z0 ∧ ∀ z, x1 ≤ z → z < z0 → c.same_line z (z - k) := by
  have hcr : c.center_reverse = (M : Int) - c.delta_end := by
    unfold Frame.center_reverse
    rw [hM]
  by_cases hj0 : j = 0
  · subst hj0
    obtain ⟨a, ha, hva⟩ := hrow 0 (by omega)
    rw [show c.delta_end - (D : Int) + 2 * ((0 : Nat) : Int) = k + 1 by push_cast; omega] at hva
    refine ⟨a - 1, Or.inl ⟨by push_cast; omega, a, ?_, rfl⟩, ?_, ?_⟩
    · rw [arr_get_at vec _ (M - D + 2 * 0) (by omega)]
      exact ha
    · exact hva.1.left.rev_cast rfl rfl (by omega)
    · apply Rev.rev_pre_step
      · intro x1 h1
        have := hva.2.2 x1 h1
        omega
      · intro x1 h1
        have := h1.rev_bounds
        omega
  · by_cases hjD : j = D + 1
    · subst hjD
      obtain ⟨b, hb, hvb⟩ := hrow D (by omega)
      rw [show c.delta_end - (D : Int) + 2 * (D : Int) = k - 1 by push_cast at hk; omega] at hvb
      refine ⟨b, Or.inr (Or.inr ⟨by push_cast; omega, by push_cast at hk ⊢; omega, ?_⟩), ?_, ?_⟩
      · rw [arr_get_at vec _ (M - D + 2 * D) (by push_cast at hk; omega)]
        exact hb
      · exact hvb.1.up.rev_cast rfl rfl (by omega)
      · apply Rev.rev_pre_step
        · intro x1 h1
          have := h1.rev_bounds
          push_cast at hk
          omega
        · exact hvb.2.2
    · obtain ⟨b, hb, hvb⟩ := hrow (j - 1) (by omega)
      obtain ⟨a, ha, hva⟩ := hrow j (by omega)
      rw [show c.delta_end - (D : Int) + 2 * ((j - 1 : Nat) : Int) = k - 1 by omega] at hvb
      rw [show c.delta_end - (D : Int) + 2 * (j : Int) = k + 1 by omega] at hva
      refine ⟨if b ≥ a then a - 1 else b, Or.inr (Or.inl ⟨by push_cast; omega,
        by push_cast; omega, b, a, ?_, ?_, rfl⟩), ?_, ?_⟩
      · rw [arr_get_at vec _ (M - D + 2 * (j - 1)) (by omega)]
        exact hb
      · rw [arr_get_at vec _ (M - D + 2 * j) (by omega)]
        exact ha
      · by_cases hlt : b ≥ a
        · rw [if_pos hlt]
          exact hva.1.left.rev_cast rfl rfl (by omega)
        · rw [if_neg hlt]
          exact hvb.1.up.rev_cast rfl rfl (by omega)
      · apply Rev.rev_pre_step
        · intro x1 h1
          have := hva.2.2 x1 h1
          split <;> omega
        · intro x1 h1
          have := hvb.2.2 x1 h1
          split <;> omega

/-- The body of the forward loop in round `D + 1` on the diagonal number `j` of the
round. -/
theorem forward_body_round (c : Frame) (hc : c.in_table) (M D j : Nat)
    (hM : c.max = (M : Int)) (hD : D + 1 ≤ M) (hj : j ≤ D + 1) (s : Search)
    (hlen : M - (D + 1) + 2 * j < s.forward_v.length) (hrow : FwdFront c M D s.forward_v)
    (hrev : c.delta % 2 ≠ 0 → RevFront c M D s.reverse_v) (k : Int)
    (hk : k = c.delta_start - ((D : Int) + 1) + 2 * (j : Int)) :
    ∃ x0 u ov, forward_body c ((D + 1 : Nat) : Int) k s
        = some { s with forward_v := s.forward_v.set (M - (D + 1) + 2 * j) u, x := x0,
                        y := x0 - k, u := u, v := u - k,
                        found_middle_snake := ov || s.found_middle_snake }
      ∧ FwdVal c (D + 1) k u ∧ Fwd c (D + 1) x0 (x0 - k) ∧ x0 ≤ u
      ∧ (∀ z, x0 ≤ z → z < u → c.same_line z (z - k))
      ∧ (ov = true → c.delta % 2 ≠ 0 ∧ ∃ r, RevVal c D k r ∧ r ≤ u)
      ∧ (ov = false → c.delta % 2 ≠ 0 → ¬ Meet c (D + 1) D k) := by
  have hcf : c.center_forward = (M : Int) - c.delta_start := by
    unfold Frame.center_forward
    rw [hM]
  have hcr : c.center_reverse = (M : Int) - c.delta_end := by
    unfold Frame.center_reverse
    rw [hM]
  have hdelta : c.delta = c.delta_end - c.delta_start := rfl
  obtain ⟨x0, hst, hs, hpre⟩ := forward_start_round c M D j hM hD hj s.forward_v hrow k hk
  obtain ⟨u, ov, h1, h2, h3, h4, h5, h6⟩ := forward_body_core c hc (D + 1) k
    (M - (D + 1) + 2 * j) (by omega) s hlen x0 hst hs hpre (by
      intro hodd hlo hhi
      push_cast at hlo hhi
      obtain ⟨r, hr, hrv⟩ := hrev hodd ((k - c.delta_end + (D : Int)) / 2).toNat (by omega)
      rw [show c.delta_end - (D : Int)
        + 2 * (((k - c.delta_end + (D : Int)) / 2).toNat : Int) = k by omega] at hrv
      refine ⟨D, r, rfl, ?_, hrv⟩
      rw [arr_get_at _ _ (M - D + 2 * ((k - c.delta_end + (D : Int)) / 2).toNat) (by omega)]
      exact hr)
  refine ⟨x0, u, ov, h1, h2, hs, h3, h4, ?_, ?_⟩
  · intro ho
    obtain ⟨hodd, E, r, hE, hr, hle⟩ := h5 ho
    have : E = D := by omega
    subst this
    exact ⟨hodd, r, hr, hle⟩
  · intro ho hodd
    exact h6 ho hodd D rfl

/-- The body of the reverse loop in round `D + 1` on the diagonal number `j` of the
round. -/
theorem reverse_body_round (c : Frame) (hc : c.in_table) (M D j : Nat)
    (hM : c.max = (M : Int)) (hD : D + 1 ≤ M) (hj : j ≤ D + 1) (s : Search)
    (hlen : M - (D + 1) + 2 * j < s.reverse_v.length) (hrow : RevFront c M D s.reverse_v)
    (hfwd : c.delta % 2 = 0 → FwdFront c M (D + 1) s.forward_v) (k : Int)
    (hk : k = c.delta_end - ((D : Int) + 1) + 2 * (j : Int)) :
    ∃ u0 x ov, reverse_body c ((D + 1 : Nat) : Int) k s
        = some { s with reverse_v := s.reverse_v.set (M - (D + 1) + 2 * j) x, x := x,
                        y := x - k, u := u0, v := u0 - k,
                        found_middle_snake := ov || s.found_middle_snake }
      ∧ RevVal c (D + 1) k x ∧ Rev c (D + 1) u0 (u0 - k) ∧ x ≤ u0
      ∧ (∀ z, x ≤ z → z < u0 → c.same_line z (z - k))
      ∧ (ov = true → c.delta % 2 = 0 ∧ ∃ f, FwdVal c (D + 1) k f ∧ x ≤ f)
      ∧ (ov = false → c.delta % 2 = 0 → ¬ Meet c (D + 1) (D + 1) k) := by
  have hcf : c.center_forward = (M : Int) - c.delta_start := by
    unfold Frame.center_forward
    rw [hM]
  have hcr : c.center_reverse = (M : Int) - c.delta_end := by
    unfold Frame.center_reverse
    rw [hM]
  have hdelta : c.delta = c.delta_end - c.delta_start := rfl
  obtain ⟨u0, hst, hs, hpre⟩ := reverse_start_round c M D j hM hD hj s.reverse_v hrow k hk
  obtain ⟨x, ov, h1, h2, h3, h4, h5, h6⟩ := reverse_body_core c hc (D + 1) k
    (M - (D + 1) + 2 * j) (by omega) s hlen u0 hst hs hpre (by
      intro heven hlo hhi
      push_cast at hlo hhi
      obtain ⟨f, hf, hfv⟩ := hfwd heven ((k - c.delta_start + ((D : Int) + 1)) / 2).toNat
        (by omega)
      rw [show c.delta_start - ((D + 1 : Nat) : Int)
        + 2 * (((k - c.delta_start + ((D : Int) + 1)) / 2).toNat : Int) = k by
          push_cast; omega] at hfv
      refine ⟨f, ?_, hfv⟩
      rw [arr_get_at _ _ (M - (D + 1)
        + 2 * ((k - c.delta_start + ((D : Int) + 1)) / 2).toNat) (by omega)]
      exact hf)
  exact ⟨u0, x, ov, h1, h2, hs, h3, h4, h5, h6⟩

/-! ## The loops over the diagonals of one round -/

theorem forward_loop_exit (c : Frame) (diff_size : Int) (fuel : Nat) (diagonal : Int)
    (s : Search)
    (h : ¬ (diagonal ≤ c.delta_start + diff_size ∧ s.found_middle_snake = false)) :
    forward_loop c diff_size (fuel + 1) diagonal s = some s := by
  rw [forward_loop, if_neg h]
  rfl

theorem forward_loop_next (c : Frame) (diff_size : Int) (fuel : Nat) (diagonal : Int)
    (s s1 : Search)
    (h : diagonal ≤ c.delta_start + diff_size ∧ s.found_middle_snake = false)
    (hb : forward_body c diff_size diagonal s = some s1) :
    forward_loop c diff_size (fuel + 1) diagonal s
      = forward_loop c diff_size fuel (diagonal + 2) s1 := by
  rw [forward_loop, if_pos h, hb]
  rfl

theorem reverse_loop_exit (c : Frame) (diff_size : Int) (fuel : Nat) (diagonal : Int)
    (s : Search)
    (h : ¬ (diagonal ≤ c.delta_end + diff_size ∧ s.found_middle_snake = false)) :
    reverse_loop c diff_size (fuel + 1) diagonal s = some s := by
  rw [reverse_loop, if_neg h]
  rfl

theorem reverse_loop_next (c : Frame) (diff_size : Int) (fuel : Nat) (diagonal : Int)
    (s s1 : Search)
    (h : diagonal ≤ c.delta_end + diff_size ∧ s.found_middle_snake = false)
    (hb : reverse_body c diff_size diagonal s = some s1) :
    reverse_loop c diff_size (fuel + 1) diagonal s
      = reverse_loop c diff_size fuel (diagonal + 2) s1 := by
  rw [reverse_loop, if_pos h, hb]
  rfl

/-- The forward loop of round `D + 1`.  It either runs over all diagonals of the round
without an overlap, or stops at the first diagonal where the forward value has reached
the reverse value of round `D`.  `J` bounds the diagonals that can be reached. -/
theorem forward_loop_round (c : Frame) (hc : c.in_table) (M D : Nat) (hM : c.max = (M : Int))
    (hD : D + 1 ≤ M) (L : Nat) (rv0 : List Int)
    (hrev : c.delta % 2 ≠ 0 → RevFront c M D rv0) (J : Nat)
    (hidx : M - (D + 1) + 2 * J < L)
    (hstop : J = D + 1 ∨ (c.delta % 2 ≠ 0
      ∧ Meet c (D + 1) D (c.delta_start - ((D + 1 : Nat) : Int) + 2 * (J : Int)))) :
    ∀ (r j : Nat) (s : Search), j + r = D + 2 → s.found_middle_snake = false →
      s.forward_v.length = L → s.reverse_v = rv0 → FwdFront c M D s.forward_v →
      FwdPart c M (D + 1) j s.forward_v →
      (c.delta % 2 ≠ 0 → ∀ t, t < j →
        ¬ Meet c (D + 1) D (c.delta_start - ((D + 1 : Nat) : Int) + 2 * (t : Int))) →
      ∃ s', forward_loop c ((D + 1 : Nat) : Int) (r + 1)
            (c.delta_start - ((D + 1 : Nat) : Int) + 2 * (j : Int)) s = some s'
        ∧ s'.forward_v.length = L ∧ s'.reverse_v = rv0
        ∧ ((s'.found_middle_snake = false ∧ FwdFront c M (D + 1) s'.forward_v
            ∧ (c.delta % 2 ≠ 0 → ∀ t, t ≤ D + 1 →
              ¬ Meet c (D + 1) D (c.delta_start - ((D + 1 : Nat) : Int) + 2 * (t : Int))))
          ∨ (s'.found_middle_snake = true ∧ c.delta % 2 ≠ 0 ∧ FoundForward c D s')) := by
  intro r
  induction r with
  | zero =>
    intro j s hj hnot hL hrv _ hpart hno
    refine ⟨s, forward_loop_exit c _ 0 _ s (by push_cast; omega), hL, hrv,
      Or.inl ⟨hnot, fun t ht => hpart t (by omega), fun hodd t ht => hno hodd t (by omega)⟩⟩
  | succ r ih =>
    intro j s hj hnot hL hrv hrow hpart hno
    have hjJ : j ≤ J := by
      rcases hstop with h | ⟨hodd, hmeet⟩
      · omega
      · by_contra hlt
        exact hno hodd J (by omega) hmeet
    obtain ⟨x0, u, ov, hbody, hval, hs, hle, hm, ho1, ho2⟩ := forward_body_round c hc M D j hM hD
      (by omega) s (by omega) hrow (by rw [hrv]; exact hrev)
      (c.delta_start - ((D + 1 : Nat) : Int) + 2 * (j : Int)) (by push_cast; ring)
    rw [forward_loop_next c _ (r + 1) _ s _ ⟨by push_cast; omega, hnot⟩ hbody]
    cases ov with
    | true =>
      obtain ⟨hodd, rr, hrr, hrle⟩ := ho1 rfl
      refine ⟨_, forward_loop_exit c _ r _ _ (by simp), by simp [hL], hrv,
        Or.inr ⟨by simp, hodd, _, rr, rfl, rfl, hs, hle, hm, hval, hrr, hrle⟩⟩
    | false =>
      have hnext : c.delta_start - ((D + 1 : Nat) : Int) + 2 * (j : Int) + 2
          = c.delta_start - ((D + 1 : Nat) : Int) + 2 * ((j + 1 : Nat) : Int) := by
        push_cast; ring
      rw [hnext]
      refine ih (j + 1) _ (by omega) ?_ ?_ hrv ?_ ?_ ?_
      · simp [hnot]
      · simp [hL]
      · intro t ht
        obtain ⟨a, ha, hva⟩ := hrow t ht
        refine ⟨a, ?_, hva⟩
        show (s.forward_v.set _ u)[M - D + 2 * t]? = some a
        rw [List.getElem?_set_ne (by omega)]
        exact ha
      · intro t ht
        by_cases htj : t = j
        · subst htj
          refine ⟨u, ?_, hval⟩
          show (s.forward_v.set _ u)[M - (D + 1) + 2 * t]? = some u
          rw [List.getElem?_set_self (by omega)]
        · obtain ⟨a, ha, hva⟩ := hpart t (by omega)
          refine ⟨a, ?_, hva⟩
          show (s.forward_v.set _ u)[M - (D + 1) + 2 * t]? = some a
          rw [List.getElem?_set_ne (by omega)]
          exact ha
      · intro hodd t ht
        by_cases htj : t = j
        · subst htj
          exact ho2 rfl hodd
        · exact hno hodd t (by omega)

/-- The reverse loop of round `D + 1`. -/
theorem reverse_loop_round (c : Frame) (hc : c.in_table) (M D : Nat) (hM : c.max = (M : Int))
    (hD : D + 1 ≤ M) (L : Nat) (fv0 : List Int)
    (hfwd : c.delta % 2 = 0 → FwdFront c M (D + 1) fv0) (hidx : M + (D + 1) < L) :
    ∀ (r j : Nat) (s : Search), j + r = D + 2 → s.found_middle_snake = false →
      s.reverse_v.length = L → s.forward_v = fv0 → RevFront c M D s.reverse_v →
      RevPart c M (D + 1) j s.reverse_v →
      (c.delta % 2 = 0 → ∀ t, t < j →
        ¬ Meet c (D + 1) (D + 1) (c.delta_end - ((D + 1 : Nat) : Int) + 2 * (t : Int))) →
      ∃ s', reverse_loop c ((D + 1 : Nat) : Int) (r + 1)
            (c.delta_end - ((D + 1 : Nat) : Int) + 2 * (j : Int)) s = some s'
        ∧ s'.reverse_v.length = L ∧ s'.forward_v = fv0
        ∧ ((s'.found_middle_snake = false ∧ RevFront c M (D + 1) s'.reverse_v
            ∧ (c.delta % 2 = 0 → ∀ t, t ≤ D + 1 →
              ¬ Meet c (D + 1) (D + 1)
                (c.delta_end - ((D + 1 : Nat) : Int) + 2 * (t : Int))))
          ∨ (s'.found_middle_snake = true ∧ c.delta % 2 = 0 ∧ FoundReverse c (D + 1) s')) := by
  intro r
  induction r with
  | zero =>
    intro j s hj hnot hL hfv _ hpart hno
    refine ⟨s, reverse_loop_exit c _ 0 _ s (by push_cast; omega), hL, hfv,
      Or.inl ⟨hnot, fun t ht => hpart t (by omega), fun hodd t ht => hno hodd t (by omega)⟩⟩
  | succ r ih =>
    intro j s hj hnot hL hfv hrow hpart hno
    obtain ⟨u0, x, ov, hbody, hval, hs, hle, hm, ho1, ho2⟩ := reverse_body_round c hc M D j hM hD
      (by omega) s (by omega) hrow (by rw [hfv]; exact hfwd)
      (c.delta_end - ((D + 1 : Nat) : Int) + 2 * (j : Int)) (by push_cast; ring)
    rw [reverse_loop_next c _ (r + 1) _ s _ ⟨by push_cast; omega, hnot⟩ hbody]
    cases ov with
    | true =>
      obtain ⟨heven, f, hf, hfle⟩ := ho1 rfl
      refine ⟨_, reverse_loop_exit c _ r _ _ (by simp), by simp [hL], hfv,
        Or.inr ⟨by simp, heven, _, f, rfl, rfl, hs, hle, hm, hval, hf, hfle⟩⟩
    | false =>
      have hnext : c.delta_end - ((D + 1 : Nat) : Int) + 2 * (j : Int) + 2
          = c.delta_end - ((D + 1 : Nat) : Int) + 2 * ((j + 1 : Nat) : Int) := by
        push_cast; ring
      rw [hnext]
      refine ih (j + 1) _ (by omega) ?_ ?_ hfv ?_ ?_ ?_
      · simp [hnot]
      · simp [hL]
      · intro t ht
        obtain ⟨a, ha, hva⟩ := hrow t ht
        refine ⟨a, ?_, hva⟩
        show (s.reverse_v.set _ x)[M - D + 2 * t]? = some a
        rw [List.getElem?_set_ne (by omega)]
        exact ha
      · intro t ht
        by_cases htj : t = j
        · subst htj
          refine ⟨x, ?_, hval⟩
          show (s.reverse_v.set _ x)[M - (D + 1) + 2 * t]? = some x
          rw [List.getElem?_set_self (by omega)]
        · obtain ⟨a, ha, hva⟩ := hpart t (by omega)
          refine ⟨a, ?_, hva⟩
          show (s.reverse_v.set _ x)[M - (D + 1) + 2 * t]? = some a
          rw [List.getElem?_set_ne (by omega)]
          exact ha
      · intro heven t ht
        by_cases htj : t = j
        · subst htj
          exact ho2 rfl heven
        · exact hno heven t (by omega)

/-! ## Round 0 and the paths ruled out by a round -/

theorem forward_loop_zero (c : Frame) (hc : c.in_table) (M : Nat) (hM : c.max = (M : Int))
    (s : Search) (hnot : s.found_middle_snake = false) (hlen : M + 1 < s.forward_v.length)
    (hseed : s.forward_v[M + 1]? = some c.first_start) :
    ∃ s', forward_loop c 0 2 c.delta_start s = some s' ∧ s'.found_middle_snake = false
      ∧ s'.reverse_v = s.reverse_v ∧ s'.forward_v.length = s.forward_v.length
      ∧ FwdFront c M 0 s'.forward_v := by
  have hcf : c.center_forward = (M : Int) - c.delta_start := by
    unfold Frame.center_forward
    rw [hM]
  have hds : c.delta_start = c.first_start - c.second_start := rfl
  obtain ⟨u, ov, h1, h2, h3, h4, h5, h6⟩ := forward_body_core c hc 0 c.delta_start M
    (by omega) s (by omega) c.first_start
    (Or.inl ⟨by simp, by rw [arr_get_at _ _ (M + 1) (by push_cast; omega)]; exact hseed⟩)
    (Fwd.start.cast rfl rfl (by omega)) Fwd.pre_zero
    (by intro _ h1 h2; push_cast at h1 h2; omega)
  simp only [Nat.cast_zero] at h1
  cases ov with
  | true =>
    obtain ⟨_, E, _, hE, _⟩ := h5 rfl
    omega
  | false =>
    rw [forward_loop_next c 0 1 _ s _ ⟨by omega, hnot⟩ h1]
    refine ⟨_, forward_loop_exit c 0 0 _ _ (by omega), by simp [hnot], rfl, by simp, ?_⟩
    intro t ht
    have : t = 0 := by omega
    subst this
    refine ⟨u, ?_, by simpa using h2⟩
    show (s.forward_v.set M u)[M - 0 + 2 * 0]? = some u
    rw [show M - 0 + 2 * 0 = M by omega, List.getElem?_set_self (by omega)]

theorem reverse_loop_zero (c : Frame) (hc : c.in_table) (M : Nat) (hM : c.max = (M : Int))
    (s : Search) (hnot : s.found_middle_snake = false) (hlen : M + 1 < s.reverse_v.length)
    (hseed : s.reverse_v[M + 1]? = some (c.first_end + 1))
    (hfwd : FwdFront c M 0 s.forward_v) :
    ∃ s', reverse_loop c 0 2 c.delta_end s = some s' ∧ s'.forward_v = s.forward_v
      ∧ s'.reverse_v.length = s.reverse_v.length
      ∧ ((s'.found_middle_snake = false ∧ RevFront c M 0 s'.reverse_v
          ∧ (c.delta % 2 = 0 → ¬ Meet c 0 0 c.delta_end))
        ∨ (s'.found_middle_snake = true ∧ c.delta % 2 = 0 ∧ FoundReverse c 0 s')) := by
  have hcf : c.center_forward = (M : Int) - c.delta_start := by
    unfold Frame.center_forward
    rw [hM]
  have hcr : c.center_reverse = (M : Int) - c.delta_end := by
    unfold Frame.center_reverse
    rw [hM]
  have hde : c.delta_end = c.first_end - c.second_end := rfl
  obtain ⟨x, ov, h1, h2, h3, h4, h5, h6⟩ := reverse_body_core c hc 0 c.delta_end M
    (by omega) s (by omega) c.first_end
    (Or.inl ⟨by simp, c.first_end + 1,
      by rw [arr_get_at _ _ (M + 1) (by push_cast; omega)]; exact hseed, by omega⟩)
    (Rev.stop.rev_cast rfl rfl (by omega)) Rev.rev_pre_zero
    (by
      intro _ h1 h2
      push_cast at h1 h2
      obtain ⟨f, hf, hfv⟩ := hfwd 0 (le_refl _)
      rw [show c.delta_start - ((0 : Nat) : Int) + 2 * ((0 : Nat) : Int) = c.delta_end by
        push_cast; omega] at hfv
      refine ⟨f, ?_, hfv⟩
      rw [arr_get_at _ _ (M - 0 + 2 * 0) (by push_cast; omega)]
      exact hf)
  simp only [Nat.cast_zero] at h1
  rw [reverse_loop_next c 0 1 _ s _ ⟨by omega, hnot⟩ h1]
  cases ov with
  | true =>
    obtain ⟨heven, f, hf, hfle⟩ := h5 rfl
    exact ⟨_, reverse_loop_exit c 0 0 _ _ (by simp), rfl, by simp,
      Or.inr ⟨by simp, heven, _, f, rfl, rfl,
        Rev.stop.rev_cast rfl rfl (by show c.second_end = c.first_end - c.delta_end; omega), h3, h4,
        h2, hf, hfle⟩⟩
  | false =>
    refine ⟨_, reverse_loop_exit c 0 0 _ _ (by omega), rfl, by simp,
      Or.inl ⟨by simp [hnot], ?_, h6 rfl⟩⟩
    intro t ht
    have : t = 0 := by omega
    subst this
    refine ⟨x, ?_, by simpa using h2⟩
    show (s.reverse_v.set M x)[M - 0 + 2 * 0]? = some x
    rw [show M - 0 + 2 * 0 = M by omega, List.getElem?_set_self (by omega)]

/-- The path that goes down first and then right. -/
theorem Fwd.trivial (c : Frame) (i j : Nat) :
    Fwd c (j + i) (c.first_start + i) (c.second_start + j) :=
  ((Fwd.start.downs j).rights i).cast (by omega) rfl rfl

theorem Rev.rev_trivial (c : Frame) (i j : Nat) :
    Rev c (i + j) (c.first_end - i) (c.second_end - j) :=
  ((Rev.stop.lefts i).ups j).rev_cast (by omega) rfl rfl

/-- When the combined length of the ranges is `2 D + 1`, a forward path with `D + 1`
edits and a reverse path with `D` edits meet on a diagonal that is not the last one of
round `D + 1`. -/
theorem last_round_meet (c : Frame) (hc : c.in_table) (D : Nat)
    (hT : c.first_end - c.first_start + c.second_end - c.second_start = 2 * (D : Int) + 1) :
    ∃ J, J < D + 1
      ∧ Meet c (D + 1) D (c.delta_start - ((D + 1 : Nat) : Int) + 2 * (J : Int)) := by
  have hds : c.delta_start = c.first_start - c.second_start := rfl
  obtain ⟨h1, h2, h3, h4, h5, h6⟩ := hc
  by_cases hm : (D : Int) + 1 ≤ c.second_end - c.second_start
  · refine ⟨0, by omega, c.first_start, ?_, ?_⟩
    · exact (Fwd.trivial c 0 (D + 1)).cast (by omega) (by simp) (by push_cast; omega)
    · exact (Rev.rev_trivial c (c.first_end - c.first_start).toNat
        (c.second_end - c.second_start - ((D : Int) + 1)).toNat).rev_cast (by omega) (by omega)
        (by push_cast; omega)
  · refine ⟨((D : Int) + 1 - (c.second_end - c.second_start)).toNat, by omega,
      c.first_start + ((D : Int) + 1 - (c.second_end - c.second_start)), ?_, ?_⟩
    · exact (Fwd.trivial c ((D : Int) + 1 - (c.second_end - c.second_start)).toNat
        (c.second_end - c.second_start).toNat).cast (by omega) (by omega) (by push_cast; omega)
    · exact (Rev.rev_trivial c (c.first_end - c.first_start
        - ((D : Int) + 1 - (c.second_end - c.second_start))).toNat 0).rev_cast (by omega) (by omega)
        (by push_cast; omega)

/-- The path of all deletions and insertions. -/
theorem Fwd.full_trivial (c : Frame) (hc : c.in_table) :
    Fwd c (c.first_end - c.first_start + c.second_end - c.second_start).toNat c.first_end
      c.second_end := by
  obtain ⟨h1, h2, h3, h4, h5, h6⟩ := hc
  exact (Fwd.trivial c (c.first_end - c.first_start).toNat
    (c.second_end - c.second_start).toNat).cast (by omega) (by omega) (by omega)

theorem delta_parity (c : Frame) :
    c.delta % 2 = (c.first_end - c.first_start + c.second_end - c.second_start) % 2 := by
  unfold Frame.delta Frame.delta_end Frame.delta_start
  omega

/-- A round without an overlap rules out the next path lengths. -/
theorem NoShort.step (c : Frame) (D : Nat) (h : NoShort c D)
    (hodd : c.delta % 2 ≠ 0 → ∀ t, t ≤ D + 1 →
      ¬ Meet c (D + 1) D (c.delta_start - ((D + 1 : Nat) : Int) + 2 * (t : Int)))
    (heven : c.delta % 2 = 0 → ∀ t, t ≤ D + 1 →
      ¬ Meet c (D + 1) (D + 1) (c.delta_end - ((D + 1 : Nat) : Int) + 2 * (t : Int))) :
    NoShort c (D + 1) := by
  intro d hd
  have h0 := h d hd
  have hpar := delta_parity c
  have hb := hd.fwd_bounds
  have hde : c.delta_end = c.first_end - c.second_end := rfl
  have hds : c.delta_start = c.first_start - c.second_start := rfl
  by_contra hlt
  by_cases hp : c.delta % 2 = 0
  · have hd2 : d = D + 1 + (D + 1) := by push_cast at hlt; omega
    subst hd2
    obtain ⟨x, y, hf, hr⟩ := hd.split 0 Rev.stop (D + 1) (by omega)
    have hr' : Rev c (D + 1) x y := hr.rev_cast (by omega) rfl rfl
    have hrb := hr'.rev_bounds
    refine heven hp ((x - y - c.delta_end + ((D : Int) + 1)) / 2).toNat (by omega) ⟨x, ?_, ?_⟩
    · exact hf.cast rfl rfl (by push_cast; omega)
    · exact hr'.rev_cast rfl rfl (by push_cast; omega)
  · have hd2 : d = D + 1 + D := by push_cast at hlt; omega
    subst hd2
    obtain ⟨x, y, hf, hr⟩ := hd.split 0 Rev.stop (D + 1) (by omega)
    have hr' : Rev c D x y := hr.rev_cast (by omega) rfl rfl
    have hfb := hf.fwd_bounds
    refine hodd hp ((x - y - c.delta_start + ((D : Int) + 1)) / 2).toNat (by omega) ⟨x, ?_, ?_⟩
    · exact hf.cast rfl rfl (by push_cast; omega)
    · exact hr'.rev_cast rfl rfl (by push_cast; omega)

theorem NoShort.zero (c : Frame) (h : c.delta % 2 = 0 → ¬ Meet c 0 0 c.delta_end) :
    NoShort c 0 := by
  intro d hd
  by_contra hlt
  have hp : c.delta % 2 = 0 := by omega
  have hd0 : d = 0 := by omega
  subst hd0
  have hde : c.delta_end = c.first_end - c.second_end := rfl
  exact h hp ⟨c.first_end, hd.cast rfl rfl (by omega), Rev.stop.rev_cast rfl rfl (by omega)⟩

/-! ## The loop over the rounds -/

theorem search_loop_exit (c : Frame) (fuel : Nat) (diff_size : Int) (s : Search)
    (h : ¬ (diff_size ≤ c.max ∧ s.found_middle_snake = false)) :
    search_loop c (fuel + 1) diff_size s = some (diff_size, s) := by
  rw [search_loop, if_neg h]
  rfl

theorem search_loop_next (c : Frame) (fuel : Nat) (diff_size : Int) (s s2 : Search)
    (h : diff_size ≤ c.max ∧ s.found_middle_snake = false)
    (hb : (forward_loop c diff_size (diff_size.toNat + 2) (c.delta_start - diff_size) s).bind
      (reverse_loop c diff_size (diff_size.toNat + 2) (c.delta_end - diff_size)) = some s2) :
    search_loop c (fuel + 1) diff_size s = search_loop c fuel (diff_size + 1) s2 := by
  rw [search_loop, if_pos h]
  simp only [Option.bind_eq_bind]
  rw [← Option.bind_assoc, hb]
  rfl

/-- One round of the search after round 0. -/
theorem search_round (c : Frame) (hc : c.in_table) (M D Lf Lr : Nat) (hM : c.max = (M : Int))
    (hD : D + 1 ≤ M)
    (hcap : (M : Int) ≤ (c.first_end - c.first_start + c.second_end - c.second_start) / 2 + 1)
    (hLf : 2 * ((c.first_end - c.first_start + c.second_end - c.second_start) / 2 + 1)
      ≤ (Lf : Int))
    (hLr : 2 * ((c.first_end - c.first_start + c.second_end - c.second_start) / 2 + 1)
      ≤ (Lr : Int))
    (s : Search) (hinv : RoundInv c M D Lf Lr s) :
    ∃ s2, (forward_loop c ((D + 1 : Nat) : Int) (((D + 1 : Nat) : Int).toNat + 2)
          (c.delta_start - ((D + 1 : Nat) : Int)) s).bind
          (reverse_loop c ((D + 1 : Nat) : Int) (((D + 1 : Nat) : Int).toNat + 2)
            (c.delta_end - ((D + 1 : Nat) : Int))) = some s2
      ∧ s2.forward_v.length = Lf ∧ s2.reverse_v.length = Lr
      ∧ (RoundInv c M (D + 1) Lf Lr s2
        ∨ (s2.found_middle_snake = true
          ∧ ((c.delta % 2 ≠ 0 ∧ FoundForward c D s2)
            ∨ (c.delta % 2 = 0 ∧ FoundReverse c (D + 1) s2)))) := by
  obtain ⟨hnot, hlf, hlr, hfront, hrfront, hshort⟩ := hinv
  have hfull := hshort _ (Fwd.full_trivial c hc)
  have hpar := delta_parity c
  have hT : 0 ≤ c.first_end - c.first_start + c.second_end - c.second_start := by
    obtain ⟨h1, h2, h3, h4, h5, h6⟩ := hc
    omega
  rw [Int.toNat_of_nonneg hT] at hfull
  have hlast : ∀ L : Nat,
      2 * ((c.first_end - c.first_start + c.second_end - c.second_start) / 2 + 1) ≤ (L : Int) →
      ¬ M + (D + 1) < L →
      c.delta % 2 ≠ 0 ∧ ∃ J, J < D + 1 ∧ M - (D + 1) + 2 * J < L
        ∧ Meet c (D + 1) D (c.delta_start - ((D + 1 : Nat) : Int) + 2 * (J : Int)) := by
    intro L hL hbig
    obtain ⟨J, hJ, hmeet⟩ := last_round_meet c hc D (by omega)
    exact ⟨by omega, J, hJ, by omega, hmeet⟩
  have hfuel : ((D + 1 : Nat) : Int).toNat + 2 = (D + 2) + 1 := by
    rw [Int.toNat_ofNat]
  rw [hfuel]
  obtain ⟨J, hidx, hstop⟩ : ∃ J, M - (D + 1) + 2 * J < Lf ∧ (J = D + 1 ∨ (c.delta % 2 ≠ 0
      ∧ Meet c (D + 1) D (c.delta_start - ((D + 1 : Nat) : Int) + 2 * (J : Int)))) := by
    by_cases hbig : M + (D + 1) < Lf
    · exact ⟨D + 1, by omega, Or.inl rfl⟩
    · obtain ⟨hodd, J, _, hJ2, hmeet⟩ := hlast Lf hLf hbig
      exact ⟨J, hJ2, Or.inr ⟨hodd, hmeet⟩⟩
  obtain ⟨s1, hs1, hl1, hr1, hres1⟩ := forward_loop_round c hc M D hM hD Lf s.reverse_v
    (fun _ => hrfront) J hidx hstop (D + 2) 0 s (by omega) hnot hlf rfl hfront
    (fun t ht => absurd ht (by omega)) (fun _ t ht => absurd ht (by omega))
  simp only [Nat.cast_zero, mul_zero, add_zero] at hs1
  rw [hs1, Option.some_bind]
  rcases hres1 with ⟨hnot1, hfront1, hno1⟩ | ⟨hfound1, hodd, hff⟩
  · have hidx2 : M + (D + 1) < Lr := by
      by_contra hbig
      obtain ⟨hodd, J, hJ1, _, hmeet⟩ := hlast Lr hLr hbig
      exact hno1 hodd J (by omega) hmeet
    obtain ⟨s2, hs2, hl2, hf2, hres2⟩ := reverse_loop_round c hc M D hM hD Lr s1.forward_v
      (fun _ => hfront1) hidx2 (D + 2) 0 s1 (by omega) hnot1 (by rw [hr1]; exact hlr) rfl
      (by rw [hr1]; exact hrfront) (fun t ht => absurd ht (by omega))
      (fun _ t ht => absurd ht (by omega))
    simp only [Nat.cast_zero, mul_zero, add_zero] at hs2
    refine ⟨s2, hs2, by rw [hf2]; exact hl1, hl2, ?_⟩
    rcases hres2 with ⟨hnot2, hrfront2, hno2⟩ | ⟨hfound2, heven, hfr⟩
    · exact Or.inl ⟨hnot2, by rw [hf2]; exact hl1, hl2, by rw [hf2]; exact hfront1, hrfront2,
        NoShort.step c D hshort hno1 hno2⟩
    · exact Or.inr ⟨hfound2, Or.inr ⟨heven, hfr⟩⟩
  · refine ⟨s1, reverse_loop_exit c _ (D + 2) _ s1 (by simp [hfound1]), hl1,
      by rw [hr1]; exact hlr, Or.inr ⟨hfound1, Or.inl ⟨hodd, hff⟩⟩⟩

/-- The rounds after round `D` of the loop over `diff_size`. -/
theorem search_loop_rounds (c : Frame) (hc : c.in_table) (M Lf Lr : Nat)
    (hM : c.max = (M : Int))
    (hcap : (M : Int) ≤ (c.first_end - c.first_start + c.second_end - c.second_start) / 2 + 1)
    (hLf : 2 * ((c.first_end - c.first_start + c.second_end - c.second_start) / 2 + 1)
      ≤ (Lf : Int))
    (hLr : 2 * ((c.first_end - c.first_start + c.second_end - c.second_start) / 2 + 1)
      ≤ (Lr : Int)) :
    ∀ (r D : Nat) (s : Search), D + r = M → RoundInv c M D Lf Lr s →
      ∃ diff_size s', search_loop c (r + 1) ((D + 1 : Nat) : Int) s = some (diff_size, s')
        ∧ s'.forward_v.length = Lf ∧ s'.reverse_v.length = Lr
        ∧ SearchEnd c M diff_size s' := by
  intro r
  induction r with
  | zero =>
    intro D s hD hinv
    have hDM : D = M := by omega
    subst hDM
    refine ⟨_, s, search_loop_exit c 0 _ s (by rw [hM]; push_cast; omega), hinv.2.1,
      hinv.2.2.1, Or.inr ⟨hinv.1, by push_cast; rfl, hinv.2.2.2.1, hinv.2.2.2.2.1,
        hinv.2.2.2.2.2⟩⟩
  | succ r ih =>
    intro D s hD hinv
    obtain ⟨s2, hs2, hl1, hl2, hres⟩ := search_round c hc M D Lf Lr hM (by omega) hcap hLf hLr s
      hinv
    rw [search_loop_next c (r + 1) _ s s2 ⟨by rw [hM]; push_cast; omega, hinv.1⟩ hs2]
    rcases hres with hinv2 | ⟨hfound, hcase⟩
    · have := ih (D + 1) s2 (by omega) hinv2
      rw [show ((D + 1 : Nat) : Int) + 1 = ((D + 1 + 1 : Nat) : Int) by push_cast; ring]
      exact this
    · refine ⟨_, s2, search_loop_exit c r _ s2 (by simp [hfound]), hl1, hl2,
        Or.inl ⟨hfound, D + 1, by omega, by push_cast; ring, ?_⟩⟩
      rcases hcase with ⟨hodd, hff⟩ | ⟨heven, hfr⟩
      · exact Or.inl ⟨hodd, D, rfl, hff, hinv.2.2.2.2.2⟩
      · exact Or.inr ⟨heven, hfr, Or.inr ⟨D, rfl, hinv.2.2.2.2.2⟩⟩

/-- The whole loop over `diff_size`, started as `find_split` starts it: the two seeds
are in place and the flag is unset. -/
theorem search_loop_spec (c : Frame) (hc : c.in_table) (M : Nat) (hM : c.max = (M : Int))
    (hM1 : 1 ≤ M)
    (hcap : (M : Int) ≤ (c.first_end - c.first_start + c.second_end - c.second_start) / 2 + 1)
    (s : Search) (hnot : s.found_middle_snake = false)
    (hLf : 2 * ((c.first_end - c.first_start + c.second_end - c.second_start) / 2 + 1)
      ≤ (s.forward_v.length : Int))
    (hLr : 2 * ((c.first_end - c.first_start + c.second_end - c.second_start) / 2 + 1)
      ≤ (s.reverse_v.length : Int))
    (hfseed : s.forward_v[M + 1]? = some c.first_start)
    (hrseed : s.reverse_v[M + 1]? = some (c.first_end + 1)) :
    ∃ diff_size s', search_loop c (M + 2) 0 s = some (diff_size, s')
      ∧ s'.forward_v.length = s.forward_v.length ∧ s'.reverse_v.length = s.reverse_v.length
      ∧ SearchEnd c M diff_size s' := by
  have hT : 2 ≤ c.first_end - c.first_start + c.second_end - c.second_start := by
    obtain ⟨h1, h2, h3, h4, h5, h6⟩ := hc
    omega
  obtain ⟨s1, hs1, hnot1, hr1, hl1, hfront1⟩ := forward_loop_zero c hc M hM s hnot (by omega)
    hfseed
  obtain ⟨s2, hs2, hf2, hl2, hres⟩ := reverse_loop_zero c hc M hM s1 hnot1
    (by rw [hr1]; omega) (by rw [hr1]; exact hrseed) hfront1
  have hround : (forward_loop c 0 ((0 : Int).toNat + 2) (c.delta_start - 0) s).bind
      (reverse_loop c 0 ((0 : Int).toNat + 2) (c.delta_end - 0)) = some s2 := by
    simp only [Int.toNat_zero, zero_add, sub_zero]
    rw [hs1, Option.some_bind, hs2]
  rw [search_loop_next c (M + 1) 0 s s2 ⟨by rw [hM]; omega, hnot⟩ hround]
  rcases hres with ⟨hnot2, hrfront2, hno2⟩ | ⟨hfound2, heven, hfr⟩
  · have hinv : RoundInv c M 0 s.forward_v.length s.reverse_v.length s2 :=
      ⟨hnot2, by rw [hf2]; exact hl1, by rw [hl2, hr1], by rw [hf2]; exact hfront1, hrfront2,
        NoShort.zero c hno2⟩
    have := search_loop_rounds c hc M _ _ hM hcap hLf hLr M 0 s2 (by omega) hinv
    simpa using this
  · refine ⟨_, s2, search_loop_exit c M _ s2 (by simp [hfound2]), by rw [hf2]; exact hl1,
      by rw [hl2, hr1], Or.inl ⟨hfound2, 0, by omega, by simp, Or.inr ⟨heven, hfr, Or.inl rfl⟩⟩⟩

/-! ## The middle snake lies on a shortest path -/

/-- One diagonal step towards the end of the ranges does not cost a reverse path more
edits. -/
theorem Rev.diag_up {c : Frame} {b : Nat} {x y : Int} (h : Rev c b x y) :
    x < c.first_end → y < c.second_end → ∃ b', b' ≤ b ∧ Rev c b' (x + 1) (y + 1) := by
  have hde : c.delta_end = c.first_end - c.second_end := rfl
  induction h with
  | stop => intro h1 _; omega
  | @diag d x y h _ _ =>
    intro _ _
    exact ⟨d, le_refl _, h.rev_cast rfl (by omega) (by omega)⟩
  | @left d x y h ih =>
    intro h1 h2
    have hb := h.rev_bounds
    by_cases hx : x < c.first_end
    · obtain ⟨b', hb', hr⟩ := ih hx h2
      exact ⟨b' + 1, by omega, hr.left.rev_cast rfl (by omega) rfl⟩
    · exact ⟨(c.second_end - y - 1).toNat, by omega,
        (Rev.rev_trivial c 0 (c.second_end - y - 1).toNat).rev_cast (by omega) (by omega) (by omega)⟩
  | @up d x y h ih =>
    intro h1 h2
    have hb := h.rev_bounds
    by_cases hy : y < c.second_end
    · obtain ⟨b', hb', hr⟩ := ih h1 hy
      exact ⟨b' + 1, by omega, hr.up.rev_cast rfl rfl (by omega)⟩
    · exact ⟨(c.first_end - x - 1).toNat, by omega,
        (Rev.rev_trivial c (c.first_end - x - 1).toNat 0).rev_cast (by omega) (by omega) (by omega)⟩

theorem Fwd.diag_down {c : Frame} {a : Nat} {x y : Int} (h : Fwd c a x y) :
    c.first_start < x → c.second_start < y → ∃ a', a' ≤ a ∧ Fwd c a' (x - 1) (y - 1) := by
  have hds : c.delta_start = c.first_start - c.second_start := rfl
  induction h with
  | start => intro h1 _; omega
  | @diag d x y h _ _ =>
    intro _ _
    exact ⟨d, le_refl _, h.cast rfl (by omega) (by omega)⟩
  | @right d x y h ih =>
    intro h1 h2
    have hb := h.fwd_bounds
    by_cases hx : c.first_start < x
    · obtain ⟨a', ha', hr⟩ := ih hx h2
      exact ⟨a' + 1, by omega, hr.right.cast rfl (by omega) rfl⟩
    · exact ⟨(y - 1 - c.second_start).toNat, by omega,
        (Fwd.trivial c 0 (y - 1 - c.second_start).toNat).cast (by omega) (by omega) (by omega)⟩
  | @down d x y h ih =>
    intro h1 h2
    have hb := h.fwd_bounds
    by_cases hy : c.second_start < y
    · obtain ⟨a', ha', hr⟩ := ih h1 hy
      exact ⟨a' + 1, by omega, hr.down.cast rfl rfl (by omega)⟩
    · exact ⟨(x - 1 - c.first_start).toNat, by omega,
        (Fwd.trivial c (x - 1 - c.first_start).toNat 0).cast (by omega) (by omega) (by omega)⟩

theorem Rev.diag_up_many {c : Frame} : ∀ (t b : Nat) (x y : Int), Rev c b x y →
    x + t ≤ c.first_end → y + t ≤ c.second_end → ∃ b', b' ≤ b ∧ Rev c b' (x + t) (y + t) := by
  intro t
  induction t with
  | zero => intro b x y h _ _; exact ⟨b, le_refl _, h.rev_cast rfl (by simp) (by simp)⟩
  | succ t ih =>
    intro b x y h h1 h2
    obtain ⟨b1, hb1, hr1⟩ := h.diag_up (by push_cast at h1; omega) (by push_cast at h2; omega)
    obtain ⟨b2, hb2, hr2⟩ := ih b1 (x + 1) (y + 1) hr1 (by push_cast at h1; omega)
      (by push_cast at h2; omega)
    exact ⟨b2, by omega, hr2.rev_cast rfl (by push_cast; omega) (by push_cast; omega)⟩

theorem Fwd.diag_down_many {c : Frame} : ∀ (t a : Nat) (x y : Int), Fwd c a x y →
    c.first_start ≤ x - t → c.second_start ≤ y - t →
    ∃ a', a' ≤ a ∧ Fwd c a' (x - t) (y - t) := by
  intro t
  induction t with
  | zero => intro a x y h _ _; exact ⟨a, le_refl _, h.cast rfl (by simp) (by simp)⟩
  | succ t ih =>
    intro a x y h h1 h2
    obtain ⟨a1, ha1, hr1⟩ := h.diag_down (by push_cast at h1; omega) (by push_cast at h2; omega)
    obtain ⟨a2, ha2, hr2⟩ := ih a1 (x - 1) (y - 1) hr1 (by push_cast at h1; omega)
      (by push_cast at h2; omega)
    exact ⟨a2, by omega, hr2.cast rfl (by push_cast; omega) (by push_cast; omega)⟩

/-- When a furthest forward point has reached a reverse point of its diagonal and no
shorter path exists, the reverse search reaches the forward point with the same number
of edits: the forward point lies inside the grid. -/
theorem meet_forward (c : Frame) (hc : c.in_table) (a b : Nat) (u v r : Int)
    (hf : Fwd c a u v) (hr : Rev c b r (r - (u - v))) (hle : r ≤ u)
    (hmin : ∀ d, Fwd c d c.first_end c.second_end → a + b ≤ d) : Rev c b u v := by
  obtain ⟨h1, h2, h3, h4, h5, h6⟩ := hc
  have hde : c.delta_end = c.first_end - c.second_end := rfl
  have hrb := hr.rev_bounds
  have hfb := hf.fwd_bounds
  have hin : u ≤ c.first_end ∧ v ≤ c.second_end := by
    by_contra hout
    by_cases hsum : c.first_end + c.second_end ≤ u + v
    · obtain ⟨d', hd', hfull⟩ := hf.reach_end (by omega) (by omega) hsum
      have := hmin d' hfull
      omega
    · by_cases hx : c.first_end < u
      · obtain ⟨d1, hd1, hp⟩ := Fwd.pull_left_many (by omega) (u - c.first_end).toNat a u v hf
          (by omega)
        have hfull := (hp.downs (c.second_end - v).toNat).cast rfl
          (show u - ((u - c.first_end).toNat : Int) = c.first_end by omega)
          (show v + ((c.second_end - v).toNat : Int) = c.second_end by omega)
        have := hmin _ hfull
        omega
      · have hy : c.second_end < v := by omega
        obtain ⟨d1, hd1, hp⟩ := Fwd.pull_up_many (by omega) (v - c.second_end).toNat a u v hf
          (by omega)
        have hfull := (hp.rights (c.first_end - u).toNat).cast rfl
          (show u + ((c.first_end - u).toNat : Int) = c.first_end by omega)
          (show v - ((v - c.second_end).toNat : Int) = c.second_end by omega)
        have := hmin _ hfull
        omega
  obtain ⟨b', hb', hr'⟩ := Rev.diag_up_many (u - r).toNat b r (r - (u - v)) hr (by omega)
    (by omega)
  have hr2 : Rev c b' u v := hr'.rev_cast rfl (by omega) (by omega)
  have := hmin _ (Fwd.join hr2 a hf)
  have hbb : b' = b := by omega
  subst hbb
  exact hr2

theorem meet_reverse (c : Frame) (hc : c.in_table) (a b : Nat) (x y f : Int)
    (hr : Rev c b x y) (hf : Fwd c a f (f - (x - y))) (hle : x ≤ f)
    (hmin : ∀ d, Fwd c d c.first_end c.second_end → a + b ≤ d) : Fwd c a x y := by
  obtain ⟨h1, h2, h3, h4, h5, h6⟩ := hc
  have hds : c.delta_start = c.first_start - c.second_start := rfl
  have hrb := hr.rev_bounds
  have hfb := hf.fwd_bounds
  have hin : c.first_start ≤ x ∧ c.second_start ≤ y := by
    by_contra hout
    by_cases hsum : x + y ≤ c.first_start + c.second_start
    · obtain ⟨d', hd', hfull⟩ := hr.reach_start (by omega) (by omega) hsum
      have := hmin d' hfull.full
      omega
    · by_cases hx : x < c.first_start
      · obtain ⟨d1, hd1, hp⟩ := Rev.pull_right_many (by omega) (c.first_start - x).toNat b x y
          hr (by omega)
        have hfull := (hp.ups (y - c.second_start).toNat).rev_cast rfl
          (show x + ((c.first_start - x).toNat : Int) = c.first_start by omega)
          (show y - ((y - c.second_start).toNat : Int) = c.second_start by omega)
        have := hmin _ hfull.full
        omega
      · have hy : y < c.second_start := by omega
        obtain ⟨d1, hd1, hp⟩ := Rev.pull_down_many (by omega) (c.second_start - y).toNat b x y
          hr (by omega)
        have hfull := (hp.lefts (x - c.first_start).toNat).rev_cast rfl
          (show x - ((x - c.first_start).toNat : Int) = c.first_start by omega)
          (show y + ((c.second_start - y).toNat : Int) = c.second_start by omega)
        have := hmin _ hfull.full
        omega
  obtain ⟨a', ha', hf'⟩ := Fwd.diag_down_many (f - x).toNat a f (f - (x - y)) hf (by omega)
    (by omega)
  have hf2 : Fwd c a' x y := hf'.cast rfl (by omega) (by omega)
  have := hmin _ (Fwd.join hr a' hf2)
  have haa : a' = a := by omega
  subst haa
  exact hf2

/-- The number of edits of a path from the start to the end has the parity of `delta`. -/
theorem Fwd.full_parity {c : Frame} {d : Nat} (h : Fwd c d c.first_end c.second_end) :
    (d : Int) % 2 = c.delta % 2 := by
  have := h.fwd_bounds
  have := delta_parity c
  omega

theorem SnakeOK.of_forward (c : Frame) (hc : c.in_table) (E : Nat) (s : Search)
    (hf : FoundForward c E s) (hshort : NoShort c E) :
    SnakeOK c (E + 1) E s.x s.y s.u s.v := by
  obtain ⟨k, r, hy, hv, hfwd, hle, hm, hfv, hrv, hrle⟩ := hf
  have hmin : ∀ d, Fwd c d c.first_end c.second_end → E + 1 + E ≤ d := by
    intro d hd
    have := hshort d hd
    have := hd.full_parity
    omega
  have hfu : Fwd c (E + 1) s.u s.v := hfv.1.cast rfl rfl (by omega)
  refine ⟨hfwd, meet_forward c hc (E + 1) E s.u s.v r hfu (hrv.1.rev_cast rfl rfl (by omega)) hrle
    hmin, by omega, hle, ?_, hmin⟩
  intro z hz1 hz2
  rw [show s.x - s.y = k by omega]
  exact hm z hz1 hz2

theorem SnakeOK.of_reverse (c : Frame) (hc : c.in_table) (D : Nat) (s : Search)
    (heven : c.delta % 2 = 0) (hf : FoundReverse c D s)
    (hshort : D = 0 ∨ ∃ E, D = E + 1 ∧ NoShort c E) :
    SnakeOK c D D s.x s.y s.u s.v := by
  obtain ⟨k, f, hy, hv, hrev, hle, hm, hrv, hfv, hfle⟩ := hf
  have hmin : ∀ d, Fwd c d c.first_end c.second_end → D + D ≤ d := by
    intro d hd
    rcases hshort with h0 | ⟨E, hE, hs⟩
    · omega
    · have := hs d hd
      have := hd.full_parity
      omega
  have hrx : Rev c D s.x s.y := hrv.1.rev_cast rfl rfl (by omega)
  refine ⟨meet_reverse c hc D D s.x s.y f hrx (hfv.1.cast rfl rfl (by omega)) hfle hmin, hrev,
    by omega, hle, ?_, hmin⟩
  intro z hz1 hz2
  rw [show s.x - s.y = k by omega]
  exact hm z hz1 hz2

/-- The middle snake lies inside the ranges of the call. -/
theorem SnakeOK.in_grid {c : Frame} {a b : Nat} {x y u v : Int} (h : SnakeOK c a b x y u v) :
    c.first_start ≤ x ∧ x ≤ u ∧ u ≤ c.first_end ∧ c.second_start ≤ y ∧ y ≤ v
      ∧ v ≤ c.second_end
      ∧ (a : Int) ≤ (x - c.first_start) + (y - c.second_start)
      ∧ (b : Int) ≤ (c.first_end - u) + (c.second_end - v) := by
  obtain ⟨h1, h2, h3, h4, _, _⟩ := h
  have := h1.fwd_bounds
  have := h2.rev_bounds
  omega

/-! ## The fallback point and the result of the search -/

theorem forward_best_spec (c : Frame) (M : Nat) (hM : c.max = (M : Int)) (fv : List Int)
    (hrow : FwdFront c M M fv) :
    ∀ (r j : Nat) (best : Int × Int), j + r = M + 1 →
      (j = 0 → ∀ x y, Fwd c M x y → best.1 + best.2 < x + y) →
      (1 ≤ j → Fwd c M best.1 best.2) →
      ∃ res, forward_best c fv (M : Int) (r + 1) (c.delta_start - (M : Int) + 2 * (j : Int)) best
          = some res ∧ Fwd c M res.1 res.2 := by
  have hcf : c.center_forward = (M : Int) - c.delta_start := by
    unfold Frame.center_forward
    rw [hM]
  intro r
  induction r with
  | zero =>
    intro j best hj _ h1
    obtain ⟨bx, by1⟩ := best
    refine ⟨(bx, by1), ?_, h1 (by omega)⟩
    rw [forward_best, if_neg (by omega)]
    rfl
  | succ r ih =>
    intro j best hj h0 h1
    obtain ⟨bx, by1⟩ := best
    obtain ⟨a, ha, hva⟩ := hrow j (by omega)
    have hget : arr_get fv (c.center_forward + (c.delta_start - (M : Int) + 2 * (j : Int)))
        = some a := by
      rw [arr_get_at _ _ (M - M + 2 * j) (by omega)]
      exact ha
    have hnext : c.delta_start - (M : Int) + 2 * (j : Int) + 2
        = c.delta_start - (M : Int) + 2 * ((j + 1 : Nat) : Int) := by
      push_cast; ring
    rw [forward_best, if_pos (by omega), hget]
    simp only [Option.bind_eq_bind, Option.some_bind]
    rw [hnext]
    by_cases hgt : a + (a - (c.delta_start - (M : Int) + 2 * (j : Int))) > bx + by1
    · rw [if_pos hgt]
      exact ih (j + 1) _ (by omega) (fun h => absurd h (by omega)) (fun _ => hva.1)
    · rw [if_neg hgt]
      refine ih (j + 1) _ (by omega) (fun h => absurd h (by omega)) (fun _ => ?_)
      by_cases hj0 : j = 0
      · have := h0 hj0 _ _ hva.1
        simp only at this
        omega
      · exact h1 (by omega)

theorem reverse_best_spec (c : Frame) (M : Nat) (hM : c.max = (M : Int)) (rv : List Int)
    (hrow : RevFront c M M rv) :
    ∀ (r j : Nat) (best : Int × Int), j + r = M + 1 →
      (j = 0 → ∀ x y, Rev c M x y → x + y < best.1 + best.2) →
      (1 ≤ j → Rev c M best.1 best.2) →
      ∃ res, reverse_best c rv (M : Int) (r + 1) (c.delta_end - (M : Int) + 2 * (j : Int)) best
          = some res ∧ Rev c M res.1 res.2 := by
  have hcr : c.center_reverse = (M : Int) - c.delta_end := by
    unfold Frame.center_reverse
    rw [hM]
  intro r
  induction r with
  | zero =>
    intro j best hj _ h1
    obtain ⟨bx, by1⟩ := best
    refine ⟨(bx, by1), ?_, h1 (by omega)⟩
    rw [reverse_best, if_neg (by omega)]
    rfl
  | succ r ih =>
    intro j best hj h0 h1
    obtain ⟨bx, by1⟩ := best
    obtain ⟨a, ha, hva⟩ := hrow j (by omega)
    have hget : arr_get rv (c.center_reverse + (c.delta_end - (M : Int) + 2 * (j : Int)))
        = some a := by
      rw [arr_get_at _ _ (M - M + 2 * j) (by omega)]
      exact ha
    have hnext : c.delta_end - (M : Int) + 2 * (j : Int) + 2
        = c.delta_end - (M : Int) + 2 * ((j + 1 : Nat) : Int) := by
      push_cast; ring
    rw [reverse_best, if_pos (by omega), hget]
    simp only [Option.bind_eq_bind, Option.some_bind]
    rw [hnext]
    by_cases hgt : a + (a - (c.delta_end - (M : Int) + 2 * (j : Int))) < bx + by1
    · rw [if_pos hgt]
      exact ih (j + 1) _ (by omega) (fun h => absurd h (by omega)) (fun _ => hva.1)
    · rw [if_neg hgt]
      refine ih (j + 1) _ (by omega) (fun h => absurd h (by omega)) (fun _ => ?_)
      by_cases hj0 : j = 0
      · have := h0 hj0 _ _ hva.1
        simp only at this
        omega
      · exact h1 (by omega)

/-- The fallback point lies strictly between the start and the end of the ranges. -/
theorem fallback_split_spec (c : Frame) (hc : c.in_table) (M : Nat) (hM : c.max = (M : Int))
    (hM1 : 1 ≤ M) (s : Search) (hf : FwdFront c M M s.forward_v)
    (hr : RevFront c M M s.reverse_v) (hshort : NoShort c M) :
    ∃ x y, fallback_split c s (M : Int) = some (x, y)
      ∧ c.first_start + c.second_start < x + y ∧ x + y < c.first_end + c.second_end := by
  obtain ⟨h1, h2, h3, h4, h5, h6⟩ := hc
  obtain ⟨fb, hfb, hfp⟩ := forward_best_spec c M hM s.forward_v hf (M + 1) 0 (0, 0) (by omega)
    (by
      intro _ x y hxy
      have := hxy.fwd_bounds
      simp only
      omega)
    (fun h => absurd h (by omega))
  obtain ⟨rb, hrb, hrp⟩ := reverse_best_spec c M hM s.reverse_v hr (M + 1) 0
    (c.first_end, c.second_end) (by omega)
    (by
      intro _ x y hxy
      have := hxy.rev_bounds
      simp only
      omega)
    (fun h => absurd h (by omega))
  simp only [Nat.cast_zero, mul_zero, add_zero] at hfb hrb
  obtain ⟨fx, fy⟩ := fb
  obtain ⟨rx, ry⟩ := rb
  have hfbd := hfp.fwd_bounds
  have hrbd := hrp.rev_bounds
  have hpar : 0 ≤ c.delta % 2 ∧ c.delta % 2 < 2 := by omega
  have hflt : fx + fy < c.first_end + c.second_end := by
    by_contra hge
    obtain ⟨d', hd', hfull⟩ := hfp.reach_end (by omega) (by omega) (by simpa using not_lt.mp hge)
    have := hshort d' hfull
    simp only at hd'
    omega
  have hrgt : c.first_start + c.second_start < rx + ry := by
    by_contra hge
    obtain ⟨d', hd', hfull⟩ := hrp.reach_start (by omega) (by omega)
      (by simpa using not_lt.mp hge)
    have := hshort d' hfull.full
    simp only at hd'
    omega
  unfold fallback_split
  rw [Int.toNat_ofNat, hfb, hrb]
  simp only [Option.bind_eq_bind, Option.some_bind]
  by_cases hcmp : fx - c.first_start + (fy - c.second_start)
      > c.first_end - rx + (c.second_end - ry)
  · rw [if_pos hcmp]
    exact ⟨fx, fy, rfl, by simp only at hfbd; omega, hflt⟩
  · rw [if_neg hcmp]
    exact ⟨rx, ry, rfl, hrgt, by simp only at hrbd; omega⟩

/-- The search of one call on non-empty ranges inside the fingerprint tables, with
scratch vectors of the size the top call allocates for ranges of this combined length:
it returns a split, leaves the sizes of the vectors as they are, and the split is a
middle snake of a shortest path or a fallback point strictly inside the ranges. -/
theorem find_split_spec (f_hash s_hash : List Nat) (too_expensive : Int)
    (first_start first_end second_start second_end : Int) (forward_v reverse_v : List Int)
    (hte : 1 ≤ too_expensive)
    (hc : (call_frame f_hash s_hash too_expensive first_start first_end second_start
      second_end).in_table)
    (hLf : 2 * ((first_end - first_start + second_end - second_start) / 2 + 1)
      ≤ (forward_v.length : Int))
    (hLr : 2 * ((first_end - first_start + second_end - second_start) / 2 + 1)
      ≤ (reverse_v.length : Int)) :
    ∃ sp, find_split f_hash s_hash too_expensive first_start first_end second_start second_end
        forward_v reverse_v = some sp
      ∧ sp.forward_v.length = forward_v.length ∧ sp.reverse_v.length = reverse_v.length
      ∧ SplitOK (call_frame f_hash s_hash too_expensive first_start first_end second_start
          second_end) sp := by
  have hc' := hc
  obtain ⟨h1, h2, h3, h4, h5, h6⟩ := hc'
  simp only [call_frame] at h1 h2 h3 h4 h5 h6
  obtain ⟨M, hM, hM1, hcap⟩ : ∃ M : Nat,
      (if (first_end - first_start + second_end - second_start) / 2 + 1 > too_expensive
        then too_expensive else (first_end - first_start + second_end - second_start) / 2 + 1)
        = (M : Int) ∧ 1 ≤ M
        ∧ (M : Int) ≤ (first_end - first_start + second_end - second_start) / 2 + 1 := by
    by_cases hgt : (first_end - first_start + second_end - second_start) / 2 + 1 > too_expensive
    · exact ⟨too_expensive.toNat, by rw [if_pos hgt]; omega, by omega, by omega⟩
    · exact ⟨((first_end - first_start + second_end - second_start) / 2 + 1).toNat,
        by rw [if_neg hgt]; omega, by omega, by omega⟩
  have hframe : Frame.mk f_hash s_hash first_start first_end second_start second_end (M : Int)
      = call_frame f_hash s_hash too_expensive first_start first_end second_start second_end := by
    simp only [call_frame, hM]
  have hmax : (call_frame f_hash s_hash too_expensive first_start first_end second_start
      second_end).max = (M : Int) := by
    rw [← hframe]
  obtain ⟨dsz, s', hsearch, hl1, hl2, hend⟩ := search_loop_spec
    (call_frame f_hash s_hash too_expensive first_start first_end second_start second_end)
    hc M hmax hM1 (by simpa [call_frame] using hcap)
    { forward_v := forward_v.set (M + 1) first_start,
      reverse_v := reverse_v.set (M + 1) (first_end + 1),
      x := 0, y := 0, u := 0, v := 0, found_middle_snake := false } rfl
    (by simp only [call_frame, List.length_set]; exact hLf)
    (by simp only [call_frame, List.length_set]; exact hLr)
    (by
      show (forward_v.set (M + 1) first_start)[M + 1]? = some first_start
      rw [List.getElem?_set_self (by omega)])
    (by
      show (reverse_v.set (M + 1) (first_end + 1))[M + 1]? = some (first_end + 1)
      rw [List.getElem?_set_self (by omega)])
  simp only [List.length_set] at hl1 hl2
  have hidx : (M : Int) + 1 = ((M + 1 : Nat) : Int) := by push_cast; rfl
  unfold find_split
  simp only [hM, hidx, arr_set_of_nat forward_v (M + 1) _ (show M + 1 < forward_v.length by omega),
    arr_set_of_nat reverse_v (M + 1) _ (show M + 1 < reverse_v.length by omega),
    Option.bind_eq_bind, Option.some_bind, hframe, Int.toNat_ofNat, hsearch]
  rcases hend with ⟨hfound, D, hD, hdsz, hcase⟩ | ⟨hnot, hdsz, hff, hrf, hshort⟩
  · rw [if_pos hfound]
    refine ⟨_, rfl, hl1, hl2, rfl, Or.inl ?_⟩
    rcases hcase with ⟨hodd, E, hE, hfw, hshort⟩ | ⟨heven, hrv, hshort⟩
    · exact ⟨D, E, by subst hE; exact SnakeOK.of_forward _ hc E s' hfw hshort,
        by show dsz - 1 = (D : Int); omega, Or.inl ⟨hodd, hE⟩⟩
    · exact ⟨D, D, SnakeOK.of_reverse _ hc D s' heven hrv hshort,
        by show dsz - 1 = (D : Int); omega, Or.inr ⟨heven, rfl⟩⟩
  · rw [if_neg (by simp [hnot])]
    obtain ⟨x, y, hfb, hlo, hhi⟩ := fallback_split_spec _ hc M hmax hM1 s' hff hrf hshort
    rw [show dsz - 1 = (M : Int) by omega, hfb]
    refine ⟨_, rfl, hl1, hl2, rfl, Or.inr ⟨hmax.symm, ?_, rfl, rfl, hlo, hhi⟩⟩
    have hfull := hshort _ (Fwd.full_trivial _ hc)
    have hpar := delta_parity (call_frame f_hash s_hash too_expensive first_start first_end
      second_start second_end)
    simp only [call_frame] at hfull hpar ⊢
    rw [hM]
    omega

/-! ## What a completed run has done -/

/-- What a completed pass of the body of the forward loop has done. -/
theorem forward_body_inv (c : Frame) (diff_size diagonal : Int) (s s1 : Search)
    (h : forward_body c diff_size diagonal s = some s1) :
    ∃ x0 u v forward_v overlap, ForwardStart c diff_size diagonal s.forward_v x0
      ∧ forward_snake c ((c.first_end - x0).toNat + 1) x0 (x0 - diagonal) = some (u, v)
      ∧ arr_set s.forward_v (c.center_forward + diagonal) u = some forward_v
      ∧ ForwardOverlap c diff_size diagonal forward_v s.reverse_v overlap
      ∧ s1 = { s with forward_v := forward_v, x := x0, y := x0 - diagonal, u := u, v := v,
                      found_middle_snake := overlap || s.found_middle_snake } := by
  have key : ∀ x0, ForwardStart c diff_size diagonal s.forward_v x0 →
      (do
        let (u, v) ← forward_snake c ((c.first_end - x0).toNat + 1) x0 (x0 - diagonal)
        let forward_v ← arr_set s.forward_v (c.center_forward + diagonal) u
        let overlap ←
          if c.delta % 2 ≠ 0 ∧ diagonal ≥ c.delta_end - (diff_size - 1)
              ∧ diagonal ≤ c.delta_end + (diff_size - 1) then do
            let f ← arr_get forward_v (diagonal + c.center_forward)
            let r ← arr_get s.reverse_v (diagonal + c.center_reverse)
            pure (decide (f ≥ r))
          else pure false
        pure { s with forward_v := forward_v, x := x0, y := x0 - diagonal, u := u, v := v,
                      found_middle_snake := overlap || s.found_middle_snake }) = some s1 →
      ∃ x0 u v forward_v overlap, ForwardStart c diff_size diagonal s.forward_v x0
      ∧ forward_snake c ((c.first_end - x0).toNat + 1) x0 (x0 - diagonal) = some (u, v)
      ∧ arr_set s.forward_v (c.center_forward + diagonal) u = some forward_v
      ∧ ForwardOverlap c diff_size diagonal forward_v s.reverse_v overlap
      ∧ s1 = { s with forward_v := forward_v, x := x0, y := x0 - diagonal, u := u, v := v,
                      found_middle_snake := overlap || s.found_middle_snake } := by
    intro x0 hst hrun
    cases hsn : forward_snake c ((c.first_end - x0).toNat + 1) x0 (x0 - diagonal) with
    | none => simp [hsn] at hrun
    | some p =>
      obtain ⟨u, v⟩ := p
      cases hset : arr_set s.forward_v (c.center_forward + diagonal) u with
      | none => simp [hsn, hset] at hrun
      | some fv' =>
        simp only [hsn, hset, Option.bind_eq_bind, Option.some_bind] at hrun
        by_cases hcond : c.delta % 2 ≠ 0 ∧ diagonal ≥ c.delta_end - (diff_size - 1)
            ∧ diagonal ≤ c.delta_end + (diff_size - 1)
        · rw [if_pos hcond] at hrun
          cases hf : arr_get fv' (diagonal + c.center_forward) with
          | none => simp [hf] at hrun
          | some f =>
            cases hr : arr_get s.reverse_v (diagonal + c.center_reverse) with
            | none => simp [hf, hr] at hrun
            | some r =>
              simp only [hf, hr, Option.some_bind, Option.pure_def, Option.some.injEq] at hrun
              exact ⟨x0, u, v, fv', decide (f ≥ r), hst, hsn, hset,
                Or.inl ⟨hcond, f, r, hf, hr, rfl⟩, hrun.symm⟩
        · rw [if_neg hcond] at hrun
          simp only [Option.pure_def, Option.some_bind, Option.some.injEq] at hrun
          exact ⟨x0, u, v, fv', false, hst, hsn, hset, Or.inr ⟨hcond, rfl⟩, hrun.symm⟩
  unfold forward_body at h
  by_cases hk1 : diagonal = c.delta_start - diff_size
  · simp only [if_pos hk1] at h
    cases ha : arr_get s.forward_v (c.center_forward + diagonal + 1) with
    | none => simp [← hk1, ha] at h
    | some a =>
      apply key a (Or.inl ⟨hk1, ha⟩)
      simpa [← hk1, ha] using h
  · simp only [if_neg hk1] at h
    by_cases hk2 : diagonal ≠ c.delta_start + diff_size
    · simp only [if_pos hk2] at h
      cases hb : arr_get s.forward_v (c.center_forward + diagonal - 1) with
      | none => simp [hb] at h
      | some b =>
        cases ha : arr_get s.forward_v (c.center_forward + diagonal + 1) with
        | none => simp [hb, ha] at h
        | some a =>
          apply key (if b < a then a else b + 1) (Or.inr (Or.inl ⟨hk1, hk2, b, a, hb, ha, rfl⟩))
          by_cases hlt : b < a
          · simpa [hb, ha, hlt] using h
          · simpa [hb, ha, hlt] using h
    · simp only [if_neg hk2] at h
      cases hb : arr_get s.forward_v (c.center_forward + diagonal - 1) with
      | none => simp [hb] at h
      | some b =>
        apply key (b + 1) (Or.inr (Or.inr ⟨hk1, not_not.mp hk2, b, hb, rfl⟩))
        simpa [hb] using h

/-- What a completed pass of the body of the reverse loop has done. -/
theorem reverse_body_inv (c : Frame) (diff_size diagonal : Int) (s s1 : Search)
    (h : reverse_body c diff_size diagonal s = some s1) :
    ∃ u0 x y reverse_v overlap, ReverseStart c diff_size diagonal s.reverse_v u0
      ∧ reverse_snake c ((u0 - c.first_start).toNat + 1) u0 (u0 - diagonal) = some (x, y)
      ∧ arr_set s.reverse_v (c.center_reverse + diagonal) x = some reverse_v
      ∧ ReverseOverlap c diff_size diagonal s.forward_v reverse_v overlap
      ∧ s1 = { s with reverse_v := reverse_v, x := x, y := y, u := u0, v := u0 - diagonal,
                      found_middle_snake := overlap || s.found_middle_snake } := by
  have key : ∀ u0, ReverseStart c diff_size diagonal s.reverse_v u0 →
      (do
        let (x, y) ← reverse_snake c ((u0 - c.first_start).toNat + 1) u0 (u0 - diagonal)
        let reverse_v ← arr_set s.reverse_v (c.center_reverse + diagonal) x
        let overlap ←
          if c.delta % 2 = 0 ∧ diagonal ≥ c.delta_start - diff_size
              ∧ diagonal ≤ c.delta_start + diff_size then do
            let f ← arr_get s.forward_v (diagonal + c.center_forward)
            let r ← arr_get reverse_v (diagonal + c.center_reverse)
            pure (decide (f ≥ r))
          else pure false
        pure { s with reverse_v := reverse_v, x := x, y := y, u := u0, v := u0 - diagonal,
                      found_middle_snake := overlap || s.found_middle_snake }) = some s1 →
      ∃ u0 x y reverse_v overlap, ReverseStart c diff_size diagonal s.reverse_v u0
      ∧ reverse_snake c ((u0 - c.first_start).toNat + 1) u0 (u0 - diagonal) = some (x, y)
      ∧ arr_set s.reverse_v (c.center_reverse + diagonal) x = some reverse_v
      ∧ ReverseOverlap c diff_size diagonal s.forward_v reverse_v overlap
      ∧ s1 = { s with reverse_v := reverse_v, x := x, y := y, u := u0, v := u0 - diagonal,
                      found_middle_snake := overlap || s.found_middle_snake } := by
    intro u0 hst hrun
    cases hsn : reverse_snake c ((u0 - c.first_start).toNat + 1) u0 (u0 - diagonal) with
    | none => simp [hsn] at hrun
    | some p =>
      obtain ⟨x, y⟩ := p
      cases hset : arr_set s.reverse_v (c.center_reverse + diagonal) x with
      | none => simp [hsn, hset] at hrun
      | some rv' =>
        simp only [hsn, hset, Option.bind_eq_bind, Option.some_bind] at hrun
        by_cases hcond : c.delta % 2 = 0 ∧ diagonal ≥ c.delta_start - diff_size
            ∧ diagonal ≤ c.delta_start + diff_size
        · rw [if_pos hcond] at hrun
          cases hf : arr_get s.forward_v (diagonal + c.center_forward) with
          | none => simp [hf] at hrun
          | some f =>
            cases hr : arr_get rv' (diagonal + c.center_reverse) with
            | none => simp [hf, hr] at hrun
            | some r =>
              simp only [hf, hr, Option.some_bind, Option.pure_def, Option.some.injEq] at hrun
              exact ⟨u0, x, y, rv', decide (f ≥ r), hst, hsn, hset,
                Or.inl ⟨hcond, f, r, hf, hr, rfl⟩, hrun.symm⟩
        · rw [if_neg hcond] at hrun
          simp only [Option.pure_def, Option.some_bind, Option.some.injEq] at hrun
          exact ⟨u0, x, y, rv', false, hst, hsn, hset, Or.inr ⟨hcond, rfl⟩, hrun.symm⟩
  unfold reverse_body at h
  by_cases hk1 : diagonal = c.delta_end - diff_size
  · simp only [if_pos hk1] at h
    cases ha : arr_get s.reverse_v (c.center_reverse + diagonal + 1) with
    | none => simp [← hk1, ha] at h
    | some a =>
      apply key (a - 1) (Or.inl ⟨hk1, a, ha, rfl⟩)
      simpa [← hk1, ha] using h
  · simp only [if_neg hk1] at h
    by_cases hk2 : diagonal ≠ c.delta_end + diff_size
    · simp only [if_pos hk2] at h
      cases hb : arr_get s.reverse_v (c.center_reverse + diagonal - 1) with
      | none => simp [hb] at h
      | some b =>
        cases ha : arr_get s.reverse_v (c.center_reverse + diagonal + 1) with
        | none => simp [hb, ha] at h
        | some a =>
          apply key (if b ≥ a then a - 1 else b)
            (Or.inr (Or.inl ⟨hk1, hk2, b, a, hb, ha, rfl⟩))
          by_cases hlt : b ≥ a
          · simpa [hb, ha, hlt] using h
          · simpa [hb, ha, hlt] using h
    · simp only [if_neg hk2] at h
      cases hb : arr_get s.reverse_v (c.center_reverse + diagonal - 1) with
      | none => simp [hb] at h
      | some b =>
        apply key b (Or.inr (Or.inr ⟨hk1, not_not.mp hk2, hb⟩))
        simpa [hb] using h

/-- How a completed forward loop with fuel left has run. -/
theorem forward_loop_inv (c : Frame) (diff_size : Int) (fuel : Nat) (diagonal : Int)
    (s s' : Search) (h : forward_loop c diff_size (fuel + 1) diagonal s = some s') :
    ((diagonal ≤ c.delta_start + diff_size ∧ s.found_middle_snake = false)
        ∧ ∃ s1, forward_body c diff_size diagonal s = some s1
          ∧ forward_loop c diff_size fuel (diagonal + 2) s1 = some s')
      ∨ (¬ (diagonal ≤ c.delta_start + diff_size ∧ s.found_middle_snake = false) ∧ s' = s) := by
  by_cases hc : diagonal ≤ c.delta_start + diff_size ∧ s.found_middle_snake = false
  · left
    refine ⟨hc, ?_⟩
    cases hb : forward_body c diff_size diagonal s with
    | none =>
      rw [forward_loop, if_pos hc, hb] at h
      simp at h
    | some s1 =>
      rw [forward_loop_next c diff_size fuel diagonal s s1 hc hb] at h
      exact ⟨s1, rfl, h⟩
  · right
    rw [forward_loop_exit c diff_size fuel diagonal s hc] at h
    exact ⟨hc, (Option.some.inj h).symm⟩

/-- How a completed reverse loop with fuel left has run. -/
theorem reverse_loop_inv (c : Frame) (diff_size : Int) (fuel : Nat) (diagonal : Int)
    (s s' : Search) (h : reverse_loop c diff_size (fuel + 1) diagonal s = some s') :
    ((diagonal ≤ c.delta_end + diff_size ∧ s.found_middle_snake = false)
        ∧ ∃ s1, reverse_body c diff_size diagonal s = some s1
          ∧ reverse_loop c diff_size fuel (diagonal + 2) s1 = some s')
      ∨ (¬ (diagonal ≤ c.delta_end + diff_size ∧ s.found_middle_snake = false) ∧ s' = s) := by
  by_cases hc : diagonal ≤ c.delta_end + diff_size ∧ s.found_middle_snake = false
  · left
    refine ⟨hc, ?_⟩
    cases hb : reverse_body c diff_size diagonal s with
    | none =>
      rw [reverse_loop, if_pos hc, hb] at h
      simp at h
    | some s1 =>
      rw [reverse_loop_next c diff_size fuel diagonal s s1 hc hb] at h
      exact ⟨s1, rfl, h⟩
  · right
    rw [reverse_loop_exit c diff_size fuel diagonal s hc] at h
    exact ⟨hc, (Option.some.inj h).symm⟩

/-- How a completed search loop with fuel left has run. -/
theorem search_loop_inv (c : Frame) (fuel : Nat) (diff_size : Int) (s : Search)
    (r : Int × Search) (h : search_loop c (fuel + 1) diff_size s = some r) :
    ((diff_size ≤ c.max ∧ s.found_middle_snake = false)
        ∧ ∃ s1 s2, forward_loop c diff_size (diff_size.toNat + 2) (c.delta_start - diff_size) s
            = some s1
          ∧ reverse_loop c diff_size (diff_size.toNat + 2) (c.delta_end - diff_size) s1
            = some s2
          ∧ search_loop c fuel (diff_size + 1) s2 = some r)
      ∨ (¬ (diff_size ≤ c.max ∧ s.found_middle_snake = false) ∧ r = (diff_size, s)) := by
  by_cases hc : diff_size ≤ c.max ∧ s.found_middle_snake = false
  · left
    refine ⟨hc, ?_⟩
    rw [search_loop, if_pos hc] at h
    cases h1 : forward_loop c diff_size (diff_size.toNat + 2) (c.delta_start - diff_size) s with
    | none => simp [h1] at h
    | some s1 =>
      cases h2 : reverse_loop c diff_size (diff_size.toNat + 2) (c.delta_end - diff_size) s1 with
      | none => simp [h1, h2] at h
      | some s2 =>
        simp only [h1, h2, Option.bind_eq_bind, Option.some_bind] at h
        exact ⟨s1, s2, rfl, h2, h⟩
  · right
    rw [search_loop_exit c fuel diff_size s hc] at h
    exact ⟨hc, (Option.some.inj h).symm⟩

/-- The steps of a completed `find_split`. -/
theorem find_split_inv (f_hash s_hash : List Nat) (too_expensive : Int)
    (first_start first_end second_start second_end : Int) (forward_v reverse_v : List Int)
    (sp : Split)
    (h : find_split f_hash s_hash too_expensive first_start first_end second_start second_end
      forward_v reverse_v = some sp) :
    ∃ fv1 rv1 dsz s,
      arr_set forward_v
          (call_max too_expensive first_start first_end second_start second_end + 1)
          first_start = some fv1
      ∧ arr_set reverse_v
          (call_max too_expensive first_start first_end second_start second_end + 1)
          (first_end + 1) = some rv1
      ∧ search_loop
          (call_frame f_hash s_hash too_expensive first_start first_end second_start second_end)
          ((call_max too_expensive first_start first_end second_start second_end).toNat + 2) 0
          (start_search fv1 rv1) = some (dsz, s)
      ∧ sp.forward_v = s.forward_v ∧ sp.reverse_v = s.reverse_v ∧ sp.diff_size = dsz - 1
      ∧ sp.delta_even = decide ((call_frame f_hash s_hash too_expensive first_start first_end
          second_start second_end).delta % 2 = 0)
      ∧ ((s.found_middle_snake = true ∧ sp.x = s.x ∧ sp.y = s.y ∧ sp.u = s.u ∧ sp.v = s.v)
        ∨ (s.found_middle_snake = false ∧ sp.u = sp.x ∧ sp.v = sp.y
          ∧ fallback_split (call_frame f_hash s_hash too_expensive first_start first_end
              second_start second_end) s (dsz - 1) = some (sp.x, sp.y))) := by
  unfold find_split at h
  simp only [Option.bind_eq_bind] at h
  cases h1 : arr_set forward_v
      (call_max too_expensive first_start first_end second_start second_end + 1)
      first_start with
  | none => simp [call_max] at h1; simp [h1] at h
  | some fv1 =>
    cases h2 : arr_set reverse_v
        (call_max too_expensive first_start first_end second_start second_end + 1)
        (first_end + 1) with
    | none => simp [call_max] at h1 h2; simp [h1, h2] at h
    | some rv1 =>
      cases h3 : search_loop
          (call_frame f_hash s_hash too_expensive first_start first_end second_start second_end)
          ((call_max too_expensive first_start first_end second_start second_end).toNat + 2) 0
          (start_search fv1 rv1) with
      | none =>
        simp only [call_max, call_frame, start_search] at h1 h2 h3
        simp [h1, h2, h3] at h
      | some r =>
        obtain ⟨dsz, s⟩ := r
        have h1' := h1
        have h2' := h2
        have h3' := h3
        simp only [call_max, call_frame, start_search] at h1' h2' h3'
        simp only [h1', h2', h3', Option.some_bind] at h
        by_cases hf : s.found_middle_snake = true
        · rw [if_pos hf] at h
          simp only [Option.pure_def, Option.some.injEq] at h
          subst h
          exact ⟨fv1, rv1, dsz, s, rfl, rfl, h3, rfl, rfl, rfl, rfl, Or.inl ⟨hf, rfl, rfl, rfl, rfl⟩⟩
        · rw [if_neg hf] at h
          cases h4 : fallback_split
              (call_frame f_hash s_hash too_expensive first_start first_end second_start
                second_end) s (dsz - 1) with
          | none =>
            simp only [call_frame] at h4
            simp [h4] at h
          | some p =>
            obtain ⟨x, y⟩ := p
            have h4' := h4
            simp only [call_frame] at h4'
            simp only [h4', Option.some_bind, Option.pure_def, Option.some.injEq] at h
            subst h
            exact ⟨fv1, rv1, dsz, s, rfl, rfl, h3, rfl, rfl, rfl, rfl,
              Or.inr ⟨by simpa using hf, rfl, rfl, h4⟩⟩

theorem arr_set_inv {α : Type} (a b : List α) (i : Int) (val : α)
    (h : arr_set a i val = some b) :
    0 ≤ i ∧ i < (a.length : Int) ∧ b = a.set i.toNat val := by
  unfold arr_set at h
  by_cases hc : i < 0 ∨ (a.length : Int) ≤ i
  · simp [hc] at h
  · rw [if_neg hc] at h
    exact ⟨by omega, by omega, (Option.some.inj h).symm⟩

theorem arr_get_bounds {α : Type} (a : List α) (i : Int) (x : α) (h : arr_get a i = some x) :
    0 ≤ i ∧ i < (a.length : Int) := by
  by_contra hn
  have : arr_get a i = none := (arr_get_none_iff a i).mpr (by omega)
  rw [this] at h
  exact Option.noConfusion h

theorem arr_get_set_self {α : Type} (a b : List α) (i : Int) (val : α)
    (h : arr_set a i val = some b) : arr_get b i = some val := by
  obtain ⟨h0, h1, hb⟩ := arr_set_inv a b i val h
  subst hb
  rw [arr_get_at _ i i.toNat (by omega)]
  exact List.getElem?_set_self (by omega)

/-- A forward snake that starts inside the ranges reads both tables at its start. -/
theorem forward_snake_reads (c : Frame) (fuel : Nat) (u v : Int) (r : Int × Int)
    (h : forward_snake c fuel u v = some r) (hu : u < c.first_end) (hv : v < c.second_end) :
    (0 ≤ u ∧ u < (c.f_hash.length : Int)) ∧ (0 ≤ v ∧ v < (c.s_hash.length : Int)) := by
  cases fuel with
  | zero => simp [forward_snake] at h
  | succ n =>
    rw [forward_snake, if_pos ⟨hu, hv⟩] at h
    cases ha : arr_get c.f_hash u with
    | none => simp [ha] at h
    | some a =>
      cases hb : arr_get c.s_hash v with
      | none => simp [ha, hb] at h
      | some b => exact ⟨arr_get_bounds _ _ _ ha, arr_get_bounds _ _ _ hb⟩

/-- A reverse snake that starts inside the ranges reads both tables below its start. -/
theorem reverse_snake_reads (c : Frame) (fuel : Nat) (x y : Int) (r : Int × Int)
    (h : reverse_snake c fuel x y = some r) (hx : x > c.first_start)
    (hy : y > c.second_start) :
    (0 ≤ x - 1 ∧ x - 1 < (c.f_hash.length : Int))
      ∧ (0 ≤ y - 1 ∧ y - 1 < (c.s_hash.length : Int)) := by
  cases fuel with
  | zero => simp [reverse_snake] at h
  | succ n =>
    rw [reverse_snake, if_pos ⟨hx, hy⟩] at h
    cases ha : arr_get c.f_hash (x - 1) with
    | none => simp [ha] at h
    | some a =>
      cases hb : arr_get c.s_hash (y - 1) with
      | none => simp [ha, hb] at h
      | some b => exact ⟨arr_get_bounds _ _ _ ha, arr_get_bounds _ _ _ hb⟩

/-- Round 0 of the search reads the first and the last line of both ranges, so a search
that completes has its ranges inside the fingerprint tables. -/
theorem search_loop_in_table (c : Frame) (fuel : Nat) (s : Search) (r : Int × Search)
    (h1 : c.first_start < c.first_end) (h2 : c.second_start < c.second_end)
    (hmax : 0 ≤ c.max) (hflag : s.found_middle_snake = false)
    (hf : arr_get s.forward_v (c.max + 1) = some c.first_start)
    (hr : arr_get s.reverse_v (c.max + 1) = some (c.first_end + 1))
    (h : search_loop c (fuel + 1) 0 s = some r) : c.in_table := by
  have hcf : c.center_forward = c.max - c.delta_start := rfl
  have hcr : c.center_reverse = c.max - c.delta_end := rfl
  have hds : c.delta_start = c.first_start - c.second_start := rfl
  have hde : c.delta_end = c.first_end - c.second_end := rfl
  rcases search_loop_inv c fuel 0 s r h with ⟨_, s1, s2, hfl, hrl, _⟩ | ⟨hn, _⟩
  swap
  · exact absurd ⟨hmax, hflag⟩ hn
  have hfuel : (0 : Int).toNat + 2 = 1 + 1 := rfl
  rw [hfuel] at hfl hrl
  -- the forward pass of round 0
  rcases forward_loop_inv c 0 1 _ s s1 hfl with ⟨_, s1', hb, hrest⟩ | ⟨hn, _⟩
  swap
  · exact absurd ⟨by omega, hflag⟩ hn
  rcases forward_loop_inv c 0 0 _ s1' s1 hrest with ⟨⟨hle, _⟩, _⟩ | ⟨_, hs1⟩
  · omega
  obtain ⟨x0, u, v, fv', ov, hst, hsn, hset, hov, hs1'⟩ := forward_body_inv c 0 _ s s1' hb
  have hx0 : x0 = c.first_start := by
    rcases hst with ⟨_, ha⟩ | ⟨hk, _⟩ | ⟨hk, _⟩
    · rw [show c.center_forward + (c.delta_start - 0) + 1 = c.max + 1 by omega, hf] at ha
      exact (Option.some.inj ha).symm
    · exact absurd rfl hk
    · exact absurd rfl hk
  subst hx0
  have hread := forward_snake_reads c _ _ _ _ hsn h1 (by omega)
  have hov' : ov = false := by
    rcases hov with ⟨⟨_, hlo, hhi⟩, _⟩ | ⟨_, ho⟩
    · omega
    · exact ho
  have hflag1 : s1.found_middle_snake = false := by
    rw [hs1, hs1', hov', hflag]
    rfl
  have hrv1 : s1.reverse_v = s.reverse_v := by
    rw [hs1, hs1']
  -- the reverse pass of round 0
  rcases reverse_loop_inv c 0 1 _ s1 s2 hrl with ⟨_, s2', hb2, _⟩ | ⟨hn, _⟩
  swap
  · exact absurd ⟨by omega, hflag1⟩ hn
  obtain ⟨u0, x, y, rv', ov2, hst2, hsn2, _, _, _⟩ := reverse_body_inv c 0 _ s1 s2' hb2
  have hu0 : u0 = c.first_end := by
    rcases hst2 with ⟨_, a, ha, hu⟩ | ⟨hk, _⟩ | ⟨hk, _⟩
    · rw [hrv1, show c.center_reverse + (c.delta_end - 0) + 1 = c.max + 1 by omega, hr] at ha
      have := Option.some.inj ha
      omega
    · exact absurd rfl hk
    · exact absurd rfl hk
  subst hu0
  have hread2 := reverse_snake_reads c _ _ _ _ hsn2 (by omega) (by omega)
  unfold Frame.in_table
  omega

/-- A call of `find_split` on non-empty ranges with a positive budget that completes has
its ranges inside the fingerprint tables. -/
theorem find_split_in_table (f_hash s_hash : List Nat) (too_expensive : Int)
    (first_start first_end second_start second_end : Int) (forward_v reverse_v : List Int)
    (sp : Split) (hte : 1 ≤ too_expensive)
    (h1 : first_start < first_end) (h2 : second_start < second_end)
    (h : find_split f_hash s_hash too_expensive first_start first_end second_start second_end
      forward_v reverse_v = some sp) :
    (call_frame f_hash s_hash too_expensive first_start first_end second_start
      second_end).in_table := by
  obtain ⟨fv1, rv1, dsz, s, hs1, hs2, hsearch, _⟩ := find_split_inv _ _ _ _ _ _ _ _ _ _ h
  have hmaxeq : (call_frame f_hash s_hash too_expensive first_start first_end second_start
      second_end).max = call_max too_expensive first_start first_end second_start second_end :=
    rfl
  have hmax : 0 ≤ call_max too_expensive first_start first_end second_start second_end := by
    unfold call_max
    split_ifs <;> omega
  refine search_loop_in_table _ _ (start_search fv1 rv1) (dsz, s) h1 h2 (by rw [hmaxeq]; exact hmax)
    rfl ?_ ?_ hsearch
  · rw [hmaxeq]
    exact arr_get_set_self _ _ _ _ hs1
  · rw [hmaxeq]
    exact arr_get_set_self _ _ _ _ hs2

/-! ## Longer scratch vectors change nothing -/

theorem arr_get_append {α : Type} (a p : List α) (i : Int) (x : α)
    (h : arr_get a i = some x) : arr_get (a ++ p) i = some x := by
  obtain ⟨h0, h1⟩ := arr_get_bounds a i x h
  rw [arr_get_at _ i i.toNat (by omega)] at h ⊢
  rw [List.getElem?_append_left (by omega)]
  exact h

theorem arr_set_append {α : Type} (a b p : List α) (i : Int) (val : α)
    (h : arr_set a i val = some b) : arr_set (a ++ p) i val = some (b ++ p) := by
  obtain ⟨h0, h1, hb⟩ := arr_set_inv a b i val h
  subst hb
  rw [arr_set_at _ i i.toNat val (by omega) (by rw [List.length_append]; omega)]
  rw [List.set_append_left _ _ (by omega)]

theorem forward_body_pad (c : Frame) (diff_size diagonal : Int) (s s1 : Search)
    (pf pr : List Int) (h : forward_body c diff_size diagonal s = some s1) :
    forward_body c diff_size diagonal (s.pad pf pr) = some (s1.pad pf pr) := by
  obtain ⟨x0, u, v, fv', ov, hst, hsn, hset, hov, hs1⟩ := forward_body_inv c _ _ s s1 h
  have hst' : ForwardStart c diff_size diagonal (s.pad pf pr).forward_v x0 := by
    rcases hst with ⟨hk, ha⟩ | ⟨hk1, hk2, b, a, hb, ha, hx⟩ | ⟨hk1, hk2, b, hb, hx⟩
    · exact Or.inl ⟨hk, arr_get_append _ _ _ _ ha⟩
    · exact Or.inr (Or.inl ⟨hk1, hk2, b, a, arr_get_append _ _ _ _ hb,
        arr_get_append _ _ _ _ ha, hx⟩)
    · exact Or.inr (Or.inr ⟨hk1, hk2, b, arr_get_append _ _ _ _ hb, hx⟩)
  have hset' : arr_set (s.pad pf pr).forward_v (c.center_forward + diagonal) u
      = some (fv' ++ pf) := arr_set_append _ _ _ _ _ hset
  have hov' : ForwardOverlap c diff_size diagonal (fv' ++ pf) (s.pad pf pr).reverse_v ov := by
    rcases hov with ⟨hc, f, r, hf, hr, ho⟩ | ⟨hc, ho⟩
    · exact Or.inl ⟨hc, f, r, arr_get_append _ _ _ _ hf, arr_get_append _ _ _ _ hr, ho⟩
    · exact Or.inr ⟨hc, ho⟩
  rw [forward_body_eq c diff_size diagonal (s.pad pf pr) x0 u v (fv' ++ pf) ov hst' hsn hset'
    hov', hs1]
  rfl

theorem reverse_body_pad (c : Frame) (diff_size diagonal : Int) (s s1 : Search)
    (pf pr : List Int) (h : reverse_body c diff_size diagonal s = some s1) :
    reverse_body c diff_size diagonal (s.pad pf pr) = some (s1.pad pf pr) := by
  obtain ⟨u0, x, y, rv', ov, hst, hsn, hset, hov, hs1⟩ := reverse_body_inv c _ _ s s1 h
  have hst' : ReverseStart c diff_size diagonal (s.pad pf pr).reverse_v u0 := by
    rcases hst with ⟨hk, a, ha, hu⟩ | ⟨hk1, hk2, b, a, hb, ha, hx⟩ | ⟨hk1, hk2, hb⟩
    · exact Or.inl ⟨hk, a, arr_get_append _ _ _ _ ha, hu⟩
    · exact Or.inr (Or.inl ⟨hk1, hk2, b, a, arr_get_append _ _ _ _ hb,
        arr_get_append _ _ _ _ ha, hx⟩)
    · exact Or.inr (Or.inr ⟨hk1, hk2, arr_get_append _ _ _ _ hb⟩)
  have hset' : arr_set (s.pad pf pr).reverse_v (c.center_reverse + diagonal) x
      = some (rv' ++ pr) := arr_set_append _ _ _ _ _ hset
  have hov' : ReverseOverlap c diff_size diagonal (s.pad pf pr).forward_v (rv' ++ pr) ov := by
    rcases hov with ⟨hc, f, r, hf, hr, ho⟩ | ⟨hc, ho⟩
    · exact Or.inl ⟨hc, f, r, arr_get_append _ _ _ _ hf, arr_get_append _ _ _ _ hr, ho⟩
    · exact Or.inr ⟨hc, ho⟩
  rw [reverse_body_eq c diff_size diagonal (s.pad pf pr) u0 x y (rv' ++ pr) ov hst' hsn hset'
    hov', hs1]
  rfl

theorem forward_loop_pad (c : Frame) (diff_size : Int) (pf pr : List Int) :
    ∀ (fuel : Nat) (diagonal : Int) (s s' : Search),
      forward_loop c diff_size fuel diagonal s = some s' →
      forward_loop c diff_size fuel diagonal (s.pad pf pr) = some (s'.pad pf pr) := by
  intro fuel
  induction fuel with
  | zero =>
    intro diagonal s s' h
    simp [forward_loop] at h
  | succ n ih =>
    intro diagonal s s' h
    rcases forward_loop_inv c diff_size n diagonal s s' h with ⟨hc, s1, hb, hrest⟩ | ⟨hc, hs⟩
    · rw [forward_loop_next c diff_size n diagonal (s.pad pf pr) (s1.pad pf pr) hc
        (forward_body_pad c _ _ s s1 pf pr hb)]
      exact ih _ _ _ hrest
    · rw [forward_loop_exit c diff_size n diagonal (s.pad pf pr) hc, hs]

theorem reverse_loop_pad (c : Frame) (diff_size : Int) (pf pr : List Int) :
    ∀ (fuel : Nat) (diagonal : Int) (s s' : Search),
      reverse_loop c diff_size fuel diagonal s = some s' →
      reverse_loop c diff_size fuel diagonal (s.pad pf pr) = some (s'.pad pf pr) := by
  intro fuel
  induction fuel with
  | zero =>
    intro diagonal s s' h
    simp [reverse_loop] at h
  | succ n ih =>
    intro diagonal s s' h
    rcases reverse_loop_inv c diff_size n diagonal s s' h with ⟨hc, s1, hb, hrest⟩ | ⟨hc, hs⟩
    · rw [reverse_loop_next c diff_size n diagonal (s.pad pf pr) (s1.pad pf pr) hc
        (reverse_body_pad c _ _ s s1 pf pr hb)]
      exact ih _ _ _ hrest
    · rw [reverse_loop_exit c diff_size n diagonal (s.pad pf pr) hc, hs]

theorem search_loop_pad (c : Frame) (pf pr : List Int) :
    ∀ (fuel : Nat) (diff_size : Int) (s : Search) (r : Int × Search),
      search_loop c fuel diff_size s = some r →
      search_loop c fuel diff_size (s.pad pf pr) = some (r.1, r.2.pad pf pr) := by
  intro fuel
  induction fuel with
  | zero =>
    intro diff_size s r h
    simp [search_loop] at h
  | succ n ih =>
    intro diff_size s r h
    rcases search_loop_inv c n diff_size s r h with ⟨hc, s1, s2, h1, h2, hrest⟩ | ⟨hc, hr⟩
    · rw [search_loop_next c n diff_size (s.pad pf pr) (s2.pad pf pr) hc
        (by rw [forward_loop_pad c diff_size pf pr _ _ s s1 h1, Option.some_bind]
            exact reverse_loop_pad c diff_size pf pr _ _ s1 s2 h2)]
      exact ih _ _ _ hrest
    · rw [search_loop_exit c n diff_size (s.pad pf pr) hc, hr]

theorem forward_best_pad (c : Frame) (forward_v p : List Int) (diff_size : Int) :
    ∀ (fuel : Nat) (diagonal : Int) (best r : Int × Int),
      forward_best c forward_v diff_size fuel diagonal best = some r →
      forward_best c (forward_v ++ p) diff_size fuel diagonal best = some r := by
  intro fuel
  induction fuel with
  | zero =>
    intro diagonal best r h
    simp [forward_best] at h
  | succ n ih =>
    intro diagonal best r h
    obtain ⟨bx, bz⟩ := best
    rw [forward_best] at h ⊢
    by_cases hc : diagonal ≤ c.delta_start + diff_size
    · rw [if_pos hc] at h ⊢
      cases hx : arr_get forward_v (c.center_forward + diagonal) with
      | none => simp [hx] at h
      | some x =>
        rw [arr_get_append _ p _ _ hx]
        simp only [hx, Option.bind_eq_bind, Option.some_bind] at h ⊢
        by_cases hgt : x + (x - diagonal) > bx + bz
        · rw [if_pos hgt] at h ⊢
          exact ih _ _ _ h
        · rw [if_neg hgt] at h ⊢
          exact ih _ _ _ h
    · rw [if_neg hc] at h ⊢
      exact h

theorem reverse_best_pad (c : Frame) (reverse_v p : List Int) (diff_size : Int) :
    ∀ (fuel : Nat) (diagonal : Int) (best r : Int × Int),
      reverse_best c reverse_v diff_size fuel diagonal best = some r →
      reverse_best c (reverse_v ++ p) diff_size fuel diagonal best = some r := by
  intro fuel
  induction fuel with
  | zero =>
    intro diagonal best r h
    simp [reverse_best] at h
  | succ n ih =>
    intro diagonal best r h
    obtain ⟨bx, bz⟩ := best
    rw [reverse_best] at h ⊢
    by_cases hc : diagonal ≤ c.delta_end + diff_size
    · rw [if_pos hc] at h ⊢
      cases hx : arr_get reverse_v (c.center_reverse + diagonal) with
      | none => simp [hx] at h
      | some x =>
        rw [arr_get_append _ p _ _ hx]
        simp only [hx, Option.bind_eq_bind, Option.some_bind] at h ⊢
        by_cases hgt : x + (x - diagonal) < bx + bz
        · rw [if_pos hgt] at h ⊢
          exact ih _ _ _ h
        · rw [if_neg hgt] at h ⊢
          exact ih _ _ _ h
    · rw [if_neg hc] at h ⊢
      exact h

theorem fallback_split_pad (c : Frame) (s : Search) (pf pr : List Int) (diff_size : Int)
    (r : Int × Int) (h : fallback_split c s diff_size = some r) :
    fallback_split c (s.pad pf pr) diff_size = some r := by
  unfold fallback_split at h ⊢
  cases h1 : forward_best c s.forward_v diff_size (diff_size.toNat + 2)
      (c.delta_start - diff_size) (0, 0) with
  | none =>
    rw [h1] at h
    exact Option.noConfusion h
  | some fb =>
    cases h2 : reverse_best c s.reverse_v diff_size (diff_size.toNat + 2)
        (c.delta_end - diff_size) (c.first_end, c.second_end) with
    | none =>
      rw [h1] at h
      simp only [Option.bind_eq_bind, Option.some_bind] at h
      rw [h2] at h
      exact Option.noConfusion h
    | some rb =>
      have h1' := forward_best_pad c s.forward_v pf diff_size _ _ _ _ h1
      have h2' := reverse_best_pad c s.reverse_v pr diff_size _ _ _ _ h2
      simp only [h1, h2, Option.bind_eq_bind, Option.some_bind] at h
      simp only [Search.pad, h1', h2', Option.bind_eq_bind, Option.some_bind]
      exact h

/-- The result of `find_split` from the results of its steps. -/
theorem find_split_of_steps (f_hash s_hash : List Nat) (too_expensive : Int)
    (first_start first_end second_start second_end : Int) (forward_v reverse_v : List Int)
    (fv1 rv1 : List Int) (dsz : Int) (s : Search)
    (h1 : arr_set forward_v
        (call_max too_expensive first_start first_end second_start second_end + 1)
        first_start = some fv1)
    (h2 : arr_set reverse_v
        (call_max too_expensive first_start first_end second_start second_end + 1)
        (first_end + 1) = some rv1)
    (h3 : search_loop
        (call_frame f_hash s_hash too_expensive first_start first_end second_start second_end)
        ((call_max too_expensive first_start first_end second_start second_end).toNat + 2) 0
        (start_search fv1 rv1) = some (dsz, s)) :
    find_split f_hash s_hash too_expensive first_start first_end second_start second_end
        forward_v reverse_v
      = if s.found_middle_snake = true then
          some { forward_v := s.forward_v, reverse_v := s.reverse_v, diff_size := dsz - 1,
                 delta_even := decide ((call_frame f_hash s_hash too_expensive first_start
                   first_end second_start second_end).delta % 2 = 0),
                 x := s.x, y := s.y, u := s.u, v := s.v }
        else
          (fallback_split (call_frame f_hash s_hash too_expensive first_start first_end
              second_start second_end) s (dsz - 1)).bind fun p =>
            some { forward_v := s.forward_v, reverse_v := s.reverse_v, diff_size := dsz - 1,
                   delta_even := decide ((call_frame f_hash s_hash too_expensive first_start
                     first_end second_start second_end).delta % 2 = 0),
                   x := p.1, y := p.2, u := p.1, v := p.2 } := by
  unfold find_split
  simp only [call_max, call_frame, start_search] at h1 h2 h3
  simp only [h1, h2, h3, Option.bind_eq_bind, Option.some_bind, call_frame]
  by_cases hf : s.found_middle_snake = true
  · rw [if_pos hf, if_pos hf]
    rfl
  · rw [if_neg hf, if_neg hf]
    rfl

/-- Longer scratch vectors do not change what a completed `find_split` does. -/
theorem find_split_pad (f_hash s_hash : List Nat) (too_expensive : Int)
    (first_start first_end second_start second_end : Int) (forward_v reverse_v : List Int)
    (sp : Split) (pf pr : List Int)
    (h : find_split f_hash s_hash too_expensive first_start first_end second_start second_end
      forward_v reverse_v = some sp) :
    find_split f_hash s_hash too_expensive first_start first_end second_start second_end
      (forward_v ++ pf) (reverse_v ++ pr) = some (sp.pad pf pr) := by
  obtain ⟨fv1, rv1, dsz, s, h1, h2, h3, e1, e2, e3, e4, hcase⟩ :=
    find_split_inv _ _ _ _ _ _ _ _ _ _ h
  have h3' := search_loop_pad _ pf pr _ _ _ _ h3
  rw [find_split_of_steps f_hash s_hash too_expensive first_start first_end second_start
    second_end (forward_v ++ pf) (reverse_v ++ pr) (fv1 ++ pf) (rv1 ++ pr) dsz (s.pad pf pr)
    (arr_set_append _ _ _ _ _ h1) (arr_set_append _ _ _ _ _ h2) h3']
  obtain ⟨spf, spr, spd, spe, spx, spy, spu, spv⟩ := sp
  simp only at e1 e2 e3 e4 hcase
  rcases hcase with ⟨hf, ex, ey, eu, ev⟩ | ⟨hf, eu, ev, hfb⟩
  · have hf' : (s.pad pf pr).found_middle_snake = true := hf
    rw [if_pos hf']
    simp only [Split.pad, Search.pad, e1, e2, e3, e4, ex, ey, eu, ev]
  · have hf' : ¬ (s.pad pf pr).found_middle_snake = true := by
      show ¬ s.found_middle_snake = true
      simp [hf]
    rw [if_neg hf', fallback_split_pad _ s pf pr _ _ hfb]
    simp only [Split.pad, Search.pad, e1, e2, e3, e4, eu, ev, Option.some_bind]

/-- Every completed call of `find_split` on non-empty ranges with a positive budget hands
a proper split to the recursion, whatever scratch vectors it was given. -/
theorem find_split_ok (f_hash s_hash : List Nat) (too_expensive : Int)
    (first_start first_end second_start second_end : Int) (forward_v reverse_v : List Int)
    (sp : Split) (hte : 1 ≤ too_expensive)
    (h1 : first_start < first_end) (h2 : second_start < second_end)
    (h : find_split f_hash s_hash too_expensive first_start first_end second_start second_end
      forward_v reverse_v = some sp) :
    SplitOK (call_frame f_hash s_hash too_expensive first_start first_end second_start
      second_end) sp := by
  have hc := find_split_in_table _ _ _ _ _ _ _ _ _ _ hte h1 h2 h
  let N : Nat := (2 * ((first_end - first_start + second_end - second_start) / 2 + 1)).toNat
  have hpad := find_split_pad _ _ _ _ _ _ _ _ _ _ (List.replicate N 0) (List.replicate N 0) h
  obtain ⟨sp', hsp', _, _, hok⟩ := find_split_spec f_hash s_hash too_expensive first_start
    first_end second_start second_end (forward_v ++ List.replicate N 0)
    (reverse_v ++ List.replicate N 0) hte hc
    (by rw [List.length_append, List.length_replicate]; push_cast; omega)
    (by rw [List.length_append, List.length_replicate]; push_cast; omega)
  rw [hpad] at hsp'
  have := Option.some.inj hsp'
  subst this
  exact hok

/-! ## The recursion shrinks its ranges -/

/-- The loop over `diff_size` is left with a value no larger than `max + 1`, unless it
was entered with a larger one. -/
theorem search_loop_le (c : Frame) :
    ∀ (fuel : Nat) (diff_size : Int) (s : Search) (r : Int × Search),
      search_loop c fuel diff_size s = some r → r.1 ≤ c.max + 1 ∨ r.1 = diff_size := by
  intro fuel
  induction fuel with
  | zero =>
    intro diff_size s r h
    simp [search_loop] at h
  | succ n ih =>
    intro diff_size s r h
    rcases search_loop_inv c n diff_size s r h with ⟨hc, s1, s2, _, _, hrest⟩ | ⟨_, hr⟩
    · rcases ih _ _ _ hrest with hle | heq
      · exact Or.inl hle
      · left
        rw [heq]
        omega
    · right
      rw [hr]

/-- Without a positive budget `find_split` never asks for a recursive call. -/
theorem find_split_no_budget (f_hash s_hash : List Nat) (too_expensive : Int)
    (first_start first_end second_start second_end : Int) (forward_v reverse_v : List Int)
    (sp : Split) (hte : too_expensive ≤ 0)
    (h1 : first_start < first_end) (h2 : second_start < second_end)
    (h : find_split f_hash s_hash too_expensive first_start first_end second_start second_end
      forward_v reverse_v = some sp) : sp.diff_size ≤ 0 := by
  obtain ⟨fv1, rv1, dsz, s, _, _, h3, _, _, e3, _⟩ := find_split_inv _ _ _ _ _ _ _ _ _ _ h
  have hmax : (call_frame f_hash s_hash too_expensive first_start first_end second_start
      second_end).max = too_expensive := by
    show (if (first_end - first_start + second_end - second_start) / 2 + 1 > too_expensive
      then too_expensive else (first_end - first_start + second_end - second_start) / 2 + 1)
      = too_expensive
    rw [if_pos (by omega)]
  have := search_loop_le _ _ _ _ _ h3
  rw [hmax] at this
  simp only at this
  omega

/-- Lines 267-280: both recursive calls are on ranges whose combined length is strictly
smaller than the combined length of the ranges of the caller. -/
theorem find_split_decreases (f_hash s_hash : List Nat) (too_expensive : Int)
    (first_start first_end second_start second_end : Int) (forward_v reverse_v : List Int)
    (sp : Split) (h1 : first_start < first_end) (h2 : second_start < second_end)
    (h : find_split f_hash s_hash too_expensive first_start first_end second_start second_end
      forward_v reverse_v = some sp)
    (hrec : sp.diff_size > 1 ∨ (sp.delta_even = true ∧ sp.diff_size = 1)) :
    (sp.x - first_start) + (sp.y - second_start)
        < (first_end - first_start) + (second_end - second_start)
      ∧ (first_end - sp.u) + (second_end - sp.v)
        < (first_end - first_start) + (second_end - second_start) := by
  by_cases hte : 1 ≤ too_expensive
  · obtain ⟨hev, hcase⟩ := find_split_ok _ _ _ _ _ _ _ _ _ _ hte h1 h2 h
    rcases hcase with ⟨a, b, hsn, ha, hpar⟩ | ⟨_, _, hu, hv, hlo, hhi⟩
    · have hg := hsn.in_grid
      simp only [call_frame] at hg
      have hab : 1 ≤ a ∧ 1 ≤ b := by
        rcases hpar with ⟨hodd, hab⟩ | ⟨heven, hab⟩
        · rcases hrec with hgt | ⟨he, _⟩
          · omega
          · rw [hev] at he
            exact absurd (of_decide_eq_true he) hodd
        · omega
      omega
    · simp only [call_frame] at hlo hhi
      rw [hu, hv]
      omega
  · have := find_split_no_budget _ _ _ _ _ _ _ _ _ _ (by omega) h1 h2 h
    omega

/-- The depth bound of the recursion is never reached: with more than the combined
length of the ranges as bound, any larger bound gives the same outcome. -/
theorem impl_depth_enough (first second : List String) (f_hash s_hash : List Nat)
    (too_expensive : Int) :
    ∀ (n : Nat) (first_start first_end second_start second_end : Int)
      (forward_v reverse_v : List Int) (result : List String) (d1 d2 : Nat),
      ((first_end - first_start) + (second_end - second_start)).toNat ≤ n →
      n + 1 ≤ d1 → n + 1 ≤ d2 →
      smartlist_longest_common_subsequence_impl first second f_hash s_hash too_expensive d1
          first_start first_end second_start second_end forward_v reverse_v result
        = smartlist_longest_common_subsequence_impl first second f_hash s_hash too_expensive d2
          first_start first_end second_start second_end forward_v reverse_v result := by
  intro n
  induction n with
  | zero =>
    intro fs fe ss se fv rv result d1 d2 hT hd1 hd2
    obtain ⟨a, rfl⟩ : ∃ a, d1 = a + 1 := ⟨d1 - 1, by omega⟩
    obtain ⟨b, rfl⟩ : ∃ b, d2 = b + 1 := ⟨d2 - 1, by omega⟩
    have hempty : fe - fs ≤ 0 ∨ se - ss ≤ 0 := by omega
    rw [smartlist_longest_common_subsequence_impl, smartlist_longest_common_subsequence_impl,
      if_pos hempty, if_pos hempty]
  | succ n ih =>
    intro fs fe ss se fv rv result d1 d2 hT hd1 hd2
    obtain ⟨a, rfl⟩ : ∃ a, d1 = a + 1 := ⟨d1 - 1, by omega⟩
    obtain ⟨b, rfl⟩ : ∃ b, d2 = b + 1 := ⟨d2 - 1, by omega⟩
    rw [smartlist_longest_common_subsequence_impl, smartlist_longest_common_subsequence_impl]
    by_cases hempty : fe - fs ≤ 0 ∨ se - ss ≤ 0
    · rw [if_pos hempty, if_pos hempty]
    · rw [if_neg hempty, if_neg hempty]
      cases hsp : find_split f_hash s_hash too_expensive fs fe ss se fv rv with
      | none => rfl
      | some sp =>
        simp only [Option.bind_eq_bind, Option.some_bind]
        by_cases hrec : sp.diff_size > 1 ∨ (sp.delta_even = true ∧ sp.diff_size = 1)
        · rw [if_pos hrec, if_pos hrec]
          obtain ⟨hdec1, hdec2⟩ := find_split_decreases _ _ _ _ _ _ _ _ _ _ (by omega) (by omega)
            hsp hrec
          rw [ih fs sp.x ss sp.y sp.forward_v sp.reverse_v result a b (by omega) (by omega)
            (by omega)]
          cases hfirst : smartlist_longest_common_subsequence_impl first second f_hash s_hash
              too_expensive b fs sp.x ss sp.y sp.forward_v sp.reverse_v result with
          | none => rfl
          | some r1 =>
            obtain ⟨fv1, rv1, res1⟩ := r1
            simp only [Option.some_bind]
            cases hadd : add_range first (sp.u - sp.x).toNat sp.x res1 with
            | none => rfl
            | some res2 =>
              simp only [Option.some_bind]
              exact ih sp.u fe sp.v se fv1 rv1 res2 a b (by omega) (by omega) (by omega)
        · rw [if_neg hrec, if_neg hrec]

/-! ## Paths and common subsequences -/

/-- A forward path stays a forward path when the ranges are cut off behind its end. -/
theorem Fwd.restrict {c c' : Frame} (hf : c'.f_hash = c.f_hash) (hs : c'.s_hash = c.s_hash)
    (h1 : c'.first_start = c.first_start) (h2 : c'.second_start = c.second_start)
    {d : Nat} {x y : Int} (h : Fwd c d x y) :
    x ≤ c'.first_end → y ≤ c'.second_end → Fwd c' d x y := by
  induction h with
  | start =>
    intro _ _
    exact Fwd.start.cast rfl h1 h2
  | diag _ hm ih =>
    intro hx hy
    obtain ⟨m1, m2, m3, m4, m5⟩ := hm
    exact (ih (by omega) (by omega)).diag
      ⟨by omega, by omega, by omega, by omega, by rw [hf, hs]; exact m5⟩
  | right _ ih =>
    intro hx hy
    exact (ih (by omega) hy).right
  | down _ ih =>
    intro hx hy
    exact (ih hx (by omega)).down

/-- A reverse path stays a reverse path when the ranges are cut off before its start. -/
theorem Rev.rev_restrict {c c' : Frame} (hf : c'.f_hash = c.f_hash)
    (hs : c'.s_hash = c.s_hash) (h1 : c'.first_end = c.first_end)
    (h2 : c'.second_end = c.second_end) {d : Nat} {x y : Int} (h : Rev c d x y) :
    c'.first_start ≤ x → c'.second_start ≤ y → Rev c' d x y := by
  induction h with
  | stop =>
    intro _ _
    exact Rev.stop.rev_cast rfl h1 h2
  | diag _ hm ih =>
    intro hx hy
    obtain ⟨m1, m2, m3, m4, m5⟩ := hm
    exact (ih (by omega) (by omega)).diag
      ⟨by omega, by omega, by omega, by omega, by rw [hf, hs]; exact m5⟩
  | left _ ih =>
    intro hx hy
    exact (ih (by omega) hy).left
  | up _ ih =>
    intro hx hy
    exact (ih hx (by omega)).up

/-- Without a pair of equal lines every step of a path is an edit. -/
theorem Fwd.no_diag {c : Frame} (hno : ∀ x y, ¬ c.same_line x y) {d : Nat} {x y : Int}
    (h : Fwd c d x y) : (d : Int) = (x - c.first_start) + (y - c.second_start) := by
  induction h with
  | start => simp
  | diag _ hm _ => exact absurd hm (hno _ _)
  | right _ ih => push_cast; omega
  | down _ ih => push_cast; omega

theorem slice_length {α : Type} (l : List α) (a b : Int) (h0 : 0 ≤ a) (h1 : a ≤ b)
    (h2 : b ≤ (l.length : Int)) : ((slice l a b).length : Int) = b - a := by
  unfold slice
  rw [List.length_take, List.length_drop]
  omega

theorem slice_snoc {α : Type} (l : List α) (a b : Int) (v : α) (h0 : 0 ≤ a) (h1 : a ≤ b)
    (hv : arr_get l b = some v) : slice l a (b + 1) = slice l a b ++ [v] := by
  unfold slice
  rw [show (b + 1 - a).toNat = (b - a).toNat + 1 by omega, List.take_succ, List.getElem?_drop,
    show a.toNat + (b - a).toNat = b.toNat by omega, arr_get_eq_some l b v hv]
  rfl

theorem slice_sublist {α : Type} (l : List α) (a b b' : Int) (h : b ≤ b') :
    (slice l a b).Sublist (slice l a b') := by
  unfold slice
  have : List.take (b - a).toNat (List.drop a.toNat l)
      = List.take (b - a).toNat (List.take (b' - a).toNat (List.drop a.toNat l)) := by
    rw [List.take_take, min_eq_left (by omega)]
  rw [this]
  exact List.take_sublist _ _

theorem slice_append {α : Type} (l : List α) (a b e : Int) (h0 : 0 ≤ a) (h1 : a ≤ b)
    (h2 : b ≤ e) : slice l a e = slice l a b ++ slice l b e := by
  unfold slice
  rw [show (e - a).toNat = (b - a).toNat + (e - b).toNat by omega, List.take_add,
    List.drop_drop, show a.toNat + (b - a).toNat = b.toNat by omega]

theorem slice_empty {α : Type} (l : List α) (a b : Int) (h : b ≤ a) : slice l a b = [] := by
  unfold slice
  rw [show (b - a).toNat = 0 by omega]
  rfl

theorem slice_all {α : Type} (l : List α) : slice l 0 (l.length : Int) = l := by
  unfold slice
  simp

theorem arr_get_map {α β : Type} (f : α → β) (l : List α) (i : Int) :
    arr_get (l.map f) i = (arr_get l i).map f := by
  unfold arr_get
  by_cases h : i < 0
  · simp [h]
  · simp [h]

/-- The copy loops of lines 273, 282 and 286 append a slice of the source. -/
theorem add_range_eq_slice (src : List String) (x u : Int) (result : List String)
    (h0 : 0 ≤ x) (h1 : x ≤ u) (h2 : u ≤ (src.length : Int)) :
    add_range src (u - x).toNat x result = some (result ++ slice src x u) := by
  rw [add_range_acc]
  have := add_range_slice src (u - x).toNat x.toNat (by omega)
  rw [show ((x.toNat : Nat) : Int) = x by omega] at this
  rw [this]
  rfl

/-- With the fingerprint tables of `first` and `second`, a diagonal step is a pair of
lines inside the ranges with equal fingerprints. -/
theorem same_line_map (hash : String → Nat) (first second : List String) (c : Frame)
    (hf : c.f_hash = first.map hash) (hs : c.s_hash = second.map hash) (x y : Int)
    (a b : String) (ha : arr_get first x = some a) (hb : arr_get second y = some b) :
    c.same_line x y ↔ (c.first_start ≤ x ∧ x < c.first_end ∧ c.second_start ≤ y
      ∧ y < c.second_end ∧ hash a = hash b) := by
  unfold Frame.same_line
  rw [hf, hs, arr_get_map, arr_get_map, ha, hb]
  simp

/-- A path is a common subsequence: the lines of its diagonal steps, in order. -/
theorem Fwd.common (hash : String → Nat) (first second : List String) (c : Frame)
    (hf : c.f_hash = first.map hash) (hs : c.s_hash = second.map hash)
    (hinj : ∀ a ∈ first, ∀ b ∈ second, hash a = hash b → a = b)
    (h0 : 0 ≤ c.first_start) (h1 : c.first_end ≤ (first.length : Int))
    (h2 : 0 ≤ c.second_start) (h3 : c.second_end ≤ (second.length : Int))
    {d : Nat} {x y : Int} (h : Fwd c d x y) :
    ∃ l : List String, l.Sublist (slice first c.first_start x)
      ∧ l.Sublist (slice second c.second_start y)
      ∧ 2 * (l.length : Int) + d = (x - c.first_start) + (y - c.second_start) := by
  induction h with
  | start => exact ⟨[], List.nil_sublist _, List.nil_sublist _, by simp⟩
  | @diag d x y hp hm ih =>
    obtain ⟨l, l1, l2, l3⟩ := ih
    have hb := hp.fwd_bounds
    obtain ⟨a, ha⟩ := arr_get_in_table first x (by have := hm.1; omega)
      (by have := hm.2.1; omega)
    obtain ⟨b, hb'⟩ := arr_get_in_table second y (by have := hm.2.2.1; omega)
      (by have := hm.2.2.2.1; omega)
    have hab : a = b := by
      have := ((same_line_map hash first second c hf hs x y a b ha hb').mp hm).2.2.2.2
      exact hinj a (List.mem_iff_getElem?.mpr ⟨_, arr_get_eq_some first x a ha⟩) b
        (List.mem_iff_getElem?.mpr ⟨_, arr_get_eq_some second y b hb'⟩) this
    refine ⟨l ++ [a], ?_, ?_, ?_⟩
    · rw [slice_snoc first _ x a h0 hb.1 ha]
      exact List.Sublist.append l1 (List.Sublist.refl _)
    · rw [slice_snoc second _ y b h2 hb.2.1 hb', hab]
      exact List.Sublist.append l2 (List.Sublist.refl _)
    · rw [List.length_append, List.length_singleton]
      push_cast
      omega
  | @right d x y hp ih =>
    obtain ⟨l, l1, l2, l3⟩ := ih
    exact ⟨l, l1.trans (slice_sublist first _ x (x + 1) (by omega)), l2, by push_cast; omega⟩
  | @down d x y hp ih =>
    obtain ⟨l, l1, l2, l3⟩ := ih
    exact ⟨l, l1, l2.trans (slice_sublist second _ y (y + 1) (by omega)), by push_cast; omega⟩

/-- A sublist of a list with one more element at the end either leaves that element
out or ends with it. -/
theorem sublist_snoc {α : Type} (l X : List α) (a : α) (h : l.Sublist (X ++ [a])) :
    l.Sublist X ∨ ∃ l0, l = l0 ++ [a] ∧ l0.Sublist X := by
  obtain ⟨l1, l2, hl, h1, h2⟩ := List.sublist_append_iff.mp h
  rcases List.sublist_singleton.mp h2 with h2 | h2
  · left
    subst hl h2
    simpa using h1
  · right
    subst hl h2
    exact ⟨l1, rfl, h1⟩

/-- A common subsequence of the two ranges is a path from their start to their end: a
diagonal step for each of its lines, an edit for every other line. -/
theorem Fwd.of_common (hash : String → Nat) (first second : List String) (c : Frame)
    (hf : c.f_hash = first.map hash) (hs : c.s_hash = second.map hash)
    (h0 : 0 ≤ c.first_start) (h1 : c.first_end ≤ (first.length : Int))
    (h2 : 0 ≤ c.second_start) (h3 : c.second_end ≤ (second.length : Int)) :
    ∀ (n i j : Nat), i + j = n → c.first_start + (i : Int) ≤ c.first_end →
      c.second_start + (j : Int) ≤ c.second_end → ∀ l : List String,
      l.Sublist (slice first c.first_start (c.first_start + i)) →
      l.Sublist (slice second c.second_start (c.second_start + j)) →
      ∃ d : Nat, Fwd c d (c.first_start + i) (c.second_start + j)
        ∧ 2 * (l.length : Int) + d = (i : Int) + j := by
  intro n
  induction n using Nat.strong_induction_on with
  | _ n ih =>
    intro i j hn hi hj l l1 l2
    cases i with
    | zero =>
      rw [slice_empty first _ _ (by simp)] at l1
      have hl : l = [] := List.sublist_nil.mp l1
      subst hl
      exact ⟨j, (Fwd.trivial c 0 j).cast (by omega) rfl rfl, by simp⟩
    | succ i =>
      cases j with
      | zero =>
        rw [slice_empty second _ _ (by simp)] at l2
        have hl : l = [] := List.sublist_nil.mp l2
        subst hl
        exact ⟨i + 1, (Fwd.trivial c (i + 1) 0).cast (by omega) rfl rfl, by simp⟩
      | succ j =>
        obtain ⟨a, ha⟩ := arr_get_in_table first (c.first_start + i) (by omega)
          (by push_cast at hi; omega)
        obtain ⟨b, hb⟩ := arr_get_in_table second (c.second_start + j) (by omega)
          (by push_cast at hj; omega)
        have e1 : c.first_start + ((i + 1 : Nat) : Int) = c.first_start + i + 1 := by
          push_cast
          omega
        have e2 : c.second_start + ((j + 1 : Nat) : Int) = c.second_start + j + 1 := by
          push_cast
          omega
        rw [e1, slice_snoc first _ _ a h0 (by omega) ha] at l1
        rw [e2, slice_snoc second _ _ b h2 (by omega) hb] at l2
        rw [e1, e2]
        rcases sublist_snoc _ _ _ l1 with l1' | ⟨la, hla, l1'⟩
        · obtain ⟨d, hd, hlen⟩ := ih (i + (j + 1)) (by omega) i (j + 1) rfl (by omega) hj l l1'
            (by rw [e2, slice_snoc second _ _ b h2 (by omega) hb]; exact l2)
          rw [e2] at hd
          exact ⟨d + 1, hd.right, by push_cast at hlen ⊢; omega⟩
        · rcases sublist_snoc _ _ _ l2 with l2' | ⟨lb, hlb, l2'⟩
          · obtain ⟨d, hd, hlen⟩ := ih (i + 1 + j) (by omega) (i + 1) j rfl hi (by omega) l
              (by rw [e1, slice_snoc first _ _ a h0 (by omega) ha, hla]
                  exact List.Sublist.append l1' (List.Sublist.refl _)) l2'
            rw [e1] at hd
            exact ⟨d + 1, hd.down, by push_cast at hlen ⊢; omega⟩
          · have hsame : la = lb ∧ a = b := by
              rw [hla] at hlb
              have := List.append_inj' hlb rfl
              exact ⟨this.1, by simpa using this.2⟩
            obtain ⟨hlab, hab⟩ := hsame
            subst hlab
            obtain ⟨d, hd, hlen⟩ := ih (i + j) (by omega) i j rfl (by omega) (by omega) la l1' l2'
            have hm : c.same_line (c.first_start + i) (c.second_start + j) :=
              (same_line_map hash first second c hf hs _ _ a b ha hb).mpr
                ⟨by omega, by push_cast at hi; omega, by omega, by push_cast at hj; omega,
                  by rw [hab]⟩
            refine ⟨d, hd.diag hm, ?_⟩
            rw [hla, List.length_append, List.length_singleton]
            push_cast at hlen ⊢
            omega

/-! ## The recursion returns a longest common subsequence -/

/-- The lines of a snake are the same lines in both sequences. -/
theorem snake_slices (hash : String → Nat) (first second : List String) (c : Frame)
    (hf : c.f_hash = first.map hash) (hs : c.s_hash = second.map hash)
    (hinj : ∀ a ∈ first, ∀ b ∈ second, hash a = hash b → a = b)
    (h0 : 0 ≤ c.first_start) (h1 : c.first_end ≤ (first.length : Int))
    (h2 : 0 ≤ c.second_start) (h3 : c.second_end ≤ (second.length : Int)) (x y : Int) :
    ∀ t : Nat, (∀ z, x ≤ z → z < x + t → c.same_line z (z - (x - y))) →
      slice first x (x + t) = slice second y (y + t) := by
  intro t
  induction t with
  | zero =>
    intro _
    rw [slice_empty first _ _ (by simp), slice_empty second _ _ (by simp)]
  | succ t ih =>
    intro hm
    have ih' := ih (fun z hz1 hz2 => hm z hz1 (by push_cast; omega))
    have hm' := hm (x + t) (by omega) (by push_cast; omega)
    rw [show x + (t : Int) - (x - y) = y + t by omega] at hm'
    obtain ⟨m1, m2, m3, m4, _⟩ := hm'
    have hx0 := hm x (le_refl _) (by push_cast; omega)
    rw [show x - (x - y) = y by omega] at hx0
    obtain ⟨n1, _, n3, _, _⟩ := hx0
    obtain ⟨a, ha⟩ := arr_get_in_table first (x + t) (by omega) (by omega)
    obtain ⟨b, hb⟩ := arr_get_in_table second (y + t) (by omega) (by omega)
    have hab : a = b := by
      have := ((same_line_map hash first second c hf hs _ _ a b ha hb).mp
        (by rw [show y + (t : Int) = x + t - (x - y) by omega]
            exact hm (x + t) (by omega) (by push_cast; omega))).2.2.2.2
      exact hinj a (List.mem_iff_getElem?.mpr ⟨_, arr_get_eq_some first _ a ha⟩) b
        (List.mem_iff_getElem?.mpr ⟨_, arr_get_eq_some second _ b hb⟩) this
    rw [show x + ((t + 1 : Nat) : Int) = x + t + 1 by push_cast; omega,
      show y + ((t + 1 : Nat) : Int) = y + t + 1 by push_cast; omega,
      slice_snoc first x _ a (by omega) (by omega) ha,
      slice_snoc second y _ b (by omega) (by omega) hb, ih', hab]

/-- When the budget does not bind, a call appends a common subsequence of its two ranges
that leaves out as few lines as the edits of a shortest path. -/
theorem impl_optimal (hash : String → Nat) (first second : List String) (too_expensive : Int)
    (hinj : ∀ a ∈ first, ∀ b ∈ second, hash a = hash b → a = b) :
    ∀ (n : Nat) (fs fe ss se : Int) (fv rv : List Int) (result : List String) (depth : Nat),
      0 ≤ fs → fs ≤ fe → fe ≤ (first.length : Int) →
      0 ≤ ss → ss ≤ se → se ≤ (second.length : Int) →
      ((fe - fs) + (se - ss)).toNat ≤ n → n + 1 ≤ depth →
      (fe - fs + se - ss) / 2 + 1 ≤ too_expensive →
      2 * ((fe - fs + se - ss) / 2 + 1) ≤ (fv.length : Int) →
      2 * ((fe - fs + se - ss) / 2 + 1) ≤ (rv.length : Int) →
      ∃ fv' rv' out,
        smartlist_longest_common_subsequence_impl first second (first.map hash)
            (second.map hash) too_expensive depth fs fe ss se fv rv result
          = some (fv', rv', result ++ out)
        ∧ fv'.length = fv.length ∧ rv'.length = rv.length
        ∧ out.Sublist (slice first fs fe) ∧ out.Sublist (slice second ss se)
        ∧ ∀ d : Nat, Fwd (call_frame (first.map hash) (second.map hash) too_expensive
              fs fe ss se) d fe se →
            (fe - fs) + (se - ss) - 2 * (out.length : Int) ≤ d := by
  intro n
  induction n using Nat.strong_induction_on with
  | _ n ih =>
    intro fs fe ss se fv rv result depth h0 h1 h2 h3 h4 h5 hn hdepth hte hfv hrv
    obtain ⟨dp, rfl⟩ : ∃ dp, depth = dp + 1 := ⟨depth - 1, by omega⟩
    rw [smartlist_longest_common_subsequence_impl]
    by_cases hempty : fe - fs ≤ 0 ∨ se - ss ≤ 0
    · rw [if_pos hempty]
      refine ⟨fv, rv, [], by rw [List.append_nil], rfl, rfl, List.nil_sublist _,
        List.nil_sublist _, ?_⟩
      intro d hd
      have hno : ∀ x y, ¬ (call_frame (first.map hash) (second.map hash) too_expensive
          fs fe ss se).same_line x y := by
        intro x y hm
        obtain ⟨m1, m2, m3, m4, _⟩ := hm
        simp only [call_frame] at m1 m2 m3 m4
        omega
      have := Fwd.no_diag hno hd
      simp only [call_frame] at this
      simp only [List.length_nil]
      omega
    · rw [if_neg hempty]
      have hc : (call_frame (first.map hash) (second.map hash) too_expensive
          fs fe ss se).in_table := by
        have hne1 : fs < fe := by omega
        have hne2 : ss < se := by omega
        refine ⟨h0, hne1, ?_, h3, hne2, ?_⟩
        · show fe ≤ ((first.map hash).length : Int)
          rw [List.length_map]
          exact h2
        · show se ≤ ((second.map hash).length : Int)
          rw [List.length_map]
          exact h5
      obtain ⟨sp, hsp, hl1, hl2, hev, hcase⟩ := find_split_spec (first.map hash)
        (second.map hash) too_expensive fs fe ss se fv rv (by omega) hc hfv hrv
      simp only [hsp, Option.bind_eq_bind, Option.some_bind]
      rcases hcase with ⟨a, b, hsn, ha, hpar⟩ | ⟨_, hcap, _⟩
      swap
      · exfalso
        have hmax : (call_frame (first.map hash) (second.map hash) too_expensive
            fs fe ss se).max = (fe - fs + se - ss) / 2 + 1 := by
          show (if (fe - fs + se - ss) / 2 + 1 > too_expensive then too_expensive
            else (fe - fs + se - ss) / 2 + 1) = _
          rw [if_neg (by omega)]
        rw [hmax] at hcap
        simp only [call_frame] at hcap
        omega
      have hg := hsn.in_grid
      obtain ⟨hfwd, hrev, hdiag, hxu, hsnake, hmin⟩ := hsn
      simp only [call_frame] at hg hdiag
      have hslice : slice first sp.x sp.u = slice second sp.y sp.v := by
        have := snake_slices hash first second
          (call_frame (first.map hash) (second.map hash) too_expensive fs fe ss se) rfl rfl
          hinj h0 h2 h3 h5 sp.x sp.y (sp.u - sp.x).toNat
          (fun z hz1 hz2 => hsnake z hz1 (by omega))
        rw [show sp.x + ((sp.u - sp.x).toNat : Int) = sp.u by omega,
          show sp.y + ((sp.u - sp.x).toNat : Int) = sp.v by omega] at this
        exact this
      by_cases hrec : sp.diff_size > 1 ∨ (sp.delta_even = true ∧ sp.diff_size = 1)
      · rw [if_pos hrec]
        have hab : 1 ≤ a ∧ 1 ≤ b := by
          rcases hpar with ⟨hodd, hab⟩ | ⟨heven, hab⟩
          · rcases hrec with hgt | ⟨he, _⟩
            · omega
            · rw [hev] at he
              exact absurd (of_decide_eq_true he) hodd
          · omega
        obtain ⟨fv1, rv1, out1, e1, lf1, lr1, s1a, s1b, opt1⟩ := ih (n - 1) (by omega)
          fs sp.x ss sp.y sp.forward_v sp.reverse_v result dp h0 (by omega) (by omega) h3
          (by omega) (by omega) (by omega) (by omega) (by omega) (by rw [hl1]; omega)
          (by rw [hl2]; omega)
        rw [e1]
        simp only [Option.some_bind]
        rw [add_range_eq_slice first sp.x sp.u (result ++ out1) (by omega) (by omega)
          (by omega)]
        simp only [Option.some_bind]
        obtain ⟨fv2, rv2, out2, e2, lf2, lr2, s2a, s2b, opt2⟩ := ih (n - 1) (by omega)
          sp.u fe sp.v se fv1 rv1 (result ++ out1 ++ slice first sp.x sp.u) dp (by omega)
          (by omega) h2 (by omega) (by omega) h5 (by omega) (by omega) (by omega)
          (by rw [lf1, hl1]; omega) (by rw [lr1, hl2]; omega)
        rw [e2]
        refine ⟨fv2, rv2, out1 ++ slice first sp.x sp.u ++ out2, ?_, by rw [lf2, lf1, hl1],
          by rw [lr2, lr1, hl2], ?_, ?_, ?_⟩
        · simp only [List.append_assoc]
        · rw [slice_append first fs sp.x fe h0 (by omega) (by omega),
            slice_append first sp.x sp.u fe (by omega) (by omega) (by omega),
            List.append_assoc]
          exact List.Sublist.append s1a (List.Sublist.append (List.Sublist.refl _) s2a)
        · rw [slice_append second ss sp.y se h3 (by omega) (by omega),
            slice_append second sp.y sp.v se (by omega) (by omega) (by omega),
            List.append_assoc, hslice]
          exact List.Sublist.append s1b (List.Sublist.append (List.Sublist.refl _) s2b)
        · intro d hd
          have b1 := opt1 a (Fwd.restrict (by rfl) (by rfl) (by rfl) (by rfl) hfwd (le_refl _)
            (le_refl _))
          have r2 : Rev (call_frame (first.map hash) (second.map hash) too_expensive
              sp.u fe sp.v se) b sp.u sp.v :=
            Rev.rev_restrict (by rfl) (by rfl) (by rfl) (by rfl) hrev (le_refl _) (le_refl _)
          have b2 := opt2 b (Rev.full r2)
          have b3 := hmin d hd
          have hlen := slice_length first sp.x sp.u (by omega) (by omega) (by omega)
          rw [List.length_append, List.length_append]
          push_cast
          omega
      · rw [if_neg hrec]
        have hab : a + b ≤ 1 := by
          rcases hpar with ⟨hodd, hab⟩ | ⟨heven, hab⟩
          · omega
          · have he : sp.delta_even = true := by
              rw [hev]
              exact decide_eq_true heven
            have : ¬ sp.diff_size = 1 := fun h => hrec (Or.inr ⟨he, h⟩)
            omega
        have hfull : Fwd (call_frame (first.map hash) (second.map hash) too_expensive
            fs fe ss se) (a + b) fe se :=
          Fwd.join hrev a ((hfwd.slide (sp.u - sp.x).toNat
            (fun z hz1 hz2 => hsnake z hz1 (by omega))).cast rfl (by omega) (by omega))
        obtain ⟨l, l1, l2, l3⟩ := Fwd.common hash first second _ rfl rfl hinj h0 h2 h3 h5 hfull
        have hb := hfull.fwd_bounds
        simp only [call_frame, Frame.delta_start] at l1 l2 l3 hb
        have hlf := slice_length first fs fe h0 h1 h2
        have hls := slice_length second ss se h3 h4 h5
        by_cases hlt : fe - fs < se - ss
        · rw [if_pos hlt, add_range_eq_slice first fs fe result h0 h1 h2]
          have hl : l = slice first fs fe :=
            List.Sublist.eq_of_length l1 (by push_cast at l3; omega)
          refine ⟨sp.forward_v, sp.reverse_v, slice first fs fe, rfl, hl1, hl2,
            List.Sublist.refl _, by rw [← hl]; exact l2, ?_⟩
          intro d hd
          have := hmin d hd
          omega
        · rw [if_neg hlt, add_range_eq_slice second ss se result h3 h4 h5]
          have hl : l = slice second ss se :=
            List.Sublist.eq_of_length l2 (by push_cast at l3; omega)
          refine ⟨sp.forward_v, sp.reverse_v, slice second ss se, rfl, hl1, hl2,
            by rw [← hl]; exact l1, List.Sublist.refl _, ?_⟩
          intro d hd
          have := hmin d hd
          omega

/-! ## The engine on inputs the budget does not cap -/

/-- When the budget does not bind and no line of `first` shares its fingerprint with a
different line of `second`, the engine returns a list, and the list is a common
subsequence of `first` and `second`. -/
theorem lcs_common_subsequence (hash : String → Nat) (first second : List String)
    (hlen : first.length + second.length ≤ 511)
    (hinj : ∀ a ∈ first, ∀ b ∈ second, hash a = hash b → a = b) :
    ∃ l, smartlist_longest_common_subsequence hash first second = some l
      ∧ l.Sublist first ∧ l.Sublist second := by
  have hte := too_expensive_of_ge (first.length + second.length)
  obtain ⟨fv', rv', out, himpl, _, _, s1, s2, _⟩ := impl_optimal hash first second
    (too_expensive_of (first.length + second.length)) hinj (first.length + second.length)
    0 first.length 0 second.length
    (List.replicate (((first.length + second.length) / 2 + 1) * 2) 0)
    (List.replicate (((first.length + second.length) / 2 + 1) * 2) 0) []
    (first.length + second.length + 1) (le_refl _) (by omega) (le_refl _) (le_refl _)
    (by omega) (le_refl _) (by omega) (le_refl _) (by omega)
    (by rw [List.length_replicate]; push_cast; omega)
    (by rw [List.length_replicate]; push_cast; omega)
  rw [slice_all] at s1 s2
  refine ⟨out, ?_, s1, s2⟩
  unfold smartlist_longest_common_subsequence
  simp only [Option.bind_eq_bind]
  rw [himpl]
  rfl

/-! ## The checked engine follows the unchecked one -/

theorem ok_bind {α β : Type} (a : α) (f : α → Except Fault β) :
    (Except.ok a >>= f) = f a := rfl

theorem error_bind {α β : Type} (e : Fault) (f : α → Except Fault β) :
    ((Except.error e : Except Fault α) >>= f) = Except.error e := rfl

theorem pure_ok {α : Type} (a : α) : (pure a : Except Fault α) = Except.ok a := rfl

theorem read_table_of {tab : List Nat} {i : Int} {a : Nat} (h : arr_get tab i = some a) :
    read_table tab i = .ok a := by
  unfold read_table
  rw [h]

theorem read_table_fault {tab : List Nat} {i : Int} (h : arr_get tab i = none) :
    read_table tab i = .error .table := by
  unfold read_table
  rw [h]

theorem read_vec_of {vec : List Int} {w : List Bool} {i : Int} {a : Int}
    (h : arr_get vec i = some a) (hw : Written w i) : read_vec vec w i = .ok a := by
  unfold read_vec
  rw [h]
  exact if_pos hw

theorem write_vec_of {vec vec' : List Int} {w : List Bool} {i : Int} {val : Int}
    (h : arr_set vec i val = some vec') :
    write_vec vec w i val = .ok (vec', w.set i.toNat true) := by
  unfold write_vec
  rw [h]

theorem Written.set_self (w : List Bool) (i : Int) (h0 : 0 ≤ i) (h1 : i < (w.length : Int)) :
    Written (w.set i.toNat true) i := by
  unfold Written
  rw [arr_get_at _ i i.toNat (by omega)]
  exact List.getElem?_set_self (by omega)

theorem Written.set {w : List Bool} {i : Int} (h : Written w i) (n : Nat) :
    Written (w.set n true) i := by
  unfold Written at h ⊢
  have hb := arr_get_bounds w i true h
  rw [arr_get_at _ i i.toNat (by omega)] at h ⊢
  by_cases hn : n = i.toNat
  · subst hn
    exact List.getElem?_set_self (by omega)
  · rw [List.getElem?_set_ne hn]
    exact h

theorem forward_snake_checked_of (c : Frame) :
    ∀ (fuel : Nat) (u v : Int) (r : Int × Int), forward_snake c fuel u v = some r →
      forward_snake_checked c fuel u v = .ok r := by
  intro fuel
  induction fuel with
  | zero =>
    intro u v r h
    simp [forward_snake] at h
  | succ n ih =>
    intro u v r h
    rw [forward_snake] at h
    rw [forward_snake_checked]
    by_cases hc : u < c.first_end ∧ v < c.second_end
    · rw [if_pos hc] at h ⊢
      cases ha : arr_get c.f_hash u with
      | none => simp [ha] at h
      | some a =>
        cases hb : arr_get c.s_hash v with
        | none => simp [ha, hb] at h
        | some b =>
          simp only [ha, hb, Option.bind_eq_bind, Option.some_bind] at h
          rw [read_table_of ha, read_table_of hb]
          simp only [ok_bind]
          by_cases hab : a = b
          · rw [if_pos hab] at h ⊢
            exact ih _ _ _ h
          · rw [if_neg hab] at h ⊢
            rw [pure_ok]
            exact congrArg Except.ok (Option.some.inj h)
    · rw [if_neg hc] at h ⊢
      rw [pure_ok]
      exact congrArg Except.ok (Option.some.inj h)

theorem reverse_snake_checked_of (c : Frame) :
    ∀ (fuel : Nat) (x y : Int) (r : Int × Int), reverse_snake c fuel x y = some r →
      reverse_snake_checked c fuel x y = .ok r := by
  intro fuel
  induction fuel with
  | zero =>
    intro x y r h
    simp [reverse_snake] at h
  | succ n ih =>
    intro x y r h
    rw [reverse_snake] at h
    rw [reverse_snake_checked]
    by_cases hc : x > c.first_start ∧ y > c.second_start
    · rw [if_pos hc] at h ⊢
      cases ha : arr_get c.f_hash (x - 1) with
      | none => simp [ha] at h
      | some a =>
        cases hb : arr_get c.s_hash (y - 1) with
        | none => simp [ha, hb] at h
        | some b =>
          simp only [ha, hb, Option.bind_eq_bind, Option.some_bind] at h
          rw [read_table_of ha, read_table_of hb]
          simp only [ok_bind]
          by_cases hab : a = b
          · rw [if_pos hab] at h ⊢
            exact ih _ _ _ h
          · rw [if_neg hab] at h ⊢
            rw [pure_ok]
            exact congrArg Except.ok (Option.some.inj h)
    · rw [if_neg hc] at h ⊢
      rw [pure_ok]
      exact congrArg Except.ok (Option.some.inj h)

/-- One pass of the checked body of the forward loop, from the results of its steps. -/
theorem forward_body_checked_eq (c : Frame) (diff_size diagonal : Int) (t : Checked)
    (x0 u v : Int) (forward_v : List Int) (overlap : Bool)
    (hlen : t.forward_w.length = t.search.forward_v.length)
    (h1 : ForwardStart c diff_size diagonal t.search.forward_v x0)
    (w1 : ForwardStartWritten c diff_size diagonal t.forward_w)
    (h2 : forward_snake c ((c.first_end - x0).toNat + 1) x0 (x0 - diagonal) = some (u, v))
    (h3 : arr_set t.search.forward_v (c.center_forward + diagonal) u = some forward_v)
    (h4 : ForwardOverlap c diff_size diagonal forward_v t.search.reverse_v overlap)
    (w4 : (c.delta % 2 ≠ 0 ∧ diagonal ≥ c.delta_end - (diff_size - 1)
        ∧ diagonal ≤ c.delta_end + (diff_size - 1)) →
      Written t.reverse_w (diagonal + c.center_reverse)) :
    forward_body_checked c diff_size diagonal t
      = .ok
        { search :=
            { t.search with
              forward_v := forward_v, x := x0, y := x0 - diagonal, u := u, v := v,
              found_middle_snake := overlap || t.search.found_middle_snake },
          forward_w := t.forward_w.set (c.center_forward + diagonal).toNat true,
          reverse_w := t.reverse_w } := by
  have s2 := forward_snake_checked_of c _ _ _ _ h2
  have s3 := write_vec_of (w := t.forward_w) h3
  obtain ⟨b0, b1, _⟩ := arr_set_inv _ _ _ _ h3
  have wself : Written (t.forward_w.set (c.center_forward + diagonal).toNat true)
      (diagonal + c.center_forward) := by
    rw [show diagonal + c.center_forward = c.center_forward + diagonal by omega]
    exact Written.set_self _ _ b0 (by omega)
  obtain ⟨w1a, w1b, w1c⟩ := w1
  unfold forward_body_checked
  rcases h4 with ⟨hc, f, r, hf, hr, ho⟩ | ⟨hc, ho⟩
  · have rf := read_vec_of hf wself
    have rr := read_vec_of hr (w4 hc)
    rcases h1 with ⟨hk, ha⟩ | ⟨hk1, hk2, below, above, hb, ha, hx⟩ | ⟨hk1, hk2, below, hb, hx⟩
    · simp only [if_pos hk, read_vec_of ha (w1a hk), ok_bind, s2, s3, if_pos hc, rf, rr,
        pure_ok, ho]
    · by_cases hlt : below < above
      · rw [if_pos hlt] at hx
        subst hx
        simp only [if_neg hk1, if_pos hk2, read_vec_of hb (w1b hk1),
          read_vec_of ha (w1c hk1 hk2), ok_bind, s2, s3, if_pos hc, rf, rr, pure_ok, ho,
          if_pos hlt]
      · rw [if_neg hlt] at hx
        subst hx
        simp only [if_neg hk1, if_pos hk2, read_vec_of hb (w1b hk1),
          read_vec_of ha (w1c hk1 hk2), ok_bind, s2, s3, if_pos hc, rf, rr, pure_ok, ho,
          if_neg hlt]
    · subst hx
      simp only [if_neg hk1, if_neg (not_not.mpr hk2), read_vec_of hb (w1b hk1), ok_bind, s2,
        s3, if_pos hc, rf, rr, pure_ok, ho]
  · rcases h1 with ⟨hk, ha⟩ | ⟨hk1, hk2, below, above, hb, ha, hx⟩ | ⟨hk1, hk2, below, hb, hx⟩
    · simp only [if_pos hk, read_vec_of ha (w1a hk), ok_bind, s2, s3, if_neg hc, pure_ok, ho]
    · by_cases hlt : below < above
      · rw [if_pos hlt] at hx
        subst hx
        simp only [if_neg hk1, if_pos hk2, read_vec_of hb (w1b hk1),
          read_vec_of ha (w1c hk1 hk2), ok_bind, s2, s3, if_neg hc, pure_ok, ho, if_pos hlt]
      · rw [if_neg hlt] at hx
        subst hx
        simp only [if_neg hk1, if_pos hk2, read_vec_of hb (w1b hk1),
          read_vec_of ha (w1c hk1 hk2), ok_bind, s2, s3, if_neg hc, pure_ok, ho, if_neg hlt]
    · subst hx
      simp only [if_neg hk1, if_neg (not_not.mpr hk2), read_vec_of hb (w1b hk1), ok_bind, s2,
        s3, if_neg hc, pure_ok, ho]

/-- One pass of the checked body of the reverse loop, from the results of its steps. -/
theorem reverse_body_checked_eq (c : Frame) (diff_size diagonal : Int) (t : Checked)
    (u0 x y : Int) (reverse_v : List Int) (overlap : Bool)
    (hlen : t.reverse_w.length = t.search.reverse_v.length)
    (h1 : ReverseStart c diff_size diagonal t.search.reverse_v u0)
    (w1 : ReverseStartWritten c diff_size diagonal t.reverse_w)
    (h2 : reverse_snake c ((u0 - c.first_start).toNat + 1) u0 (u0 - diagonal) = some (x, y))
    (h3 : arr_set t.search.reverse_v (c.center_reverse + diagonal) x = some reverse_v)
    (h4 : ReverseOverlap c diff_size diagonal t.search.forward_v reverse_v overlap)
    (w4 : (c.delta % 2 = 0 ∧ diagonal ≥ c.delta_start - diff_size
        ∧ diagonal ≤ c.delta_start + diff_size) →
      Written t.forward_w (diagonal + c.center_forward)) :
    reverse_body_checked c diff_size diagonal t
      = .ok
        { search :=
            { t.search with
              reverse_v := reverse_v, x := x, y := y, u := u0, v := u0 - diagonal,
              found_middle_snake := overlap || t.search.found_middle_snake },
          forward_w := t.forward_w,
          reverse_w := t.reverse_w.set (c.center_reverse + diagonal).toNat true } := by
  have s2 := reverse_snake_checked_of c _ _ _ _ h2
  have s3 := write_vec_of (w := t.reverse_w) h3
  obtain ⟨b0, b1, _⟩ := arr_set_inv _ _ _ _ h3
  have wself : Written (t.reverse_w.set (c.center_reverse + diagonal).toNat true)
      (diagonal + c.center_reverse) := by
    rw [show diagonal + c.center_reverse = c.center_reverse + diagonal by omega]
    exact Written.set_self _ _ b0 (by omega)
  obtain ⟨w1a, w1b, w1c⟩ := w1
  unfold reverse_body_checked
  rcases h4 with ⟨hc, f, r, hf, hr, ho⟩ | ⟨hc, ho⟩
  · have rf := read_vec_of hf (w4 hc)
    have rr := read_vec_of hr wself
    rcases h1 with ⟨hk, above, ha, hx⟩ | ⟨hk1, hk2, below, above, hb, ha, hx⟩ | ⟨hk1, hk2, hb⟩
    · subst hx
      simp only [if_pos hk, read_vec_of ha (w1a hk), ok_bind, s2, s3, if_pos hc, rf, rr,
        pure_ok, ho]
    · by_cases hlt : below ≥ above
      · rw [if_pos hlt] at hx
        subst hx
        simp only [if_neg hk1, if_pos hk2, read_vec_of hb (w1b hk1),
          read_vec_of ha (w1c hk1 hk2), ok_bind, s2, s3, if_pos hc, rf, rr, pure_ok, ho,
          if_pos hlt]
      · rw [if_neg hlt] at hx
        subst hx
        simp only [if_neg hk1, if_pos hk2, read_vec_of hb (w1b hk1),
          read_vec_of ha (w1c hk1 hk2), ok_bind, s2, s3, if_pos hc, rf, rr, pure_ok, ho,
          if_neg hlt]
    · simp only [if_neg hk1, if_neg (not_not.mpr hk2), read_vec_of hb (w1b hk1), ok_bind, s2,
        s3, if_pos hc, rf, rr, pure_ok, ho]
  · rcases h1 with ⟨hk, above, ha, hx⟩ | ⟨hk1, hk2, below, above, hb, ha, hx⟩ | ⟨hk1, hk2, hb⟩
    · subst hx
      simp only [if_pos hk, read_vec_of ha (w1a hk), ok_bind, s2, s3, if_neg hc, pure_ok, ho]
    · by_cases hlt : below ≥ above
      · rw [if_pos hlt] at hx
        subst hx
        simp only [if_neg hk1, if_pos hk2, read_vec_of hb (w1b hk1),
          read_vec_of ha (w1c hk1 hk2), ok_bind, s2, s3, if_neg hc, pure_ok, ho, if_pos hlt]
      · rw [if_neg hlt] at hx
        subst hx
        simp only [if_neg hk1, if_pos hk2, read_vec_of hb (w1b hk1),
          read_vec_of ha (w1c hk1 hk2), ok_bind, s2, s3, if_neg hc, pure_ok, ho, if_neg hlt]
    · simp only [if_neg hk1, if_neg (not_not.mpr hk2), read_vec_of hb (w1b hk1), ok_bind, s2,
        s3, if_neg hc, pure_ok, ho]

/-- A completed pass of the body of the forward loop that read written cells only is a
completed pass of the checked body. -/
theorem forward_body_checked_of (c : Frame) (diff_size diagonal : Int) (t : Checked)
    (s1 : Search) (h : forward_body c diff_size diagonal t.search = some s1)
    (hlen : t.forward_w.length = t.search.forward_v.length)
    (w1 : ForwardStartWritten c diff_size diagonal t.forward_w)
    (w4 : (c.delta % 2 ≠ 0 ∧ diagonal ≥ c.delta_end - (diff_size - 1)
        ∧ diagonal ≤ c.delta_end + (diff_size - 1)) →
      Written t.reverse_w (diagonal + c.center_reverse)) :
    forward_body_checked c diff_size diagonal t
        = .ok { search := s1,
                forward_w := t.forward_w.set (c.center_forward + diagonal).toNat true,
                reverse_w := t.reverse_w }
      ∧ s1.forward_v.length = t.search.forward_v.length
      ∧ s1.reverse_v = t.search.reverse_v
      ∧ 0 ≤ c.center_forward + diagonal
      ∧ c.center_forward + diagonal < (t.search.forward_v.length : Int) := by
  obtain ⟨x0, u, v, fv', ov, hst, hsn, hset, hov, hs1⟩ := forward_body_inv c _ _ _ s1 h
  rw [forward_body_checked_eq c diff_size diagonal t x0 u v fv' ov hlen hst w1 hsn hset hov w4,
    hs1]
  obtain ⟨b0, b1, hfv⟩ := arr_set_inv _ _ _ _ hset
  refine ⟨rfl, ?_, rfl, b0, b1⟩
  show fv'.length = _
  rw [hfv, List.length_set]

/-- A completed pass of the body of the reverse loop that read written cells only is a
completed pass of the checked body. -/
theorem reverse_body_checked_of (c : Frame) (diff_size diagonal : Int) (t : Checked)
    (s1 : Search) (h : reverse_body c diff_size diagonal t.search = some s1)
    (hlen : t.reverse_w.length = t.search.reverse_v.length)
    (w1 : ReverseStartWritten c diff_size diagonal t.reverse_w)
    (w4 : (c.delta % 2 = 0 ∧ diagonal ≥ c.delta_start - diff_size
        ∧ diagonal ≤ c.delta_start + diff_size) →
      Written t.forward_w (diagonal + c.center_forward)) :
    reverse_body_checked c diff_size diagonal t
        = .ok { search := s1, forward_w := t.forward_w,
                reverse_w := t.reverse_w.set (c.center_reverse + diagonal).toNat true }
      ∧ s1.reverse_v.length = t.search.reverse_v.length
      ∧ s1.forward_v = t.search.forward_v
      ∧ 0 ≤ c.center_reverse + diagonal
      ∧ c.center_reverse + diagonal < (t.search.reverse_v.length : Int) := by
  obtain ⟨u0, x, y, rv', ov, hst, hsn, hset, hov, hs1⟩ := reverse_body_inv c _ _ _ s1 h
  rw [reverse_body_checked_eq c diff_size diagonal t u0 x y rv' ov hlen hst w1 hsn hset hov w4,
    hs1]
  obtain ⟨b0, b1, hrv⟩ := arr_set_inv _ _ _ _ hset
  refine ⟨rfl, ?_, rfl, b0, b1⟩
  show rv'.length = _
  rw [hrv, List.length_set]

theorem RoundWritten.set_mark {M D : Int} {w : List Bool} (h : RoundWritten M D w) (n : Nat) :
    RoundWritten M D (w.set n true) :=
  fun t h0 h1 => (h t h0 h1).set n

/-- A completed forward loop of round `D` whose reads found the cells of round `D - 1`
written is a completed checked loop; when it ends without a middle snake, it has written
all cells of round `D`. -/
theorem forward_loop_checked_of (c : Frame) (D : Int) (wr : List Bool)
    (hwr : RoundWritten c.max D wr) :
    ∀ (fuel : Nat) (j : Int) (t : Checked) (s' : Search), 0 ≤ j →
      forward_loop c D fuel (c.delta_start - D + 2 * j) t.search = some s' →
      t.reverse_w = wr → t.forward_w.length = t.search.forward_v.length →
      RoundWritten c.max D t.forward_w →
      (∀ i, 0 ≤ i → i < j → Written t.forward_w (c.max - D + 2 * i)) →
      ∃ wf', forward_loop_checked c D fuel (c.delta_start - D + 2 * j) t
          = .ok { search := s', forward_w := wf', reverse_w := wr }
        ∧ wf'.length = s'.forward_v.length ∧ s'.reverse_v = t.search.reverse_v
        ∧ (s'.found_middle_snake = false →
          ∀ i, 0 ≤ i → i ≤ D → Written wf' (c.max - D + 2 * i)) := by
  have hcf : c.center_forward = c.max - c.delta_start := rfl
  have hcr : c.center_reverse = c.max - c.delta_end := rfl
  have hdl : c.delta = c.delta_end - c.delta_start := rfl
  intro fuel
  induction fuel with
  | zero =>
    intro j t s' _ h
    simp [forward_loop] at h
  | succ n ih =>
    intro j t s' hj h hrw hlen hround hsofar
    subst hrw
    rcases forward_loop_inv c D n _ t.search s' h with ⟨hc, s1, hb, hrest⟩ | ⟨hc, hs⟩
    · have w1 : ForwardStartWritten c D (c.delta_start - D + 2 * j) t.forward_w := by
        refine ⟨fun hk => ?_, fun hk => ?_, fun hk1 hk2 => ?_⟩
        · have := hround j hj (by omega)
          rw [show c.max - D + 1 + 2 * j = c.center_forward + (c.delta_start - D + 2 * j) + 1
            by omega] at this
          exact this
        · have := hround (j - 1) (by omega) (by omega)
          rw [show c.max - D + 1 + 2 * (j - 1)
            = c.center_forward + (c.delta_start - D + 2 * j) - 1 by omega] at this
          exact this
        · have := hround j hj (by omega)
          rw [show c.max - D + 1 + 2 * j = c.center_forward + (c.delta_start - D + 2 * j) + 1
            by omega] at this
          exact this
      have w4 : (c.delta % 2 ≠ 0 ∧ c.delta_start - D + 2 * j ≥ c.delta_end - (D - 1)
          ∧ c.delta_start - D + 2 * j ≤ c.delta_end + (D - 1)) →
          Written t.reverse_w (c.delta_start - D + 2 * j + c.center_reverse) := by
        intro ⟨hodd, hlo, hhi⟩
        have := hwr ((c.delta_start - D + 2 * j - c.delta_end + D - 1) / 2) (by omega)
          (by omega)
        rw [show c.max - D + 1 + 2 * ((c.delta_start - D + 2 * j - c.delta_end + D - 1) / 2)
          = c.delta_start - D + 2 * j + c.center_reverse by omega] at this
        exact this
      obtain ⟨hbody, hl1, hr1, b0, b1⟩ := forward_body_checked_of c D _ t s1 hb hlen w1 w4
      rw [show c.delta_start - D + 2 * j + 2 = c.delta_start - D + 2 * (j + 1) by omega]
        at hrest
      obtain ⟨wf', hloop, hl', hr', hall⟩ := ih (j + 1)
        { search := s1,
          forward_w := t.forward_w.set
            (c.center_forward + (c.delta_start - D + 2 * j)).toNat true,
          reverse_w := t.reverse_w } s' (by omega) hrest rfl
        (by show (t.forward_w.set _ true).length = _; rw [List.length_set, hl1, hlen])
        (hround.set_mark _)
        (by
          intro i hi0 hi1
          show Written (t.forward_w.set _ true) _
          by_cases hij : i = j
          · subst hij
            rw [show c.max - D + 2 * i = c.center_forward + (c.delta_start - D + 2 * i)
              by omega]
            exact Written.set_self _ _ b0 (by omega)
          · exact (hsofar i hi0 (by omega)).set _)
      refine ⟨wf', ?_, hl', ?_, hall⟩
      · rw [forward_loop_checked, if_pos hc, hbody, ok_bind,
          show c.delta_start - D + 2 * j + 2 = c.delta_start - D + 2 * (j + 1) by omega]
        exact hloop
      · rw [hr']
        exact hr1
    · subst hs
      refine ⟨t.forward_w, ?_, hlen, rfl, ?_⟩
      · rw [forward_loop_checked, if_neg hc, pure_ok]
      · intro hf i hi0 hi1
        exact hsofar i hi0 (by
          by_contra hcon
          exact hc ⟨by omega, hf⟩)

/-- A completed reverse loop of round `D` whose reads found the cells of round `D - 1`
written is a completed checked loop; when it ends without a middle snake, it has written
all cells of round `D`. -/
theorem reverse_loop_checked_of (c : Frame) (D : Int) (wf : List Bool)
    (hwf : RoundWritten c.max (D + 1) wf) :
    ∀ (fuel : Nat) (j : Int) (t : Checked) (s' : Search), 0 ≤ j →
      reverse_loop c D fuel (c.delta_end - D + 2 * j) t.search = some s' →
      t.forward_w = wf → t.reverse_w.length = t.search.reverse_v.length →
      RoundWritten c.max D t.reverse_w →
      (∀ i, 0 ≤ i → i < j → Written t.reverse_w (c.max - D + 2 * i)) →
      ∃ wr', reverse_loop_checked c D fuel (c.delta_end - D + 2 * j) t
          = .ok { search := s', forward_w := wf, reverse_w := wr' }
        ∧ wr'.length = s'.reverse_v.length ∧ s'.forward_v = t.search.forward_v
        ∧ (s'.found_middle_snake = false →
          ∀ i, 0 ≤ i → i ≤ D → Written wr' (c.max - D + 2 * i)) := by
  have hcf : c.center_forward = c.max - c.delta_start := rfl
  have hcr : c.center_reverse = c.max - c.delta_end := rfl
  have hdl : c.delta = c.delta_end - c.delta_start := rfl
  intro fuel
  induction fuel with
  | zero =>
    intro j t s' _ h
    simp [reverse_loop] at h
  | succ n ih =>
    intro j t s' hj h hfw hlen hround hsofar
    subst hfw
    rcases reverse_loop_inv c D n _ t.search s' h with ⟨hc, s1, hb, hrest⟩ | ⟨hc, hs⟩
    · have w1 : ReverseStartWritten c D (c.delta_end - D + 2 * j) t.reverse_w := by
        refine ⟨fun hk => ?_, fun hk => ?_, fun hk1 hk2 => ?_⟩
        · have := hround j hj (by omega)
          rw [show c.max - D + 1 + 2 * j = c.center_reverse + (c.delta_end - D + 2 * j) + 1
            by omega] at this
          exact this
        · have := hround (j - 1) (by omega) (by omega)
          rw [show c.max - D + 1 + 2 * (j - 1)
            = c.center_reverse + (c.delta_end - D + 2 * j) - 1 by omega] at this
          exact this
        · have := hround j hj (by omega)
          rw [show c.max - D + 1 + 2 * j = c.center_reverse + (c.delta_end - D + 2 * j) + 1
            by omega] at this
          exact this
      have w4 : (c.delta % 2 = 0 ∧ c.delta_end - D + 2 * j ≥ c.delta_start - D
          ∧ c.delta_end - D + 2 * j ≤ c.delta_start + D) →
          Written t.forward_w (c.delta_end - D + 2 * j + c.center_forward) := by
        intro ⟨heven, hlo, hhi⟩
        have := hwf ((c.delta_end - D + 2 * j - c.delta_start + D) / 2) (by omega)
          (by omega)
        rw [show c.max - (D + 1) + 1 + 2 * ((c.delta_end - D + 2 * j - c.delta_start + D) / 2)
          = c.delta_end - D + 2 * j + c.center_forward by omega] at this
        exact this
      obtain ⟨hbody, hl1, hr1, b0, b1⟩ := reverse_body_checked_of c D _ t s1 hb hlen w1 w4
      rw [show c.delta_end - D + 2 * j + 2 = c.delta_end - D + 2 * (j + 1) by omega]
        at hrest
      obtain ⟨wr', hloop, hl', hr', hall⟩ := ih (j + 1)
        { search := s1, forward_w := t.forward_w,
          reverse_w := t.reverse_w.set
            (c.center_reverse + (c.delta_end - D + 2 * j)).toNat true } s' (by omega) hrest rfl
        (by show (t.reverse_w.set _ true).length = _; rw [List.length_set, hl1, hlen])
        (hround.set_mark _)
        (by
          intro i hi0 hi1
          show Written (t.reverse_w.set _ true) _
          by_cases hij : i = j
          · subst hij
            rw [show c.max - D + 2 * i = c.center_reverse + (c.delta_end - D + 2 * i)
              by omega]
            exact Written.set_self _ _ b0 (by omega)
          · exact (hsofar i hi0 (by omega)).set _)
      refine ⟨wr', ?_, hl', ?_, hall⟩
      · rw [reverse_loop_checked, if_pos hc, hbody, ok_bind,
          show c.delta_end - D + 2 * j + 2 = c.delta_end - D + 2 * (j + 1) by omega]
        exact hloop
      · rw [hr']
        exact hr1
    · subst hs
      refine ⟨t.reverse_w, ?_, hlen, rfl, ?_⟩
      · rw [reverse_loop_checked, if_neg hc, pure_ok]
      · intro hf i hi0 hi1
        exact hsofar i hi0 (by
          by_contra hcon
          exact hc ⟨by omega, hf⟩)

/-- A completed search whose rounds read written cells only is a completed checked
search; when it ends without a middle snake, the cells of its last round are written. -/
theorem search_loop_checked_of (c : Frame) :
    ∀ (fuel : Nat) (D : Int) (t : Checked) (r : Int × Search), 0 ≤ D →
      search_loop c fuel D t.search = some r →
      t.forward_w.length = t.search.forward_v.length →
      t.reverse_w.length = t.search.reverse_v.length →
      (t.search.found_middle_snake = false →
        RoundWritten c.max D t.forward_w ∧ RoundWritten c.max D t.reverse_w) →
      ∃ wf' wr', search_loop_checked c fuel D t
          = .ok (r.1, { search := r.2, forward_w := wf', reverse_w := wr' })
        ∧ (r.2.found_middle_snake = false →
          RoundWritten c.max r.1 wf' ∧ RoundWritten c.max r.1 wr') := by
  intro fuel
  induction fuel with
  | zero =>
    intro D t r _ h
    simp [search_loop] at h
  | succ n ih =>
    intro D t r hD h hlf hlr hinv
    rcases search_loop_inv c n D t.search r h with ⟨hc, s1, s2, h1, h2, hrest⟩ | ⟨hc, hr⟩
    · obtain ⟨hwf, hwr⟩ := hinv hc.2
      rw [show c.delta_start - D = c.delta_start - D + 2 * 0 by omega] at h1
      obtain ⟨wf1, e1, l1, r1, all1⟩ := forward_loop_checked_of c D t.reverse_w hwr _ 0 t s1
        (le_refl _) h1 rfl hlf hwf (fun i h0 h1 => by omega)
      rw [show c.delta_start - D + 2 * 0 = c.delta_start - D by omega] at e1
      by_cases hf1 : s1.found_middle_snake = false
      · have hwf1 : RoundWritten c.max (D + 1) wf1 := by
          intro i hi0 hi1
          have := all1 hf1 i hi0 (by omega)
          rw [show c.max - (D + 1) + 1 + 2 * i = c.max - D + 2 * i by omega]
          exact this
        rw [show c.delta_end - D = c.delta_end - D + 2 * 0 by omega] at h2
        obtain ⟨wr2, e2, l2, r2, all2⟩ := reverse_loop_checked_of c D wf1 hwf1 _ 0
          { search := s1, forward_w := wf1, reverse_w := t.reverse_w } s2 (le_refl _) h2 rfl
          (by show t.reverse_w.length = s1.reverse_v.length; rw [r1, hlr]) hwr
          (fun i h0 h1 => by omega)
        rw [show c.delta_end - D + 2 * 0 = c.delta_end - D by omega] at e2
        obtain ⟨wf', wr', e3, hfin⟩ := ih (D + 1)
          { search := s2, forward_w := wf1, reverse_w := wr2 } r (by omega) hrest
          (by show wf1.length = s2.forward_v.length; rw [r2, l1]) l2
          (fun hf2 => ⟨hwf1, by
            intro i hi0 hi1
            have := all2 hf2 i hi0 (by omega)
            rw [show c.max - (D + 1) + 1 + 2 * i = c.max - D + 2 * i by omega]
            exact this⟩)
        refine ⟨wf', wr', ?_, hfin⟩
        rw [search_loop_checked, if_pos hc, e1, ok_bind, e2, ok_bind]
        exact e3
      · have hf1' : s1.found_middle_snake = true := by simpa using hf1
        have hs2 : s2 = s1 := by
          rcases reverse_loop_inv c D _ _ s1 s2 h2 with ⟨⟨_, hcon⟩, _⟩ | ⟨_, hs⟩
          · rw [hf1'] at hcon
            exact absurd hcon (by simp)
          · exact hs
        subst hs2
        obtain ⟨wf', wr', e3, hfin⟩ := ih (D + 1)
          { search := s2, forward_w := wf1, reverse_w := t.reverse_w } r (by omega) hrest l1
          (by show t.reverse_w.length = s2.reverse_v.length; rw [r1, hlr])
          (fun hf2 => by
            have : s2.found_middle_snake = false := hf2
            rw [hf1'] at this
            exact absurd this (by simp))
        refine ⟨wf', wr', ?_, hfin⟩
        rw [search_loop_checked, if_pos hc, e1, ok_bind]
        have e2 : reverse_loop_checked c D (D.toNat + 2) (c.delta_end - D)
            { search := s2, forward_w := wf1, reverse_w := t.reverse_w }
            = .ok { search := s2, forward_w := wf1, reverse_w := t.reverse_w } := by
          rw [reverse_loop_checked, if_neg (by
            intro ⟨_, hcon⟩
            have : s2.found_middle_snake = false := hcon
            rw [hf1'] at this
            exact absurd this (by simp)), pure_ok]
        rw [e2, ok_bind]
        exact e3
    · subst hr
      refine ⟨t.forward_w, t.reverse_w, ?_, hinv⟩
      rw [search_loop_checked, if_neg hc, pure_ok]

theorem forward_best_checked_of (c : Frame) (forward_v : List Int) (w : List Bool)
    (diff_size : Int) :
    ∀ (fuel : Nat) (diagonal : Int) (best r : Int × Int),
      forward_best c forward_v diff_size fuel diagonal best = some r →
      (∀ k, diagonal ≤ k → k ≤ c.delta_start + diff_size → (k - diagonal) % 2 = 0 →
        Written w (c.center_forward + k)) →
      forward_best_checked c forward_v w diff_size fuel diagonal best = .ok r := by
  intro fuel
  induction fuel with
  | zero =>
    intro diagonal best r h
    simp [forward_best] at h
  | succ n ih =>
    intro diagonal best r h hw
    obtain ⟨bx, bz⟩ := best
    rw [forward_best] at h
    rw [forward_best_checked]
    by_cases hc : diagonal ≤ c.delta_start + diff_size
    · rw [if_pos hc] at h ⊢
      cases hx : arr_get forward_v (c.center_forward + diagonal) with
      | none => simp [hx] at h
      | some x =>
        simp only [hx, Option.bind_eq_bind, Option.some_bind] at h
        rw [read_vec_of hx (hw diagonal (le_refl _) hc (by omega)), ok_bind]
        simp only []
        by_cases hgt : x + (x - diagonal) > bx + bz
        · rw [if_pos hgt] at h ⊢
          exact ih _ _ _ h (fun k h1 h2 h3 => hw k (by omega) h2 (by omega))
        · rw [if_neg hgt] at h ⊢
          exact ih _ _ _ h (fun k h1 h2 h3 => hw k (by omega) h2 (by omega))
    · rw [if_neg hc] at h ⊢
      rw [pure_ok]
      exact congrArg Except.ok (Option.some.inj h)

theorem reverse_best_checked_of (c : Frame) (reverse_v : List Int) (w : List Bool)
    (diff_size : Int) :
    ∀ (fuel : Nat) (diagonal : Int) (best r : Int × Int),
      reverse_best c reverse_v diff_size fuel diagonal best = some r →
      (∀ k, diagonal ≤ k → k ≤ c.delta_end + diff_size → (k - diagonal) % 2 = 0 →
        Written w (c.center_reverse + k)) →
      reverse_best_checked c reverse_v w diff_size fuel diagonal best = .ok r := by
  intro fuel
  induction fuel with
  | zero =>
    intro diagonal best r h
    simp [reverse_best] at h
  | succ n ih =>
    intro diagonal best r h hw
    obtain ⟨bx, bz⟩ := best
    rw [reverse_best] at h
    rw [reverse_best_checked]
    by_cases hc : diagonal ≤ c.delta_end + diff_size
    · rw [if_pos hc] at h ⊢
      cases hx : arr_get reverse_v (c.center_reverse + diagonal) with
      | none => simp [hx] at h
      | some x =>
        simp only [hx, Option.bind_eq_bind, Option.some_bind] at h
        rw [read_vec_of hx (hw diagonal (le_refl _) hc (by omega)), ok_bind]
        simp only []
        by_cases hgt : x + (x - diagonal) < bx + bz
        · rw [if_pos hgt] at h ⊢
          exact ih _ _ _ h (fun k h1 h2 h3 => hw k (by omega) h2 (by omega))
        · rw [if_neg hgt] at h ⊢
          exact ih _ _ _ h (fun k h1 h2 h3 => hw k (by omega) h2 (by omega))
    · rw [if_neg hc] at h ⊢
      rw [pure_ok]
      exact congrArg Except.ok (Option.some.inj h)

/-- A completed fallback that read cells of the last round only is a completed checked
fallback. -/
theorem fallback_split_checked_of (c : Frame) (t : Checked) (diff_size : Int) (r : Int × Int)
    (h : fallback_split c t.search diff_size = some r)
    (hwf : RoundWritten c.max (diff_size + 1) t.forward_w)
    (hwr : RoundWritten c.max (diff_size + 1) t.reverse_w) :
    fallback_split_checked c t diff_size = .ok r := by
  have hcf : c.center_forward = c.max - c.delta_start := rfl
  have hcr : c.center_reverse = c.max - c.delta_end := rfl
  unfold fallback_split at h
  unfold fallback_split_checked
  cases h1 : forward_best c t.search.forward_v diff_size (diff_size.toNat + 2)
      (c.delta_start - diff_size) (0, 0) with
  | none =>
    rw [h1] at h
    exact Option.noConfusion h
  | some fb =>
    cases h2 : reverse_best c t.search.reverse_v diff_size (diff_size.toNat + 2)
        (c.delta_end - diff_size) (c.first_end, c.second_end) with
    | none =>
      rw [h1] at h
      simp only [Option.bind_eq_bind, Option.some_bind] at h
      rw [h2] at h
      exact Option.noConfusion h
    | some rb =>
      obtain ⟨fbx, fby⟩ := fb
      obtain ⟨rbx, rby⟩ := rb
      have e1 := forward_best_checked_of c t.search.forward_v t.forward_w diff_size _ _ _ _ h1
        (by
          intro k hk1 hk2 hk3
          have := hwf ((k - (c.delta_start - diff_size)) / 2) (by omega) (by omega)
          rw [show c.max - (diff_size + 1) + 1 + 2 * ((k - (c.delta_start - diff_size)) / 2)
            = c.center_forward + k by omega] at this
          exact this)
      have e2 := reverse_best_checked_of c t.search.reverse_v t.reverse_w diff_size _ _ _ _ h2
        (by
          intro k hk1 hk2 hk3
          have := hwr ((k - (c.delta_end - diff_size)) / 2) (by omega) (by omega)
          rw [show c.max - (diff_size + 1) + 1 + 2 * ((k - (c.delta_end - diff_size)) / 2)
            = c.center_reverse + k by omega] at this
          exact this)
      rw [h1] at h
      simp only [Option.bind_eq_bind, Option.some_bind] at h
      rw [h2] at h
      simp only [Option.some_bind] at h
      simp only [e1, ok_bind, e2]
      by_cases hgt : (fbx - c.first_start) + (fby - c.second_start) >
          (c.first_end - rbx) + (c.second_end - rby)
      · rw [if_pos hgt] at h ⊢
        rw [pure_ok]
        exact congrArg Except.ok (Option.some.inj h)
      · rw [if_neg hgt] at h ⊢
        rw [pure_ok]
        exact congrArg Except.ok (Option.some.inj h)

/-- The result of the checked `find_split` from the results of its steps. -/
theorem find_split_checked_of_steps (f_hash s_hash : List Nat) (too_expensive : Int)
    (first_start first_end second_start second_end : Int) (forward_v reverse_v : List Int)
    (fv1 rv1 : List Int) (wf1 wr1 : List Bool) (dsz : Int) (t : Checked)
    (h1 : write_vec forward_v (List.replicate forward_v.length false)
        (call_max too_expensive first_start first_end second_start second_end + 1)
        first_start = .ok (fv1, wf1))
    (h2 : write_vec reverse_v (List.replicate reverse_v.length false)
        (call_max too_expensive first_start first_end second_start second_end + 1)
        (first_end + 1) = .ok (rv1, wr1))
    (h3 : search_loop_checked
        (call_frame f_hash s_hash too_expensive first_start first_end second_start second_end)
        ((call_max too_expensive first_start first_end second_start second_end).toNat + 2) 0
        { search := start_search fv1 rv1, forward_w := wf1, reverse_w := wr1 }
        = .ok (dsz, t)) :
    find_split_checked f_hash s_hash too_expensive first_start first_end second_start
        second_end forward_v reverse_v
      = if t.search.found_middle_snake = true then
          .ok { forward_v := t.search.forward_v, reverse_v := t.search.reverse_v,
                diff_size := dsz - 1,
                delta_even := decide ((call_frame f_hash s_hash too_expensive first_start
                  first_end second_start second_end).delta % 2 = 0),
                x := t.search.x, y := t.search.y, u := t.search.u, v := t.search.v }
        else
          (fallback_split_checked (call_frame f_hash s_hash too_expensive first_start
              first_end second_start second_end) t (dsz - 1)) >>= fun p =>
            .ok { forward_v := t.search.forward_v, reverse_v := t.search.reverse_v,
                  diff_size := dsz - 1,
                  delta_even := decide ((call_frame f_hash s_hash too_expensive first_start
                    first_end second_start second_end).delta % 2 = 0),
                  x := p.1, y := p.2, u := p.1, v := p.2 } := by
  unfold find_split_checked
  simp only [call_max, call_frame, start_search] at h1 h2 h3
  simp only [h1, h2, h3, ok_bind, call_frame]
  by_cases hf : t.search.found_middle_snake = true
  · rw [if_pos hf, if_pos hf]
    rfl
  · rw [if_neg hf, if_neg hf]
    rfl

/-- Every completed call of `find_split` is a completed call of the checked `find_split`
with the same result: it indexed the scratch vectors inside their allocation and read
only cells it had written itself. -/
theorem find_split_checked_of (f_hash s_hash : List Nat) (too_expensive : Int)
    (first_start first_end second_start second_end : Int) (forward_v reverse_v : List Int)
    (sp : Split)
    (h : find_split f_hash s_hash too_expensive first_start first_end second_start second_end
      forward_v reverse_v = some sp) :
    find_split_checked f_hash s_hash too_expensive first_start first_end second_start
      second_end forward_v reverse_v = .ok sp := by
  obtain ⟨fv1, rv1, dsz, s, h1, h2, h3, e1, e2, e3, e4, hcase⟩ :=
    find_split_inv _ _ _ _ _ _ _ _ _ _ h
  obtain ⟨a0, a1, hfv1⟩ := arr_set_inv _ _ _ _ h1
  obtain ⟨b0, b1, hrv1⟩ := arr_set_inv _ _ _ _ h2
  obtain ⟨wf', wr', hs, hfin⟩ := search_loop_checked_of _ _ 0
    { search := start_search fv1 rv1,
      forward_w := (List.replicate forward_v.length false).set
        (call_max too_expensive first_start first_end second_start second_end + 1).toNat true,
      reverse_w := (List.replicate reverse_v.length false).set
        (call_max too_expensive first_start first_end second_start second_end + 1).toNat true }
    (dsz, s) (le_refl _) h3
    (by
      show ((List.replicate forward_v.length false).set _ true).length = fv1.length
      rw [List.length_set, List.length_replicate, hfv1, List.length_set])
    (by
      show ((List.replicate reverse_v.length false).set _ true).length = rv1.length
      rw [List.length_set, List.length_replicate, hrv1, List.length_set])
    (by
      intro _
      constructor
      · intro i hi0 hi1
        have hi : i = 0 := by omega
        subst hi
        rw [show (call_frame f_hash s_hash too_expensive first_start first_end second_start
          second_end).max - 0 + 1 + 2 * 0
          = call_max too_expensive first_start first_end second_start second_end + 1 by
            show call_max too_expensive first_start first_end second_start second_end
              - 0 + 1 + 2 * 0 = _
            omega]
        exact Written.set_self _ _ a0 (by rw [List.length_replicate]; exact a1)
      · intro i hi0 hi1
        have hi : i = 0 := by omega
        subst hi
        rw [show (call_frame f_hash s_hash too_expensive first_start first_end second_start
          second_end).max - 0 + 1 + 2 * 0
          = call_max too_expensive first_start first_end second_start second_end + 1 by
            show call_max too_expensive first_start first_end second_start second_end
              - 0 + 1 + 2 * 0 = _
            omega]
        exact Written.set_self _ _ b0 (by rw [List.length_replicate]; exact b1))
  rw [find_split_checked_of_steps f_hash s_hash too_expensive first_start first_end
    second_start second_end forward_v reverse_v fv1 rv1 _ _ dsz
    { search := s, forward_w := wf', reverse_w := wr' } (write_vec_of h1) (write_vec_of h2) hs]
  obtain ⟨spf, spr, spd, spe, spx, spy, spu, spv⟩ := sp
  simp only at e1 e2 e3 e4 hcase
  rcases hcase with ⟨hf, ex, ey, eu, ev⟩ | ⟨hf, eu, ev, hfb⟩
  · rw [if_pos hf]
    simp only [e1, e2, e3, e4, ex, ey, eu, ev]
  · rw [if_neg (by simp [hf])]
    rw [fallback_split_checked_of _ { search := s, forward_w := wf', reverse_w := wr' } _ _ hfb
      (by rw [show dsz - 1 + 1 = dsz by omega]; exact (hfin hf).1)
      (by rw [show dsz - 1 + 1 = dsz by omega]; exact (hfin hf).2), ok_bind]
    simp only [e1, e2, e3, e4, eu, ev]

/-! ## A call outside the fingerprint tables stops in round 0 -/

/-- With enough fuel, a forward snake fails only on a read outside a table. -/
theorem forward_snake_checked_fault (c : Frame) :
    ∀ (fuel : Nat) (u v : Int), (c.first_end - u).toNat + 1 ≤ fuel →
      forward_snake c fuel u v = none → forward_snake_checked c fuel u v = .error .table := by
  intro fuel
  induction fuel with
  | zero =>
    intro u v hf _
    omega
  | succ n ih =>
    intro u v hf h
    rw [forward_snake] at h
    rw [forward_snake_checked]
    by_cases hc : u < c.first_end ∧ v < c.second_end
    · rw [if_pos hc] at h ⊢
      cases ha : arr_get c.f_hash u with
      | none => rw [read_table_fault ha, error_bind]
      | some a =>
        rw [read_table_of ha, ok_bind]
        cases hb : arr_get c.s_hash v with
        | none => rw [read_table_fault hb, error_bind]
        | some b =>
          rw [read_table_of hb, ok_bind]
          simp only [ha, hb, Option.bind_eq_bind, Option.some_bind] at h
          by_cases hab : a = b
          · rw [if_pos hab] at h ⊢
            exact ih _ _ (by omega) h
          · rw [if_neg hab] at h
            exact Option.noConfusion h
    · rw [if_neg hc] at h
      exact Option.noConfusion h

/-- With enough fuel, a reverse snake fails only on a read outside a table. -/
theorem reverse_snake_checked_fault (c : Frame) :
    ∀ (fuel : Nat) (x y : Int), (x - c.first_start).toNat + 1 ≤ fuel →
      reverse_snake c fuel x y = none → reverse_snake_checked c fuel x y = .error .table := by
  intro fuel
  induction fuel with
  | zero =>
    intro x y hf _
    omega
  | succ n ih =>
    intro x y hf h
    rw [reverse_snake] at h
    rw [reverse_snake_checked]
    by_cases hc : x > c.first_start ∧ y > c.second_start
    · rw [if_pos hc] at h ⊢
      cases ha : arr_get c.f_hash (x - 1) with
      | none => rw [read_table_fault ha, error_bind]
      | some a =>
        rw [read_table_of ha, ok_bind]
        cases hb : arr_get c.s_hash (y - 1) with
        | none => rw [read_table_fault hb, error_bind]
        | some b =>
          rw [read_table_of hb, ok_bind]
          simp only [ha, hb, Option.bind_eq_bind, Option.some_bind] at h
          by_cases hab : a = b
          · rw [if_pos hab] at h ⊢
            exact ih _ _ (by omega) h
          · rw [if_neg hab] at h
            exact Option.noConfusion h
    · rw [if_neg hc] at h
      exact Option.noConfusion h

/-- The first pass of the checked forward body (round 0) either completes like the
unchecked one or stops at a read outside a table. -/
theorem forward_body_checked_zero (c : Frame) (t : Checked) (x0 : Int)
    (hlen : t.forward_w.length = t.search.forward_v.length)
    (hseed : arr_get t.search.forward_v (c.max + 1) = some x0)
    (hw : Written t.forward_w (c.max + 1))
    (h0 : 0 ≤ c.max) :
    forward_body_checked c 0 (c.delta_start - 0) t = .error .table
      ∨ ∃ s1, forward_body c 0 (c.delta_start - 0) t.search = some s1
        ∧ forward_body_checked c 0 (c.delta_start - 0) t
          = .ok { search := s1,
                  forward_w := t.forward_w.set
                    (c.center_forward + (c.delta_start - 0)).toNat true,
                  reverse_w := t.reverse_w }
        ∧ forward_snake c ((c.first_end - x0).toNat + 1) x0 (x0 - (c.delta_start - 0))
          = some (s1.u, s1.v)
        ∧ s1.found_middle_snake = t.search.found_middle_snake
        ∧ s1.reverse_v = t.search.reverse_v
        ∧ s1.forward_v.length = t.search.forward_v.length := by
  have hcf : c.center_forward = c.max - c.delta_start := rfl
  have hidx : c.center_forward + (c.delta_start - 0) + 1 = c.max + 1 := by omega
  have hst : ForwardStart c 0 (c.delta_start - 0) t.search.forward_v x0 :=
    Or.inl ⟨rfl, by rw [hidx]; exact hseed⟩
  have hsw : ForwardStartWritten c 0 (c.delta_start - 0) t.forward_w :=
    ⟨fun _ => by rw [hidx]; exact hw, fun hk => absurd rfl hk, fun hk _ => absurd rfl hk⟩
  cases hsn : forward_snake c ((c.first_end - x0).toNat + 1) x0 (x0 - (c.delta_start - 0)) with
  | none =>
    left
    have hfault := forward_snake_checked_fault c _ _ _ (le_refl _) hsn
    unfold forward_body_checked
    simp only [if_pos (show c.delta_start - 0 = c.delta_start - 0 from rfl),
      read_vec_of (show arr_get t.search.forward_v (c.center_forward + (c.delta_start - 0) + 1)
        = some x0 by rw [hidx]; exact hseed) (hsw.1 rfl), ok_bind, hfault, error_bind, if_true]
  | some p =>
    right
    obtain ⟨u, v⟩ := p
    have hb := arr_get_bounds _ _ _ hseed
    obtain ⟨fv', hset⟩ : ∃ fv', arr_set t.search.forward_v
        (c.center_forward + (c.delta_start - 0)) u = some fv' := by
      refine ⟨_, arr_set_at _ _ c.max.toNat u (by omega) (by omega)⟩
    have hov : ForwardOverlap c 0 (c.delta_start - 0) fv' t.search.reverse_v false :=
      Or.inr ⟨fun ⟨_, h1, h2⟩ => by omega, rfl⟩
    have hplain := forward_body_eq c 0 (c.delta_start - 0) t.search x0 u v fv' false hst hsn hset
      hov
    have hchk := forward_body_checked_eq c 0 (c.delta_start - 0) t x0 u v fv' false hlen hst hsw
      hsn hset hov (fun ⟨_, h1, h2⟩ => by omega)
    refine ⟨_, hplain, hchk, rfl, by simp, rfl, ?_⟩
    obtain ⟨_, _, hfv⟩ := arr_set_inv _ _ _ _ hset
    show fv'.length = _
    rw [hfv, List.length_set]

/-- The first pass of the checked reverse body (round 0) stops at a read outside a table
when the unchecked one does not complete. -/
theorem reverse_body_checked_zero (c : Frame) (t : Checked) (a : Int)
    (hseed : arr_get t.search.reverse_v (c.max + 1) = some a)
    (hw : Written t.reverse_w (c.max + 1))
    (hsn : reverse_snake c ((a - 1 - c.first_start).toNat + 1) (a - 1)
      (a - 1 - (c.delta_end - 0)) = none) :
    reverse_body_checked c 0 (c.delta_end - 0) t = .error .table := by
  have hcr : c.center_reverse = c.max - c.delta_end := rfl
  have hidx : c.center_reverse + (c.delta_end - 0) + 1 = c.max + 1 := by omega
  have hfault := reverse_snake_checked_fault c _ _ _ (le_refl _) hsn
  unfold reverse_body_checked
  simp only [if_pos (show c.delta_end - 0 = c.delta_end - 0 from rfl),
    read_vec_of (show arr_get t.search.reverse_v (c.center_reverse + (c.delta_end - 0) + 1)
      = some a by rw [hidx]; exact hseed)
      (show Written t.reverse_w (c.center_reverse + (c.delta_end - 0) + 1) by
        rw [hidx]; exact hw), ok_bind, pure_ok, hfault, error_bind, if_true]

/-- The checked `find_split` stops with the fault of its search. -/
theorem find_split_checked_fault (f_hash s_hash : List Nat) (too_expensive : Int)
    (first_start first_end second_start second_end : Int) (forward_v reverse_v : List Int)
    (fv1 rv1 : List Int) (wf1 wr1 : List Bool) (e : Fault)
    (h1 : write_vec forward_v (List.replicate forward_v.length false)
        (call_max too_expensive first_start first_end second_start second_end + 1)
        first_start = .ok (fv1, wf1))
    (h2 : write_vec reverse_v (List.replicate reverse_v.length false)
        (call_max too_expensive first_start first_end second_start second_end + 1)
        (first_end + 1) = .ok (rv1, wr1))
    (h3 : search_loop_checked
        (call_frame f_hash s_hash too_expensive first_start first_end second_start second_end)
        ((call_max too_expensive first_start first_end second_start second_end).toNat + 2) 0
        { search := start_search fv1 rv1, forward_w := wf1, reverse_w := wr1 }
        = .error e) :
    find_split_checked f_hash s_hash too_expensive first_start first_end second_start
        second_end forward_v reverse_v = .error e := by
  unfold find_split_checked
  simp only [call_max, call_frame, start_search] at h1 h2 h3
  simp only [h1, h2, h3, ok_bind, error_bind]

/-- Round 0 of the checked search of a call whose ranges are not inside the fingerprint
tables stops at a read outside a table. -/
theorem search_loop_checked_off_table (c : Frame) (fuel : Nat) (t : Checked)
    (h1 : c.first_start < c.first_end) (h2 : c.second_start < c.second_end)
    (hoff : ¬ c.in_table) (hmax : 0 ≤ c.max)
    (hflag : t.search.found_middle_snake = false)
    (hlen : t.forward_w.length = t.search.forward_v.length)
    (hf : arr_get t.search.forward_v (c.max + 1) = some c.first_start)
    (hwf : Written t.forward_w (c.max + 1))
    (hr : arr_get t.search.reverse_v (c.max + 1) = some (c.first_end + 1))
    (hwr : Written t.reverse_w (c.max + 1)) :
    search_loop_checked c (fuel + 1) 0 t = .error .table := by
  have hds : c.delta_start = c.first_start - c.second_start := rfl
  have hde : c.delta_end = c.first_end - c.second_end := rfl
  rw [search_loop_checked, if_pos ⟨hmax, hflag⟩, show (0 : Int).toNat + 2 = 1 + 1 from rfl,
    forward_loop_checked, if_pos ⟨by omega, hflag⟩]
  rcases forward_body_checked_zero c t c.first_start hlen hf hwf hmax with
    herr | ⟨s1, _, hchk, hsn, hfound, hrv, _⟩
  · rw [herr]
    rfl
  · rw [hchk, ok_bind, forward_loop_checked,
      if_neg (by intro ⟨hle, _⟩; omega), pure_ok, ok_bind, reverse_loop_checked,
      if_pos ⟨by omega, by show s1.found_middle_snake = false; rw [hfound, hflag]⟩]
    have hread := forward_snake_reads c _ _ _ _ hsn h1 (by omega)
    have hnone : reverse_snake c ((c.first_end + 1 - 1 - c.first_start).toNat + 1)
        (c.first_end + 1 - 1) (c.first_end + 1 - 1 - (c.delta_end - 0)) = none := by
      cases hrs : reverse_snake c ((c.first_end + 1 - 1 - c.first_start).toNat + 1)
          (c.first_end + 1 - 1) (c.first_end + 1 - 1 - (c.delta_end - 0)) with
      | none => rfl
      | some r =>
        exfalso
        have hread2 := reverse_snake_reads c _ _ _ _ hrs (by omega) (by omega)
        apply hoff
        unfold Frame.in_table
        omega
    rw [reverse_body_checked_zero c
      { search := s1,
        forward_w := t.forward_w.set (c.center_forward + (c.delta_start - 0)).toNat true,
        reverse_w := t.reverse_w } (c.first_end + 1)
      (by show arr_get s1.reverse_v (c.max + 1) = _; rw [hrv]; exact hr) hwr hnone]
    rfl

/-- A call of the checked `find_split` on non-empty ranges, with a positive budget and
scratch vectors of at least `2 * (max + 1)` cells for the uncapped `max`, either completes
with the split of the unchecked `find_split`, or stops at a read outside a fingerprint
table.  It never indexes a scratch vector outside its allocation, never reads a cell it
has not written itself, and never runs out of loop fuel. -/
theorem find_split_checked_total (f_hash s_hash : List Nat) (too_expensive : Int)
    (first_start first_end second_start second_end : Int) (forward_v reverse_v : List Int)
    (hte : 1 ≤ too_expensive)
    (h1 : first_start < first_end) (h2 : second_start < second_end)
    (hLf : 2 * ((first_end - first_start + second_end - second_start) / 2 + 1)
      ≤ (forward_v.length : Int))
    (hLr : 2 * ((first_end - first_start + second_end - second_start) / 2 + 1)
      ≤ (reverse_v.length : Int)) :
    (∃ sp, find_split f_hash s_hash too_expensive first_start first_end second_start
          second_end forward_v reverse_v = some sp
        ∧ find_split_checked f_hash s_hash too_expensive first_start first_end second_start
          second_end forward_v reverse_v = .ok sp
        ∧ sp.forward_v.length = forward_v.length ∧ sp.reverse_v.length = reverse_v.length
        ∧ SplitOK (call_frame f_hash s_hash too_expensive first_start first_end second_start
          second_end) sp)
      ∨ (¬ (call_frame f_hash s_hash too_expensive first_start first_end second_start
          second_end).in_table
        ∧ find_split_checked f_hash s_hash too_expensive first_start first_end second_start
          second_end forward_v reverse_v = .error .table) := by
  by_cases hc : (call_frame f_hash s_hash too_expensive first_start first_end second_start
      second_end).in_table
  · left
    obtain ⟨sp, hsp, hl1, hl2, hok⟩ := find_split_spec f_hash s_hash too_expensive first_start
      first_end second_start second_end forward_v reverse_v hte hc hLf hLr
    exact ⟨sp, hsp, find_split_checked_of _ _ _ _ _ _ _ _ _ _ hsp, hl1, hl2, hok⟩
  · right
    refine ⟨hc, ?_⟩
    have hmaxeq : (call_frame f_hash s_hash too_expensive first_start first_end second_start
        second_end).max = call_max too_expensive first_start first_end second_start
        second_end := rfl
    have hM : 1 ≤ call_max too_expensive first_start first_end second_start second_end
        ∧ call_max too_expensive first_start first_end second_start second_end
          ≤ (first_end - first_start + second_end - second_start) / 2 + 1 := by
      unfold call_max
      split_ifs <;> omega
    have hset1 := arr_set_at forward_v
      (call_max too_expensive first_start first_end second_start second_end + 1)
      (call_max too_expensive first_start first_end second_start second_end + 1).toNat
      first_start (by omega) (by omega)
    have hset2 := arr_set_at reverse_v
      (call_max too_expensive first_start first_end second_start second_end + 1)
      (call_max too_expensive first_start first_end second_start second_end + 1).toNat
      (first_end + 1) (by omega) (by omega)
    refine find_split_checked_fault _ _ _ _ _ _ _ _ _ _ _ _ _ .table (write_vec_of hset1)
      (write_vec_of hset2) ?_
    refine search_loop_checked_off_table _ _ _ h1 h2 hc (by rw [hmaxeq]; omega) rfl ?_ ?_ ?_ ?_
      ?_
    · show ((List.replicate forward_v.length false).set _ true).length
        = (forward_v.set _ first_start).length
      rw [List.length_set, List.length_set, List.length_replicate]
    · rw [hmaxeq]
      exact arr_get_set_self _ _ _ _ hset1
    · rw [hmaxeq]
      exact Written.set_self _ _ (by omega) (by rw [List.length_replicate]; omega)
    · rw [hmaxeq]
      exact arr_get_set_self _ _ _ _ hset2
    · rw [hmaxeq]
      exact Written.set_self _ _ (by omega) (by rw [List.length_replicate]; omega)

/-! ## The checked and the unchecked engine end the same way -/

theorem Agree.bind {α β : Type} {P : α → Prop} {Q : β → Prop} {x : Except Fault α}
    {y : Option α} {f : α → Except Fault β} {g : α → Option β} (h : Agree P x y)
    (hfg : ∀ r, P r → Agree Q (f r) (g r)) : Agree Q (x >>= f) (y.bind g) := by
  rcases h with ⟨r, hx, hy, hp⟩ | ⟨hx, hy⟩
  · rw [hx, hy, ok_bind, Option.some_bind]
    exact hfg r hp
  · rw [hx, hy, error_bind, Option.none_bind]
    exact Or.inr ⟨rfl, rfl⟩

theorem Agree.ok {α : Type} {P : α → Prop} (r : α) (h : P r) :
    Agree P (Except.ok r) (some r) :=
  Or.inl ⟨r, rfl, rfl, h⟩

theorem add_range_agree (src : List String) (n : Nat) (i : Int) (result : List String) :
    Agree (fun _ => True) (add_range_checked src n i result) (add_range src n i result) := by
  unfold add_range_checked
  cases h : add_range src n i result with
  | none => exact Or.inr ⟨rfl, rfl⟩
  | some r => exact Or.inl ⟨r, rfl, rfl, trivial⟩

/-- The checked `find_split` and the unchecked one end the same way. -/
theorem find_split_agree (f_hash s_hash : List Nat) (too_expensive : Int)
    (first_start first_end second_start second_end : Int) (forward_v reverse_v : List Int)
    (hte : 1 ≤ too_expensive)
    (h1 : first_start < first_end) (h2 : second_start < second_end)
    (hLf : 2 * ((first_end - first_start + second_end - second_start) / 2 + 1)
      ≤ (forward_v.length : Int))
    (hLr : 2 * ((first_end - first_start + second_end - second_start) / 2 + 1)
      ≤ (reverse_v.length : Int)) :
    Agree (fun sp => sp.forward_v.length = forward_v.length
        ∧ sp.reverse_v.length = reverse_v.length
        ∧ find_split f_hash s_hash too_expensive first_start first_end second_start
          second_end forward_v reverse_v = some sp)
      (find_split_checked f_hash s_hash too_expensive first_start first_end second_start
        second_end forward_v reverse_v)
      (find_split f_hash s_hash too_expensive first_start first_end second_start
        second_end forward_v reverse_v) := by
  rcases find_split_checked_total f_hash s_hash too_expensive first_start first_end
    second_start second_end forward_v reverse_v hte h1 h2 hLf hLr with
    ⟨sp, hs, hc, hl1, hl2, _⟩ | ⟨hoff, hc⟩
  · exact Or.inl ⟨sp, hc, hs, hl1, hl2, hs⟩
  · refine Or.inr ⟨hc, ?_⟩
    cases hs : find_split f_hash s_hash too_expensive first_start first_end second_start
        second_end forward_v reverse_v with
    | none => rfl
    | some sp => exact absurd (find_split_in_table _ _ _ _ _ _ _ _ _ _ hte h1 h2 hs) hoff

/-- Every call of the checked recursive procedure whose ranges have a combined length of
at most `N`, on scratch vectors of at least `2 * (N / 2 + 1)` cells, ends like the
unchecked procedure: with the same result, or at a read outside a table. -/
theorem impl_agree (first second : List String) (f_hash s_hash : List Nat)
    (too_expensive : Int) (hte : 1 ≤ too_expensive) (N : Int) :
    ∀ (n : Nat) (fs fe ss se : Int) (fv rv : List Int) (result : List String) (depth : Nat),
      (fe - fs) + (se - ss) ≤ N → ((fe - fs) + (se - ss)).toNat ≤ n → n + 1 ≤ depth →
      2 * (N / 2 + 1) ≤ (fv.length : Int) → 2 * (N / 2 + 1) ≤ (rv.length : Int) →
      Agree (fun r => r.1.length = fv.length ∧ r.2.1.length = rv.length)
        (smartlist_longest_common_subsequence_impl_checked first second f_hash s_hash
          too_expensive depth fs fe ss se fv rv result)
        (smartlist_longest_common_subsequence_impl first second f_hash s_hash
          too_expensive depth fs fe ss se fv rv result) := by
  intro n
  induction n using Nat.strong_induction_on with
  | _ n ih =>
    intro fs fe ss se fv rv result depth hN hn hdepth hfv hrv
    obtain ⟨dp, rfl⟩ : ∃ dp, depth = dp + 1 := ⟨depth - 1, by omega⟩
    rw [smartlist_longest_common_subsequence_impl_checked,
      smartlist_longest_common_subsequence_impl]
    by_cases hempty : fe - fs ≤ 0 ∨ se - ss ≤ 0
    · rw [if_pos hempty, if_pos hempty]
      exact Agree.ok _ ⟨rfl, rfl⟩
    · rw [if_neg hempty, if_neg hempty]
      have h1 : fs < fe := by omega
      have h2 : ss < se := by omega
      refine Agree.bind (find_split_agree f_hash s_hash too_expensive fs fe ss se fv rv hte h1
        h2 (by omega) (by omega)) ?_
      intro sp ⟨hl1, hl2, hsp⟩
      by_cases hrec : sp.diff_size > 1 ∨ (sp.delta_even = true ∧ sp.diff_size = 1)
      · rw [if_pos hrec, if_pos hrec]
        obtain ⟨hd1, hd2⟩ := find_split_decreases _ _ _ _ _ _ _ _ _ _ h1 h2 hsp hrec
        refine Agree.bind (ih (n - 1) (by omega) fs sp.x ss sp.y sp.forward_v sp.reverse_v
          result dp (by omega) (by omega) (by omega) (by rw [hl1]; exact hfv)
          (by rw [hl2]; exact hrv)) ?_
        intro r1 ⟨hr1, hr2⟩
        obtain ⟨fv1, rv1, res1⟩ := r1
        refine Agree.bind (add_range_agree first (sp.u - sp.x).toNat sp.x res1) ?_
        intro res2 _
        have := ih (n - 1) (by omega) sp.u fe sp.v se fv1 rv1 res2 dp (by omega) (by omega)
          (by omega) (by rw [show fv1.length = fv.length from hr1.trans hl1]; exact hfv)
          (by rw [show rv1.length = rv.length from hr2.trans hl2]; exact hrv)
        rcases this with ⟨r, e1, e2, p1, p2⟩ | hfault
        · exact Or.inl ⟨r, e1, e2, p1.trans (hr1.trans hl1), p2.trans (hr2.trans hl2)⟩
        · exact Or.inr hfault
      · rw [if_neg hrec, if_neg hrec]
        by_cases hlt : fe - fs < se - ss
        · rw [if_pos hlt, if_pos hlt]
          refine Agree.bind (add_range_agree first (fe - fs).toNat fs result) ?_
          intro res _
          exact Agree.ok _ ⟨hl1, hl2⟩
        · rw [if_neg hlt, if_neg hlt]
          refine Agree.bind (add_range_agree second (se - ss).toNat ss result) ?_
          intro res _
          exact Agree.ok _ ⟨hl1, hl2⟩

/-- The checks of the checked model are not idle: a read of a cell that has not been
written is reported as `stale`, an access outside the allocation as `bounds`, and a read
outside a fingerprint table as `table`. -/
theorem checked_reads_report :
    read_vec [5, 6] [false, true] 0 = .error .stale
      ∧ read_vec [5, 6] [false, true] 1 = .ok 6
      ∧ read_vec [5, 6] [false, true] 2 = .error .bounds
      ∧ read_vec [5, 6] [false, true] (-1) = .error .bounds
      ∧ write_vec [5, 6] [false, true] 2 7 = .error .bounds
      ∧ write_vec [5, 6] [false, true] 0 7 = .ok ([7, 6], [true, true])
      ∧ read_table [1, 2] 2 = .error .table :=
  ⟨rfl, rfl, rfl, rfl, rfl, rfl, rfl⟩

/-- The whole checked engine ends like the unchecked one: with the same list, or at a
read outside a table where the unchecked engine has no result. -/
theorem lcs_agree (hash : String → Nat) (first second : List String) :
    Agree (fun _ => True) (smartlist_longest_common_subsequence_checked hash first second)
      (smartlist_longest_common_subsequence hash first second) := by
  have hte := too_expensive_of_ge (first.length + second.length)
  have h := impl_agree first second (first.map hash) (second.map hash)
    (too_expensive_of (first.length + second.length)) (by omega)
    ((first.length + second.length : Nat) : Int) (first.length + second.length)
    0 first.length 0 second.length
    (List.replicate (((first.length + second.length) / 2 + 1) * 2) 0)
    (List.replicate (((first.length + second.length) / 2 + 1) * 2) 0) []
    (first.length + second.length + 1) (by push_cast; omega) (by omega) (le_refl _)
    (by rw [List.length_replicate]; push_cast; omega)
    (by rw [List.length_replicate]; push_cast; omega)
  unfold smartlist_longest_common_subsequence_checked smartlist_longest_common_subsequence
  exact Agree.bind h (fun r _ => Agree.ok _ trivial)

/-! ## The walk of `make_diff` stays inside the two sequences -/

/-- A scan that comes back has read the indices from where it began down to where it
stopped, and no others. -/
theorem scan_back_reads_bounds (sl : List String) (cs : String) :
    ∀ (fuel : Nat) (start p : Int), scan_back sl cs fuel start = some p →
      ∀ x ∈ scan_back_reads sl cs fuel start, p ≤ x ∧ x ≤ start := by
  intro fuel
  induction fuel with
  | zero =>
    intro start p h
    simp [scan_back] at h
  | succ fuel ih =>
    intro start p h x hx
    have hb := scan_back_bounds sl cs _ _ _ h
    simp only [scan_back, Option.bind_eq_bind] at h
    rw [scan_back_reads] at hx
    rcases hline : arr_get sl start with _ | line
    · simp [hline] at h
    · simp only [hline, Option.some_bind] at h
      rw [hline] at hx
      simp only [List.mem_cons] at hx
      by_cases hne : line = cs
      · rw [if_neg (by simpa using hne)] at hx
        rcases hx with hx | hx
        · subst hx
          exact ⟨hb.2.1, le_refl _⟩
        · simp at hx
      · rw [if_pos hne] at h hx
        rcases hx with hx | hx
        · subst hx
          exact ⟨hb.2.1, le_refl _⟩
        · have := ih (start - 1) p h x hx
          omega

/-- The scan for the last line of a (reversed) common subsequence of the first `r`
lines stops inside them, and the other lines are a common subsequence of the lines in
front of where it stops. -/
theorem scan_back_of_sublist (sl : List String) (c : String) (rest : List String) (r : Nat)
    (hr : r ≤ sl.length) (h : (c :: rest).reverse.Sublist (sl.take r)) :
    ∃ a : Nat, a + 1 ≤ r
      ∧ scan_back sl c (((r : Int) - 1).toNat + 2) ((r : Int) - 1) = some (a : Int)
      ∧ rest.reverse.Sublist (sl.take a) := by
  rw [List.reverse_cons] at h
  have hlenr : (sl.take r).length = r := take_append_drop_le sl r hr
  obtain ⟨A, B, hAB, hB⟩ := exists_last_occurrence c (sl.take r) (h.subset (by simp))
  have hr' : r = A.length + 1 + B.length := by
    rw [← hlenr, hAB]
    simp
    omega
  have hsl : sl = A ++ c :: B ++ sl.drop r := by
    rw [← hAB, List.take_append_drop]
  have htakeA : sl.take A.length = A := by
    have := congrArg (List.take A.length) hAB
    rw [List.take_take, Nat.min_eq_left (by omega)] at this
    rw [this]
    simp
  refine ⟨A.length, by omega, ?_, ?_⟩
  · have := scan_back_find c A B (sl.drop r) (((r : Int) - 1).toNat + 2) hB (by omega)
    rw [← hsl] at this
    rw [← this]
    congr 1
    omega
  · rw [htakeA]
    exact sublist_before_last c _ A B hB (hAB ▸ h)

/-- The command of a gap addresses the removed old lines `lo .. hi-1` (0-based), which
exist, and its block is the run of new lines `q .. i-1`. -/
theorem next_command_in_bounds (new_sl : List String) (len lo hi q i : Nat)
    (hlen : hi ≤ len) (hi' : i ≤ new_sl.length) :
    ∃ oc, next_command (lo : Int) ((hi : Int) - 1) new_sl (q : Int) ((i : Int) - 1) = some oc
      ∧ ∀ c, oc = some c → c.in_bounds len new_sl := by
  unfold next_command
  by_cases hins : (q : Int) ≤ (i : Int) - 1
  · have hn : ((i : Int) - 1 - (q : Int) + 1).toNat = i - q := by omega
    have hblock : add_range new_sl (i - q) (q : Int) [] = some ((new_sl.drop q).take (i - q)) :=
      add_range_slice new_sl (i - q) q (by omega)
    have hslice : IsBlockOf new_sl ((new_sl.drop q).take (i - q)) :=
      ⟨q, i - q, by omega, by omega, rfl⟩
    simp only [hins, if_true, hn, hblock, Option.bind_eq_bind, Option.some_bind, Option.pure_def]
    by_cases h1 : (lo : Int) < (hi : Int) - 1
    · rw [if_pos h1]
      refine ⟨_, rfl, ?_⟩
      intro c hc
      simp only [Option.some.injEq] at hc
      subst hc
      exact ⟨by omega, by omega, by omega, hslice⟩
    · by_cases h2 : (lo : Int) = (hi : Int) - 1
      · rw [if_neg h1, if_pos h2]
        refine ⟨_, rfl, ?_⟩
        intro c hc
        simp only [Option.some.injEq] at hc
        subst hc
        exact ⟨by omega, by omega, hslice⟩
      · rw [if_neg h1, if_neg h2]
        refine ⟨_, rfl, ?_⟩
        intro c hc
        simp only [Option.some.injEq] at hc
        subst hc
        exact ⟨by omega, by omega, hslice⟩
  · simp only [hins, if_false, Option.pure_def]
    by_cases h1 : (lo : Int) < (hi : Int) - 1
    · rw [if_pos h1]
      refine ⟨_, rfl, ?_⟩
      intro c hc
      simp only [Option.some.injEq] at hc
      subst hc
      exact ⟨by omega, by omega, by omega⟩
    · by_cases h2 : (lo : Int) = (hi : Int) - 1
      · rw [if_neg h1, if_pos h2]
        refine ⟨_, rfl, ?_⟩
        intro c hc
        simp only [Option.some.injEq] at hc
        subst hc
        exact ⟨by omega, by omega⟩
      · rw [if_neg h1, if_neg h2]
        exact ⟨none, rfl, fun c hc => Option.noConfusion hc⟩

/-- The walk of `make_diff` from a state in which `r` old lines and `i` new lines are
still in front of the cursors, for a (reversed) list `cs` that is a common subsequence of
those lines: it completes, its scans read existing lines only, and every command it
writes addresses existing lines of `old_sl` and inserts a run of lines of `new_sl`. -/
theorem make_diff_commands_loop_in_bounds (old_sl new_sl : List String) :
    ∀ (cs : List String) (r i : Nat), r ≤ old_sl.length → i ≤ new_sl.length →
      cs.reverse.Sublist (old_sl.take r) → cs.reverse.Sublist (new_sl.take i) →
      ∃ cmds, make_diff_commands_loop old_sl new_sl cs ((r : Int) - 1) ((i : Int) - 1)
          = some cmds
        ∧ (∀ c ∈ cmds, c.in_bounds old_sl.length new_sl)
        ∧ (∀ x ∈ (make_diff_reads old_sl new_sl cs ((r : Int) - 1) ((i : Int) - 1)).1,
            0 ≤ x ∧ x < (old_sl.length : Int))
        ∧ (∀ x ∈ (make_diff_reads old_sl new_sl cs ((r : Int) - 1) ((i : Int) - 1)).2,
            0 ≤ x ∧ x < (new_sl.length : Int)) := by
  intro cs
  induction cs with
  | nil =>
    intro r i hr hi _ _
    obtain ⟨oc, hoc, hsome⟩ := next_command_in_bounds new_sl old_sl.length 0 r 0 i hr hi
    simp only [Nat.cast_zero] at hoc
    refine ⟨oc.toList, by simp [make_diff_commands_loop, hoc], ?_, ?_, ?_⟩
    · intro c hc
      exact hsome c (by simpa using hc)
    · intro x hx
      simp [make_diff_reads] at hx
    · intro x hx
      simp [make_diff_reads] at hx
  | cons c rest ih =>
    intro r i hr hi hold hnew
    obtain ⟨a, ha, hscan_old, hrest_old⟩ := scan_back_of_sublist old_sl c rest r hr hold
    obtain ⟨b, hb, hscan_new, hrest_new⟩ := scan_back_of_sublist new_sl c rest i hi hnew
    obtain ⟨oc, hoc, hsome⟩ := next_command_in_bounds new_sl old_sl.length (a + 1) r (b + 1) i
      hr hi
    obtain ⟨later, hlater, hcmds, hr1, hr2⟩ := ih a b (by omega) (by omega) hrest_old hrest_new
    have hcast1 : ((a : Int) + 1) = ((a + 1 : Nat) : Int) := by push_cast; rfl
    have hcast2 : ((b : Int) + 1) = ((b + 1 : Nat) : Int) := by push_cast; rfl
    have hback1 : ((a : Int) + 1 - 2) = (a : Int) - 1 := by omega
    have hback2 : ((b : Int) + 1 - 2) = (b : Int) - 1 := by omega
    refine ⟨oc.toList ++ later, ?_, ?_, ?_, ?_⟩
    · simp only [make_diff_commands_loop, hscan_old, hscan_new, Option.bind_eq_bind,
        Option.some_bind, hback1, hback2, hlater, Option.pure_def]
      rw [hcast1, hcast2, hoc]
      rfl
    · intro c' hc'
      rcases List.mem_append.mp hc' with h1 | h1
      · exact hsome c' (by simpa using h1)
      · exact hcmds c' h1
    · intro x hx
      simp only [make_diff_reads, hscan_old, hscan_new, hback1, hback2] at hx
      rcases List.mem_append.mp hx with h1 | h1
      · have := scan_back_reads_bounds old_sl c _ _ _ hscan_old x h1
        omega
      · exact hr1 x h1
    · intro x hx
      simp only [make_diff_reads, hscan_old, hscan_new, hback1, hback2] at hx
      rcases List.mem_append.mp hx with h1 | h1
      · have := scan_back_reads_bounds new_sl c _ _ _ hscan_new x h1
        omega
      · exact hr2 x h1

/-! ## The claims -/

/-- Helper for the round trip: for a common subsequence `cs` of `old_sl` and `new_sl`, when
no line of `new_sl` is `.`, the walk of `make_diff` completes and `apply_patch` turns
`old_sl` into `new_sl` with its script. -/
theorem round_trip_of_common_subsequence (old_sl new_sl cs : List String)
    (hold : cs.Sublist old_sl) (hnew : cs.Sublist new_sl) (hdot : "." ∉ new_sl) :
    ∃ script, make_diff_with old_sl new_sl cs = some script
      ∧ apply_patch old_sl script = some new_sl := by
  obtain ⟨cmds, hcmds, happ, heff⟩ := make_diff_commands_loop_spec old_sl new_sl hdot
    cs.reverse old_sl.length new_sl.length (le_refl _) (le_refl _)
    (by rw [List.reverse_reverse, List.take_length]; exact hold)
    (by rw [List.reverse_reverse, List.take_length]; exact hnew)
  refine ⟨render cmds, ?_, ?_⟩
  · rw [make_diff_with_eq, make_diff_commands, hcmds]
    rfl
  · rw [apply_patch_render cmds old_sl happ]
    have := heff []
    rw [List.take_length, List.take_length, List.append_nil, List.append_nil] at this
    rw [this]

/-- C1 (counterexample): for `old = []` and `new = ["."]` the script of `make_diff` is
`0a`, `.`, `.`, and `apply_patch` turns the empty base into the empty sequence with it,
not into `new`: the block ends at the inserted line itself. -/
theorem round_trip_fails_on_dot_line :
    make_diff (fun s => s.length) [] ["."] = some ["0a", ".", "."]
      ∧ apply_patch [] ["0a", ".", "."] = some []
      ∧ ([] : List String) ≠ ["."] := by
  decide

/-- C1 (amended): round trip.  For every `old_sl` and `new_sl` with
`len(old) + len(new) <= 511` (so that the budget does not cap the search), a fingerprint
without collisions between the lines of `old_sl` and the lines of `new_sl`, and no line
of `new_sl` equal to the single character `.`: `make_diff` completes, and applying its
script to `old_sl` yields exactly `new_sl`. -/
theorem make_diff_round_trip (hash : String → Nat) (old_sl new_sl : List String)
    (hlen : old_sl.length + new_sl.length ≤ 511)
    (hinj : ∀ a ∈ old_sl, ∀ b ∈ new_sl, hash a = hash b → a = b)
    (hdot : "." ∉ new_sl) :
    ∃ script, make_diff hash old_sl new_sl = some script
      ∧ apply_patch old_sl script = some new_sl := by
  obtain ⟨cs, hcs, hold, hnew⟩ := lcs_common_subsequence hash old_sl new_sl hlen hinj
  obtain ⟨script, h1, h2⟩ := round_trip_of_common_subsequence old_sl new_sl cs hold hnew hdot
  exact ⟨script, by simp [make_diff, hcs, h1], h2⟩

/-- C1 (witness): the amended round trip at `old = ["a", "bb"]`, `new = ["bb", "ccc"]`
with the line length as fingerprint: the script is `2a`, `ccc`, `.`, `1d`. -/
theorem make_diff_round_trip_witness :
    ["a", "bb"].length + ["bb", "ccc"].length ≤ 511
      ∧ (∀ a ∈ ["a", "bb"], ∀ b ∈ ["bb", "ccc"], a.length = b.length → a = b)
      ∧ "." ∉ ["bb", "ccc"]
      ∧ make_diff (fun s => s.length) ["a", "bb"] ["bb", "ccc"] = some ["2a", "ccc", ".", "1d"]
      ∧ apply_patch ["a", "bb"] ["2a", "ccc", ".", "1d"] = some ["bb", "ccc"]
      ∧ ∃ script, make_diff (fun s => s.length) ["a", "bb"] ["bb", "ccc"] = some script
          ∧ apply_patch ["a", "bb"] script = some ["bb", "ccc"] :=
  ⟨by decide, by decide, by decide, by decide, by decide,
    make_diff_round_trip (fun s => s.length) ["a", "bb"] ["bb", "ccc"] (by decide)
      (by decide) (by decide)⟩

/-- C2 (failing input): for `first` = `a` followed by 513 lines `bb` and `second` = `[a]`,
with a fingerprint that tells the two lines apart, the engine returns no list: the
budget 256 runs out, the fallback picks the split point `(1, 257)` outside `second`, and
the recursive call reads the fingerprint table of `second` out of bounds. -/
theorem lcs_faults_on_skew_input :
    smartlist_longest_common_subsequence (fun s => s.length)
      ("a" :: List.replicate 513 "bb") ["a"] = none :=
  skew_lcs_none (fun s => s.length) "a" "bb" (by decide) 513 256 (by decide) (by decide)
    (by decide)

/-- C3: a non-maximal subsequence cannot cause an incorrect diff. For every `old_sl`,
`new_sl` and every common subsequence `cs` of both, when no line of `new_sl` is `.`, the
script-building walk of `make_diff` run with `cs` completes, and applying its script to
`old_sl` yields exactly `new_sl`. -/
theorem make_diff_with_round_trip (old_sl new_sl cs : List String)
    (hold : cs.Sublist old_sl) (hnew : cs.Sublist new_sl) (hdot : "." ∉ new_sl) :
    ∃ script, make_diff_with old_sl new_sl cs = some script
      ∧ apply_patch old_sl script = some new_sl :=
  round_trip_of_common_subsequence old_sl new_sl cs hold hnew hdot

/-- C3 (witness): the walk with the non-maximal common subsequence `["a"]` of
`["a", "b", "c"]` and `["a", "x", "c"]`. -/
theorem make_diff_with_round_trip_witness :
    ["a"].Sublist ["a", "b", "c"] ∧ ["a"].Sublist ["a", "x", "c"] ∧ "." ∉ ["a", "x", "c"]
      ∧ ∃ script, make_diff_with ["a", "b", "c"] ["a", "x", "c"] ["a"] = some script
          ∧ apply_patch ["a", "b", "c"] script = some ["a", "x", "c"] :=
  ⟨by decide, by decide, by decide,
    make_diff_with_round_trip ["a", "b", "c"] ["a", "x", "c"] ["a"] (by decide) (by decide)
      (by decide)⟩

/-- C4: ordering. Whenever `make_diff` produces a script, it is the rendering of the
commands written by its calls of `diff_add_next_command`, and the header numbers of those
commands (the `N` of `Na`, `Nc`, `Nd`, `N,Mc`, `N,Md`) strictly descend. -/
theorem make_diff_descending (hash : String → Nat) (old_sl new_sl script : List String)
    (h : make_diff hash old_sl new_sl = some script) :
    ∃ cmds, (smartlist_longest_common_subsequence hash old_sl new_sl).bind
          (make_diff_commands old_sl new_sl) = some cmds
      ∧ script = render cmds
      ∧ cmds.Pairwise (fun c later => later.start < c.start) := by
  simp only [make_diff, Option.bind_eq_bind] at h
  rcases hcs : smartlist_longest_common_subsequence hash old_sl new_sl with _ | cs
  · simp [hcs] at h
  · simp only [hcs, Option.some_bind, make_diff_with_eq] at h ⊢
    rcases hcmds : make_diff_commands old_sl new_sl cs with _ | cmds
    · simp [hcmds] at h
    · simp only [hcmds, Option.map_some', Option.some.injEq] at h
      exact ⟨cmds, rfl, h.symm,
        (make_diff_commands_loop_descending old_sl new_sl _ _ _ cmds hcmds).1⟩

/-- C4 (witness): the script for `["a", "bb", "ccc"]` against `["bb"]` is `3d`, `1d`. -/
theorem make_diff_descending_witness :
    make_diff (fun s => s.length) ["a", "bb", "ccc"] ["bb"] = some ["3d", "1d"]
      ∧ ∃ cmds, (smartlist_longest_common_subsequence (fun s => s.length)
            ["a", "bb", "ccc"] ["bb"]).bind (make_diff_commands ["a", "bb", "ccc"] ["bb"])
            = some cmds
          ∧ ["3d", "1d"] = render cmds
          ∧ cmds.Pairwise (fun c later => later.start < c.start) :=
  ⟨by decide,
    make_diff_descending (fun s => s.length) ["a", "bb", "ccc"] ["bb"] ["3d", "1d"]
      (by decide)⟩

/-- C5: patch applier, sequential equals simultaneous. For every base and every command
list whose commands are well formed (block lines never `.`), in bounds of the base, and
listed in descending, pairwise disjoint order (each command entirely above every later
one), the one-pass replay of `apply_patch` yields what replacing all addressed ranges at
once in the original numbering yields. -/
theorem apply_patch_eq_simultaneous (base : List String) (cmds : List Command)
    (hwf : ∀ c ∈ cmds, c.wf ∧ c.hi ≤ base.length) (hdesc : Descending cmds) :
    apply_patch base (render cmds) = some (simultaneous base cmds) := by
  have happ := Applicable.of_descending cmds base.length hwf hdesc
  rw [apply_patch_render cmds base happ]
  have := effects_eq_replace_ranges cmds base [] happ
  rw [List.append_nil, List.append_nil] at this
  rw [this, simultaneous]

/-- C5 (witness): the script `4a x . 2,3c y z . 1d` on a base of four lines. -/
theorem apply_patch_eq_simultaneous_witness :
    (∀ c ∈ [Command.append 4 ["x"], Command.change 2 3 ["y", "z"], Command.delete1 1],
        c.wf ∧ c.hi ≤ ["a", "b", "c", "d"].length)
      ∧ Descending [Command.append 4 ["x"], Command.change 2 3 ["y", "z"], Command.delete1 1]
      ∧ apply_patch ["a", "b", "c", "d"]
          (render [Command.append 4 ["x"], Command.change 2 3 ["y", "z"], Command.delete1 1])
        = some (simultaneous ["a", "b", "c", "d"]
            [Command.append 4 ["x"], Command.change 2 3 ["y", "z"], Command.delete1 1])
      ∧ simultaneous ["a", "b", "c", "d"]
            [Command.append 4 ["x"], Command.change 2 3 ["y", "z"], Command.delete1 1]
          = ["y", "z", "d", "x"] :=
  have hwf : ∀ c ∈ [Command.append 4 ["x"], Command.change 2 3 ["y", "z"], Command.delete1 1],
      c.wf ∧ c.hi ≤ ["a", "b", "c", "d"].length := by
    intro c hc
    simp only [List.mem_cons, List.mem_singleton, List.not_mem_nil, or_false] at hc
    rcases hc with rfl | rfl | rfl <;> simp [Command.wf, Command.hi, Command.stop]
  have hdesc : Descending
      [Command.append 4 ["x"], Command.change 2 3 ["y", "z"], Command.delete1 1] := by
    simp [Descending, Command.hi, Command.lo, Command.stop]
  ⟨hwf, hdesc, apply_patch_eq_simultaneous _ _ hwf hdesc, by decide⟩

/-- C6: delete and change. For a base of length `L`, `1 <= N <= M <= L` and a block `B`
with no line `.`: the single command `N,Md` (or `Nd` when `N = M`) yields
`base[0..N-1) ++ base[M..L)`, and `N,Mc` (or `Nc` when `N = M`) with block `B` yields
`base[0..N-1) ++ B ++ base[M..L)`. -/
theorem apply_patch_delete_change (base B : List String) (N M : Nat) (h1 : 1 ≤ N)
    (h2 : N ≤ M) (h3 : M ≤ base.length) (hB : "." ∉ B) :
    apply_patch base [print_d N ++ "," ++ print_d M ++ "d"]
        = some (base.take (N - 1) ++ base.drop M)
      ∧ (N = M → apply_patch base [print_d N ++ "d"] = some (base.take (N - 1) ++ base.drop M))
      ∧ apply_patch base ([print_d N ++ "," ++ print_d M ++ "c"] ++ B ++ ["."])
          = some (base.take (N - 1) ++ B ++ base.drop M)
      ∧ (N = M → apply_patch base ([print_d N ++ "c"] ++ B ++ ["."])
          = some (base.take (N - 1) ++ B ++ base.drop M)) := by
  have hlo : ((N : Int) - 1).toNat = N - 1 := by omega
  refine ⟨?_, ?_, ?_, ?_⟩
  · have := apply_patch_render [Command.delete N M] base
      ⟨⟨by omega, by omega⟩, by simpa [Command.hi, Command.stop] using h3, trivial⟩
    simpa [render, Command.lines, Command.header, effects, Command.effect, Command.lo,
      Command.hi, Command.stop, Command.block, hlo] using this
  · intro hNM
    subst hNM
    have := apply_patch_render [Command.delete1 N] base
      ⟨by simp only [Command.wf]; omega, by simpa [Command.hi, Command.stop] using h3, trivial⟩
    simpa [render, Command.lines, Command.header, effects, Command.effect, Command.lo,
      Command.hi, Command.stop, Command.block, hlo] using this
  · have := apply_patch_render [Command.change N M B] base
      ⟨⟨by omega, by omega, hB⟩, by simpa [Command.hi, Command.stop] using h3, trivial⟩
    simpa [render, Command.lines, Command.header, effects, Command.effect, Command.lo,
      Command.hi, Command.stop, Command.block, hlo] using this
  · intro hNM
    subst hNM
    have := apply_patch_render [Command.change1 N B] base
      ⟨⟨by omega, hB⟩, by simpa [Command.hi, Command.stop] using h3, trivial⟩
    simpa [render, Command.lines, Command.header, effects, Command.effect, Command.lo,
      Command.hi, Command.stop, Command.block, hlo] using this

/-- C6 (witness): the commands `2,3d`, `2d`, `2,3c` and `2c` on a base of four lines. -/
theorem apply_patch_delete_change_witness :
    apply_patch ["a", "b", "c", "d"] ["2,3d"] = some ["a", "d"]
      ∧ apply_patch ["a", "b", "c", "d"] ["2d"] = some ["a", "c", "d"]
      ∧ apply_patch ["a", "b", "c", "d"] ["2,3c", "x", "."] = some ["a", "x", "d"]
      ∧ apply_patch ["a", "b", "c", "d"] ["2c", "x", "."] = some ["a", "x", "c", "d"] :=
  ⟨(apply_patch_delete_change ["a", "b", "c", "d"] ["x"] 2 3 (by decide) (by decide)
      (by decide) (by decide)).1,
    (apply_patch_delete_change ["a", "b", "c", "d"] ["x"] 2 2 (by decide) (by decide)
      (by decide) (by decide)).2.1 rfl,
    (apply_patch_delete_change ["a", "b", "c", "d"] ["x"] 2 3 (by decide) (by decide)
      (by decide) (by decide)).2.2.1,
    (apply_patch_delete_change ["a", "b", "c", "d"] ["x"] 2 2 (by decide) (by decide)
      (by decide) (by decide)).2.2.2 rfl⟩

/-- C7: append. For a base of length `L`, `0 <= N <= L` and a block `B` with no line `.`,
the single command `Na` with block `B` yields `base[0..N) ++ B ++ base[N..L)`; `0a` puts
`B` in front of the first line. -/
theorem apply_patch_append (base B : List String) (N : Nat) (h : N ≤ base.length)
    (hB : "." ∉ B) :
    apply_patch base ([print_d N ++ "a"] ++ B ++ ["."])
        = some (base.take N ++ B ++ base.drop N)
      ∧ apply_patch base (["0a"] ++ B ++ ["."]) = some (B ++ base) := by
  have key : ∀ n : Nat, n ≤ base.length →
      apply_patch base ([print_d n ++ "a"] ++ B ++ ["."])
        = some (base.take n ++ B ++ base.drop n) := by
    intro n hn
    have := apply_patch_render [Command.append n B] base
      ⟨⟨by omega, hB⟩, by simpa [Command.hi, Command.stop] using hn, trivial⟩
    simpa [render, Command.lines, Command.header, effects, Command.effect, Command.lo,
      Command.hi, Command.stop, Command.block] using this
  refine ⟨key N h, ?_⟩
  have := key 0 (Nat.zero_le _)
  simpa using this

/-- C7 (witness): the commands `2a` and `0a` with the block `x`, `y` on three lines. -/
theorem apply_patch_append_witness :
    apply_patch ["a", "b", "c"] ["2a", "x", "y", "."] = some ["a", "b", "x", "y", "c"]
      ∧ apply_patch ["a", "b", "c"] ["0a", "x", "y", "."] = some ["x", "y", "a", "b", "c"] :=
  apply_patch_append ["a", "b", "c"] ["x", "y"] 2 (by decide) (by decide)

/-- C8: identical inputs give the empty script. For every line sequence `x`, `make_diff`
on `(x, x)` writes no script line, so the joined diff is the empty string. -/
theorem make_diff_same (hash : String → Nat) (x : List String) :
    make_diff hash x x = some [] ∧ (make_diff hash x x).map smartlist_join_strings = some "" := by
  have h : make_diff hash x x = some [] := by
    simp [make_diff, lcs_same, make_diff_with_same]
  exact ⟨h, by rw [h]; rfl⟩

/-- C9: identical sequences. For every line sequence `x`, of any length,
`smartlist_longest_common_subsequence` on `(x, x)` returns exactly `x`. -/
theorem smartlist_longest_common_subsequence_same (hash : String → Nat) (x : List String) :
    smartlist_longest_common_subsequence hash x x = some x :=
  lcs_same hash x

/-- C10: `diff_add_next_command` with an empty insert range (`insert_start >
insert_end`) appends nothing when `remove_start > remove_end`, exactly the line
`<remove_start+1>d` when `remove_start = remove_end`, and exactly the line
`<remove_start+1>,<remove_end+1>d` when `remove_start < remove_end`; what was in
`diff_sl` stays in front, and no `.` line is added. -/
theorem diff_add_next_command_empty_insert (diff_sl new_sl : List String)
    (remove_start remove_end insert_start insert_end : Int) (h : insert_end < insert_start) :
    (remove_end < remove_start →
        diff_add_next_command diff_sl remove_start remove_end new_sl insert_start insert_end
          = some diff_sl)
      ∧ (remove_start = remove_end →
        diff_add_next_command diff_sl remove_start remove_end new_sl insert_start insert_end
          = some (diff_sl ++ [print_d (remove_start + 1) ++ "d"]))
      ∧ (remove_start < remove_end →
        diff_add_next_command diff_sl remove_start remove_end new_sl insert_start insert_end
          = some (diff_sl ++
              [print_d (remove_start + 1) ++ "," ++ print_d (remove_end + 1) ++ "d"])) := by
  have hins : ¬ insert_start ≤ insert_end := by omega
  refine ⟨?_, ?_, ?_⟩
  · intro hr
    have h1 : ¬ remove_start < remove_end := by omega
    have h2 : ¬ remove_start = remove_end := by omega
    simp [diff_add_next_command, hins, h1, h2]
  · intro hr
    have h1 : ¬ remove_start < remove_end := by omega
    simp [diff_add_next_command, hins, h1, hr]
  · intro hr
    simp [diff_add_next_command, hins, hr]

/-- C10 (witness): the three calls of the test with the insert range `(1, 0)`. -/
theorem diff_add_next_command_empty_insert_witness :
    diff_add_next_command ["x"] 1 0 ["aaaa", "bbbb", "cccc", "dddd"] 1 0 = some ["x"]
      ∧ diff_add_next_command ["x"] 1 1 ["aaaa", "bbbb", "cccc", "dddd"] 1 0
          = some ["x", "2d"]
      ∧ diff_add_next_command ["x"] 1 4 ["aaaa", "bbbb", "cccc", "dddd"] 1 0
          = some ["x", "2,5d"] :=
  ⟨(diff_add_next_command_empty_insert ["x"] ["aaaa", "bbbb", "cccc", "dddd"] 1 0 1 0
      (by decide)).1 (by decide),
    (diff_add_next_command_empty_insert ["x"] ["aaaa", "bbbb", "cccc", "dddd"] 1 1 1 0
      (by decide)).2.1 rfl,
    (diff_add_next_command_empty_insert ["x"] ["aaaa", "bbbb", "cccc", "dddd"] 1 4 1 0
      (by decide)).2.2 (by decide)⟩

/-- C11: `diff_add_next_command` with a non-empty insert range inside `new_sl`
(`0 <= insert_start <= insert_end < len(new_sl)`) appends exactly
`insert_end - insert_start + 3` entries to `diff_sl`: one header, then the lines
`new_sl[insert_start..insert_end]` in order, then the line `.`.  The header is
`<remove_end+1>a` when `remove_start > remove_end`, `<remove_start+1>c` when
`remove_start = remove_end`, and `<remove_start+1>,<remove_end+1>c` when
`remove_start < remove_end`. -/
theorem diff_add_next_command_insert (diff_sl new_sl : List String)
    (remove_start remove_end : Int) (insert_start insert_end : Nat)
    (h1 : insert_start ≤ insert_end) (h2 : insert_end < new_sl.length) :
    ∃ header : String,
      diff_add_next_command diff_sl remove_start remove_end new_sl insert_start insert_end
          = some (diff_sl ++ header ::
              ((new_sl.drop insert_start).take (insert_end - insert_start + 1) ++ ["."]))
        ∧ (header :: ((new_sl.drop insert_start).take (insert_end - insert_start + 1)
              ++ ["."])).length = insert_end - insert_start + 3
        ∧ (∀ k, k ≤ insert_end - insert_start →
            ((new_sl.drop insert_start).take (insert_end - insert_start + 1))[k]?
              = new_sl[insert_start + k]?)
        ∧ (remove_end < remove_start → header = print_d (remove_end + 1) ++ "a")
        ∧ (remove_start = remove_end → header = print_d (remove_start + 1) ++ "c")
        ∧ (remove_start < remove_end →
            header = print_d (remove_start + 1) ++ "," ++ print_d (remove_end + 1) ++ "c") := by
  have hins : (insert_start : Int) ≤ (insert_end : Int) := by exact_mod_cast h1
  have hcount : ((insert_end : Int) - (insert_start : Int) + 1).toNat
      = insert_end - insert_start + 1 := by omega
  have hslice := add_range_slice new_sl (insert_end - insert_start + 1) insert_start (by omega)
  have hrun : ∀ acc : List String,
      add_range new_sl ((insert_end : Int) - (insert_start : Int) + 1).toNat insert_start acc
        = some (acc ++ (new_sl.drop insert_start).take (insert_end - insert_start + 1)) := by
    intro acc
    rw [add_range_acc, hcount, hslice]
    rfl
  have hlen : ((new_sl.drop insert_start).take (insert_end - insert_start + 1)).length
      = insert_end - insert_start + 1 := by
    rw [List.length_take, List.length_drop]
    omega
  have hget : ∀ k, k ≤ insert_end - insert_start →
      ((new_sl.drop insert_start).take (insert_end - insert_start + 1))[k]?
        = new_sl[insert_start + k]? := by
    intro k hk
    rw [List.getElem?_take_of_lt (by omega), List.getElem?_drop]
  by_cases hlt : remove_start < remove_end
  · refine ⟨print_d (remove_start + 1) ++ "," ++ print_d (remove_end + 1) ++ "c", ?_, ?_,
      hget, fun h => absurd h (by omega), fun h => absurd h (by omega), fun _ => rfl⟩
    · simp [diff_add_next_command, hins, hlt, hrun]
    · simp only [List.length_cons, List.length_append, hlen, List.length_nil]
  · by_cases heq : remove_start = remove_end
    · refine ⟨print_d (remove_start + 1) ++ "c", ?_, ?_,
        hget, fun h => absurd h (by omega), fun _ => rfl, fun h => absurd h hlt⟩
      · simp [diff_add_next_command, hins, heq, hrun]
      · simp only [List.length_cons, List.length_append, hlen, List.length_nil]
    · refine ⟨print_d (remove_end + 1) ++ "a", ?_, ?_,
        hget, fun _ => rfl, fun h => absurd h heq, fun h => absurd h hlt⟩
      · simp [diff_add_next_command, hins, hlt, heq, hrun]
      · simp only [List.length_cons, List.length_append, hlen, List.length_nil]

/-- C11 (witness): the calls `(1, 0, 1, 3)`, `(1, 1, 0, 2)` and `(1, 4, 1, 3)` of the test
write `1a`, `2c` and `2,5c`, each followed by three lines and the terminator. -/
theorem diff_add_next_command_insert_witness :
    diff_add_next_command ["2d"] 1 0 ["aaaa", "bbbb", "cccc", "dddd"] 1 3
        = some ["2d", "1a", "bbbb", "cccc", "dddd", "."]
      ∧ diff_add_next_command ["2d"] 1 1 ["aaaa", "bbbb", "cccc", "dddd"] 0 2
        = some ["2d", "2c", "aaaa", "bbbb", "cccc", "."]
      ∧ diff_add_next_command ["2d"] 1 4 ["aaaa", "bbbb", "cccc", "dddd"] 1 3
        = some ["2d", "2,5c", "bbbb", "cccc", "dddd", "."] := by
  refine ⟨?_, ?_, ?_⟩
  · obtain ⟨header, hrun, _, _, ha, _, _⟩ :=
      diff_add_next_command_insert ["2d"] ["aaaa", "bbbb", "cccc", "dddd"] 1 0 1 3
        (by decide) (by decide)
    rw [ha (by decide)] at hrun
    exact hrun
  · obtain ⟨header, hrun, _, _, _, hc, _⟩ :=
      diff_add_next_command_insert ["2d"] ["aaaa", "bbbb", "cccc", "dddd"] 1 1 0 2
        (by decide) (by decide)
    rw [hc rfl] at hrun
    exact hrun
  · obtain ⟨header, hrun, _, _, _, _, hc⟩ :=
      diff_add_next_command_insert ["2d"] ["aaaa", "bbbb", "cccc", "dddd"] 1 4 1 3
        (by decide) (by decide)
    rw [hc (by decide)] at hrun
    exact hrun

/-- C12: Scenario A.  For the 14-line old text and the 14-line new text of the reference
corpus, `make_diff` yields exactly the script `14c, cccccc, dddddd, ., 10,12c, aaaaaa,
bbbbbb, ., 8a, a block that, is, inserted, ., 5,7d, 3d, 0a, new thing at start, .`, in
that order, with every fingerprint function that gives distinct lines of the two texts
distinct digests. -/
theorem make_diff_scenario_a (hash : String → Nat)
    (h : ∀ a ∈ DIFF_OLD, ∀ b ∈ DIFF_NEW, hash a = hash b → a = b) :
    DIFF_OLD.length = 14 ∧ DIFF_NEW.length = 14
      ∧ make_diff hash DIFF_OLD DIFF_NEW
        = some ["14c", "cccccc", "dddddd", ".", "10,12c", "aaaaaa", "bbbbbb", ".", "8a",
            "a block that", "is", "inserted", ".", "5,7d", "3d", "0a", "new thing at start",
            "."] := by
  refine ⟨rfl, rfl, ?_⟩
  have hp : smartlist_longest_common_subsequence hash DIFF_OLD DIFF_NEW
      = smartlist_longest_common_subsequence line_number DIFF_OLD DIFF_NEW := by
    apply lcs_pattern
    intro a ha b hb
    constructor
    · intro hab
      rw [line_number_inj a ha b hb hab]
    · intro hab
      rw [h a ha b hb hab]
  have hrun := make_diff_line_number
  unfold make_diff at hrun ⊢
  rw [hp]
  exact hrun

/-- C12 (witness): the position of a line in the two texts is a fingerprint without
collisions, and with it `make_diff` writes the expected script. -/
theorem make_diff_scenario_a_witness :
    (∀ a ∈ DIFF_OLD, ∀ b ∈ DIFF_NEW, line_number a = line_number b → a = b)
      ∧ make_diff line_number DIFF_OLD DIFF_NEW
        = some ["14c", "cccccc", "dddddd", ".", "10,12c", "aaaaaa", "bbbbbb", ".", "8a",
            "a block that", "is", "inserted", ".", "5,7d", "3d", "0a", "new thing at start",
            "."] :=
  ⟨line_number_inj, (make_diff_scenario_a line_number line_number_inj).2.2⟩

/-- C13: `apply_patch` does not validate the structure of the script.  For the base
`a, b` and the two-line script `1a, x`, whose `a` block has no terminating `.` line, the
run reads the script at the indices 0, 1 and 2: the last read is at the number of script
lines, outside the script (a fault, no error is reported).  The same happens for the
`c` block of the script `2c, x`. -/
theorem apply_patch_reads_past_script :
    "." ∉ ["1a", "x"]
      ∧ apply_patch_reads ["a", "b"] ["1a", "x"] = [0, 1, 2]
      ∧ ["1a", "x"].length ≤ 2
      ∧ ["1a", "x"][2]? = none
      ∧ apply_patch ["a", "b"] ["1a", "x"] = none
      ∧ "." ∉ ["2c", "x"]
      ∧ apply_patch_reads ["a", "b"] ["2c", "x"] = [0, 1, 2]
      ∧ apply_patch ["a", "b"] ["2c", "x"] = none := by
  decide

/-- C14 (failing input): the fallback split point can lie outside the caller's ranges.
For `first` = `a` followed by 513 lines `bb` and `second` = `[a]` (fingerprint: the line
length), the top call works on the in-bounds ranges `first[0..514)` and `second[0..1)`
with the budget 256.  Its search ends after round 256 without a middle snake, the
fallback picks the forward point `(1, 257)`, and that is the split point of the call:
`y = 257` is larger than `second_end = 1`, so the first recursive call gets the range
`second[0..257)`. -/
theorem fallback_split_outside_ranges :
    too_expensive_of 515 = 256
      ∧ (∃ s, search_loop (skew_frame 1 2 513 256) 258 0
            { forward_v := (List.replicate 516 (0 : Int)).set 257 0,
              reverse_v := (List.replicate 516 (0 : Int)).set 257 515,
              x := 0, y := 0, u := 0, v := 0, found_middle_snake := false }
            = some (257, s)
          ∧ s.found_middle_snake = false
          ∧ fallback_split (skew_frame 1 2 513 256) s 256 = some (1, 257))
      ∧ (∃ sp, find_split (("a" :: List.replicate 513 "bb").map (fun s => s.length))
            (["a"].map (fun s => s.length)) 256 0 514 0 1
            (List.replicate 516 0) (List.replicate 516 0) = some sp
          ∧ sp.x = 1 ∧ sp.y = 257 ∧ ¬ sp.y ≤ 1) := by
  have hlen : 2 * 256 + 1 < (List.replicate 516 (0 : Int)).length := by
    rw [List.length_replicate]
    omega
  have hmap : ("a" :: List.replicate 513 "bb").map (fun s => s.length)
      = 1 :: List.replicate 513 2 := by
    rw [List.map_cons, List.map_replicate]
    rfl
  refine ⟨by decide, ?_, ?_⟩
  · exact skew_search_loop 1 2 513 256 (by omega) (by omega) (by omega)
      (List.replicate 516 0) (List.replicate 516 0) hlen hlen
  · obtain ⟨fv, rv, _, _, h⟩ := skew_find_split 1 2 513 256 (by omega) (by omega)
      (by omega) (List.replicate 516 0) (List.replicate 516 0) hlen hlen
    rw [hmap]
    exact ⟨_, h, rfl, rfl, by norm_num⟩

/-- C18: cost budget arithmetic.  For every combined length `T` with `0 <= T < 2^31`, the
computed `too_expensive` is `max(256, 2^k)` for `k` the number of base-4 digits of `T`
(`k = 0` for `T = 0`); it is at least 256 and at most `2^16` (no `int` overflow),
`T < too_expensive^2`, and whenever `too_expensive > 256` also `too_expensive^2 <= 4*T`. -/
theorem too_expensive_arithmetic (T : Nat) (hT : T < 2 ^ 31) :
    too_expensive_of T = max 256 (2 ^ (Nat.digits 4 T).length)
      ∧ (Nat.digits 4 0).length = 0
      ∧ 256 ≤ too_expensive_of T
      ∧ too_expensive_of T ≤ 2 ^ 16
      ∧ (T : Int) < too_expensive_of T ^ 2
      ∧ (256 < too_expensive_of T → too_expensive_of T ^ 2 ≤ 4 * (T : Int)) := by
  have heq := too_expensive_of_eq T
  have hlt : T < 4 ^ (Nat.digits 4 T).length := Nat.lt_base_pow_length_digits (by decide)
  have hsq : ((2 : Int) ^ (Nat.digits 4 T).length) ^ 2 = ((4 ^ (Nat.digits 4 T).length : Nat) : Int) := by
    push_cast
    rw [← pow_mul, mul_comm, pow_mul]
    norm_num
  have hk : (Nat.digits 4 T).length ≤ 16 := by
    by_contra hc
    have h17 : 17 ≤ (Nat.digits 4 T).length := by omega
    by_cases ht : T = 0
    · subst ht
      simp at h17
    · have h1 := Nat.base_pow_length_digits_le 4 T (by decide) ht
      have h2 : 4 ^ 17 ≤ 4 ^ (Nat.digits 4 T).length := Nat.pow_le_pow_right (by decide) h17
      have h3 : (4 : Nat) ^ 17 = 17179869184 := by norm_num
      have h4 : (2 : Nat) ^ 31 = 2147483648 := by norm_num
      omega
  have hpow : (2 : Int) ^ (Nat.digits 4 T).length ≤ 2 ^ 16 :=
    pow_le_pow_right₀ (by norm_num) hk
  refine ⟨heq, by simp, ?_, ?_, ?_, ?_⟩
  · rw [heq]
    exact le_max_left _ _
  · rw [heq]
    exact max_le (by norm_num) hpow
  · have h1 : ((2 : Int) ^ (Nat.digits 4 T).length) ^ 2 ≤ too_expensive_of T ^ 2 := by
      rw [heq]
      exact pow_le_pow_left₀ (by positivity) (le_max_right _ _) 2
    rw [hsq] at h1
    have h2 : (T : Int) < ((4 ^ (Nat.digits 4 T).length : Nat) : Int) := by exact_mod_cast hlt
    omega
  · intro hbig
    have hte : too_expensive_of T = 2 ^ (Nat.digits 4 T).length := by
      rw [heq] at hbig ⊢
      rcases le_total (256 : Int) (2 ^ (Nat.digits 4 T).length) with h | h
      · exact max_eq_right h
      · rw [max_eq_left h] at hbig
        omega
    have ht : T ≠ 0 := by
      intro h0
      subst h0
      rw [heq] at hbig
      simp at hbig
    have h1 := Nat.base_pow_length_digits_le 4 T (by decide) ht
    rw [hte, hsq]
    exact_mod_cast h1

/-- C18 (witness): the combined length 70000 has nine base-4 digits and the budget is
512. -/
theorem too_expensive_arithmetic_witness :
    70000 < 2 ^ 31 ∧ too_expensive_of 70000 = 512
      ∧ (70000 : Int) < too_expensive_of 70000 ^ 2
      ∧ too_expensive_of 70000 ^ 2 ≤ 4 * (70000 : Int) := by
  have h := too_expensive_arithmetic 70000 (by norm_num)
  have hv : too_expensive_of 70000 = 512 := by decide
  exact ⟨by norm_num, hv, h.2.2.2.2.1, h.2.2.2.2.2 (by rw [hv]; norm_num)⟩

/-- C20: fingerprint collisions are treated as equality.  For a fingerprint function
that gives two distinct lines `a` and `b` the same digest,
`smartlist_longest_common_subsequence([a], [b])` returns the non-empty list `[b]`, which
is not a common subsequence of `[a]` and `[b]` by value (it is not a subsequence of
`[a]`). -/
theorem lcs_collision (hash : String → Nat) (a b : String) (hcol : hash a = hash b)
    (hne : a ≠ b) :
    smartlist_longest_common_subsequence hash [a] [b] = some [b]
      ∧ [b] ≠ []
      ∧ ¬ ([b].Sublist [a] ∧ [b].Sublist [b]) := by
  refine ⟨?_, by simp, ?_⟩
  · obtain ⟨fv, rv, himpl⟩ := impl_same [a] [b] [hash a] (too_expensive_of (1 + 1))
      (by have := too_expensive_of_ge (1 + 1); omega) (1 + 1)
      (List.replicate (((1 + 1) / 2 + 1) * 2) 0) (List.replicate (((1 + 1) / 2 + 1) * 2) 0) []
      rfl (Or.inl (by simp)) (Or.inl (by simp))
    unfold smartlist_longest_common_subsequence
    simp only [List.map_cons, List.map_nil, List.length_singleton, ← hcol]
    simp only [List.length_singleton, List.nil_append] at himpl
    rw [himpl]
    rfl
  · intro h
    rcases List.sublist_cons_iff.mp h.1 with h1 | ⟨r, hr, _⟩
    · simp at h1
    · simp only [List.cons.injEq] at hr
      exact hne hr.1.symm

/-- C20 (witness): with the line length as fingerprint, the lines `a` and `b` collide. -/
theorem lcs_collision_witness :
    (fun s : String => s.length) "a" = (fun s : String => s.length) "b" ∧ "a" ≠ "b"
      ∧ smartlist_longest_common_subsequence (fun s => s.length) ["a"] ["b"] = some ["b"]
      ∧ ¬ (["b"].Sublist ["a"] ∧ ["b"].Sublist ["b"]) :=
  ⟨rfl, by decide,
    (lcs_collision (fun s => s.length) "a" "b" rfl (by decide)).1,
    (lcs_collision (fun s => s.length) "a" "b" rfl (by decide)).2.2⟩

/-- C15: termination of the recursive search.  For every call of
`smartlist_longest_common_subsequence_impl` (any tables, budget, ranges and scratch
vectors): whenever the search of the call completes and lines 267-280 recurse, the first
recursive call (ranges `first_start..x`, `second_start..y`) and the second one (ranges
`u..first_end`, `v..second_end`) both have a combined length strictly smaller than the
caller's; the recursion depth never exceeds that combined length, so a depth bound of the
combined length plus one gives the outcome of every larger bound; and the engine as a
whole, run with checked loop bounds, never reaches a loop bound, whatever the input. -/
theorem recursion_decreases (hash : String → Nat) (first second : List String)
    (f_hash s_hash : List Nat) (too_expensive : Int)
    (first_start first_end second_start second_end : Int)
    (forward_v reverse_v : List Int) (result : List String) :
    (∀ sp, ¬ (first_end - first_start ≤ 0 ∨ second_end - second_start ≤ 0) →
      find_split f_hash s_hash too_expensive first_start first_end second_start second_end
        forward_v reverse_v = some sp →
      (sp.diff_size > 1 ∨ (sp.delta_even = true ∧ sp.diff_size = 1)) →
      (sp.x - first_start) + (sp.y - second_start)
          < (first_end - first_start) + (second_end - second_start)
        ∧ (first_end - sp.u) + (second_end - sp.v)
          < (first_end - first_start) + (second_end - second_start))
    ∧ (∀ depth, ((first_end - first_start) + (second_end - second_start)).toNat + 1 ≤ depth →
      smartlist_longest_common_subsequence_impl first second f_hash s_hash too_expensive depth
          first_start first_end second_start second_end forward_v reverse_v result
        = smartlist_longest_common_subsequence_impl first second f_hash s_hash too_expensive
          (((first_end - first_start) + (second_end - second_start)).toNat + 1)
          first_start first_end second_start second_end forward_v reverse_v result)
    ∧ smartlist_longest_common_subsequence_checked hash first second ≠ .error .fuel := by
  refine ⟨?_, ?_, ?_⟩
  · intro sp hne h hrec
    exact find_split_decreases _ _ _ _ _ _ _ _ _ _ (by omega) (by omega) h hrec
  · intro depth hd
    exact impl_depth_enough first second f_hash s_hash too_expensive _ _ _ _ _ _ _ _ _ _
      (le_refl _) hd (le_refl _)
  · rcases lcs_agree hash first second with ⟨l, hx, _, _⟩ | ⟨hx, _⟩
    · rw [hx]
      exact fun h => Except.noConfusion h
    · rw [hx]
      exact fun h => Fault.noConfusion (Except.error.inj h)

/-- C15 at a concrete call: for `a, bb` against `bb, a` the search finds the snake from
`(0, 1)` to `(1, 2)` in round 1, recurses, and both recursive calls have combined length
1 instead of 4. -/
theorem recursion_decreases_witness :
    find_split [1, 2] [2, 1] 256 0 2 0 2 [0, 0, 0, 0, 0, 0] [0, 0, 0, 0, 0, 0]
        = some { forward_v := [0, 0, 1, 0, 2, 0], reverse_v := [0, 0, 0, 2, 3, 0],
                 diff_size := 1, delta_even := true, x := 0, y := 1, u := 1, v := 2 }
      ∧ ((0 : Int) - 0) + (1 - 0) < (2 - 0) + (2 - 0)
      ∧ ((2 : Int) - 1) + (2 - 2) < (2 - 0) + (2 - 0) :=
  ⟨rfl, (recursion_decreases (fun s => s.length) ["a", "bb"] ["bb", "a"] [1, 2] [2, 1] 256
      0 2 0 2 [0, 0, 0, 0, 0, 0] [0, 0, 0, 0, 0, 0] []).1
    { forward_v := [0, 0, 1, 0, 2, 0], reverse_v := [0, 0, 0, 2, 3, 0],
      diff_size := 1, delta_even := true, x := 0, y := 1, u := 1, v := 2 }
    (by decide) rfl (Or.inr ⟨rfl, rfl⟩)⟩

/-- C17: maximality when the budget does not bind.  For `first` and `second` with
`len(first) + len(second) <= 511` and a fingerprint without collisions between the lines
of `first` and the lines of `second`, `smartlist_longest_common_subsequence` returns a
list that is a common subsequence of `first` and `second`, and no common subsequence of
`first` and `second` is longer. -/
theorem lcs_is_longest (hash : String → Nat) (first second : List String)
    (hlen : first.length + second.length ≤ 511)
    (hinj : ∀ a ∈ first, ∀ b ∈ second, hash a = hash b → a = b) :
    ∃ l, smartlist_longest_common_subsequence hash first second = some l
      ∧ l.Sublist first ∧ l.Sublist second
      ∧ ∀ l' : List String, l'.Sublist first → l'.Sublist second → l'.length ≤ l.length := by
  have hte := too_expensive_of_ge (first.length + second.length)
  obtain ⟨fv', rv', out, himpl, _, _, s1, s2, hopt⟩ := impl_optimal hash first second
    (too_expensive_of (first.length + second.length)) hinj (first.length + second.length)
    0 first.length 0 second.length
    (List.replicate (((first.length + second.length) / 2 + 1) * 2) 0)
    (List.replicate (((first.length + second.length) / 2 + 1) * 2) 0) []
    (first.length + second.length + 1) (le_refl _) (by omega) (le_refl _) (le_refl _)
    (by omega) (le_refl _) (by omega) (le_refl _) (by omega)
    (by rw [List.length_replicate]; push_cast; omega)
    (by rw [List.length_replicate]; push_cast; omega)
  rw [slice_all] at s1 s2
  refine ⟨out, ?_, s1, s2, ?_⟩
  · unfold smartlist_longest_common_subsequence
    simp only [Option.bind_eq_bind]
    rw [himpl]
    rfl
  · intro l' l1 l2
    obtain ⟨d, hd, hlen'⟩ := Fwd.of_common hash first second
      (call_frame (first.map hash) (second.map hash)
        (too_expensive_of (first.length + second.length)) 0 first.length 0 second.length)
      rfl rfl (le_refl _) (le_refl _) (le_refl _) (le_refl _) (first.length + second.length)
      first.length second.length rfl (by simp [call_frame]) (by simp [call_frame]) l'
      (by simpa [call_frame, slice_all] using l1) (by simpa [call_frame, slice_all] using l2)
    have := hopt d (by simpa [call_frame] using hd)
    omega

/-- C17 at a concrete input: for `a, bb, ccc` against `bb, a, ccc` (fingerprint: the
line length) the engine returns the two lines `a, ccc`, and no common subsequence has more lines. -/
theorem lcs_is_longest_witness :
    ["a", "bb", "ccc"].length + ["bb", "a", "ccc"].length ≤ 511
      ∧ (∀ a ∈ ["a", "bb", "ccc"], ∀ b ∈ ["bb", "a", "ccc"], a.length = b.length → a = b)
      ∧ smartlist_longest_common_subsequence (fun s => s.length) ["a", "bb", "ccc"]
          ["bb", "a", "ccc"] = some ["a", "ccc"]
      ∧ ∃ l, smartlist_longest_common_subsequence (fun s => s.length) ["a", "bb", "ccc"]
            ["bb", "a", "ccc"] = some l
        ∧ l.Sublist ["a", "bb", "ccc"] ∧ l.Sublist ["bb", "a", "ccc"]
        ∧ ∀ l' : List String, l'.Sublist ["a", "bb", "ccc"] → l'.Sublist ["bb", "a", "ccc"] →
          l'.length ≤ l.length :=
  ⟨by decide, by decide, by decide,
    lcs_is_longest (fun s => s.length) ["a", "bb", "ccc"] ["bb", "a", "ccc"] (by decide)
      (by decide)⟩

/-- C19: the scratch vectors are indexed in bounds and never read stale.  The checked
engine runs lines 106-290 on scratch vectors of exactly
`2 * ((len(first) + len(second)) / 2 + 1)` cells; it stops with `bounds` at any read or
write of `forward_v` or `reverse_v` outside these cells, in the top-level call or in a
recursive one, and with `stale` at any read of a cell that the same call has not written
before (the marks are cleared when a call starts).  For every `first` and `second` it
never stops with `bounds` or `stale`, nor by reaching a loop bound of the model: it ends
with the list the unchecked engine returns, or, where the unchecked engine has no result,
at a read outside a fingerprint table. -/
theorem scratch_vectors_in_bounds (hash : String → Nat) (first second : List String) :
    smartlist_longest_common_subsequence_checked hash first second ≠ .error .bounds
      ∧ smartlist_longest_common_subsequence_checked hash first second ≠ .error .stale
      ∧ smartlist_longest_common_subsequence_checked hash first second ≠ .error .fuel
      ∧ ((∃ l, smartlist_longest_common_subsequence_checked hash first second = .ok l
          ∧ smartlist_longest_common_subsequence hash first second = some l)
        ∨ (smartlist_longest_common_subsequence_checked hash first second = .error .table
          ∧ smartlist_longest_common_subsequence hash first second = none)) := by
  rcases lcs_agree hash first second with ⟨l, hx, hy, _⟩ | ⟨hx, hy⟩
  · refine ⟨?_, ?_, ?_, Or.inl ⟨l, hx, hy⟩⟩
    · rw [hx]
      exact fun h => Except.noConfusion h
    · rw [hx]
      exact fun h => Except.noConfusion h
    · rw [hx]
      exact fun h => Except.noConfusion h
  · refine ⟨?_, ?_, ?_, Or.inr ⟨hx, hy⟩⟩
    · rw [hx]
      exact fun h => Fault.noConfusion (Except.error.inj h)
    · rw [hx]
      exact fun h => Fault.noConfusion (Except.error.inj h)
    · rw [hx]
      exact fun h => Fault.noConfusion (Except.error.inj h)

/-- C21: generated commands are in bounds and the walk never runs off the front.  For
every `old_sl`, `new_sl` and every common subsequence `cs` of both, the walk of
`make_diff` completes and its script is the rendering of the commands it writes; every
index its backward scans read in `old_sl` (the values of `remove_start`) and in `new_sl`
(the values of `insert_start`) is at least 0 and below the length of the sequence; and
every command addresses existing lines of `old_sl`: `N,Mc` and `N,Md` have
`1 <= N < M <= len(old)`, `Nc` and `Nd` have `1 <= N <= len(old)`, `Na` has
`0 <= N <= len(old)`, and the block of an `a` or `c` command is a run of consecutive
lines of `new_sl`. -/
theorem make_diff_in_bounds (old_sl new_sl cs : List String)
    (hold : cs.Sublist old_sl) (hnew : cs.Sublist new_sl) :
    ∃ cmds, make_diff_commands old_sl new_sl cs = some cmds
      ∧ make_diff_with old_sl new_sl cs = some (render cmds)
      ∧ (∀ x ∈ (make_diff_reads old_sl new_sl cs.reverse ((old_sl.length : Int) - 1)
            ((new_sl.length : Int) - 1)).1, 0 ≤ x ∧ x < (old_sl.length : Int))
      ∧ (∀ x ∈ (make_diff_reads old_sl new_sl cs.reverse ((old_sl.length : Int) - 1)
            ((new_sl.length : Int) - 1)).2, 0 ≤ x ∧ x < (new_sl.length : Int))
      ∧ ∀ c ∈ cmds, c.in_bounds old_sl.length new_sl := by
  obtain ⟨cmds, hcmds, hb, hr1, hr2⟩ := make_diff_commands_loop_in_bounds old_sl new_sl
    cs.reverse old_sl.length new_sl.length (le_refl _) (le_refl _)
    (by rw [List.reverse_reverse, List.take_length]; exact hold)
    (by rw [List.reverse_reverse, List.take_length]; exact hnew)
  refine ⟨cmds, hcmds, ?_, hr1, hr2, hb⟩
  rw [make_diff_with_eq]
  show (make_diff_commands_loop old_sl new_sl cs.reverse ((old_sl.length : Int) - 1)
    ((new_sl.length : Int) - 1)).map render = _
  rw [hcmds]
  rfl

/-- C21 (witness): the walk for `a, bb, ccc` against `bb, x, ccc, y` with the common
subsequence `bb, ccc` reads the old indices 2, 1 and the new indices 3, 2, 1, 0, and
writes `3a`, `2a` and `1d`. -/
theorem make_diff_in_bounds_witness :
    ["bb", "ccc"].Sublist ["a", "bb", "ccc"] ∧ ["bb", "ccc"].Sublist ["bb", "x", "ccc", "y"]
      ∧ make_diff_reads ["a", "bb", "ccc"] ["bb", "x", "ccc", "y"] ["bb", "ccc"].reverse 2 3
          = ([2, 1], [3, 2, 1, 0])
      ∧ make_diff_commands ["a", "bb", "ccc"] ["bb", "x", "ccc", "y"] ["bb", "ccc"]
          = some [Command.append 3 ["y"], Command.append 2 ["x"], Command.delete1 1]
      ∧ ∃ cmds, make_diff_commands ["a", "bb", "ccc"] ["bb", "x", "ccc", "y"] ["bb", "ccc"]
            = some cmds
          ∧ make_diff_with ["a", "bb", "ccc"] ["bb", "x", "ccc", "y"] ["bb", "ccc"]
            = some (render cmds)
          ∧ (∀ x ∈ (make_diff_reads ["a", "bb", "ccc"] ["bb", "x", "ccc", "y"]
                ["bb", "ccc"].reverse ((["a", "bb", "ccc"].length : Int) - 1)
                ((["bb", "x", "ccc", "y"].length : Int) - 1)).1,
              0 ≤ x ∧ x < (["a", "bb", "ccc"].length : Int))
          ∧ (∀ x ∈ (make_diff_reads ["a", "bb", "ccc"] ["bb", "x", "ccc", "y"]
                ["bb", "ccc"].reverse ((["a", "bb", "ccc"].length : Int) - 1)
                ((["bb", "x", "ccc", "y"].length : Int) - 1)).2,
              0 ≤ x ∧ x < (["bb", "x", "ccc", "y"].length : Int))
          ∧ ∀ c ∈ cmds, c.in_bounds ["a", "bb", "ccc"].length ["bb", "x", "ccc", "y"] :=
  ⟨by decide, by decide, by decide, by decide,
    make_diff_in_bounds ["a", "bb", "ccc"] ["bb", "x", "ccc", "y"] ["bb", "ccc"] (by decide)
      (by decide)⟩

end Diff
